import Mathlib

/-!
# Open-addressing hash table (`src/C/v2/map.c`): shallow embedding

Pointers and `uintptr_t` values are natural numbers below `2^64`; the null
pointer is `0` and `MAP_TOMB` is `2^64 - 1`.  The bucket array is a list; the
null bucket pointer is the list without elements (the default allocator
returns null for a request of zero bytes and aborts instead of returning null
otherwise).  Unbounded `for(;;)` loops take a fuel argument; running out of
fuel, dividing by zero, reading outside the array and a failed `assert` are
distinct faults.  Values of type `float` are exact fractions, rounded to the
nearest IEEE 754 binary32 value (ties to even) by every conversion and
division.

The last definitions embed `_cstr_index_n` and `_cstr_lastindex_n` of
`src/C/v2/str.c`, `_str_insert_n` of `src/C/cutl.c` and `_vect_lowerbound` of
`src/C/v2/vect.c`, with the same conventions.
-/

namespace Junkyard

/-- Size of the machine word: `uintptr_t` arithmetic is modulo `UWORD`. -/
def UWORD : Nat := 2 ^ 64

/-- The constant `(uintptr_t)-1`. -/
def UINTPTR_MAX : Nat := UWORD - 1

/-- The constant `#define MAP_TOMB ((void*)-1)`. -/
def MAP_TOMB : Nat := UWORD - 1

/-- The constant `#define map_init_capacity 256`. -/
def map_init_capacity : Nat := 256

/-- The constant `sizeof(MapBucket)`: three words. -/
def sizeof_MapBucket : Nat := 24

/-- Ways in which a call fails to return normally. -/
inductive Fault where
  | fuel
  | divzero
  | oob
  | assertion
  | alloc
deriving DecidableEq, Repr

deriving instance DecidableEq for Except

/-- The struct `MapBucket`. -/
structure MapBucket where
  hash : Nat
  key : Nat
  value : Nat
deriving DecidableEq, Repr

/-- One call of a registered destructor, with the pointer it received. -/
inductive DtorCall where
  | key (p : Nat)
  | value (p : Nat)
deriving DecidableEq, Repr

/-- The data fields of the struct `_Map`.  `keydel` and `valuedel` say whether
a destructor is registered; `dtors` is the record of destructor calls made so
far, oldest first. -/
structure _Map where
  buckets : List MapBucket
  length : Nat
  tombs : Nat
  capacity : Nat
  keydel : Bool
  valuedel : Bool
  dtors : List DtorCall
deriving DecidableEq, Repr

/-- The callback fields `hash`, `probe` and `equals` of `_Map`, which are set
once by `_map_alloc_full_n` and never written again. -/
structure MapFns where
  hash : Nat → Nat
  probe : _Map → Nat → Nat
  equals : Nat → Nat → Bool

def _mapbucket_istomb (b : MapBucket) : Bool :=
  b.key == MAP_TOMB && b.value == 0

def _mapbucket_isfull (b : MapBucket) : Bool :=
  b.key != 0 && b.key != MAP_TOMB

def _mapbucket_isempty (b : MapBucket) : Bool :=
  b.key == 0 && b.value == 0

def _mapbucket_astomb (b : MapBucket) : MapBucket :=
  { b with key := MAP_TOMB, value := 0 }

def _map_defaulthash (key : Nat) : Nat := key

def _map_defaultequals (key1 key2 : Nat) : Bool := key1 == key2

/-- The source computes `(idx + 1) % self->capacity` on `uintptr_t`; the index
is below the capacity, so the sum never wraps. -/
def _map_defaultprobe (self : _Map) (idx : Nat) : Nat :=
  (idx + 1) % self.capacity

/-- The default callbacks. -/
def defaultFns : MapFns :=
  { hash := _map_defaulthash, probe := _map_defaultprobe, equals := _map_defaultequals }

/-- Read `self->buckets[idx]`. -/
def loadBucket (self : _Map) (idx : Nat) : Except Fault MapBucket :=
  match self.buckets[idx]? with
  | none => .error .oob
  | some b => .ok b

/-- The call `if(self->keydel) self->keydel(p)`. -/
def callKeydel (self : _Map) (p : Nat) : _Map :=
  if self.keydel then { self with dtors := self.dtors ++ [DtorCall.key p] } else self

/-- The call `if(self->valuedel) self->valuedel(p)`. -/
def callValuedel (self : _Map) (p : Nat) : _Map :=
  if self.valuedel then { self with dtors := self.dtors ++ [DtorCall.value p] } else self

/-- The test `_mapbucket_isfull(b) && h == b->hash && self->equals(key, b->key)`. -/
def bucketMatches (fns : MapFns) (key h : Nat) (b : MapBucket) : Bool :=
  _mapbucket_isfull b && h == b.hash && fns.equals key b.key

/-- The loop of `_map_findbucket`, started at `idx`. -/
def findLoop (fns : MapFns) (self : _Map) (key h : Nat) : Nat → Nat → Except Fault (Option Nat)
  | 0, _ => .error .fuel
  | fuel + 1, idx =>
    match loadBucket self idx with
    | .error e => .error e
    | .ok b =>
      if bucketMatches fns key h b then .ok (some idx)
      else if _mapbucket_isempty b then .ok none
      else findLoop fns self key h fuel (fns.probe self idx)

/-- The function `_map_findbucket`: the index of the bucket found, or `none` for
the null result. -/
def _map_findbucket (fns : MapFns) (fuel : Nat) (self : _Map) (key : Nat) :
    Except Fault (Option Nat) :=
  if self.capacity = 0 then .error .divzero
  else findLoop fns self key (fns.hash key) fuel (fns.hash key % self.capacity)

/-- The loop of `_map_acquirebucket`.  The pointer `b` is computed from `idx`
at the top of each round; the assignment `idx = tombidx` that follows does not
move `b`, so the bucket whose hash is written and which is returned is the
Empty one the probe stopped at. -/
def acquireLoop (fns : MapFns) (self : _Map) (key h : Nat) :
    Nat → Nat → Nat → Except Fault (_Map × Nat)
  | 0, _, _ => .error .fuel
  | fuel + 1, idx, tombidx =>
    match loadBucket self idx with
    | .error e => .error e
    | .ok b =>
      if bucketMatches fns key h b then
        .ok (callValuedel (callKeydel self b.key) b.value, idx)
      else
        let tombidx1 := if _mapbucket_istomb b && tombidx == UINTPTR_MAX then idx else tombidx
        if _mapbucket_isempty b then
          let self1 : _Map :=
            if tombidx1 != UINTPTR_MAX then { self with tombs := (self.tombs + UWORD - 1) % UWORD }
            else { self with length := (self.length + 1) % UWORD }
          .ok ({ self1 with buckets := self1.buckets.set idx { b with hash := h } }, idx)
        else acquireLoop fns self key h fuel (fns.probe self idx) tombidx1

/-- The function `_map_acquirebucket`: the table after the call and the index of
the bucket returned. -/
def _map_acquirebucket (fns : MapFns) (fuel : Nat) (self : _Map) (key : Nat) :
    Except Fault (_Map × Nat) :=
  if self.capacity = 0 then .error .divzero
  else acquireLoop fns self key (fns.hash key) fuel (fns.hash key % self.capacity) UINTPTR_MAX

/-- The copy loop of `map_rehash` over the old array:
`for(i = 0; i < oldcap && moved < oldlen; i++)`. -/
def rehashLoop (fns : MapFns) (fuel oldlen : Nat) :
    List MapBucket → Nat → _Map → Except Fault (_Map × Nat)
  | [], moved, self => .ok (self, moved)
  | b :: rest, moved, self =>
    if moved < oldlen then
      if _mapbucket_isfull b then
        match _map_acquirebucket fns fuel self b.key with
        | .error e => .error e
        | .ok (s, dst) =>
          rehashLoop fns fuel oldlen rest (moved + 1) { s with buckets := s.buckets.set dst b }
      else rehashLoop fns fuel oldlen rest moved self
    else .ok (self, moved)

/-- The body of `map_rehash` after the capacity has been chosen.  The allocator hands
back zeroed memory, and null for zero bytes.  The source computes the request
`sizeof(MapBucket) * ncap` on machine words: from `2^64 / 24` buckets up the product wraps
and the call goes on with an array shorter than `capacity`.  Here such a request ends in
the fault `alloc`, so a result `.ok` is always one whose product did not wrap. -/
def rehashTo (fns : MapFns) (ndebug : Bool) (fuel : Nat) (self : _Map) (ncap : Nat) :
    Except Fault _Map :=
  if UWORD ≤ sizeof_MapBucket * ncap then .error .alloc
  else
    let fresh : _Map :=
      { self with tombs := 0, length := 0, capacity := ncap,
                  buckets := List.replicate ncap ⟨0, 0, 0⟩ }
    match rehashLoop fns fuel self.length (self.buckets.take self.capacity) 0 fresh with
    | .error e => .error e
    | .ok (s, moved) =>
      if !ndebug && moved != self.length then .error .assertion else .ok s

def map_rehash (fns : MapFns) (ndebug : Bool) (fuel : Nat) (self : _Map) (ncap : Nat) :
    Except Fault _Map :=
  if ncap = 0 then rehashTo fns ndebug fuel self self.capacity
  else if self.capacity ≥ ncap then .ok self
  else rehashTo fns ndebug fuel self ncap

/-- Number of binary digits of `n`, counted by at most `fuel` halvings. -/
def bitsLoop : Nat → Nat → Nat
  | 0, _ => 0
  | fuel + 1, n => if n = 0 then 0 else bitsLoop fuel (n / 2) + 1

/-- Number of binary digits of a natural number below `2^128`. -/
def bitLength (n : Nat) : Nat := bitsLoop 128 n

/-- The integer nearest to `p / q`, and the even one of the two nearest when `p / q` lies
halfway between them. -/
def roundHalfEven (p q : Nat) : Nat :=
  if 2 * (p % q) < q then p / q
  else if q < 2 * (p % q) then p / q + 1
  else if (p / q) % 2 = 0 then p / q
  else p / q + 1

/-- A finite, non-negative value of the type `float` (IEEE 754 binary32), as the
fraction `num / den`. -/
structure F32 where
  num : Nat
  den : Nat
deriving DecidableEq, Repr

/-- The `float` nearest to the quotient `p / q` of two naturals below `2^128`, `q`
positive, in the default rounding mode (to nearest, ties to even).  Multiplying by
`2^up` and dividing by `2^down` brings the quotient into `[2^23, 2^25)`, one more halving
brings it into `[2^23, 2^24)` when it is `2^24` or more, and the 24-bit significand is
the scaled quotient rounded to an integer.  The exponent range of `float` is not
modelled: the quotients this file rounds lie between `2^-64` and `2^66`. -/
def f32_round (p q : Nat) : F32 :=
  if p = 0 then ⟨0, 1⟩
  else
    let up := bitLength q + 24 - bitLength p
    let down := bitLength p - (bitLength q + 24)
    if 2 ^ 24 * (q * 2 ^ down) ≤ p * 2 ^ up then
      ⟨roundHalfEven (p * 2 ^ up) (q * 2 ^ down * 2) * (2 ^ down * 2), 2 ^ up⟩
    else ⟨roundHalfEven (p * 2 ^ up) (q * 2 ^ down) * 2 ^ down, 2 ^ up⟩

/-- The conversion `(float)n` of a machine word. -/
def f32_of_nat (n : Nat) : F32 := f32_round n 1

/-- The quotient `a / b` of two `float` values, for a positive `b`. -/
def f32_div (a b : F32) : F32 := f32_round (a.num * b.den) (a.den * b.num)

/-- The comparison `a >= b` of two `float` values. -/
def f32_ge (a b : F32) : Bool := decide (b.num * a.den ≤ a.num * b.den)

/-- The call `ceil((double)a)`: the conversion of a `float` to `double` is exact, and
so is the ceiling. -/
def f32_ceil (a : F32) : Nat := (a.num + a.den - 1) / a.den

/-- The constant `#define map_max_loadfactor 0.75f`. -/
def map_max_loadfactor : F32 := ⟨3, 4⟩

/-- The test `map_loadfactor(self) >= map_max_loadfactor` of `_map_set`, that is
`(self->length + self->tombs) / (float)self->capacity >= 0.75f`: the sum is taken on
machine words, both operands are converted to `float`, and the quotient is a `float`.
A zero capacity gives infinity for a positive sum and a NaN, which compares false, for
zero. -/
def loadfactor_ge_max (self : _Map) : Bool :=
  if self.capacity = 0 then decide (0 < (self.length + self.tombs) % UWORD)
  else
    f32_ge (f32_div (f32_of_nat ((self.length + self.tombs) % UWORD)) (f32_of_nat self.capacity))
      map_max_loadfactor

def _map_set (fns : MapFns) (ndebug : Bool) (fuel : Nat) (self : _Map) (key value : Nat) :
    Except Fault _Map :=
  let grown : Except Fault _Map :=
    if self.buckets.isEmpty then map_rehash fns ndebug fuel self map_init_capacity
    else if loadfactor_ge_max self then
      map_rehash fns ndebug fuel self ((self.capacity * 2) % UWORD)
    else .ok self
  match grown with
  | .error e => .error e
  | .ok s1 =>
    match _map_acquirebucket fns fuel s1 key with
    | .error e => .error e
    | .ok (s2, b) =>
      match loadBucket s2 b with
      | .error e => .error e
      | .ok x => .ok { s2 with buckets := s2.buckets.set b { x with key := key, value := value } }

/-- The loop of `_map_del`, started at `idx`. -/
def delLoop (fns : MapFns) (self : _Map) (key h : Nat) : Nat → Nat → Except Fault _Map
  | 0, _ => .error .fuel
  | fuel + 1, idx =>
    match loadBucket self idx with
    | .error e => .error e
    | .ok b =>
      if bucketMatches fns key h b then
        let s1 := callValuedel (callKeydel self b.key) b.value
        .ok { s1 with buckets := s1.buckets.set idx (_mapbucket_astomb b),
                      length := (s1.length + UWORD - 1) % UWORD,
                      tombs := (s1.tombs + 1) % UWORD }
      else if _mapbucket_isempty b then .ok self
      else delLoop fns self key h fuel (fns.probe self idx)

def _map_del (fns : MapFns) (fuel : Nat) (self : _Map) (key : Nat) : Except Fault _Map :=
  if self.capacity = 0 then .error .divzero
  else delLoop fns self key (fns.hash key) fuel (fns.hash key % self.capacity)

/-- The function `_map_get_ex` called with both output pointers: `some (key, value)`
stands for the result `true` with the two outputs written, `none` for `false`. -/
def _map_get_ex (fns : MapFns) (fuel : Nat) (self : _Map) (key : Nat) :
    Except Fault (Option (Nat × Nat)) :=
  match _map_findbucket fns fuel self key with
  | .error e => .error e
  | .ok none => .ok none
  | .ok (some i) =>
    match loadBucket self i with
    | .error e => .error e
    | .ok b => .ok (some (b.key, b.value))

def _map_get (fns : MapFns) (fuel : Nat) (self : _Map) (key : Nat) : Except Fault Nat :=
  match _map_get_ex fns fuel self key with
  | .error e => .error e
  | .ok none => .ok 0
  | .ok (some kv) => .ok kv.2

/-- The loop of `map_clear` that calls the destructors:
`for(i = 0; i < capacity && clean < length; i++)`. -/
def clearLoop (len : Nat) : List MapBucket → Nat → _Map → _Map × Nat
  | [], clean, self => (self, clean)
  | b :: rest, clean, self =>
    if clean < len then
      if _mapbucket_isfull b then
        clearLoop len rest (clean + 1) (callValuedel (callKeydel self b.key) b.value)
      else clearLoop len rest clean self
    else (self, clean)

def map_clear (ndebug : Bool) (self : _Map) : Except Fault _Map :=
  if self.buckets.isEmpty then .ok self
  else
    let swept : _Map × Nat :=
      if self.keydel || self.valuedel then
        clearLoop self.length (self.buckets.take self.capacity) 0 self
      else (self, self.length)
    if !ndebug && swept.2 != self.length then .error .assertion
    else
      .ok { swept.1 with buckets := List.replicate self.capacity ⟨0, 0, 0⟩, length := 0, tombs := 0 }

/-- The argument `ceil((double)(n / map_max_loadfactor))` of `map_reserve`: the word `n`
is converted to `float`, divided by `0.75f` in `float`, and the ceiling is taken. -/
def reserveRequest (n : Nat) : Nat :=
  f32_ceil (f32_div (f32_of_nat n) map_max_loadfactor)

/-- The function `map_reserve`: `map_rehash(self, ceil((double)(n / 0.75f)))`.  A
ceiling of `2^64` or more has no value of type `uintptr_t` (the conversion is
undefined); it is reported as the fault `alloc`, which is what `map_rehash` reports
for every request of `2^64 / 24` buckets or more. -/
def map_reserve (fns : MapFns) (ndebug : Bool) (fuel : Nat) (self : _Map) (n : Nat) :
    Except Fault _Map :=
  if UWORD ≤ reserveRequest n then .error .alloc
  else map_rehash fns ndebug fuel self (reserveRequest n)

def _map_setkeydel (self : _Map) (registered : Bool) : _Map :=
  { self with keydel := registered }

def _map_setvaluedel (self : _Map) (registered : Bool) : _Map :=
  { self with valuedel := registered }

/-- The callbacks `_map_alloc_full_n` stores in the table: an omitted callback
(`none`) is replaced by the default one. -/
def allocFns (hashfn : Option (Nat → Nat)) (equalsfn : Option (Nat → Nat → Bool))
    (probefn : Option (_Map → Nat → Nat)) : MapFns :=
  { hash := hashfn.getD _map_defaulthash,
    probe := probefn.getD _map_defaultprobe,
    equals := equalsfn.getD _map_defaultequals }

/-- The function `_map_alloc_full_n`; an omitted callback is `none`, and the
callbacks of the table returned are `allocFns hashfn equalsfn probefn`.  The old
array of the first `map_rehash` has no element, so that call probes nothing and
is given no fuel. -/
def _map_alloc_full_n (ndebug : Bool) (cap : Nat) (hashfn : Option (Nat → Nat))
    (equalsfn : Option (Nat → Nat → Bool)) (probefn : Option (_Map → Nat → Nat)) :
    Except Fault _Map :=
  if !ndebug && hashfn.isNone then .error .assertion
  else if !ndebug && equalsfn.isNone then .error .assertion
  else
    let self : _Map :=
      { buckets := [], length := 0, tombs := 0, capacity := 0,
        keydel := false, valuedel := false, dtors := [] }
    if cap = 0 then .ok self
    else map_rehash (allocFns hashfn equalsfn probefn) ndebug 0 self cap

def map_length (self : _Map) : Nat := self.length

def map_capacity (self : _Map) : Nat := self.capacity

/-- A key the caller may store: neither null nor the tombstone sentinel. -/
def ValidKey (k : Nat) : Prop := k ≠ 0 ∧ k ≠ MAP_TOMB

instance (k : Nat) : Decidable (ValidKey k) := by unfold ValidKey; infer_instance

inductive Reachable (fns : MapFns) (ndebug : Bool) : _Map → Prop where
  | create (cap : Nat) (t : _Map) :
      _map_alloc_full_n ndebug cap (some fns.hash) (some fns.equals) (some fns.probe) = .ok t →
      Reachable fns ndebug t
  | set (fuel : Nat) (t t1 : _Map) (k v : Nat) :
      Reachable fns ndebug t → ValidKey k → _map_set fns ndebug fuel t k v = .ok t1 →
      Reachable fns ndebug t1
  | del (fuel : Nat) (t t1 : _Map) (k : Nat) :
      Reachable fns ndebug t → _map_del fns fuel t k = .ok t1 → Reachable fns ndebug t1
  | rehash (fuel : Nat) (t t1 : _Map) (ncap : Nat) :
      Reachable fns ndebug t → map_rehash fns ndebug fuel t ncap = .ok t1 → Reachable fns ndebug t1
  | reserve (fuel : Nat) (t t1 : _Map) (n : Nat) :
      Reachable fns ndebug t → map_reserve fns ndebug fuel t n = .ok t1 → Reachable fns ndebug t1
  | clear (t t1 : _Map) :
      Reachable fns ndebug t → map_clear ndebug t = .ok t1 → Reachable fns ndebug t1

def tbl (bs : List MapBucket) (len tombs : Nat) : _Map :=
  { buckets := bs, length := len, tombs := tombs, capacity := bs.length,
    keydel := false, valuedel := false, dtors := [] }

/-- The callbacks use the default probe. -/
def LinearProbe (fns : MapFns) : Prop := fns.probe = _map_defaultprobe

/-- Where the probe for `key` stops in the array `bs` of capacity `cap`, walking
linearly from `idx`: `(true, i)` at a matching Full bucket, `(false, i)` at an
Empty one. -/
def stopL (fns : MapFns) (bs : List MapBucket) (cap key h : Nat) :
    Nat → Nat → Except Fault (Bool × Nat)
  | 0, _ => .error .fuel
  | fuel + 1, idx =>
    match bs[idx]? with
    | none => .error .oob
    | some b =>
      if bucketMatches fns key h b then .ok (true, idx)
      else if _mapbucket_isempty b then .ok (false, idx)
      else stopL fns bs cap key h fuel ((idx + 1) % cap)

/-- The value of `tombidx` when the probe of `_map_acquirebucket` stops. -/
def tombFinal (fns : MapFns) (bs : List MapBucket) (cap key h : Nat) : Nat → Nat → Nat → Nat
  | 0, _, tombidx => tombidx
  | fuel + 1, idx, tombidx =>
    match bs[idx]? with
    | none => tombidx
    | some b =>
      if bucketMatches fns key h b then tombidx
      else
        let tombidx1 := if _mapbucket_istomb b && tombidx == UINTPTR_MAX then idx else tombidx
        if _mapbucket_isempty b then tombidx1
        else tombFinal fns bs cap key h fuel ((idx + 1) % cap) tombidx1

/-- The result of `_map_findbucket` from where the probe stopped. -/
def findOf (r : Bool × Nat) : Option Nat := if r.1 then some r.2 else none

/-- The table `_map_acquirebucket` leaves and the bucket it returns, from where the
probe stopped and the final `tombidx`. -/
def acquireOf (self : _Map) (h tombidx : Nat) (r : Bool × Nat) : _Map × Nat :=
  let b := self.buckets[r.2]?.getD ⟨0, 0, 0⟩
  if r.1 then (callValuedel (callKeydel self b.key) b.value, r.2)
  else
    let self1 : _Map :=
      if tombidx != UINTPTR_MAX then { self with tombs := (self.tombs + UWORD - 1) % UWORD }
      else { self with length := (self.length + 1) % UWORD }
    ({ self1 with buckets := self1.buckets.set r.2 { b with hash := h } }, r.2)

/-- The table `_map_del` leaves, from where the probe stopped. -/
def delOf (self : _Map) (r : Bool × Nat) : _Map :=
  let b := self.buckets[r.2]?.getD ⟨0, 0, 0⟩
  if r.1 then
    let s1 := callValuedel (callKeydel self b.key) b.value
    { s1 with buckets := s1.buckets.set r.2 (_mapbucket_astomb b),
              length := (s1.length + UWORD - 1) % UWORD,
              tombs := (s1.tombs + 1) % UWORD }
  else self

/-- The probe for `key` stops at bucket `b`. -/
def stopsAt (fns : MapFns) (key h : Nat) (b : MapBucket) : Bool :=
  bucketMatches fns key h b || _mapbucket_isempty b

/-- Number of linear probe steps from `idx` to `e` in an array of `cap` buckets. -/
def probeDist (cap idx e : Nat) : Nat := if idx ≤ e then e - idx else e + cap - idx

/-- Number of Full buckets in a bucket array. -/
def countFull (bs : List MapBucket) : Nat := bs.countP _mapbucket_isfull

/-- Number of Tombstone buckets in a bucket array. -/
def countTomb (bs : List MapBucket) : Nat := bs.countP _mapbucket_istomb

/-- One call of the public interface on an existing table. -/
inductive MapOp where
  | set (k v : Nat)
  | del (k : Nat)
  | rehash (ncap : Nat)
  | reserve (n : Nat)
  | clear
deriving DecidableEq, Repr

/-- The keys passed to `_map_set` are valid. -/
def MapOp.Valid : MapOp → Prop
  | .set k _ => ValidKey k
  | _ => True

instance (op : MapOp) : Decidable op.Valid := by
  cases op <;> unfold MapOp.Valid <;> infer_instance

/-- Perform one call. -/
def applyOp (fns : MapFns) (ndebug : Bool) (fuel : Nat) (self : _Map) : MapOp → Except Fault _Map
  | .set k v => _map_set fns ndebug fuel self k v
  | .del k => _map_del fns fuel self k
  | .rehash ncap => map_rehash fns ndebug fuel self ncap
  | .reserve n => map_reserve fns ndebug fuel self n
  | .clear => map_clear ndebug self

/-- Perform a sequence of calls, stopping at the first fault. -/
def runOps (fns : MapFns) (ndebug : Bool) (fuel : Nat) : List MapOp → _Map → Except Fault _Map
  | [], self => .ok self
  | op :: rest, self =>
    match applyOp fns ndebug fuel self op with
    | .error e => .error e
    | .ok s => runOps fns ndebug fuel rest s

/-- Create a table with the callbacks `fns` and perform a sequence of calls. -/
def runFrom (fns : MapFns) (ndebug : Bool) (fuel cap : Nat) (ops : List MapOp) : Except Fault _Map :=
  match _map_alloc_full_n ndebug cap (some fns.hash) (some fns.equals) (some fns.probe) with
  | .error e => .error e
  | .ok s => runOps fns ndebug fuel ops s

/-- The callback `equals` is an equivalence relation and equal keys hash alike. -/
structure KeyLaws (fns : MapFns) : Prop where
  refl : ∀ a, fns.equals a a = true
  symm : ∀ a b, fns.equals a b = true → fns.equals b a = true
  trans : ∀ a b c, fns.equals a b = true → fns.equals b c = true → fns.equals a c = true
  hash_eq : ∀ a b, fns.equals a b = true → fns.hash a = fns.hash b

/-- Some bucket of the array is Empty. -/
def HasEmpty (bs : List MapBucket) : Prop :=
  ∃ (e : Nat) (b : MapBucket), bs[e]? = some b ∧ _mapbucket_isempty b = true

/-- Every bucket is in one of the three states. -/
def Shaped (bs : List MapBucket) : Prop :=
  ∀ b ∈ bs, _mapbucket_isempty b = true ∨ _mapbucket_isfull b = true ∨ _mapbucket_istomb b = true

/-- No bucket is a Tombstone. -/
def NoTomb (bs : List MapBucket) : Prop := ∀ b ∈ bs, _mapbucket_istomb b = false

/-- Every Full bucket caches the hash of its key. -/
def Cached (fns : MapFns) (bs : List MapBucket) : Prop :=
  ∀ b ∈ bs, _mapbucket_isfull b = true → b.hash = fns.hash b.key

/-- The probe for the key of every Full bucket stops at that bucket, within `cap` steps. -/
def Found (fns : MapFns) (bs : List MapBucket) (cap : Nat) : Prop :=
  ∀ (i : Nat) (b : MapBucket), bs[i]? = some b → _mapbucket_isfull b = true →
    stopL fns bs cap b.key (fns.hash b.key) cap (fns.hash b.key % cap) = .ok (true, i)

/-- The bucket array of the table is well formed: it has `capacity` buckets, each in one of
the three states, the hashes cached are right and every stored key is found at its bucket. -/
structure Sound (fns : MapFns) (t : _Map) : Prop where
  size : t.buckets.length = t.capacity
  small : sizeof_MapBucket * t.capacity < UWORD
  shaped : Shaped t.buckets
  cached : Cached fns t.buckets
  found : Found fns t.buckets t.capacity

/-- The fields `length` and `tombs` count the Full and the Tombstone buckets. -/
def Counted (t : _Map) : Prop :=
  t.length = countFull t.buckets ∧ t.tombs = countTomb t.buckets

/-- Number of buckets that are not Empty. -/
def countUsed (bs : List MapBucket) : Nat := bs.countP (fun b => !_mapbucket_isempty b)

/-- The table `_map_set` works on after its growth step: rehashed to the initial capacity
when the array was never allocated, doubled when the load factor has reached the maximum,
unchanged otherwise. -/
def growFor (fns : MapFns) (ndebug : Bool) (fuel : Nat) (self : _Map) : Except Fault _Map :=
  if self.buckets.isEmpty then map_rehash fns ndebug fuel self map_init_capacity
  else if loadfactor_ge_max self then
    map_rehash fns ndebug fuel self ((self.capacity * 2) % UWORD)
  else .ok self

/-- The table left by `_map_acquirebucket` followed by a write of the bucket `nb` through
the pointer returned, from where the probe stopped and the final `tombidx`. -/
def putOf (self : _Map) (h tombidx : Nat) (nb : MapBucket) (r : Bool × Nat) : _Map :=
  { (acquireOf self h tombidx r).1 with
    buckets := (acquireOf self h tombidx r).1.buckets.set r.2 nb }

/-- The state of the new array while `map_rehash` fills it: well formed, of capacity
`ncap`, without Tombstones, and with `length` counting its Full buckets. -/
structure Fresh (fns : MapFns) (ncap : Nat) (s : _Map) : Prop where
  sound : Sound fns s
  cap : s.capacity = ncap
  notomb : NoTomb s.buckets
  tombs : s.tombs = 0
  length : s.length = countFull s.buckets

/-- Two buckets do not hold equal keys. -/
def DistinctKeys (fns : MapFns) (a b : MapBucket) : Prop :=
  _mapbucket_isfull a = true → _mapbucket_isfull b = true → fns.equals a.key b.key = false

/-- The table is well formed, its bookkeeping is accurate and its load is what a set
leaves at most: one entry above a load factor that fails the single-precision test of
`_map_set`. -/
structure Tidy (fns : MapFns) (t : _Map) : Prop where
  sound : Sound fns t
  counted : Counted t
  load : (t.capacity ≤ 2 ^ 23 → 4 * (t.length + t.tombs) < 3 * t.capacity + 4) ∧
    2 ^ 24 * (t.length + t.tombs) < 3 * (2 ^ 22 + 1) * t.capacity + 2 ^ 24

/-- Tables reachable from creation by steps each of which leaves `length` and `tombs` equal
to the numbers of Full and Tombstone buckets.  Only `_map_set` can fail to do so, when it
takes the branch of `_map_acquirebucket` that decrements `tombs`. -/
inductive ReachableCounted (fns : MapFns) (ndebug : Bool) : _Map → Prop where
  | create (cap : Nat) (t : _Map) :
      _map_alloc_full_n ndebug cap (some fns.hash) (some fns.equals) (some fns.probe) = .ok t →
      ReachableCounted fns ndebug t
  | set (fuel : Nat) (t t1 : _Map) (k v : Nat) :
      ReachableCounted fns ndebug t → ValidKey k → _map_set fns ndebug fuel t k v = .ok t1 →
      Counted t1 → ReachableCounted fns ndebug t1
  | del (fuel : Nat) (t t1 : _Map) (k : Nat) :
      ReachableCounted fns ndebug t → _map_del fns fuel t k = .ok t1 →
      ReachableCounted fns ndebug t1
  | rehash (fuel : Nat) (t t1 : _Map) (ncap : Nat) :
      ReachableCounted fns ndebug t → map_rehash fns ndebug fuel t ncap = .ok t1 →
      ReachableCounted fns ndebug t1
  | reserve (fuel : Nat) (t t1 : _Map) (n : Nat) :
      ReachableCounted fns ndebug t → map_reserve fns ndebug fuel t n = .ok t1 →
      ReachableCounted fns ndebug t1
  | clear (t t1 : _Map) :
      ReachableCounted fns ndebug t → map_clear ndebug t = .ok t1 →
      ReachableCounted fns ndebug t1

instance (t : _Map) : Decidable (Counted t) := by unfold Counted; infer_instance

/-- Create a table of initial capacity `cap` and set the given key/value pairs in order. -/
def populate (fns : MapFns) (ndebug : Bool) (fuel cap : Nat) (kvs : List (Nat × Nat)) :
    Except Fault _Map :=
  runFrom fns ndebug fuel cap (kvs.map fun kv => MapOp.set kv.1 kv.2)

/-- The constant `sizeof(MapKVList)`: one pointer, followed by the flexible array `kv`. -/
def sizeof_MapKVList : Nat := 8

/-- The constant `sizeof(void*)`. -/
def sizeof_voidp : Nat := 8

/-- The copy loop of `_map_getkeys` and `_map_getvalues`,
`for(i = 0; j < length && i < capacity; i++)`, with `field` the member copied; `out` holds
the `j` entries written so far. -/
def kvLoop (field : MapBucket → Nat) (len : Nat) : List MapBucket → List Nat → List Nat
  | [], out => out
  | b :: rest, out =>
    if out.length < len then
      if _mapbucket_isfull b then kvLoop field len rest (out ++ [field b])
      else kvLoop field len rest out
    else out

/-- The common body of `_map_getkeys` and `_map_getvalues`: `none` is the null result,
`some a` the array returned, all `length + 1` slots of it.  The request of
`sizeof(MapKVList) + sizeof(void*) * (length + 1)` bytes must fit a machine word; the
allocator hands back zeroed memory, and a write past the last slot is a fault. -/
def kvSnapshot (field : MapBucket → Nat) (self : _Map) : Except Fault (Option (List Nat)) :=
  if self.buckets.isEmpty then .ok none
  else
    let slots := (self.length + 1) % UWORD
    if UWORD ≤ sizeof_MapKVList + sizeof_voidp * slots then .error .alloc
    else
      let out := kvLoop field self.length (self.buckets.take self.capacity) []
      if slots ≤ out.length then .error .oob
      else .ok (some (out ++ List.replicate (slots - out.length) 0))

def _map_getkeys (self : _Map) : Except Fault (Option (List Nat)) :=
  kvSnapshot MapBucket.key self

def _map_getvalues (self : _Map) : Except Fault (Option (List Nat)) :=
  kvSnapshot MapBucket.value self

/-- The fields `index`, `key` and `value` of the struct `MapIterator`; the table
it points to is passed alongside. -/
structure MapIterator where
  index : Nat
  key : Nat
  value : Nat
deriving DecidableEq, Repr

def map_hasnext (map : _Map) (self : MapIterator) : Bool :=
  decide (self.index < map.capacity)

/-- The loop `do { index++; } while(index < capacity && !_mapbucket_isfull(&buckets[index]))`
of `map_next`: the index it ends with. -/
def nextLoop (map : _Map) : Nat → Nat → Except Fault Nat
  | 0, _ => .error .fuel
  | fuel + 1, index =>
    let index1 := (index + 1) % UWORD
    if index1 < map.capacity then
      match loadBucket map index1 with
      | .error e => .error e
      | .ok b => if !_mapbucket_isfull b then nextLoop map fuel index1 else .ok index1
    else .ok index1

def map_next (fuel : Nat) (map : _Map) (self : MapIterator) : Except Fault MapIterator :=
  if self.index ≥ map.capacity then .ok self
  else
    match nextLoop map fuel self.index with
    | .error e => .error e
    | .ok index =>
      if index < map.capacity then
        match loadBucket map index with
        | .error e => .error e
        | .ok b => .ok { index := index, key := b.key, value := b.value }
      else .ok { self with index := index }

/-- The function `map_iterator`: `MapIterator it = {self, 0, NULL, NULL}; map_next(&it);`. -/
def map_iterator (fuel : Nat) (self : _Map) : Except Fault MapIterator :=
  map_next fuel self { index := 0, key := 0, value := 0 }

/-- The loop `while(map_hasnext(&it)) { visit; map_next(&it); }`: the iterator states
visited, in order. -/
def traverseLoop (fuel : Nat) (map : _Map) :
    Nat → MapIterator → List MapIterator → Except Fault (List MapIterator)
  | 0, _, _ => .error .fuel
  | rounds + 1, it, seen =>
    if map_hasnext map it then
      match map_next fuel map it with
      | .error e => .error e
      | .ok it1 => traverseLoop fuel map rounds it1 (seen ++ [it])
    else .ok seen

/-- The traversal `for(it = map_iterator(self); map_hasnext(&it); map_next(&it)) visit`. -/
def traverse (fuel : Nat) (self : _Map) : Except Fault (List MapIterator) :=
  match map_iterator fuel self with
  | .error e => .error e
  | .ok it => traverseLoop fuel self fuel it []

/-- The bucket array has `capacity` buckets and its size in bytes fits a machine word. -/
def Sized (t : _Map) : Prop :=
  t.buckets.length = t.capacity ∧ sizeof_MapBucket * t.capacity < UWORD

/-- Tables obtained from `_map_alloc_full_n` with the initial capacity `cap` through calls of
`_map_set`, `_map_del` and `map_clear` only. -/
inductive SetDelClear (fns : MapFns) (ndebug : Bool) (cap : Nat) : _Map → Prop where
  | create (t : _Map) :
      _map_alloc_full_n ndebug cap (some fns.hash) (some fns.equals) (some fns.probe) = .ok t →
      SetDelClear fns ndebug cap t
  | set (fuel : Nat) (t t1 : _Map) (k v : Nat) :
      SetDelClear fns ndebug cap t → _map_set fns ndebug fuel t k v = .ok t1 →
      SetDelClear fns ndebug cap t1
  | del (fuel : Nat) (t t1 : _Map) (k : Nat) :
      SetDelClear fns ndebug cap t → _map_del fns fuel t k = .ok t1 →
      SetDelClear fns ndebug cap t1
  | clear (t t1 : _Map) :
      SetDelClear fns ndebug cap t → map_clear ndebug t = .ok t1 →
      SetDelClear fns ndebug cap t1

/-- The function `map_destroy`: `map_clear`, then the bucket array and the table are handed
back to the allocator.  What is left of the table is the record of destructor calls. -/
def map_destroy (ndebug : Bool) (self : _Map) : Except Fault (List DtorCall) :=
  match map_clear ndebug self with
  | .error e => .error e
  | .ok s => .ok s.dtors

/-- The destructor calls due for the Full buckets of an array, in index order: the key
destructor on the key, then the value destructor on the value, of each. -/
def dtorCalls : List MapBucket → List DtorCall
  | [] => []
  | b :: rest =>
    if _mapbucket_isfull b then DtorCall.key b.key :: DtorCall.value b.value :: dtorCalls rest
    else dtorCalls rest

/-- The size in bytes `_map_getkeys` and `_map_getvalues` request from the allocator, the
argument `nsize` of `self->alloc(self->ctx, NULL, 0, nsize)`:
`sizeof(MapKVList) + (sizeof(void*) * (self->length + 1))` on machine words. -/
def kvRequestSize (self : _Map) : Nat :=
  (sizeof_MapKVList + (sizeof_voidp * ((self.length + 1) % UWORD)) % UWORD) % UWORD

/-- The function `_mapkv_destroy`, with `map` the table `kvlist->map` points to: the
argument `osize` of its call `alloc(ctx, kvlist, len, 0)`, where
`len = sizeof(MapKVList) + (sizeof(void*) + (kvlist->map->length + 1))` on machine words. -/
def _mapkv_destroy (map : _Map) : Nat :=
  (sizeof_MapKVList + (sizeof_voidp + (map.length + 1) % UWORD) % UWORD) % UWORD

/-- Tables reachable from creation through the public interface, the registration of
destructors with `_map_setkeydel` and `_map_setvaluedel` included. -/
inductive ReachableWithDtors (fns : MapFns) (ndebug : Bool) : _Map → Prop where
  | create (cap : Nat) (t : _Map) :
      _map_alloc_full_n ndebug cap (some fns.hash) (some fns.equals) (some fns.probe) = .ok t →
      ReachableWithDtors fns ndebug t
  | setkeydel (t : _Map) (registered : Bool) :
      ReachableWithDtors fns ndebug t → ReachableWithDtors fns ndebug (_map_setkeydel t registered)
  | setvaluedel (t : _Map) (registered : Bool) :
      ReachableWithDtors fns ndebug t →
      ReachableWithDtors fns ndebug (_map_setvaluedel t registered)
  | set (fuel : Nat) (t t1 : _Map) (k v : Nat) :
      ReachableWithDtors fns ndebug t → ValidKey k → _map_set fns ndebug fuel t k v = .ok t1 →
      ReachableWithDtors fns ndebug t1
  | del (fuel : Nat) (t t1 : _Map) (k : Nat) :
      ReachableWithDtors fns ndebug t → _map_del fns fuel t k = .ok t1 →
      ReachableWithDtors fns ndebug t1
  | rehash (fuel : Nat) (t t1 : _Map) (ncap : Nat) :
      ReachableWithDtors fns ndebug t → map_rehash fns ndebug fuel t ncap = .ok t1 →
      ReachableWithDtors fns ndebug t1
  | reserve (fuel : Nat) (t t1 : _Map) (n : Nat) :
      ReachableWithDtors fns ndebug t → map_reserve fns ndebug fuel t n = .ok t1 →
      ReachableWithDtors fns ndebug t1
  | clear (t t1 : _Map) :
      ReachableWithDtors fns ndebug t → map_clear ndebug t = .ok t1 →
      ReachableWithDtors fns ndebug t1

/-- Bucket `i` is reached from index `start` by linear probing without meeting an Empty
bucket on the way. -/
def OnProbePath (bs : List MapBucket) (cap start i : Nat) : Prop :=
  ∀ d, d < probeDist cap start i →
    ∃ x, bs[(start + d) % cap]? = some x ∧ _mapbucket_isempty x = false

/-- Every Full bucket is reached by linear probing from the index `hash(key) % cap` of its
own key, `hash` being the callback. -/
def Placed (fns : MapFns) (bs : List MapBucket) (cap : Nat) : Prop :=
  ∀ (i : Nat) (b : MapBucket), bs[i]? = some b → _mapbucket_isfull b = true →
    OnProbePath bs cap (fns.hash b.key % cap) i

/-! ### Generic string functions (`src/C/v2/str.c`)

A string argument `const char*` is `none` for the null pointer and otherwise the list of
the bytes that may be read through it; reading past them is a fault. -/

/-- The constant `#define str_npos ((uintptr_t)-1)`. -/
def str_npos : Nat := UWORD - 1

/-- The inner loop of `_cstr_index_n` and `_cstr_lastindex_n`,
`for(j = 0; j < n2; ++j) { if(s1[i + j] == s2[j]) continue; found = false; break; }`,
with `k` rounds left before `j` reaches `n2`: the value of `found` after it. -/
def cstrMatchLoop (s1 s2 : List Nat) (i : Nat) : Nat → Nat → Except Fault Bool
  | 0, _ => .ok true
  | k + 1, j =>
    match s1[i + j]?, s2[j]? with
    | some a, some b => if a == b then cstrMatchLoop s1 s2 i k (j + 1) else .ok false
    | _, _ => .error .oob

/-- The loop `for(uintptr_t i = 0; i <= n1 - n2; ++i)` of `_cstr_index_n`. -/
def indexLoop (s1 s2 : List Nat) (n1 n2 : Nat) : Nat → Nat → Except Fault Nat
  | 0, _ => .error .fuel
  | fuel + 1, i =>
    if i ≤ n1 - n2 then
      match cstrMatchLoop s1 s2 i n2 0 with
      | .error e => .error e
      | .ok true => .ok i
      | .ok false => indexLoop s1 s2 n1 n2 fuel ((i + 1) % UWORD)
    else .ok str_npos

def _cstr_index_n (fuel : Nat) (s1 : Option (List Nat)) (n1 : Nat) (s2 : Option (List Nat))
    (n2 : Nat) : Except Fault Nat :=
  match s1, s2 with
  | some a, some b => if n2 > n1 then .ok str_npos else indexLoop a b n1 n2 fuel 0
  | _, _ => .ok str_npos

/-- The loop `for(uintptr_t i = n1 - n2; i >= n2; i--)` of `_cstr_lastindex_n`. -/
def lastindexLoop (s1 s2 : List Nat) (n2 : Nat) : Nat → Nat → Except Fault Nat
  | 0, _ => .error .fuel
  | fuel + 1, i =>
    if i ≥ n2 then
      match cstrMatchLoop s1 s2 i n2 0 with
      | .error e => .error e
      | .ok true => .ok i
      | .ok false => lastindexLoop s1 s2 n2 fuel ((i + UWORD - 1) % UWORD)
    else .ok str_npos

def _cstr_lastindex_n (fuel : Nat) (s1 : Option (List Nat)) (n1 : Nat)
    (s2 : Option (List Nat)) (n2 : Nat) : Except Fault Nat :=
  match s1, s2 with
  | some a, some b => if n2 > n1 then .ok str_npos else lastindexLoop a b n2 fuel (n1 - n2)
  | _, _ => .ok str_npos

/-- The `n2` bytes of `s1` from index `i` on are the first `n2` bytes of `s2`. -/
def occursAt (s1 s2 : List Nat) (n2 i : Nat) : Bool :=
  (s1.drop i).take n2 == s2.take n2

/-! ### Strings of `src/C/cutl.c`

The type `isize` is a signed integer (`ptrdiff_t`), here an integer without bound: no
operation below comes near the limits of the type.  A failed `assume` or `except_if`
stops the program and is the fault `assertion`. -/

/-- The struct `Str` of `cutl.h`, from `define_slice(Str, char)`.  `data` is the buffer the
pointer `data` points to, all `capacity` bytes of it, and has no element for the null
pointer; `alloc` says whether the allocator is set. -/
structure Str where
  data : List Nat
  length : Int
  capacity : Int
  alloc : Bool
deriving DecidableEq, Repr

/-- The macro `#define str_isview(self) ((self)->alloc == NULL)`. -/
def str_isview (self : Str) : Bool := !self.alloc

/-- The constant `#define slice_defaultcapacity 256`. -/
def slice_defaultcapacity : Int := 256

/-- The function `_slice_reserve(self, n, dsize)` for `dsize = sizeof(char)`: nothing when
`capacity >= n`; otherwise `mem_realloc0` hands back a buffer of `n` bytes that holds the
old `capacity` bytes followed by zeros. -/
def _slice_reserve (self : Str) (n : Int) : Str :=
  if self.capacity ≥ n then self
  else
    { self with data := self.data ++ List.replicate (n - self.capacity).toNat 0,
                capacity := n }

/-- The function `str_reserve` of `cutl.c`: `slice_reserve(self, n + 1)`. -/
def str_reserve (self : Str) (n : Int) : Except Fault Str :=
  if str_isview self then .error .assertion
  else .ok (_slice_reserve self (n + 1))

/-- The loop `while(cap <= req) cap <<= 1;`. -/
def growCap (req : Int) : Nat → Int → Except Fault Int
  | 0, _ => .error .fuel
  | fuel + 1, cap => if cap ≤ req then growCap req fuel (cap * 2) else .ok cap

/-- The `n` bytes of `buf` from offset `off` on, as `memmove` and `memcpy` read them; a
read outside the buffer is a fault. -/
def readBytes (buf : List Nat) (off n : Int) : Except Fault (List Nat) :=
  if off < 0 ∨ n < 0 ∨ (buf.length : Int) < off + n then .error .oob
  else .ok ((buf.drop off.toNat).take n.toNat)

/-- The buffer `buf` after the bytes `src` have been written at offset `dst`; a write
outside the buffer is a fault. -/
def writeBytes (buf : List Nat) (dst : Int) (src : List Nat) : Except Fault (List Nat) :=
  if dst < 0 ∨ (buf.length : Int) < dst + src.length then .error .oob
  else .ok (buf.take dst.toNat ++ src ++ buf.drop (dst.toNat + src.length))

/-- The function `_str_insert_n` of `cutl.c`; `s` is `none` for the null pointer. -/
def _str_insert_n (fuel : Nat) (self : Str) (idx : Int) (s : Option (List Nat)) (n : Int) :
    Except Fault Str :=
  match s with
  | none => .error .assertion
  | some src =>
    if str_isview self then .error .assertion
    else if n = 0 then .ok self
    else
      let len := self.length
      let idx1 := if idx < 0 then idx + len else idx
      let idx2 := if idx1 < 0 then 0 else idx1
      let idx3 := if idx2 > len then len else idx2
      let req := self.length + len
      let reserved : Except Fault Str :=
        if req + 1 > self.capacity then
          match growCap req fuel
              (if self.capacity ≠ 0 then self.capacity else slice_defaultcapacity) with
          | .error e => .error e
          | .ok cap => str_reserve self (cap + 1)
        else .ok self
      match reserved with
      | .error e => .error e
      | .ok s1 =>
        match readBytes s1.data idx3 (s1.length - idx3) with
        | .error e => .error e
        | .ok moved =>
          match writeBytes s1.data (idx3 + len) moved with
          | .error e => .error e
          | .ok d1 =>
            match readBytes src 0 len with
            | .error e => .error e
            | .ok copied =>
              match writeBytes d1 idx3 copied with
              | .error e => .error e
              | .ok d2 =>
                match writeBytes d2 (s1.length + len) [0] with
                | .error e => .error e
                | .ok d3 => .ok { s1 with data := d3, length := s1.length + len }

/-- The content of a string: its first `length` bytes. -/
def str_content (self : Str) : List Nat := self.data.take self.length.toNat

/-! ### Vector (`src/C/v2/vect.c`) -/

/-- The fields of the struct `_Vect` that `_vect_lowerbound` reads.  An item, the `itemsize`
bytes at `items + i * itemsize`, is a value of the type `α`; `items` holds the `length`
items of the vector, and a read at an index outside them is a fault; `itemcmp` is `none`
for the null pointer. -/
structure _Vect (α : Type) where
  items : List α
  length : Nat
  itemsize : Nat
  itemcmp : Option (α → α → Bool)

def vect_length {α : Type} (self : _Vect α) : Nat := self.length

/-- The loop `while(left < right)` of `_vect_lowerbound`.  A call through a null `itemcmp`
is a fault. -/
def lowerboundLoop {α : Type} (self : _Vect α) (v : α) : Nat → Nat → Nat → Except Fault Nat
  | 0, _, _ => .error .fuel
  | fuel + 1, left, right =>
    if left < right then
      let mid := (left + (right - left) / 2) % UWORD
      match self.itemcmp with
      | none => .error .oob
      | some cmp =>
        match self.items[mid]? with
        | none => .error .oob
        | some x =>
          if cmp x v then lowerboundLoop self v fuel ((mid + 1) % UWORD) right
          else lowerboundLoop self v fuel left mid
    else .ok left

def _vect_lowerbound {α : Type} (ndebug : Bool) (fuel : Nat) (self : _Vect α) (v : α)
    (itemsize : Nat) : Except Fault Nat :=
  if !ndebug && self.itemcmp.isNone then .error .assertion
  else if !ndebug && self.itemsize != itemsize then .error .assertion
  else if vect_length self = 0 then .ok (vect_length self)
  else lowerboundLoop self v fuel 0 self.length

/-! ## Theorems -/

theorem bitsLoop_zero (fuel : Nat) : bitsLoop fuel 0 = 0 := by
  cases fuel <;> simp [bitsLoop]

theorem bitsLoop_spec : ∀ (fuel n : Nat), n < 2 ^ fuel → 0 < n →
    n < 2 ^ bitsLoop fuel n ∧ 2 ^ bitsLoop fuel n ≤ 2 * n := by
  intro fuel
  induction fuel with
  | zero => intro n h1 h2; simp at h1; omega
  | succ f ih =>
    intro n h1 h2
    have hn : n ≠ 0 := by omega
    simp only [bitsLoop, if_neg hn]
    by_cases h : n / 2 = 0
    · rw [h, bitsLoop_zero]
      have : n = 1 := by omega
      subst this; decide
    · have hlt : n / 2 < 2 ^ f := by rw [pow_succ] at h1; omega
      obtain ⟨a, b⟩ := ih (n / 2) hlt (by omega)
      rw [pow_succ]
      constructor <;> omega

theorem bitLength_spec (n : Nat) (h1 : n < 2 ^ 128) (h2 : 0 < n) :
    n < 2 ^ bitLength n ∧ 2 ^ bitLength n ≤ 2 * n :=
  bitsLoop_spec 128 n h1 h2

/-- Rounding to nearest is within half a unit. -/
theorem roundHalfEven_near (p q : Nat) (hq : 0 < q) :
    2 * (roundHalfEven p q * q) ≤ 2 * p + q ∧ 2 * p ≤ 2 * (roundHalfEven p q * q) + q := by
  have h1 := Nat.div_add_mod p q
  have h2 := Nat.mod_lt p hq
  have h3 : (p / q + 1) * q = q * (p / q) + q := by ring
  have h4 : p / q * q = q * (p / q) := by ring
  unfold roundHalfEven
  split
  · rw [h4]; omega
  · split
    · rw [h3]; omega
    · split
      · rw [h4]; omega
      · rw [h3]; omega

/-- Rounding to nearest, ties to even, reaches an even `N` exactly from the midpoint below it. -/
theorem roundHalfEven_ge (p q N : Nat) (hq : 0 < q) (hN : N % 2 = 0) (hpos : 0 < N) :
    N ≤ roundHalfEven p q ↔ (2 * N - 1) * q ≤ 2 * p := by
  have h1 := Nat.div_add_mod p q
  have h2 := Nat.mod_lt p hq
  obtain ⟨M, hM⟩ : ∃ M, N = M + 1 := ⟨N - 1, by omega⟩
  subst hM
  have e1 : (2 * (M + 1) - 1) * q = 2 * (M * q) + q := by
    have : 2 * (M + 1) - 1 = 2 * M + 1 := by omega
    rw [this]; ring
  rw [e1]
  have key : ∀ k, (k ≤ p / q ↔ k * q ≤ p) := fun k => Nat.le_div_iff_mul_le hq
  have k1 := key M
  have k2 := key (M + 1)
  have k3 := key (M + 2)
  have e2 : (M + 1) * q = M * q + q := by ring
  have e3 : (M + 2) * q = M * q + 2 * q := by ring
  rw [e2] at k2
  rw [e3] at k3
  have hmq : M * q ≤ p ∨ p < M * q := by omega
  -- p = q * (p / q) + r
  have hle : q * (p / q) ≤ p := by omega
  have e4 : q * (p / q) = (p / q) * q := by ring
  unfold roundHalfEven
  by_cases c1 : M + 1 ≤ p / q
  · have : (M + 1) * q ≤ (p / q) * q := Nat.mul_le_mul_right q c1
    have hT : M * q + q ≤ p := k2.mp c1
    have : M + 1 ≤ (if 2 * (p % q) < q then p / q else if q < 2 * (p % q) then p / q + 1
        else if (p / q) % 2 = 0 then p / q else p / q + 1) := by
      split
      · omega
      · split
        · omega
        · split <;> omega
    constructor
    · intro _; omega
    · intro _; exact this
  · by_cases c2 : M = p / q
    · -- p / q = M : result ≥ M+1 iff rounding up
      have hq1 : q * (p / q) = M * q := by rw [← c2]; ring
      split
      · constructor
        · intro h; omega
        · intro h; omega
      · split
        · constructor
          · intro _; omega
          · intro _; omega
        · split
          · constructor
            · intro h; omega
            · intro h; omega
          · constructor
            · intro _; omega
            · intro _; omega
    · have c3 : p / q < M := by omega
      have c4 : p / q + 1 ≤ M := c3
      have h5 : (p / q + 1) * q ≤ M * q := Nat.mul_le_mul_right q c4
      have e5 : (p / q + 1) * q = q * (p / q) + q := by ring
      rw [e5] at h5
      constructor
      · intro h
        exfalso
        revert h
        split
        · omega
        · split
          · omega
          · split <;> omega
      · intro h; omega

/-- The result of `f32_round` on a positive quotient: the significand is the quotient scaled
into `[2^23, 2^24)` and rounded to nearest, ties to even. -/
theorem f32_round_spec (p q : Nat) (hp : 0 < p) (hq : 0 < q) (hp2 : p < 2 ^ 128)
    (hq2 : q < 2 ^ 128) :
    ∃ u d : Nat, f32_round p q = ⟨roundHalfEven (p * 2 ^ u) (q * 2 ^ d) * 2 ^ d, 2 ^ u⟩ ∧
      2 ^ 23 * (q * 2 ^ d) ≤ p * 2 ^ u ∧ p * 2 ^ u < 2 ^ 24 * (q * 2 ^ d) := by
  obtain ⟨p1, p2⟩ := bitLength_spec p hp2 hp
  obtain ⟨q1, q2⟩ := bitLength_spec q hq2 hq
  have hpn : p ≠ 0 := by omega
  unfold f32_round
  rw [if_neg hpn]
  simp only
  generalize hbp : bitLength p = bp at p1 p2
  generalize hbq : bitLength q = bq at q1 q2
  have hrange : 2 ^ 23 * (q * 2 ^ (bp - (bq + 24))) ≤ p * 2 ^ (bq + 24 - bp) ∧
      p * 2 ^ (bq + 24 - bp) < 2 ^ 25 * (q * 2 ^ (bp - (bq + 24))) := by
    by_cases hc : bp ≤ bq + 24
    · have e1 : bp - (bq + 24) = 0 := by omega
      rw [e1, pow_zero, Nat.mul_one]
      have e2 : 2 ^ (bq + 24) = 2 ^ bp * 2 ^ (bq + 24 - bp) := by
        rw [← pow_add]; congr 1; omega
      have e3 : 2 ^ (bq + 24) = 2 ^ bq * 2 ^ 24 := pow_add 2 bq 24
      have hpos : 0 < 2 ^ (bq + 24 - bp) := pow_pos (by decide) _
      generalize 2 ^ (bq + 24 - bp) = U at e2 hpos ⊢
      have a1 : 2 ^ bp * U ≤ 2 * p * U := Nat.mul_le_mul_right U p2
      have a2 : p * U < 2 ^ bp * U := Nat.mul_lt_mul_of_pos_right p1 hpos
      have a3 : 2 * p * U = 2 * (p * U) := by ring
      constructor <;> omega
    · have e1 : bq + 24 - bp = 0 := by omega
      rw [e1, pow_zero, Nat.mul_one]
      have e2 : 2 ^ bp = 2 ^ (bq + 24) * 2 ^ (bp - (bq + 24)) := by
        rw [← pow_add]; congr 1; omega
      have e3 : 2 ^ (bq + 24) = 2 ^ bq * 2 ^ 24 := pow_add 2 bq 24
      have hpos : 0 < 2 ^ (bp - (bq + 24)) := pow_pos (by decide) _
      generalize 2 ^ (bp - (bq + 24)) = D at e2 hpos ⊢
      rw [e3] at e2
      have a1 : 2 ^ bq * D ≤ 2 * q * D := Nat.mul_le_mul_right D q2
      have a2 : q * D < 2 ^ bq * D := Nat.mul_lt_mul_of_pos_right q1 hpos
      have a3 : 2 ^ bq * 2 ^ 24 * D = 2 ^ 24 * (2 ^ bq * D) := by ring
      have a4 : 2 * q * D = 2 * (q * D) := by ring
      rw [a3] at e2
      constructor <;> omega
  obtain ⟨r1, r2⟩ := hrange
  have hD1 : 2 ^ (bp - (bq + 24) + 1) = 2 ^ (bp - (bq + 24)) * 2 := pow_succ _ _
  have hm : q * (2 ^ (bp - (bq + 24)) * 2) = 2 * (q * 2 ^ (bp - (bq + 24))) := by ring
  split
  · next hge =>
    refine ⟨bq + 24 - bp, bp - (bq + 24) + 1, ?_, ?_, ?_⟩
    · rw [hD1, Nat.mul_assoc]
    · rw [hD1, hm]; omega
    · rw [hD1, hm]; omega
  · next hlt =>
    exact ⟨bq + 24 - bp, bp - (bq + 24), rfl, r1, by omega⟩

theorem f32_round_den_pos (p q : Nat) : 0 < (f32_round p q).den := by
  unfold f32_round
  split
  · decide
  · simp only
    split <;> exact pow_pos (by decide) _

/-- The relative error of `f32_round` is at most `2^-24`. -/
theorem f32_round_rel (p q : Nat) (hp : 0 < p) (hq : 0 < q) (hp2 : p < 2 ^ 128)
    (hq2 : q < 2 ^ 128) :
    (2 ^ 24 - 1) * (p * (f32_round p q).den) ≤ 2 ^ 24 * ((f32_round p q).num * q) ∧
    2 ^ 24 * ((f32_round p q).num * q) ≤ (2 ^ 24 + 1) * (p * (f32_round p q).den) := by
  obtain ⟨u, d, hf, h1, h2⟩ := f32_round_spec p q hp hq hp2 hq2
  have hQ : 0 < q * 2 ^ d := Nat.mul_pos hq (pow_pos (by decide) _)
  obtain ⟨n1, n2⟩ := roundHalfEven_near (p * 2 ^ u) (q * 2 ^ d) hQ
  rw [hf]
  simp only
  have e : roundHalfEven (p * 2 ^ u) (q * 2 ^ d) * 2 ^ d * q
      = roundHalfEven (p * 2 ^ u) (q * 2 ^ d) * (q * 2 ^ d) := by ring
  rw [e]
  generalize roundHalfEven (p * 2 ^ u) (q * 2 ^ d) * (q * 2 ^ d) = X at n1 n2 ⊢
  generalize p * 2 ^ u = P at h1 h2 n1 n2 ⊢
  generalize q * 2 ^ d = Q at h1 h2 n1 n2 hQ ⊢
  constructor <;> omega

/-- The comparison of a rounded positive quotient with `0.75f`: the quotient rounds to
`0.75` or more exactly from the midpoint `0.75 - 2^-25` on. -/
theorem f32_round_ge (p q : Nat) (hp : 0 < p) (hq : 0 < q) (hp2 : p < 2 ^ 128)
    (hq2 : q < 2 ^ 128) :
    f32_ge (f32_round p q) map_max_loadfactor = decide (25165823 * q ≤ 2 ^ 25 * p) := by
  obtain ⟨u, d, hf, h1, h2⟩ := f32_round_spec p q hp hq hp2 hq2
  have hD : 0 < 2 ^ d := pow_pos (by decide) _
  have hQ : 0 < q * 2 ^ d := Nat.mul_pos hq hD
  obtain ⟨n1, n2⟩ := roundHalfEven_near (p * 2 ^ u) (q * 2 ^ d) hQ
  have hge := roundHalfEven_ge (p * 2 ^ u) (q * 2 ^ d) 12582912 hQ (by decide) (by decide)
  rw [hf]
  unfold f32_ge map_max_loadfactor
  simp only
  congr 1
  apply propext
  generalize hm : roundHalfEven (p * 2 ^ u) (q * 2 ^ d) = m at n1 n2 hge ⊢
  rcases Nat.lt_trichotomy u (d + 24) with hu | hu | hu
  · -- the quotient is at least 1
    have hU : 2 ^ u ≤ 2 ^ d * 2 ^ 23 := by
      rw [← pow_add]; exact Nat.pow_le_pow_right (by decide) (by omega)
    generalize 2 ^ u = U at h1 h2 n1 n2 hge hU ⊢
    generalize 2 ^ d = D at h1 h2 n1 n2 hge hU hD hQ ⊢
    have hm23 : 2 ^ 23 * D ≤ m * D := by
      have : 2 ^ 23 ≤ m := by
        by_contra hlt
        have hlt2 : m + 1 ≤ 2 ^ 23 := by omega
        have : (m + 1) * (q * D) ≤ 2 ^ 23 * (q * D) := Nat.mul_le_mul_right _ hlt2
        have e : (m + 1) * (q * D) = m * (q * D) + q * D := by ring
        omega
      exact Nat.mul_le_mul_right D this
    have hpq : q * D ≤ p * D := by
      have a1 : p * U ≤ p * (D * 2 ^ 23) := Nat.mul_le_mul_left p hU
      have a2 : p * (D * 2 ^ 23) = 2 ^ 23 * (p * D) := by ring
      omega
    have hpq2 : q ≤ p := Nat.le_of_mul_le_mul_right hpq hD
    constructor
    · intro _; omega
    · intro _; omega
  · -- the quotient lies in [1/2, 1)
    have hU : 2 ^ u = 2 ^ 24 * 2 ^ d := by rw [hu, pow_add]; ring
    rw [hU] at h1 h2 n1 n2 hge ⊢
    generalize 2 ^ d = D at h1 h2 n1 n2 hge hU hD hQ ⊢
    have e1 : (2 * 12582912 - 1) * (q * D) = (25165823 * q) * D := by ring
    have e2 : 2 * (p * (2 ^ 24 * D)) = (2 ^ 25 * p) * D := by ring
    rw [e1, e2] at hge
    have e3 : (3 * (2 ^ 24 * D) ≤ m * D * 4) ↔ 12582912 ≤ m := by
      constructor
      · intro h
        have : 12582912 * D ≤ m * D := by omega
        exact Nat.le_of_mul_le_mul_right this hD
      · intro h
        have : 12582912 * D ≤ m * D := Nat.mul_le_mul_right D h
        omega
    rw [e3, hge]
    exact ⟨fun h => Nat.le_of_mul_le_mul_right h hD, fun h => Nat.mul_le_mul_right D h⟩
  · -- the quotient is below 1/2
    have hU : 2 ^ d * 2 ^ 25 ≤ 2 ^ u := by
      rw [← pow_add]; exact Nat.pow_le_pow_right (by decide) (by omega)
    generalize 2 ^ u = U at h1 h2 n1 n2 hge hU ⊢
    generalize 2 ^ d = D at h1 h2 n1 n2 hge hU hD hQ ⊢
    have hm24 : m * D ≤ 2 ^ 24 * D := by
      have : m ≤ 2 ^ 24 := by
        by_contra hlt
        have hlt2 : 2 ^ 24 + 1 ≤ m := by omega
        have : (2 ^ 24 + 1) * (q * D) ≤ m * (q * D) := Nat.mul_le_mul_right _ hlt2
        have e : (2 ^ 24 + 1) * (q * D) = 2 ^ 24 * (q * D) + q * D := by ring
        omega
      exact Nat.mul_le_mul_right D this
    have hpq : p * D * 2 < q * D := by
      have a1 : p * (D * 2 ^ 25) ≤ p * U := Nat.mul_le_mul_left p hU
      have a2 : p * (D * 2 ^ 25) = 2 ^ 25 * (p * D) := by ring
      omega
    have hpq2 : p * 2 < q := by
      have : p * 2 * D < q * D := by
        have e : p * 2 * D = p * D * 2 := by ring
        omega
      exact Nat.lt_of_mul_lt_mul_right this
    constructor
    · intro _; omega
    · intro _; omega

theorem roundHalfEven_exact (k q : Nat) (hq : 0 < q) : roundHalfEven (k * q) q = k := by
  unfold roundHalfEven
  have h1 : k * q % q = 0 := Nat.mul_mod_left k q
  have h2 : k * q / q = k := Nat.mul_div_cancel k hq
  rw [h1, h2, if_pos (by omega)]

theorem f32_round_den_le (p q : Nat) : (f32_round p q).den ≤ 2 ^ (bitLength q + 24) := by
  unfold f32_round
  split
  · exact Nat.one_le_two_pow
  · simp only
    split <;> exact Nat.pow_le_pow_right (by decide) (by omega)

theorem f32_of_nat_den (n : Nat) : 0 < (f32_of_nat n).den ∧ (f32_of_nat n).den ≤ 2 ^ 25 :=
  ⟨f32_round_den_pos n 1, f32_round_den_le n 1⟩

/-- Integers below `2^24` are converted exactly. -/
theorem f32_of_nat_exact (n : Nat) (h : n < 2 ^ 24) :
    (f32_of_nat n).num = n * (f32_of_nat n).den := by
  unfold f32_of_nat
  by_cases h0 : n = 0
  · subst h0; simp [f32_round]
  · obtain ⟨u, d, hf, h1, h2⟩ := f32_round_spec n 1 (by omega) (by decide)
      (by omega) (by decide)
    rw [hf]
    simp only
    rw [Nat.one_mul] at h1 h2 ⊢
    have hdu : d ≤ u := by
      by_contra hlt
      have h3 : 2 ^ u * 2 ≤ 2 ^ d := by
        rw [← pow_succ]; exact Nat.pow_le_pow_right (by decide) (by omega)
      have h4 : n * 2 ^ u ≤ (2 ^ 24 - 1) * 2 ^ u := Nat.mul_le_mul_right _ (by omega)
      have hpos : 0 < 2 ^ u := pow_pos (by decide) _
      generalize 2 ^ u = U at h1 h2 h3 h4 hpos
      generalize 2 ^ d = D at h1 h2 h3
      generalize n * U = X at h1 h2 h4
      omega
    have e : 2 ^ u = 2 ^ (u - d) * 2 ^ d := by
      rw [← pow_add]; congr 1; omega
    have e2 : n * 2 ^ u = (n * 2 ^ (u - d)) * 2 ^ d := by rw [e]; ring
    rw [e2, roundHalfEven_exact _ _ (pow_pos (by decide) _)]

/-- The conversion of a positive integer has a relative error of at most `2^-24`. -/
theorem f32_of_nat_rel (n : Nat) (h0 : 0 < n) (h : n < 2 ^ 128) :
    (2 ^ 24 - 1) * (n * (f32_of_nat n).den) ≤ 2 ^ 24 * (f32_of_nat n).num ∧
    2 ^ 24 * (f32_of_nat n).num ≤ (2 ^ 24 + 1) * (n * (f32_of_nat n).den) := by
  have := f32_round_rel n 1 h0 (by decide) h (by decide)
  rw [Nat.mul_one] at this
  exact this

theorem f32_of_nat_zero : f32_of_nat 0 = ⟨0, 1⟩ := by
  simp [f32_of_nat, f32_round]

/-- The test `a / (float)c >= 0.75f` on machine words `a` and `c > 0`, in terms of the
two converted operands. -/
theorem f32_load_test (a c : Nat) (ha : a < 2 ^ 64) (hc0 : 0 < c) (hc : c < 2 ^ 64) :
    f32_ge (f32_div (f32_of_nat a) (f32_of_nat c)) map_max_loadfactor =
      decide (25165823 * ((f32_of_nat a).den * (f32_of_nat c).num)
        ≤ 2 ^ 25 * ((f32_of_nat a).num * (f32_of_nat c).den)) := by
  obtain ⟨c1, c2⟩ := f32_of_nat_den c
  obtain ⟨c3, c4⟩ := f32_of_nat_rel c hc0 (by omega)
  obtain ⟨a1, a2⟩ := f32_of_nat_den a
  have hcX : c * (f32_of_nat c).den ≤ 2 ^ 64 * 2 ^ 25 :=
    Nat.mul_le_mul (by omega) c2
  have hcnum : (f32_of_nat c).num < 2 ^ 91 := by omega
  have hcpos : 0 < (f32_of_nat c).num := by
    have : 0 < c * (f32_of_nat c).den := Nat.mul_pos hc0 c1
    omega
  by_cases h0 : a = 0
  · subst h0
    rw [f32_of_nat_zero]
    simp only [f32_div, Nat.zero_mul, Nat.one_mul, Nat.mul_zero]
    have : f32_round 0 (f32_of_nat c).num = ⟨0, 1⟩ := by simp [f32_round]
    rw [this]
    simp only [f32_ge, map_max_loadfactor]
    have : ¬ (25165823 * (f32_of_nat c).num ≤ 0) := by omega
    simp [this]
  · obtain ⟨a3, a4⟩ := f32_of_nat_rel a (by omega) (by omega)
    have haX : a * (f32_of_nat a).den ≤ 2 ^ 64 * 2 ^ 25 :=
      Nat.mul_le_mul (by omega) a2
    have hanum : (f32_of_nat a).num < 2 ^ 91 := by omega
    have hapos : 0 < (f32_of_nat a).num := by
      have : 0 < a * (f32_of_nat a).den := Nat.mul_pos (by omega) a1
      omega
    unfold f32_div
    apply f32_round_ge
    · exact Nat.mul_pos hapos c1
    · exact Nat.mul_pos a1 hcpos
    · calc (f32_of_nat a).num * (f32_of_nat c).den
          ≤ 2 ^ 91 * 2 ^ 25 := Nat.mul_le_mul (by omega) c2
        _ < 2 ^ 128 := by decide
    · calc (f32_of_nat a).den * (f32_of_nat c).num
          ≤ 2 ^ 25 * 2 ^ 91 := Nat.mul_le_mul a2 (by omega)
        _ < 2 ^ 128 := by decide

/-- Scaled forms of the two conversion errors in the load test. -/
theorem f32_load_atoms (a c : Nat) (ha0 : 0 < a) (ha : a < 2 ^ 64) (hc0 : 0 < c)
    (hc : c < 2 ^ 64) :
    0 < (f32_of_nat a).den * (f32_of_nat c).den ∧
    (2 ^ 24 - 1) * (a * ((f32_of_nat a).den * (f32_of_nat c).den))
      ≤ 2 ^ 24 * ((f32_of_nat a).num * (f32_of_nat c).den) ∧
    2 ^ 24 * ((f32_of_nat a).num * (f32_of_nat c).den)
      ≤ (2 ^ 24 + 1) * (a * ((f32_of_nat a).den * (f32_of_nat c).den)) ∧
    (2 ^ 24 - 1) * (c * ((f32_of_nat a).den * (f32_of_nat c).den))
      ≤ 2 ^ 24 * ((f32_of_nat a).den * (f32_of_nat c).num) ∧
    2 ^ 24 * ((f32_of_nat a).den * (f32_of_nat c).num)
      ≤ (2 ^ 24 + 1) * (c * ((f32_of_nat a).den * (f32_of_nat c).den)) := by
  obtain ⟨c1, _⟩ := f32_of_nat_den c
  obtain ⟨a1, _⟩ := f32_of_nat_den a
  obtain ⟨c3, c4⟩ := f32_of_nat_rel c hc0 (by omega)
  obtain ⟨a3, a4⟩ := f32_of_nat_rel a ha0 (by omega)
  generalize (f32_of_nat a).den = da at *
  generalize (f32_of_nat a).num = na at *
  generalize (f32_of_nat c).den = dc at *
  generalize (f32_of_nat c).num = nc at *
  refine ⟨Nat.mul_pos a1 c1, ?_, ?_, ?_, ?_⟩
  · have := Nat.mul_le_mul_right dc a3
    calc (2 ^ 24 - 1) * (a * (da * dc)) = (2 ^ 24 - 1) * (a * da) * dc := by ring
      _ ≤ 2 ^ 24 * na * dc := this
      _ = 2 ^ 24 * (na * dc) := by ring
  · have := Nat.mul_le_mul_right dc a4
    calc 2 ^ 24 * (na * dc) = 2 ^ 24 * na * dc := by ring
      _ ≤ (2 ^ 24 + 1) * (a * da) * dc := this
      _ = (2 ^ 24 + 1) * (a * (da * dc)) := by ring
  · have := Nat.mul_le_mul_left da c3
    calc (2 ^ 24 - 1) * (c * (da * dc)) = da * ((2 ^ 24 - 1) * (c * dc)) := by ring
      _ ≤ da * (2 ^ 24 * nc) := this
      _ = 2 ^ 24 * (da * nc) := by ring
  · have := Nat.mul_le_mul_left da c4
    calc 2 ^ 24 * (da * nc) = da * (2 ^ 24 * nc) := by ring
      _ ≤ da * ((2 ^ 24 + 1) * (c * dc)) := this
      _ = (2 ^ 24 + 1) * (c * (da * dc)) := by ring

/-- A load test that fails bounds the exact quotient: `a / c < 0.75 * (1 + 2^-22)`. -/
theorem f32_load_false (a c : Nat) (ha : a < 2 ^ 64) (hc0 : 0 < c) (hc : c < 2 ^ 64)
    (h : f32_ge (f32_div (f32_of_nat a) (f32_of_nat c)) map_max_loadfactor = false) :
    2 ^ 24 * a < 3 * (2 ^ 22 + 1) * c := by
  by_cases h0 : a = 0
  · subst h0; omega
  rw [f32_load_test a c ha hc0 hc] at h
  have h := of_decide_eq_false h
  obtain ⟨hw, a3, a4, c3, c4⟩ := f32_load_atoms a c (by omega) ha hc0 hc
  generalize (f32_of_nat a).den * (f32_of_nat c).den = W at *
  generalize (f32_of_nat a).num * (f32_of_nat c).den = Z at *
  generalize (f32_of_nat a).den * (f32_of_nat c).num = Y at *
  have key : (2 ^ 24 * a) * W < (3 * (2 ^ 22 + 1) * c) * W := by
    have e1 : (2 ^ 24 * a) * W = 2 ^ 24 * (a * W) := by ring
    have e2 : (3 * (2 ^ 22 + 1) * c) * W = 3 * (2 ^ 22 + 1) * (c * W) := by ring
    rw [e1, e2]
    generalize a * W = aW at *
    generalize c * W = cW at *
    omega
  exact Nat.lt_of_mul_lt_mul_right key

/-- A load test that succeeds bounds the exact quotient: `a / c >= 0.75 * (1 - 2^-22)`. -/
theorem f32_load_true (a c : Nat) (ha : a < 2 ^ 64) (hc0 : 0 < c) (hc : c < 2 ^ 64)
    (h : f32_ge (f32_div (f32_of_nat a) (f32_of_nat c)) map_max_loadfactor = true) :
    3 * (2 ^ 22 - 1) * c ≤ 2 ^ 24 * a := by
  rw [f32_load_test a c ha hc0 hc] at h
  have h := of_decide_eq_true h
  by_cases h0 : a = 0
  · subst h0
    rw [f32_of_nat_zero] at h
    obtain ⟨c1, _⟩ := f32_of_nat_den c
    obtain ⟨c3, c4⟩ := f32_of_nat_rel c hc0 (by omega)
    have : 0 < c * (f32_of_nat c).den := Nat.mul_pos hc0 c1
    simp only [Nat.one_mul, Nat.zero_mul, Nat.mul_zero] at h
    omega
  obtain ⟨hw, a3, a4, c3, c4⟩ := f32_load_atoms a c (by omega) ha hc0 hc
  generalize (f32_of_nat a).den * (f32_of_nat c).den = W at *
  generalize (f32_of_nat a).num * (f32_of_nat c).den = Z at *
  generalize (f32_of_nat a).den * (f32_of_nat c).num = Y at *
  have key : (3 * (2 ^ 22 - 1) * c) * W ≤ (2 ^ 24 * a) * W := by
    have e1 : (2 ^ 24 * a) * W = 2 ^ 24 * (a * W) := by ring
    have e2 : (3 * (2 ^ 22 - 1) * c) * W = 3 * (2 ^ 22 - 1) * (c * W) := by ring
    rw [e1, e2]
    generalize a * W = aW at *
    generalize c * W = cW at *
    omega
  exact Nat.le_of_mul_le_mul_right key hw

/-- For a capacity of at most `2^23` the load test is the exact comparison
`3 * c <= 4 * a`. -/
theorem f32_load_small (a c : Nat) (ha : a < 2 ^ 64) (hc0 : 0 < c) (hc : c ≤ 2 ^ 23) :
    f32_ge (f32_div (f32_of_nat a) (f32_of_nat c)) map_max_loadfactor = decide (3 * c ≤ 4 * a) := by
  rw [f32_load_test a c ha hc0 (by omega)]
  congr 1
  apply propext
  have hce := f32_of_nat_exact c (by omega)
  obtain ⟨c1, _⟩ := f32_of_nat_den c
  obtain ⟨a1, _⟩ := f32_of_nat_den a
  have hw : 0 < (f32_of_nat a).den * (f32_of_nat c).den := Nat.mul_pos a1 c1
  have eY : (f32_of_nat a).den * (f32_of_nat c).num
      = c * ((f32_of_nat a).den * (f32_of_nat c).den) := by rw [hce]; ring
  rw [eY]
  by_cases hs : a < 2 ^ 24
  · have hae := f32_of_nat_exact a hs
    have eZ : (f32_of_nat a).num * (f32_of_nat c).den
        = a * ((f32_of_nat a).den * (f32_of_nat c).den) := by rw [hae]; ring
    rw [eZ]
    generalize (f32_of_nat a).den * (f32_of_nat c).den = W at *
    have e1 : 25165823 * (c * W) = (25165823 * c) * W := by ring
    have e2 : 2 ^ 25 * (a * W) = (2 ^ 25 * a) * W := by ring
    rw [e1, e2]
    constructor
    · intro h
      have := Nat.le_of_mul_le_mul_right h hw
      rcases Nat.lt_or_ge c (2 ^ 23) with hlt | hge
      · omega
      · have : c = 2 ^ 23 := by omega
        subst this; omega
    · intro h
      exact Nat.mul_le_mul_right W (by omega)
  · obtain ⟨_, a3, a4, _, _⟩ := f32_load_atoms a c (by omega) ha hc0 (by omega)
    generalize (f32_of_nat a).num * (f32_of_nat c).den = Z at *
    generalize (f32_of_nat a).den * (f32_of_nat c).den = W at *
    have h1 : 2 ^ 24 * W ≤ a * W := Nat.mul_le_mul_right W (by omega)
    have h2 : c * W ≤ 2 ^ 23 * W := Nat.mul_le_mul_right W hc
    generalize a * W = aW at *
    generalize c * W = cW at *
    constructor
    · intro _; omega
    · intro _; omega

theorem bitLength_one : bitLength 1 = 1 := by decide

/-- Rounding to nearest is monotone in the numerator. -/
theorem roundHalfEven_mono (p1 p2 q : Nat) (hq : 0 < q) (h : p1 ≤ p2) :
    roundHalfEven p1 q ≤ roundHalfEven p2 q := by
  have d1 := Nat.div_add_mod p1 q
  have d2 := Nat.div_add_mod p2 q
  have r1 := Nat.mod_lt p1 hq
  have r2 := Nat.mod_lt p2 hq
  have hdiv : p1 / q ≤ p2 / q := Nat.div_le_div_right h
  have hup1 : roundHalfEven p1 q ≤ p1 / q + 1 := by
    unfold roundHalfEven; split
    · omega
    · split
      · omega
      · split <;> omega
  have hlo2 : p2 / q ≤ roundHalfEven p2 q := by
    unfold roundHalfEven; split
    · omega
    · split
      · omega
      · split <;> omega
  rcases Nat.lt_or_ge (p1 / q) (p2 / q) with hlt | hge
  · omega
  · have heq : p1 / q = p2 / q := by omega
    have hr : p1 % q ≤ p2 % q := by
      rw [heq] at d1
      omega
    unfold roundHalfEven
    rw [heq]
    split_ifs <;> omega

theorem roundHalfEven_bounds (p q : Nat) (hq : 0 < q) (h1 : 2 ^ 23 * q ≤ p)
    (h2 : p < 2 ^ 24 * q) : 2 ^ 23 ≤ roundHalfEven p q ∧ roundHalfEven p q ≤ 2 ^ 24 := by
  obtain ⟨n1, n2⟩ := roundHalfEven_near p q hq
  constructor
  · by_contra hlt
    have hlt2 : roundHalfEven p q + 1 ≤ 2 ^ 23 := by omega
    have := Nat.mul_le_mul_right q hlt2
    have e : (roundHalfEven p q + 1) * q = roundHalfEven p q * q + q := by ring
    omega
  · by_contra hlt
    have hlt2 : 2 ^ 24 + 1 ≤ roundHalfEven p q := by omega
    have := Nat.mul_le_mul_right q hlt2
    have e : (2 ^ 24 + 1) * q = 2 ^ 24 * q + q := by ring
    omega

/-- The conversion of an integer of `2^24` or more: it is rounded to a multiple of
`2^s`, where `s + 24` is its number of binary digits. -/
theorem f32_of_nat_big (n : Nat) (h : 2 ^ 24 ≤ n) (h2 : n < 2 ^ 128) :
    ∃ s, 2 ^ 23 * 2 ^ s ≤ n ∧ n < 2 ^ 24 * 2 ^ s ∧ 1 ≤ s ∧
      f32_of_nat n = ⟨roundHalfEven n (2 ^ s) * 2 ^ s, 1⟩ := by
  obtain ⟨b1, b2⟩ := bitLength_spec n h2 (by omega)
  have hb : 25 ≤ bitLength n := by
    by_contra hlt
    have : 2 ^ bitLength n ≤ 2 ^ 24 := Nat.pow_le_pow_right (by decide) (by omega)
    omega
  have e1 : 2 ^ bitLength n = 2 ^ 24 * 2 ^ (bitLength n - 25 + 1) := by
    rw [← pow_add]; congr 1; omega
  have e2 : 2 ^ (bitLength n - 25 + 1) = 2 ^ (bitLength n - 25) * 2 := pow_succ _ _
  refine ⟨bitLength n - 25 + 1, by omega, by omega, by omega, ?_⟩
  unfold f32_of_nat f32_round
  rw [if_neg (by omega)]
  simp only [bitLength_one]
  have e3 : 1 + 24 - bitLength n = 0 := by omega
  have e4 : bitLength n - (1 + 24) = bitLength n - 25 := by omega
  rw [e3, e4, pow_zero, Nat.mul_one, Nat.one_mul, if_pos (by omega), e2]

/-- The conversion `(float)n` is monotone. -/
theorem f32_of_nat_mono (a b : Nat) (h : a ≤ b) (hb : b < 2 ^ 128) :
    (f32_of_nat a).num * (f32_of_nat b).den ≤ (f32_of_nat b).num * (f32_of_nat a).den := by
  rcases Nat.lt_or_ge b (2 ^ 24) with hbs | hbl
  · rw [f32_of_nat_exact a (by omega), f32_of_nat_exact b hbs]
    have := Nat.mul_le_mul_right ((f32_of_nat a).den * (f32_of_nat b).den) h
    calc a * (f32_of_nat a).den * (f32_of_nat b).den
        = a * ((f32_of_nat a).den * (f32_of_nat b).den) := by ring
      _ ≤ b * ((f32_of_nat a).den * (f32_of_nat b).den) := this
      _ = b * (f32_of_nat b).den * (f32_of_nat a).den := by ring
  · obtain ⟨s, s1, s2, s3, hfb⟩ := f32_of_nat_big b hbl hb
    have hS : 0 < 2 ^ s := pow_pos (by decide) _
    obtain ⟨mb1, mb2⟩ := roundHalfEven_bounds b (2 ^ s) hS s1 s2
    have hnb : 2 ^ 23 * 2 ^ s ≤ roundHalfEven b (2 ^ s) * 2 ^ s := Nat.mul_le_mul_right _ mb1
    rcases Nat.lt_or_ge a (2 ^ 24) with has | hal
    · rw [f32_of_nat_exact a has, hfb]
      simp only [Nat.mul_one]
      apply Nat.mul_le_mul_right
      have : 2 * 2 ^ 23 ≤ 2 ^ 23 * 2 ^ s := by
        have : 2 ^ 1 ≤ 2 ^ s := Nat.pow_le_pow_right (by decide) s3
        omega
      omega
    · obtain ⟨r, r1, r2, r3, hfa⟩ := f32_of_nat_big a hal (by omega)
      have hR : 0 < 2 ^ r := pow_pos (by decide) _
      obtain ⟨ma1, ma2⟩ := roundHalfEven_bounds a (2 ^ r) hR r1 r2
      rw [hfa, hfb]
      simp only [Nat.mul_one]
      rcases Nat.lt_trichotomy r s with hrs | hrs | hrs
      · have hp : 2 ^ r * 2 ≤ 2 ^ s := by
          rw [← pow_succ]; exact Nat.pow_le_pow_right (by decide) (by omega)
        have : roundHalfEven a (2 ^ r) * 2 ^ r ≤ 2 ^ 24 * 2 ^ r := Nat.mul_le_mul_right _ ma2
        omega
      · subst hrs
        exact Nat.mul_le_mul_right _ (roundHalfEven_mono a b (2 ^ r) hR h)
      · exfalso
        have hp : 2 ^ s * 2 ≤ 2 ^ r := by
          rw [← pow_succ]; exact Nat.pow_le_pow_right (by decide) (by omega)
        omega

/-- The test `a / (float)c >= 0.75f` is monotone in `a`. -/
theorem f32_load_mono (a b c : Nat) (h : a ≤ b) (hb : b < 2 ^ 64) (hc0 : 0 < c)
    (hc : c < 2 ^ 64)
    (ht : f32_ge (f32_div (f32_of_nat a) (f32_of_nat c)) map_max_loadfactor = true) :
    f32_ge (f32_div (f32_of_nat b) (f32_of_nat c)) map_max_loadfactor = true := by
  rw [f32_load_test a c (by omega) hc0 hc] at ht
  rw [f32_load_test b c hb hc0 hc]
  have ht := of_decide_eq_true ht
  apply decide_eq_true
  have hm := f32_of_nat_mono a b h (by omega)
  obtain ⟨a1, _⟩ := f32_of_nat_den a
  generalize (f32_of_nat a).den = da at *
  generalize (f32_of_nat a).num = na at *
  generalize (f32_of_nat b).den = db at *
  generalize (f32_of_nat b).num = nb at *
  generalize (f32_of_nat c).den = dc at *
  generalize (f32_of_nat c).num = nc at *
  have k1 : 25165823 * (da * nc) * db ≤ 2 ^ 25 * (na * dc) * db := Nat.mul_le_mul_right db ht
  have k2 : na * db * dc ≤ nb * da * dc := Nat.mul_le_mul_right dc hm
  have k3 : (25165823 * (db * nc)) * da ≤ (2 ^ 25 * (nb * dc)) * da := by
    calc (25165823 * (db * nc)) * da = 25165823 * (da * nc) * db := by ring
      _ ≤ 2 ^ 25 * (na * dc) * db := k1
      _ = 2 ^ 25 * (na * db * dc) := by ring
      _ ≤ 2 ^ 25 * (nb * da * dc) := Nat.mul_le_mul_left _ k2
      _ = (2 ^ 25 * (nb * dc)) * da := by ring
  exact Nat.le_of_mul_le_mul_right k3 a1

/-- On a table of capacity at most `2^23` the load test of `_map_set` is the exact
comparison `3 * capacity <= 4 * (length + tombs)`. -/
theorem loadfactor_small (t : _Map) (h0 : 0 < t.capacity) (h : t.capacity ≤ 2 ^ 23) :
    loadfactor_ge_max t = decide (3 * t.capacity ≤ 4 * ((t.length + t.tombs) % UWORD)) := by
  unfold loadfactor_ge_max
  rw [if_neg (by omega)]
  exact f32_load_small _ _ (Nat.mod_lt _ (by decide)) h0 h

/-- When the load test of `_map_set` fails, `(length + tombs) / capacity` is below
`0.75 * (1 + 2^-22)`. -/
theorem loadfactor_false (t : _Map) (h0 : 0 < t.capacity) (h : t.capacity < UWORD)
    (hlf : loadfactor_ge_max t = false) :
    2 ^ 24 * ((t.length + t.tombs) % UWORD) < 3 * (2 ^ 22 + 1) * t.capacity := by
  unfold loadfactor_ge_max at hlf
  rw [if_neg (by omega)] at hlf
  exact f32_load_false _ _ (Nat.mod_lt _ (by decide)) h0 h hlf

/-- When the load test of `_map_set` succeeds, `(length + tombs) / capacity` is at least
`0.75 * (1 - 2^-22)`. -/
theorem loadfactor_true (t : _Map) (h0 : 0 < t.capacity) (h : t.capacity < UWORD)
    (hlf : loadfactor_ge_max t = true) :
    3 * (2 ^ 22 - 1) * t.capacity ≤ 2 ^ 24 * ((t.length + t.tombs) % UWORD) := by
  unfold loadfactor_ge_max at hlf
  rw [if_neg (by omega)] at hlf
  exact f32_load_true _ _ (Nat.mod_lt _ (by decide)) h0 h hlf

/-- The load test of `_map_set` is monotone in `length + tombs`. -/
theorem loadfactor_mono (t t2 : _Map) (hcap : t2.capacity = t.capacity) (h0 : 0 < t.capacity)
    (h : t.capacity < UWORD)
    (hle : (t2.length + t2.tombs) % UWORD ≤ (t.length + t.tombs) % UWORD)
    (hlf : loadfactor_ge_max t = false) : loadfactor_ge_max t2 = false := by
  cases h2 : loadfactor_ge_max t2 with
  | false => rfl
  | true =>
    exfalso
    unfold loadfactor_ge_max at hlf h2
    rw [hcap] at h2
    rw [if_neg (by omega)] at hlf h2
    have := f32_load_mono _ _ _ hle (Nat.mod_lt _ (by decide)) h0 h h2
    rw [this] at hlf
    exact absurd hlf (by simp)

/-- The load test of `_map_set` fails when `(length + tombs) / capacity` is below
`0.75 * (1 - 2^-22)`. -/
theorem loadfactor_low (t : _Map) (h0 : 0 < t.capacity) (h : t.capacity < UWORD)
    (hlow : 2 ^ 24 * ((t.length + t.tombs) % UWORD) < 3 * (2 ^ 22 - 1) * t.capacity) :
    loadfactor_ge_max t = false := by
  cases h2 : loadfactor_ge_max t with
  | false => rfl
  | true =>
    have := loadfactor_true t h0 h h2
    omega

/-- The load test of `_map_set` fails on a table whose counters add up to zero. -/
theorem loadfactor_zero (t : _Map) (h : (t.length + t.tombs) % UWORD = 0) :
    loadfactor_ge_max t = false := by
  unfold loadfactor_ge_max
  rw [h, f32_of_nat_zero]
  split
  · decide
  · simp [f32_div, f32_round, f32_ge, map_max_loadfactor]

/-- The rounded request of `map_reserve` can exceed the exact `ceil(n / 0.75)`: at
`n = 2^59 - 1` an array of `ceil(n / 0.75)` buckets fits a machine word and one of
`reserveRequest n` buckets does not. -/
theorem reserveRequest_above_exact :
    sizeof_MapBucket * ((4 * (2 ^ 59 - 1) + 2) / 3) < UWORD ∧
      UWORD ≤ sizeof_MapBucket * reserveRequest (2 ^ 59 - 1) := by
  decide

/-- A `map_reserve` that returns is the `map_rehash` to the request. -/
theorem map_reserve_ok (fns : MapFns) (nd : Bool) (fuel : Nat) (t t1 : _Map) (n : Nat)
    (h : map_reserve fns nd fuel t n = .ok t1) :
    map_rehash fns nd fuel t (reserveRequest n) = .ok t1 := by
  unfold map_reserve at h
  split at h
  · simp at h
  · exact h

theorem map_reserve_eq (fns : MapFns) (nd : Bool) (fuel : Nat) (t : _Map) (n : Nat)
    (h : reserveRequest n < UWORD) :
    map_reserve fns nd fuel t n = map_rehash fns nd fuel t (reserveRequest n) := by
  unfold map_reserve
  rw [if_neg (by omega)]

theorem callKeydel_buckets (s : _Map) (p : Nat) : (callKeydel s p).buckets = s.buckets := by
  unfold callKeydel; split <;> rfl

theorem callValuedel_buckets (s : _Map) (p : Nat) : (callValuedel s p).buckets = s.buckets := by
  unfold callValuedel; split <;> rfl

theorem findLoop_eq (fns : MapFns) (hp : LinearProbe fns) (s : _Map) (key h : Nat) :
    ∀ fuel idx, findLoop fns s key h fuel idx =
      (stopL fns s.buckets s.capacity key h fuel idx).map findOf := by
  intro fuel
  induction fuel with
  | zero => intro idx; rfl
  | succ n ih =>
    intro idx
    unfold findLoop stopL loadBucket
    cases hb : s.buckets[idx]? with
    | none => rfl
    | some b =>
      simp only
      by_cases hm : bucketMatches fns key h b = true
      · simp [hm, findOf, Except.map]
      · by_cases he : _mapbucket_isempty b = true
        · simp [hm, he, findOf, Except.map]
        · simp only [hm, he, if_false, Bool.false_eq_true]
          rw [ih, hp]; rfl

theorem acquireLoop_eq (fns : MapFns) (hp : LinearProbe fns) (s : _Map) (key h : Nat) :
    ∀ fuel idx tombidx, acquireLoop fns s key h fuel idx tombidx =
      (stopL fns s.buckets s.capacity key h fuel idx).map
        (acquireOf s h (tombFinal fns s.buckets s.capacity key h fuel idx tombidx)) := by
  intro fuel
  induction fuel with
  | zero => intro idx tombidx; rfl
  | succ n ih =>
    intro idx tombidx
    unfold acquireLoop stopL tombFinal loadBucket
    cases hb : s.buckets[idx]? with
    | none => rfl
    | some b =>
      simp only
      by_cases hm : bucketMatches fns key h b = true
      · simp [hm, acquireOf, Except.map, hb]
      · by_cases he : _mapbucket_isempty b = true
        · simp [hm, he, acquireOf, Except.map, hb]
        · simp only [hm, he, if_false, Bool.false_eq_true]
          rw [ih, hp]; rfl

theorem delLoop_eq (fns : MapFns) (hp : LinearProbe fns) (s : _Map) (key h : Nat) :
    ∀ fuel idx, delLoop fns s key h fuel idx =
      (stopL fns s.buckets s.capacity key h fuel idx).map (delOf s) := by
  intro fuel
  induction fuel with
  | zero => intro idx; rfl
  | succ n ih =>
    intro idx
    unfold delLoop stopL loadBucket
    cases hb : s.buckets[idx]? with
    | none => rfl
    | some b =>
      simp only
      by_cases hm : bucketMatches fns key h b = true
      · simp [hm, delOf, Except.map, hb]
      · by_cases he : _mapbucket_isempty b = true
        · simp [hm, he, delOf, Except.map, hb]
        · simp only [hm, he, if_false, Bool.false_eq_true]
          rw [ih, hp]; rfl

theorem stopL_spec (fns : MapFns) (bs : List MapBucket) (cap key h : Nat) :
    ∀ fuel idx fl i, stopL fns bs cap key h fuel idx = .ok (fl, i) →
      ∃ b, bs[i]? = some b ∧ bucketMatches fns key h b = fl ∧
        (fl = false → _mapbucket_isempty b = true) := by
  intro fuel
  induction fuel with
  | zero => intro idx fl i h0; simp [stopL] at h0
  | succ n ih =>
    intro idx fl i h0
    unfold stopL at h0
    cases hb : bs[idx]? with
    | none => simp [hb] at h0
    | some b =>
      simp only [hb] at h0
      by_cases hm : bucketMatches fns key h b = true
      · simp only [hm, if_true, Except.ok.injEq, Prod.mk.injEq] at h0
        obtain ⟨rfl, rfl⟩ := h0
        exact ⟨b, hb, hm, by simp⟩
      · by_cases he : _mapbucket_isempty b = true
        · simp only [hm, he, if_true, if_false, Bool.false_eq_true, Except.ok.injEq, Prod.mk.injEq] at h0
          obtain ⟨rfl, rfl⟩ := h0
          exact ⟨b, hb, by simpa using hm, fun _ => he⟩
        · simp only [hm, he, if_false, Bool.false_eq_true] at h0
          exact ih _ _ _ h0

theorem stopL_stops (fns : MapFns) (bs : List MapBucket) (cap key h : Nat)
    (fuel idx : Nat) (fl : Bool) (i : Nat) (h0 : stopL fns bs cap key h fuel idx = .ok (fl, i)) :
    ∃ b, bs[i]? = some b ∧ stopsAt fns key h b = true := by
  obtain ⟨b, hb, hm, he⟩ := stopL_spec fns bs cap key h fuel idx fl i h0
  refine ⟨b, hb, ?_⟩
  unfold stopsAt
  cases fl with
  | true => simp [hm]
  | false => simp [he rfl]

theorem stopL_mono (fns : MapFns) (bs : List MapBucket) (cap key h : Nat) :
    ∀ fuel idx r, stopL fns bs cap key h fuel idx = .ok r →
      ∀ fuel1, fuel ≤ fuel1 → stopL fns bs cap key h fuel1 idx = .ok r := by
  intro fuel
  induction fuel with
  | zero => intro idx r h0; simp [stopL] at h0
  | succ n ih =>
    intro idx r h0 fuel1 hle
    obtain ⟨m, rfl⟩ : ∃ m, fuel1 = m + 1 := ⟨fuel1 - 1, by omega⟩
    unfold stopL at h0 ⊢
    cases hb : bs[idx]? with
    | none => simp [hb] at h0
    | some b =>
      simp only [hb] at h0 ⊢
      by_cases hm : bucketMatches fns key h b = true
      · simpa [hm] using h0
      · by_cases he : _mapbucket_isempty b = true
        · simpa [hm, he] using h0
        · simp only [hm, he, if_false, Bool.false_eq_true] at h0 ⊢
          exact ih _ _ h0 m (by omega)

/-- Changing one bucket that the probe either never reaches or walks past
both before and after leaves the stopping point alone. -/
theorem stopL_frame (fns : MapFns) (bs : List MapBucket) (cap key h : Nat)
    (j : Nat) (bj b1 : MapBucket) (hj : bs[j]? = some bj)
    (hcase : stopsAt fns key h bj = true ∨ stopsAt fns key h b1 = false) :
    ∀ fuel idx fl i, stopL fns bs cap key h fuel idx = .ok (fl, i) → i ≠ j →
      stopL fns (bs.set j b1) cap key h fuel idx = .ok (fl, i) := by
  intro fuel
  induction fuel with
  | zero => intro idx fl i h0; simp [stopL] at h0
  | succ n ih =>
    intro idx fl i h0 hne
    unfold stopL at h0 ⊢
    cases hb : bs[idx]? with
    | none => simp [hb] at h0
    | some b =>
      simp only [hb] at h0
      by_cases hij : idx = j
      · subst hij
        have hbj : b = bj := by rw [hb] at hj; exact Option.some.inj hj
        subst hbj
        have hlt : idx < bs.length := by
          rcases List.getElem?_eq_some.mp hb with ⟨hlt, _⟩; exact hlt
        rw [List.getElem?_set_self hlt]
        simp only
        by_cases hm : bucketMatches fns key h b = true
        · simp only [hm, if_true, Except.ok.injEq, Prod.mk.injEq] at h0
          exact absurd h0.2.symm hne
        · by_cases he : _mapbucket_isempty b = true
          · simp only [hm, he, if_true, if_false, Bool.false_eq_true, Except.ok.injEq, Prod.mk.injEq] at h0
            exact absurd h0.2.symm hne
          · simp only [hm, he, if_false, Bool.false_eq_true] at h0
            have hs : stopsAt fns key h b1 = false := by
              rcases hcase with hc | hc
              · simp [stopsAt, hm, he] at hc
              · exact hc
            simp only [stopsAt, Bool.or_eq_false_iff] at hs
            simp only [hs.1, hs.2, if_false, Bool.false_eq_true]
            exact ih _ _ _ h0 hne
      · rw [List.getElem?_set_ne (Ne.symm hij), hb]
        simp only
        by_cases hm : bucketMatches fns key h b = true
        · simpa [hm] using h0
        · by_cases he : _mapbucket_isempty b = true
          · simpa [hm, he] using h0
          · simp only [hm, he, if_false, Bool.false_eq_true] at h0 ⊢
            exact ih _ _ _ h0 hne

/-- Changing a bucket the probe walks past, into another it walks past, changes
nothing at all. -/
theorem stopL_frame_eq (fns : MapFns) (bs : List MapBucket) (cap key h : Nat)
    (j : Nat) (bj b1 : MapBucket) (hj : bs[j]? = some bj)
    (h1 : stopsAt fns key h bj = false) (h2 : stopsAt fns key h b1 = false) :
    ∀ fuel idx, stopL fns (bs.set j b1) cap key h fuel idx = stopL fns bs cap key h fuel idx := by
  intro fuel
  induction fuel with
  | zero => intro idx; rfl
  | succ n ih =>
    intro idx
    unfold stopL
    by_cases hij : idx = j
    · subst hij
      have hlt : idx < bs.length := by
        rcases List.getElem?_eq_some.mp hj with ⟨hlt, _⟩; exact hlt
      rw [List.getElem?_set_self hlt, hj]
      simp only [stopsAt, Bool.or_eq_false_iff] at h1 h2
      simp only [h1.1, h1.2, h2.1, h2.2, if_false, Bool.false_eq_true]
      exact ih _
    · rw [List.getElem?_set_ne (Ne.symm hij)]
      cases hb : bs[idx]? with
      | none => rfl
      | some b =>
        simp only
        rw [ih]

/-- Writing a bucket that matches `key` where the probe for `key` stopped makes
the probe stop there with a match. -/
theorem stopL_put (fns : MapFns) (bs : List MapBucket) (cap key h : Nat) (b1 : MapBucket)
    (hb1 : bucketMatches fns key h b1 = true) :
    ∀ fuel idx fl i, stopL fns bs cap key h fuel idx = .ok (fl, i) →
      stopL fns (bs.set i b1) cap key h fuel idx = .ok (true, i) := by
  intro fuel
  induction fuel with
  | zero => intro idx fl i h0; simp [stopL] at h0
  | succ n ih =>
    intro idx fl i h0
    have hstop := stopL_stops fns bs cap key h _ _ _ _ h0
    unfold stopL at h0 ⊢
    cases hb : bs[idx]? with
    | none => simp [hb] at h0
    | some b =>
      simp only [hb] at h0
      have hlt : idx < bs.length := by
        rcases List.getElem?_eq_some.mp hb with ⟨hlt, _⟩; exact hlt
      by_cases hm : bucketMatches fns key h b = true
      · simp only [hm, if_true, Except.ok.injEq, Prod.mk.injEq] at h0
        obtain ⟨_, rfl⟩ := h0
        rw [List.getElem?_set_self hlt]
        simp [hb1]
      · by_cases he : _mapbucket_isempty b = true
        · simp only [hm, he, if_true, if_false, Bool.false_eq_true, Except.ok.injEq, Prod.mk.injEq] at h0
          obtain ⟨_, rfl⟩ := h0
          rw [List.getElem?_set_self hlt]
          simp [hb1]
        · simp only [hm, he, if_false, Bool.false_eq_true] at h0
          have hne : i ≠ idx := by
            rintro rfl
            obtain ⟨b2, hb2, hs⟩ := hstop
            rw [hb] at hb2
            have : b = b2 := Option.some.inj hb2
            subst this
            simp [stopsAt, hm, he] at hs
          rw [List.getElem?_set_ne hne, hb]
          simp only [hm, he, if_false, Bool.false_eq_true]
          exact ih _ _ _ h0

/-- Two keys that match the same buckets are probed alike. -/
theorem stopL_congr (fns : MapFns) (bs : List MapBucket) (cap key h key2 h2 : Nat)
    (hc : ∀ b ∈ bs, bucketMatches fns key h b = bucketMatches fns key2 h2 b) :
    ∀ fuel idx, stopL fns bs cap key h fuel idx = stopL fns bs cap key2 h2 fuel idx := by
  intro fuel
  induction fuel with
  | zero => intro idx; rfl
  | succ n ih =>
    intro idx
    unfold stopL
    cases hb : bs[idx]? with
    | none => rfl
    | some b =>
      simp only
      rw [hc b (List.getElem?_mem hb), ih]

theorem next_index (cap idx : Nat) (h : idx < cap) :
    (idx + 1) % cap = if idx + 1 = cap then 0 else idx + 1 := by
  split
  · next h1 => rw [h1, Nat.mod_self]
  · next h1 => exact Nat.mod_eq_of_lt (by omega)

theorem stopL_terminates_dist (fns : MapFns) (bs : List MapBucket) (cap key h e : Nat)
    (hsz : bs.length = cap) (he : e < cap)
    (hemp : ∃ b, bs[e]? = some b ∧ _mapbucket_isempty b = true) :
    ∀ d idx, idx < cap → probeDist cap idx e = d →
      ∃ r, stopL fns bs cap key h (d + 1) idx = .ok r := by
  intro d
  induction d with
  | zero =>
    intro idx hidx hd
    have : idx = e := by unfold probeDist at hd; split at hd <;> omega
    subst this
    obtain ⟨b, hb, hbe⟩ := hemp
    unfold stopL
    simp only [hb]
    by_cases hm : bucketMatches fns key h b = true
    · exact ⟨(true, idx), by simp [hm]⟩
    · exact ⟨(false, idx), by simp [hm, hbe]⟩
  | succ n ih =>
    intro idx hidx hd
    unfold stopL
    have hlt : idx < bs.length := by omega
    obtain ⟨b, hb⟩ : ∃ b, bs[idx]? = some b := ⟨bs[idx], List.getElem?_eq_getElem hlt⟩
    simp only [hb]
    by_cases hm : bucketMatches fns key h b = true
    · exact ⟨(true, idx), by simp [hm]⟩
    · by_cases hbe : _mapbucket_isempty b = true
      · exact ⟨(false, idx), by simp [hm, hbe]⟩
      · simp only [hm, hbe, if_false, Bool.false_eq_true]
        apply ih
        · exact Nat.mod_lt _ (by omega)
        · rw [next_index cap idx hidx]
          unfold probeDist at hd ⊢
          split at hd <;> split <;> split <;> omega

/-- With an Empty bucket in the array the probe stops within `cap` steps. -/
theorem stopL_terminates (fns : MapFns) (bs : List MapBucket) (cap key h : Nat)
    (hsz : bs.length = cap)
    (hemp : ∃ (e : Nat) (b : MapBucket), bs[e]? = some b ∧ _mapbucket_isempty b = true)
    (fuel idx : Nat) (hidx : idx < cap) (hfuel : cap ≤ fuel) :
    ∃ r, stopL fns bs cap key h fuel idx = .ok r := by
  obtain ⟨e, b, hb, hbe⟩ := hemp
  have he : e < cap := by
    rcases List.getElem?_eq_some.mp hb with ⟨hlt, _⟩; omega
  obtain ⟨r, hr⟩ := stopL_terminates_dist fns bs cap key h e hsz he ⟨b, hb, hbe⟩
    (probeDist cap idx e) idx hidx rfl
  refine ⟨r, stopL_mono fns bs cap key h _ _ _ hr fuel ?_⟩
  unfold probeDist; split <;> omega

theorem reachable_applyOp (fns : MapFns) (nd : Bool) (fuel : Nat) (t t1 : _Map) (op : MapOp)
    (hr : Reachable fns nd t) (hv : op.Valid) (h : applyOp fns nd fuel t op = .ok t1) :
    Reachable fns nd t1 := by
  cases op with
  | set k v => exact Reachable.set fuel t t1 k v hr hv h
  | del k => exact Reachable.del fuel t t1 k hr h
  | rehash n => exact Reachable.rehash fuel t t1 n hr h
  | reserve n => exact Reachable.reserve fuel t t1 n hr h
  | clear => exact Reachable.clear t t1 hr h

theorem reachable_runOps (fns : MapFns) (nd : Bool) (fuel : Nat) :
    ∀ (ops : List MapOp) (t t1 : _Map), Reachable fns nd t → (∀ op ∈ ops, op.Valid) →
      runOps fns nd fuel ops t = .ok t1 → Reachable fns nd t1 := by
  intro ops
  induction ops with
  | nil =>
    intro t t1 hr _ h
    simp only [runOps, Except.ok.injEq] at h
    subst h; exact hr
  | cons op rest ih =>
    intro t t1 hr hv h
    unfold runOps at h
    cases ha : applyOp fns nd fuel t op with
    | error e => simp [ha] at h
    | ok s =>
      simp only [ha] at h
      exact ih s t1 (reachable_applyOp fns nd fuel t s op hr (hv op (List.mem_cons_self _ _)) ha)
        (fun o ho => hv o (List.mem_cons_of_mem _ ho)) h

theorem reachable_runFrom (fns : MapFns) (nd : Bool) (fuel cap : Nat) (ops : List MapOp)
    (t : _Map) (hv : ∀ op ∈ ops, op.Valid) (h : runFrom fns nd fuel cap ops = .ok t) :
    Reachable fns nd t := by
  unfold runFrom at h
  cases ha : _map_alloc_full_n nd cap (some fns.hash) (some fns.equals) (some fns.probe) with
  | error e => simp [ha] at h
  | ok s =>
    simp only [ha] at h
    exact reachable_runOps fns nd fuel ops s t (Reachable.create cap s ha) hv h


/-- C8: the table reached by `set(4); del(4); set(8)` from a fresh table of capacity 4
holds one Full bucket while its `length` field is 0. -/
theorem C8_length_misses_a_full_bucket :
    ∀ nd : Bool, ∃ t, Reachable defaultFns nd t ∧ map_length t = 0 ∧ countFull t.buckets = 1 := by
  intro nd
  refine ⟨tbl [⟨4, MAP_TOMB, 0⟩, ⟨8, 8, 1⟩, ⟨0, 0, 0⟩, ⟨0, 0, 0⟩] 0 0,
    reachable_runFrom defaultFns nd 4 4 [.set 4 1, .del 4, .set 8 1] _ (by decide) ?_, rfl, by decide⟩
  cases nd <;> decide

/-- C9: the table reached by `set(4); del(4); set(8); set(12)` from a fresh table of
capacity 4 holds one Tombstone bucket while its `tombs` field has wrapped around to
`2^64 - 1`. -/
theorem C9_tombs_wraps_around :
    ∀ nd : Bool,
      ∃ t, Reachable defaultFns nd t ∧ t.tombs = UINTPTR_MAX ∧ countTomb t.buckets = 1 := by
  intro nd
  refine ⟨tbl [⟨4, MAP_TOMB, 0⟩, ⟨8, 8, 1⟩, ⟨12, 12, 1⟩, ⟨0, 0, 0⟩] 0 UINTPTR_MAX,
    reachable_runFrom defaultFns nd 4 4 [.set 4 1, .del 4, .set 8 1, .set 12 1] _ (by decide) ?_,
    rfl, by decide⟩
  cases nd <;> decide

/-- C10: the table reached by `set(4); del(4); set(8); del(8)` from a fresh table of
capacity 4 has `length = 2^64 - 1` and `tombs = 1`, so `length + tombs` exceeds the
capacity 4. -/
theorem C10_occupancy_exceeds_capacity :
    ∀ nd : Bool,
      ∃ t, Reachable defaultFns nd t ∧ t.capacity = 4 ∧ t.capacity < t.length + t.tombs := by
  intro nd
  refine ⟨tbl [⟨4, MAP_TOMB, 0⟩, ⟨8, MAP_TOMB, 0⟩, ⟨0, 0, 0⟩, ⟨0, 0, 0⟩] UINTPTR_MAX 1,
    reachable_runFrom defaultFns nd 4 4 [.set 4 1, .del 4, .set 8 1, .del 8] _ (by decide) ?_,
    rfl, by decide⟩
  cases nd <;> decide

/-- C3: in the table reached from a fresh table of capacity 8 by
`set(8); del(8); set(16); set(2); set(3); set(4); set(5); set(6)`, the call `set(7, 10)`
leaves `map_length = 6` and the following `set(7, 11)` leaves `map_length = 7`. -/
theorem C3_second_set_changes_length :
    ∀ nd : Bool, ∃ t t1 t2, Reachable defaultFns nd t ∧
      _map_set defaultFns nd 16 t 7 10 = .ok t1 ∧ _map_set defaultFns nd 16 t1 7 11 = .ok t2 ∧
      map_length t1 = 6 ∧ map_length t2 = 7 := by
  intro nd
  refine ⟨tbl [⟨8, MAP_TOMB, 0⟩, ⟨16, 16, 1⟩, ⟨2, 2, 1⟩, ⟨3, 3, 1⟩, ⟨4, 4, 1⟩, ⟨5, 5, 1⟩,
      ⟨6, 6, 1⟩, ⟨0, 0, 0⟩] 5 0,
    tbl [⟨8, MAP_TOMB, 0⟩, ⟨16, 16, 1⟩, ⟨2, 2, 1⟩, ⟨3, 3, 1⟩, ⟨4, 4, 1⟩, ⟨5, 5, 1⟩,
      ⟨6, 6, 1⟩, ⟨7, 7, 10⟩] 6 0,
    tbl [⟨16, 16, 1⟩, ⟨0, 0, 0⟩, ⟨2, 2, 1⟩, ⟨3, 3, 1⟩, ⟨4, 4, 1⟩, ⟨5, 5, 1⟩, ⟨6, 6, 1⟩,
      ⟨7, 7, 11⟩, ⟨0, 0, 0⟩, ⟨0, 0, 0⟩, ⟨0, 0, 0⟩, ⟨0, 0, 0⟩, ⟨0, 0, 0⟩, ⟨0, 0, 0⟩,
      ⟨0, 0, 0⟩, ⟨0, 0, 0⟩] 7 0,
    reachable_runFrom defaultFns nd 8 8
      [.set 8 1, .del 8, .set 16 1, .set 2 1, .set 3 1, .set 4 1, .set 5 1, .set 6 1] _
      (by decide) ?_, ?_, ?_, rfl, rfl⟩
  · cases nd <;> decide
  · cases nd <;> decide
  · cases nd <;> decide

theorem acquire_cycles (fuel : Nat) : ∀ idx tomb, idx < 4 →
    acquireLoop defaultFns
      (tbl [⟨4, MAP_TOMB, 0⟩, ⟨8, MAP_TOMB, 0⟩, ⟨12, 12, 1⟩, ⟨16, 16, 1⟩] 0 0) 20 20 fuel idx tomb
      = .error .fuel := by
  induction fuel with
  | zero => intro idx tomb _; rfl
  | succ n ih =>
    intro idx tomb h
    interval_cases idx
    · have := ih 1 (if _mapbucket_istomb ⟨4, MAP_TOMB, 0⟩ && tomb == UINTPTR_MAX then 0 else tomb)
        (by decide)
      simpa [acquireLoop, loadBucket, tbl, bucketMatches, _mapbucket_isfull, _mapbucket_isempty,
        defaultFns, _map_defaultprobe, MAP_TOMB, UWORD] using this
    · have := ih 2 (if _mapbucket_istomb ⟨8, MAP_TOMB, 0⟩ && tomb == UINTPTR_MAX then 1 else tomb)
        (by decide)
      simpa [acquireLoop, loadBucket, tbl, bucketMatches, _mapbucket_isfull, _mapbucket_isempty,
        defaultFns, _map_defaultprobe, MAP_TOMB, UWORD] using this
    · have := ih 3 (if _mapbucket_istomb ⟨12, 12, 1⟩ && tomb == UINTPTR_MAX then 2 else tomb)
        (by decide)
      simpa [acquireLoop, loadBucket, tbl, bucketMatches, _mapbucket_isfull, _mapbucket_isempty,
        defaultFns, _map_defaultprobe, _map_defaulthash, _map_defaultequals, MAP_TOMB, UWORD]
        using this
    · have := ih 0 (if _mapbucket_istomb ⟨16, 16, 1⟩ && tomb == UINTPTR_MAX then 3 else tomb)
        (by decide)
      simpa [acquireLoop, loadBucket, tbl, bucketMatches, _mapbucket_isfull, _mapbucket_isempty,
        defaultFns, _map_defaultprobe, _map_defaulthash, _map_defaultequals, MAP_TOMB, UWORD]
        using this

/-- C1: in the table reached from a fresh table of capacity 4 by
`set(4); set(8); del(4); del(8); set(12); set(16)` no bucket is Empty, and `_map_set(20, 1)`
does not return, whatever the number of probe rounds allowed. -/
theorem C1_set_never_returns :
    ∀ nd : Bool, ∃ t, Reachable defaultFns nd t ∧
      ∀ fuel, _map_set defaultFns nd fuel t 20 1 = .error .fuel := by
  intro nd
  refine ⟨tbl [⟨4, MAP_TOMB, 0⟩, ⟨8, MAP_TOMB, 0⟩, ⟨12, 12, 1⟩, ⟨16, 16, 1⟩] 0 0,
    reachable_runFrom defaultFns nd 4 4
      [.set 4 1, .set 8 1, .del 4, .del 8, .set 12 1, .set 16 1] _ (by decide) ?_, ?_⟩
  · cases nd <;> decide
  · intro fuel
    have h := acquire_cycles fuel 0 UINTPTR_MAX (by decide)
    have hl : loadfactor_ge_max
        (tbl [⟨4, MAP_TOMB, 0⟩, ⟨8, MAP_TOMB, 0⟩, ⟨12, 12, 1⟩, ⟨16, 16, 1⟩] 0 0) = false := by
      decide
    unfold _map_set _map_acquirebucket
    simp only [hl]
    simp [tbl, defaultFns, _map_defaulthash] at h ⊢
    simp [h]

theorem tomb_ne_zero : MAP_TOMB ≠ 0 := by decide

theorem full_not_empty (b : MapBucket) (h : _mapbucket_isfull b = true) :
    _mapbucket_isempty b = false := by
  unfold _mapbucket_isfull at h
  unfold _mapbucket_isempty
  simp only [Bool.and_eq_true, bne_iff_ne, ne_eq] at h
  simp [h.1]

theorem full_not_tomb (b : MapBucket) (h : _mapbucket_isfull b = true) :
    _mapbucket_istomb b = false := by
  unfold _mapbucket_isfull at h
  unfold _mapbucket_istomb
  simp only [Bool.and_eq_true, bne_iff_ne, ne_eq] at h
  simp [h.2]

theorem tomb_not_empty (b : MapBucket) (h : _mapbucket_istomb b = true) :
    _mapbucket_isempty b = false := by
  unfold _mapbucket_istomb at h
  unfold _mapbucket_isempty
  simp only [Bool.and_eq_true, beq_iff_eq] at h
  simp [h.1, tomb_ne_zero]

theorem tomb_not_full (b : MapBucket) (h : _mapbucket_istomb b = true) :
    _mapbucket_isfull b = false := by
  unfold _mapbucket_istomb at h
  unfold _mapbucket_isfull
  simp only [Bool.and_eq_true, beq_iff_eq] at h
  simp [h.1]

theorem empty_not_full (b : MapBucket) (h : _mapbucket_isempty b = true) :
    _mapbucket_isfull b = false := by
  cases hf : _mapbucket_isfull b with
  | false => rfl
  | true => rw [full_not_empty b hf] at h; exact absurd h (by simp)

theorem empty_not_tomb (b : MapBucket) (h : _mapbucket_isempty b = true) :
    _mapbucket_istomb b = false := by
  cases hf : _mapbucket_istomb b with
  | false => rfl
  | true => rw [tomb_not_empty b hf] at h; exact absurd h (by simp)

theorem matches_full (fns : MapFns) (key h : Nat) (b : MapBucket)
    (hm : bucketMatches fns key h b = true) : _mapbucket_isfull b = true := by
  unfold bucketMatches at hm
  simp only [Bool.and_eq_true] at hm
  exact hm.1.1

theorem matches_iff (fns : MapFns) (key h : Nat) (b : MapBucket) :
    bucketMatches fns key h b = true ↔
      _mapbucket_isfull b = true ∧ h = b.hash ∧ fns.equals key b.key = true := by
  unfold bucketMatches
  simp only [Bool.and_eq_true, beq_iff_eq]
  tauto

theorem valid_full (h k v : Nat) (hk : ValidKey k) : _mapbucket_isfull ⟨h, k, v⟩ = true := by
  unfold _mapbucket_isfull
  simp [hk.1, hk.2]

theorem astomb_istomb (b : MapBucket) : _mapbucket_istomb (_mapbucket_astomb b) = true := by
  simp [_mapbucket_istomb, _mapbucket_astomb]

theorem tomb_never_stops (fns : MapFns) (key h : Nat) (b : MapBucket)
    (hb : _mapbucket_istomb b = true) : stopsAt fns key h b = false := by
  unfold stopsAt
  rw [tomb_not_empty b hb]
  cases hm : bucketMatches fns key h b with
  | false => rfl
  | true => exact absurd (matches_full fns key h b hm) (by simp [tomb_not_full b hb])

theorem empty_stops (fns : MapFns) (key h : Nat) (b : MapBucket)
    (hb : _mapbucket_isempty b = true) : stopsAt fns key h b = true := by
  simp [stopsAt, hb]

theorem getElem?_lt {α : Type} (l : List α) (i : Nat) (a : α) (h : l[i]? = some a) :
    i < l.length := by
  rcases List.getElem?_eq_some.mp h with ⟨hlt, _⟩; exact hlt

theorem countP_set_of {α : Type} (p : α → Bool) :
    ∀ (l : List α) (i : Nat) (a bi : α), l[i]? = some bi →
      (l.set i a).countP p + (if p bi then 1 else 0) = l.countP p + (if p a then 1 else 0) := by
  intro l
  induction l with
  | nil => intro i a bi h; simp at h
  | cons x l ih =>
    intro i a bi h
    cases i with
    | zero =>
      simp only [List.getElem?_cons_zero, Option.some.injEq] at h
      subst h
      simp only [List.set_cons_zero, List.countP_cons]
      omega
    | succ i =>
      simp only [List.getElem?_cons_succ] at h
      have := ih i a bi h
      simp only [List.set_cons_succ, List.countP_cons]
      omega

/-- An array with fewer non-Empty buckets than buckets has an Empty one. -/
theorem hasEmpty_of_count (bs : List MapBucket) (h : countUsed bs < bs.length) : HasEmpty bs := by
  by_contra hne
  have hall : ∀ b ∈ bs, (fun b => !_mapbucket_isempty b) b = true := by
    intro b hb
    obtain ⟨i, hi⟩ := List.mem_iff_getElem?.mp hb
    cases he : _mapbucket_isempty b with
    | false => simp [he]
    | true => exact absurd ⟨i, b, hi, he⟩ hne
  have := List.countP_eq_length.mpr hall
  unfold countUsed at h
  omega

theorem countUsed_shaped (bs : List MapBucket) (hs : Shaped bs) :
    countUsed bs = countFull bs + countTomb bs := by
  induction bs with
  | nil => rfl
  | cons b l ih =>
    have hl : Shaped l := fun x hx => hs x (List.mem_cons_of_mem _ hx)
    have hb := hs b (List.mem_cons_self _ _)
    have := ih hl
    unfold countUsed countFull countTomb at this ⊢
    simp only [List.countP_cons]
    rcases hb with he | hf | ht
    · simp [he, empty_not_full b he, empty_not_tomb b he]; omega
    · simp [hf, full_not_empty b hf, full_not_tomb b hf]; omega
    · simp [ht, tomb_not_empty b ht, tomb_not_full b ht]; omega

/-- Keys that are equal match the same buckets. -/
theorem matches_congr (fns : MapFns) (hk : KeyLaws fns) (k1 k2 : Nat)
    (he : fns.equals k1 k2 = true) (b : MapBucket) :
    bucketMatches fns k1 (fns.hash k1) b = bucketMatches fns k2 (fns.hash k2) b := by
  have hh := hk.hash_eq k1 k2 he
  have he2 : fns.equals k1 b.key = fns.equals k2 b.key := by
    cases h2 : fns.equals k2 b.key with
    | true => exact hk.trans _ _ _ he h2
    | false =>
      cases h1 : fns.equals k1 b.key with
      | false => rfl
      | true =>
        have := hk.trans _ _ _ (hk.symm _ _ he) h1
        rw [h2] at this; exact absurd this (by simp)
  unfold bucketMatches
  rw [hh, he2]

theorem stopL_equal_keys (fns : MapFns) (hk : KeyLaws fns) (bs : List MapBucket) (cap k1 k2 : Nat)
    (he : fns.equals k1 k2 = true) (fuel : Nat) :
    stopL fns bs cap k1 (fns.hash k1) fuel (fns.hash k1 % cap) =
      stopL fns bs cap k2 (fns.hash k2) fuel (fns.hash k2 % cap) := by
  rw [hk.hash_eq k1 k2 he]
  have := stopL_congr fns bs cap k1 (fns.hash k1) k2 (fns.hash k2)
    (fun b _ => matches_congr fns hk k1 k2 he b) fuel (fns.hash k2 % cap)
  rw [hk.hash_eq k1 k2 he] at this
  exact this

/-- Writing a Full bucket for `k` where the probe for `k` stopped keeps every stored key
found at its bucket. -/
theorem found_put (fns : MapFns) (hk : KeyLaws fns) (bs : List MapBucket) (cap k v : Nat)
    (hf : Found fns bs cap) (hv : ValidKey k) (fl : Bool) (i : Nat)
    (hs : stopL fns bs cap k (fns.hash k) cap (fns.hash k % cap) = .ok (fl, i)) :
    Found fns (bs.set i ⟨fns.hash k, k, v⟩) cap := by
  obtain ⟨bi, hbi, hmi, hei⟩ := stopL_spec fns bs cap k (fns.hash k) _ _ _ _ hs
  have hlt : i < bs.length := getElem?_lt bs i bi hbi
  have hnew : bucketMatches fns k (fns.hash k) ⟨fns.hash k, k, v⟩ = true := by
    rw [matches_iff]; exact ⟨valid_full _ _ _ hv, rfl, hk.refl k⟩
  intro j bj hj hfull
  by_cases hji : j = i
  · subst hji
    rw [List.getElem?_set_self hlt] at hj
    have : bj = ⟨fns.hash k, k, v⟩ := (Option.some.inj hj).symm
    subst this
    exact stopL_put fns bs cap k (fns.hash k) _ hnew _ _ _ _ hs
  · rw [List.getElem?_set_ne (Ne.symm hji)] at hj
    have hfj := hf j bj hj hfull
    refine stopL_frame fns bs cap bj.key (fns.hash bj.key) i bi _ hbi ?_ _ _ _ _ hfj hji
    cases hst : stopsAt fns bj.key (fns.hash bj.key) bi with
    | true => exact Or.inl rfl
    | false =>
      right
      unfold stopsAt at hst ⊢
      simp only [Bool.or_eq_false_iff] at hst ⊢
      refine ⟨?_, full_not_empty _ (valid_full _ _ _ hv)⟩
      cases fl with
      | false => rw [hei rfl] at hst; exact absurd hst.2 (by simp)
      | true =>
        cases hm2 : bucketMatches fns bj.key (fns.hash bj.key) ⟨fns.hash k, k, v⟩ with
        | false => rfl
        | true =>
          rw [matches_iff] at hm2 hmi
          have e1 : fns.equals bj.key bi.key = true := hk.trans _ _ _ hm2.2.2 hmi.2.2
          have : bucketMatches fns bj.key (fns.hash bj.key) bi = true := by
            rw [matches_iff]
            refine ⟨hmi.1, ?_, e1⟩
            rw [hm2.2.1]; exact hmi.2.1
          rw [this] at hst; exact absurd hst.1 (by simp)

/-- Turning a Full bucket into a Tombstone keeps every other stored key found. -/
theorem found_tomb (fns : MapFns) (bs : List MapBucket) (cap : Nat)
    (hf : Found fns bs cap) (i : Nat) (bi : MapBucket) (hbi : bs[i]? = some bi) :
    Found fns (bs.set i (_mapbucket_astomb bi)) cap := by
  have hlt : i < bs.length := getElem?_lt bs i bi hbi
  intro j bj hj hfull
  by_cases hji : j = i
  · subst hji
    rw [List.getElem?_set_self hlt] at hj
    have : bj = _mapbucket_astomb bi := (Option.some.inj hj).symm
    subst this
    rw [tomb_not_full _ (astomb_istomb bi)] at hfull
    exact absurd hfull (by simp)
  · rw [List.getElem?_set_ne (Ne.symm hji)] at hj
    exact stopL_frame fns bs cap bj.key (fns.hash bj.key) i bi _ hbi
      (Or.inr (tomb_never_stops fns _ _ _ (astomb_istomb bi))) _ _ _ _ (hf j bj hj hfull) hji

/-- A key equal to a stored key is found at the bucket that stores it. -/
theorem found_present (fns : MapFns) (hk : KeyLaws fns) (bs : List MapBucket) (cap k : Nat)
    (hf : Found fns bs cap) (i : Nat) (bi : MapBucket) (hbi : bs[i]? = some bi)
    (hfull : _mapbucket_isfull bi = true) (he : fns.equals k bi.key = true) :
    stopL fns bs cap k (fns.hash k) cap (fns.hash k % cap) = .ok (true, i) := by
  rw [stopL_equal_keys fns hk bs cap k bi.key he cap]
  exact hf i bi hbi hfull

/-- Two Full buckets with equal keys are the same bucket. -/
theorem found_unique (fns : MapFns) (hk : KeyLaws fns) (bs : List MapBucket) (cap : Nat)
    (hf : Found fns bs cap) (i j : Nat) (bi bj : MapBucket)
    (hbi : bs[i]? = some bi) (hbj : bs[j]? = some bj)
    (hfi : _mapbucket_isfull bi = true) (hfj : _mapbucket_isfull bj = true)
    (he : fns.equals bi.key bj.key = true) : i = j := by
  have h1 := hf i bi hbi hfi
  have h2 := found_present fns hk bs cap bi.key hf j bj hbj hfj he
  rw [h1] at h2
  simp only [Except.ok.injEq, Prod.mk.injEq, true_and] at h2
  exact h2

/-- A key that no Full bucket stores is not found, and the probe stops at an Empty bucket. -/
theorem found_absent (fns : MapFns) (bs : List MapBucket) (cap k : Nat)
    (hsz : bs.length = cap) (hcap : 0 < cap) (hemp : HasEmpty bs)
    (hno : ∀ b ∈ bs, _mapbucket_isfull b = true → fns.equals k b.key = false) :
    ∃ e, stopL fns bs cap k (fns.hash k) cap (fns.hash k % cap) = .ok (false, e) := by
  obtain ⟨r, hr⟩ := stopL_terminates fns bs cap k (fns.hash k) hsz hemp cap (fns.hash k % cap)
    (Nat.mod_lt _ hcap) (Nat.le_refl _)
  obtain ⟨fl, e⟩ := r
  cases fl with
  | false => exact ⟨e, hr⟩
  | true =>
    obtain ⟨b, hb, hm, _⟩ := stopL_spec fns bs cap k (fns.hash k) _ _ _ _ hr
    rw [matches_iff] at hm
    have := hno b (List.getElem?_mem hb) hm.1
    rw [hm.2.2] at this
    exact absurd this (by simp)

theorem map_acquirebucket_eq (fns : MapFns) (hp : LinearProbe fns) (fuel : Nat) (s : _Map)
    (key : Nat) (hcap : s.capacity ≠ 0) :
    _map_acquirebucket fns fuel s key =
      (stopL fns s.buckets s.capacity key (fns.hash key) fuel (fns.hash key % s.capacity)).map
        (acquireOf s (fns.hash key)
          (tombFinal fns s.buckets s.capacity key (fns.hash key) fuel
            (fns.hash key % s.capacity) UINTPTR_MAX)) := by
  unfold _map_acquirebucket
  rw [if_neg hcap, acquireLoop_eq fns hp]

theorem acquireOf_snd (s : _Map) (h tf : Nat) (r : Bool × Nat) : (acquireOf s h tf r).2 = r.2 := by
  unfold acquireOf
  split <;> rfl

theorem callValuedel_capacity (s : _Map) (p : Nat) : (callValuedel s p).capacity = s.capacity := by
  unfold callValuedel; split <;> rfl

theorem callKeydel_capacity (s : _Map) (p : Nat) : (callKeydel s p).capacity = s.capacity := by
  unfold callKeydel; split <;> rfl

theorem callValuedel_length (s : _Map) (p : Nat) : (callValuedel s p).length = s.length := by
  unfold callValuedel; split <;> rfl

theorem callKeydel_length (s : _Map) (p : Nat) : (callKeydel s p).length = s.length := by
  unfold callKeydel; split <;> rfl

theorem callValuedel_tombs (s : _Map) (p : Nat) : (callValuedel s p).tombs = s.tombs := by
  unfold callValuedel; split <;> rfl

theorem callKeydel_tombs (s : _Map) (p : Nat) : (callKeydel s p).tombs = s.tombs := by
  unfold callKeydel; split <;> rfl

theorem putOf_buckets (s : _Map) (h tf : Nat) (nb : MapBucket) (r : Bool × Nat) :
    (putOf s h tf nb r).buckets = s.buckets.set r.2 nb := by
  unfold putOf acquireOf
  by_cases hr : r.1 = true
  · simp [hr, callValuedel_buckets, callKeydel_buckets]
  · by_cases ht : (tf != UINTPTR_MAX) = true
    · simp [hr, ht, List.set_set]
    · simp [hr, ht, List.set_set]

theorem putOf_capacity (s : _Map) (h tf : Nat) (nb : MapBucket) (r : Bool × Nat) :
    (putOf s h tf nb r).capacity = s.capacity := by
  unfold putOf acquireOf
  by_cases hr : r.1 = true
  · simp [hr, callValuedel_capacity, callKeydel_capacity]
  · by_cases ht : (tf != UINTPTR_MAX) = true
    · simp [hr, ht]
    · simp [hr, ht]

theorem putOf_length (s : _Map) (h tf : Nat) (nb : MapBucket) (r : Bool × Nat) :
    (putOf s h tf nb r).length =
      if r.1 = true then s.length
      else if tf = UINTPTR_MAX then (s.length + 1) % UWORD else s.length := by
  unfold putOf acquireOf
  by_cases hr : r.1 = true
  · simp [hr, callValuedel_length, callKeydel_length]
  · by_cases ht : tf = UINTPTR_MAX
    · simp [hr, ht]
    · simp [hr, ht]

theorem putOf_tombs (s : _Map) (h tf : Nat) (nb : MapBucket) (r : Bool × Nat) :
    (putOf s h tf nb r).tombs =
      if r.1 = true then s.tombs
      else if tf = UINTPTR_MAX then s.tombs else (s.tombs + UWORD - 1) % UWORD := by
  unfold putOf acquireOf
  by_cases hr : r.1 = true
  · simp [hr, callValuedel_tombs, callKeydel_tombs]
  · by_cases ht : tf = UINTPTR_MAX
    · simp [hr, ht]
    · simp [hr, ht]

/-- The bucket `_map_acquirebucket` returns caches the hash of the key. -/
theorem acquireOf_bucket (fns : MapFns) (s : _Map) (key h tf : Nat) (fl : Bool) (i : Nat)
    (bi : MapBucket) (hbi : s.buckets[i]? = some bi) (hm : bucketMatches fns key h bi = fl)
    (he : fl = false → _mapbucket_isempty bi = true) :
    ∃ x, (acquireOf s h tf (fl, i)).1.buckets[i]? = some x ∧ x.hash = h ∧
      (fl = false → x.key = 0 ∧ x.value = 0) ∧ (fl = true → x = bi) := by
  have hlt := getElem?_lt _ _ _ hbi
  cases fl with
  | true =>
    refine ⟨bi, ?_, ?_, by simp, fun _ => rfl⟩
    · simp [acquireOf, callValuedel_buckets, callKeydel_buckets, hbi]
    · rw [matches_iff] at hm; exact hm.2.1.symm
  | false =>
    have hemp := he rfl
    unfold _mapbucket_isempty at hemp
    simp only [Bool.and_eq_true, beq_iff_eq] at hemp
    refine ⟨{ bi with hash := h }, ?_, rfl, fun _ => hemp, by simp⟩
    unfold acquireOf
    by_cases ht : (tf != UINTPTR_MAX) = true
    · simp [ht, hbi, List.getElem?_set_self hlt]
    · simp [ht, hbi, List.getElem?_set_self hlt]

theorem map_set_eq (fns : MapFns) (nd : Bool) (fuel : Nat) (s : _Map) (key value : Nat) :
    _map_set fns nd fuel s key value =
      match growFor fns nd fuel s with
      | .error e => .error e
      | .ok s1 =>
        match _map_acquirebucket fns fuel s1 key with
        | .error e => .error e
        | .ok (s2, b) =>
          match loadBucket s2 b with
          | .error e => .error e
          | .ok x => .ok { s2 with buckets := s2.buckets.set b { x with key := key, value := value } } := by
  rfl

/-- After its growth step `_map_set` writes the bucket `(hash key, key, value)` where the
probe for `key` stops. -/
theorem map_set_put (fns : MapFns) (hp : LinearProbe fns) (nd : Bool) (fuel : Nat) (s s1 : _Map)
    (key value : Nat) (hg : growFor fns nd fuel s = .ok s1) (hcap : s1.capacity ≠ 0) :
    _map_set fns nd fuel s key value =
      (stopL fns s1.buckets s1.capacity key (fns.hash key) fuel
          (fns.hash key % s1.capacity)).map
        (putOf s1 (fns.hash key)
          (tombFinal fns s1.buckets s1.capacity key (fns.hash key) fuel
            (fns.hash key % s1.capacity) UINTPTR_MAX) ⟨fns.hash key, key, value⟩) := by
  rw [map_set_eq, hg]
  simp only
  rw [map_acquirebucket_eq fns hp fuel s1 key hcap]
  cases hs : stopL fns s1.buckets s1.capacity key (fns.hash key) fuel
      (fns.hash key % s1.capacity) with
  | error e => rfl
  | ok r =>
    obtain ⟨fl, i⟩ := r
    obtain ⟨bi, hbi, hm, he⟩ := stopL_spec fns _ _ _ _ _ _ _ _ hs
    obtain ⟨x, hx, hxh, hx0, hx1⟩ := acquireOf_bucket fns s1 key (fns.hash key)
      (tombFinal fns s1.buckets s1.capacity key (fns.hash key) fuel
            (fns.hash key % s1.capacity) UINTPTR_MAX) fl i bi hbi hm he
    simp only [Except.map, loadBucket, acquireOf_snd, hx]
    unfold putOf
    congr 3
    rw [← hxh]

theorem full_valid (b : MapBucket) (h : _mapbucket_isfull b = true) : ValidKey b.key := by
  unfold _mapbucket_isfull at h
  simp only [Bool.and_eq_true, bne_iff_ne, ne_eq] at h
  exact h

/-- With an Empty bucket in the array, a probe that stops does so within `cap` steps. -/
theorem stop_at_cap (fns : MapFns) (bs : List MapBucket) (cap key h : Nat)
    (hsz : bs.length = cap) (hemp : HasEmpty bs) (fuel idx : Nat) (hidx : idx < cap)
    (r : Bool × Nat) (hs : stopL fns bs cap key h fuel idx = .ok r) :
    stopL fns bs cap key h cap idx = .ok r := by
  obtain ⟨r1, hr1⟩ := stopL_terminates fns bs cap key h hsz hemp cap idx hidx (Nat.le_refl _)
  rcases Nat.le_total fuel cap with hle | hle
  · exact stopL_mono fns bs cap key h _ _ _ hs cap hle
  · have := stopL_mono fns bs cap key h _ _ _ hr1 fuel hle
    rw [hs] at this
    rw [hr1, ← Except.ok.inj this]

theorem tombFinal_noTomb (fns : MapFns) (bs : List MapBucket) (cap key h : Nat)
    (hn : NoTomb bs) :
    ∀ fuel idx, tombFinal fns bs cap key h fuel idx UINTPTR_MAX = UINTPTR_MAX := by
  intro fuel
  induction fuel with
  | zero => intro idx; rfl
  | succ n ih =>
    intro idx
    unfold tombFinal
    cases hb : bs[idx]? with
    | none => rfl
    | some b =>
      simp only [hn b (List.getElem?_mem hb), Bool.false_and, Bool.false_eq_true, if_false]
      split
      · rfl
      · split
        · rfl
        · exact ih _

/-- A final `tombidx` other than the initial one means some bucket is a Tombstone. -/
theorem tombFinal_changed (fns : MapFns) (bs : List MapBucket) (cap key h : Nat) :
    ∀ fuel idx tomb, tombFinal fns bs cap key h fuel idx tomb ≠ tomb →
      ∃ b ∈ bs, _mapbucket_istomb b = true := by
  intro fuel
  induction fuel with
  | zero => intro idx tomb hne; exact absurd rfl hne
  | succ n ih =>
    intro idx tomb hne
    unfold tombFinal at hne
    cases hb : bs[idx]? with
    | none => simp [hb] at hne
    | some b =>
      simp only [hb] at hne
      cases ht : _mapbucket_istomb b with
      | true => exact ⟨b, List.getElem?_mem hb, ht⟩
      | false =>
        simp only [ht, Bool.false_and, Bool.false_eq_true, if_false] at hne
        split at hne
        · exact absurd rfl hne
        · split at hne
          · exact absurd rfl hne
          · exact ih _ _ hne

/-- Counts of Full, Tombstone and non-Empty buckets after a Full bucket is written where a
probe stopped. -/
theorem put_counts (fns : MapFns) (bs : List MapBucket) (key h : Nat) (nb bi : MapBucket)
    (fl : Bool) (i : Nat) (hbi : bs[i]? = some bi) (hm : bucketMatches fns key h bi = fl)
    (he : fl = false → _mapbucket_isempty bi = true) (hnb : _mapbucket_isfull nb = true) :
    countFull (bs.set i nb) = countFull bs + (if fl = true then 0 else 1) ∧
    countTomb (bs.set i nb) = countTomb bs ∧
    countUsed (bs.set i nb) = countUsed bs + (if fl = true then 0 else 1) := by
  have h1 := countP_set_of _mapbucket_isfull bs i nb bi hbi
  have h2 := countP_set_of _mapbucket_istomb bs i nb bi hbi
  have h3 := countP_set_of (fun b => !_mapbucket_isempty b) bs i nb bi hbi
  unfold countFull countTomb countUsed
  simp only [hnb, full_not_tomb nb hnb, full_not_empty nb hnb, if_true] at h1 h2 h3
  cases fl with
  | true =>
    have hf := matches_full fns key h bi hm
    simp only [hf, full_not_tomb bi hf, full_not_empty bi hf, if_true] at h1 h2 h3
    simp at h2 h3 ⊢
    omega
  | false =>
    have hemp := he rfl
    simp only [hemp, empty_not_full bi hemp, empty_not_tomb bi hemp] at h1 h2 h3
    simp at h1 h2 h3 ⊢
    omega

/-- Writing the bucket `(hash k, k, v)` where the probe for `k` stops keeps the array well
formed. -/
theorem put_sound (fns : MapFns) (hk : KeyLaws fns) (s : _Map) (k v tf : Nat)
    (hs : Sound fns s) (hemp : HasEmpty s.buckets) (hcap : 0 < s.capacity) (hv : ValidKey k)
    (fuel : Nat) (r : Bool × Nat)
    (hr : stopL fns s.buckets s.capacity k (fns.hash k) fuel (fns.hash k % s.capacity) = .ok r) :
    Sound fns (putOf s (fns.hash k) tf ⟨fns.hash k, k, v⟩ r) := by
  obtain ⟨fl, i⟩ := r
  have hr2 := stop_at_cap fns s.buckets s.capacity k (fns.hash k) hs.size hemp fuel _
    (Nat.mod_lt _ hcap) _ hr
  constructor
  · rw [putOf_buckets, putOf_capacity, List.length_set]; exact hs.size
  · rw [putOf_capacity]; exact hs.small
  · rw [putOf_buckets]
    intro b hb
    rcases List.mem_or_eq_of_mem_set hb with hb1 | hb1
    · exact hs.shaped b hb1
    · subst hb1; exact Or.inr (Or.inl (valid_full _ _ _ hv))
  · rw [putOf_buckets]
    intro b hb hfull
    rcases List.mem_or_eq_of_mem_set hb with hb1 | hb1
    · exact hs.cached b hb1 hfull
    · subst hb1; rfl
  · rw [putOf_buckets, putOf_capacity]
    exact found_put fns hk s.buckets s.capacity k v hs.found hv fl i hr2

theorem rehashLoop_cons_full (fns : MapFns) (hp : LinearProbe fns) (fuel oldlen : Nat)
    (b : MapBucket) (rest : List MapBucket) (moved : Nat) (s : _Map)
    (hfull : _mapbucket_isfull b = true) (hlt : moved < oldlen) (hcap : s.capacity ≠ 0) :
    rehashLoop fns fuel oldlen (b :: rest) moved s =
      match stopL fns s.buckets s.capacity b.key (fns.hash b.key) fuel
          (fns.hash b.key % s.capacity) with
      | .error e => .error e
      | .ok r =>
        rehashLoop fns fuel oldlen rest (moved + 1)
          (putOf s (fns.hash b.key)
            (tombFinal fns s.buckets s.capacity b.key (fns.hash b.key) fuel
              (fns.hash b.key % s.capacity) UINTPTR_MAX) b r) := by
  rw [rehashLoop]
  simp only [hlt, hfull, if_true]
  rw [map_acquirebucket_eq fns hp fuel s b.key hcap]
  cases hs : stopL fns s.buckets s.capacity b.key (fns.hash b.key) fuel
      (fns.hash b.key % s.capacity) with
  | error e => rfl
  | ok r =>
    simp only [Except.map]
    cases ha : acquireOf s (fns.hash b.key)
      (tombFinal fns s.buckets s.capacity b.key (fns.hash b.key) fuel
        (fns.hash b.key % s.capacity) UINTPTR_MAX) r with
    | mk s2 dst =>
      have h2 := acquireOf_snd s (fns.hash b.key)
        (tombFinal fns s.buckets s.capacity b.key (fns.hash b.key) fuel
          (fns.hash b.key % s.capacity) UINTPTR_MAX) r
      rw [ha] at h2
      simp only at h2
      subst h2
      simp only [putOf, ha]

theorem rehashLoop_cons_skip (fns : MapFns) (fuel oldlen : Nat)
    (b : MapBucket) (rest : List MapBucket) (moved : Nat) (s : _Map)
    (hfull : _mapbucket_isfull b = false) (hlt : moved < oldlen) :
    rehashLoop fns fuel oldlen (b :: rest) moved s = rehashLoop fns fuel oldlen rest moved s := by
  rw [rehashLoop]
  simp [hlt, hfull]

theorem rehashLoop_cons_stop (fns : MapFns) (fuel oldlen : Nat)
    (b : MapBucket) (rest : List MapBucket) (moved : Nat) (s : _Map) (hge : ¬ moved < oldlen) :
    rehashLoop fns fuel oldlen (b :: rest) moved s = .ok (s, moved) := by
  rw [rehashLoop]
  simp [hge]

theorem countTomb_noTomb (bs : List MapBucket) (h : NoTomb bs) : countTomb bs = 0 := by
  unfold countTomb
  rw [List.countP_eq_zero]
  intro b hb
  simp [h b hb]

theorem fresh_hasEmpty (fns : MapFns) (ncap : Nat) (s : _Map) (hf : Fresh fns ncap s)
    (hroom : countFull s.buckets < ncap) : HasEmpty s.buckets := by
  apply hasEmpty_of_count
  rw [countUsed_shaped _ hf.sound.shaped, countTomb_noTomb _ hf.notomb, hf.sound.size, hf.cap]
  omega

theorem bucket_eta (fns : MapFns) (b : MapBucket) (hc : b.hash = fns.hash b.key) :
    (⟨fns.hash b.key, b.key, b.value⟩ : MapBucket) = b := by
  cases b; simp only at hc; subst hc; rfl

/-- Moving one Full bucket into the new array keeps it well formed and counted. -/
theorem put_fresh (fns : MapFns) (hk : KeyLaws fns) (ncap : Nat) (s : _Map) (b : MapBucket)
    (hf : Fresh fns ncap s) (hfull : _mapbucket_isfull b = true)
    (hc : b.hash = fns.hash b.key) (hroom : countFull s.buckets < ncap)
    (fuel : Nat) (r : Bool × Nat)
    (hr : stopL fns s.buckets s.capacity b.key (fns.hash b.key) fuel
      (fns.hash b.key % s.capacity) = .ok r) :
    Fresh fns ncap (putOf s (fns.hash b.key)
        (tombFinal fns s.buckets s.capacity b.key (fns.hash b.key) fuel
          (fns.hash b.key % s.capacity) UINTPTR_MAX) b r) ∧
      countFull (putOf s (fns.hash b.key)
        (tombFinal fns s.buckets s.capacity b.key (fns.hash b.key) fuel
          (fns.hash b.key % s.capacity) UINTPTR_MAX) b r).buckets =
        countFull s.buckets + (if r.1 = true then 0 else 1) := by
  have hemp := fresh_hasEmpty fns ncap s hf hroom
  have hcap : 0 < s.capacity := by rw [hf.cap]; omega
  rw [tombFinal_noTomb fns _ _ _ _ hf.notomb]
  have hsound := put_sound fns hk s b.key b.value UINTPTR_MAX hf.sound hemp hcap
    (full_valid b hfull) fuel r hr
  rw [bucket_eta fns b hc] at hsound
  obtain ⟨fl, i⟩ := r
  obtain ⟨bi, hbi, hm, he⟩ := stopL_spec fns _ _ _ _ _ _ _ _ hr
  obtain ⟨c1, _, _⟩ := put_counts fns s.buckets b.key (fns.hash b.key) b bi fl i hbi hm he hfull
  have hsmall := hf.sound.small
  have hle : countFull s.buckets ≤ s.buckets.length := List.countP_le_length _
  refine ⟨⟨hsound, ?_, ?_, ?_, ?_⟩, ?_⟩
  · rw [putOf_capacity]; exact hf.cap
  · rw [putOf_buckets]
    intro x hx
    rcases List.mem_or_eq_of_mem_set hx with hx1 | hx1
    · exact hf.notomb x hx1
    · subst hx1; exact full_not_tomb _ hfull
  · rw [putOf_tombs]; simp [hf.tombs]
  · rw [putOf_length, putOf_buckets, c1, hf.length]
    simp only [if_true]
    cases fl with
    | true => simp
    | false =>
      simp only [Bool.false_eq_true, if_false]
      apply Nat.mod_eq_of_lt
      rw [hf.sound.size] at hle
      unfold sizeof_MapBucket at hsmall
      omega
  · rw [putOf_buckets]; exact c1

/-- Whatever the copy loop of `map_rehash` returns is well formed and counted, and holds
no more Full buckets than it held before plus those left to copy. -/
theorem rehashLoop_fresh (fns : MapFns) (hp : LinearProbe fns) (hk : KeyLaws fns)
    (fuel oldlen ncap : Nat) :
    ∀ (rest : List MapBucket) (moved : Nat) (s : _Map) (r : _Map × Nat),
      Fresh fns ncap s → Cached fns rest → countFull s.buckets + countFull rest ≤ ncap →
      rehashLoop fns fuel oldlen rest moved s = .ok r →
      Fresh fns ncap r.1 ∧ countFull r.1.buckets ≤ countFull s.buckets + countFull rest := by
  intro rest
  induction rest with
  | nil =>
    intro moved s r hf _ _ h
    simp only [rehashLoop, Except.ok.injEq] at h
    subst h; exact ⟨hf, Nat.le_add_right _ _⟩
  | cons b rest ih =>
    intro moved s r hf hc hroom h
    have hcr : Cached fns rest := fun x hx => hc x (List.mem_cons_of_mem _ hx)
    by_cases hlt : moved < oldlen
    · cases hfull : _mapbucket_isfull b with
      | false =>
        rw [rehashLoop_cons_skip fns fuel oldlen b rest moved s hfull hlt] at h
        have : countFull (b :: rest) = countFull rest := by
          unfold countFull; simp [List.countP_cons, hfull]
        obtain ⟨h1, h2⟩ := ih moved s r hf hcr (by omega) h
        exact ⟨h1, by omega⟩
      | true =>
        have hcnt : countFull (b :: rest) = countFull rest + 1 := by
          unfold countFull; simp [List.countP_cons, hfull]
        have hcap : s.capacity ≠ 0 := by rw [hf.cap]; omega
        rw [rehashLoop_cons_full fns hp fuel oldlen b rest moved s hfull hlt hcap] at h
        cases hs : stopL fns s.buckets s.capacity b.key (fns.hash b.key) fuel
            (fns.hash b.key % s.capacity) with
        | error e => simp [hs] at h
        | ok r1 =>
          simp only [hs] at h
          obtain ⟨hf1, hc1⟩ := put_fresh fns hk ncap s b hf hfull
            (hc b (List.mem_cons_self _ _) hfull) (by omega) fuel r1 hs
          obtain ⟨h1, h2⟩ := ih _ _ r hf1 hcr (by rw [hc1]; split <;> omega) h
          refine ⟨h1, ?_⟩
          rw [hc1] at h2
          split at h2 <;> omega
    · rw [rehashLoop_cons_stop fns fuel oldlen b rest moved s hlt] at h
      simp only [Except.ok.injEq] at h
      subst h; exact ⟨hf, Nat.le_add_right _ _⟩

theorem putOf_dtors (s : _Map) (h tf : Nat) (nb : MapBucket) (i : Nat) :
    (putOf s h tf nb (false, i)).dtors = s.dtors := by
  unfold putOf acquireOf
  by_cases ht : (tf != UINTPTR_MAX) = true
  · simp [ht]
  · simp [ht]

theorem putOf_keydel (s : _Map) (h tf : Nat) (nb : MapBucket) (r : Bool × Nat) :
    (putOf s h tf nb r).keydel = s.keydel := by
  unfold putOf acquireOf callValuedel callKeydel
  by_cases hr : r.1 = true
  · by_cases h1 : s.keydel = true <;> by_cases h2 : s.valuedel = true <;> simp [hr, h1, h2]
  · by_cases ht : (tf != UINTPTR_MAX) = true
    · simp [hr, ht]
    · simp [hr, ht]

theorem putOf_valuedel (s : _Map) (h tf : Nat) (nb : MapBucket) (r : Bool × Nat) :
    (putOf s h tf nb r).valuedel = s.valuedel := by
  unfold putOf acquireOf callValuedel callKeydel
  by_cases hr : r.1 = true
  · by_cases h1 : s.keydel = true <;> by_cases h2 : s.valuedel = true <;> simp [hr, h1, h2]
  · by_cases ht : (tf != UINTPTR_MAX) = true
    · simp [hr, ht]
    · simp [hr, ht]

theorem countFull_cons (b : MapBucket) (rest : List MapBucket) :
    countFull (b :: rest) = countFull rest + (if _mapbucket_isfull b = true then 1 else 0) := by
  unfold countFull; rw [List.countP_cons]

theorem countFull_zero (bs : List MapBucket) (h : countFull bs = 0) :
    ∀ b ∈ bs, _mapbucket_isfull b = false := by
  unfold countFull at h
  rw [List.countP_eq_zero] at h
  intro b hb
  cases hf : _mapbucket_isfull b with
  | false => rfl
  | true => exact absurd hf (h b hb)

/-- With accurate bookkeeping the copy loop of `map_rehash` returns, and the new array then
holds every bucket it held before and every Full bucket of the old array. -/
theorem rehashLoop_content (fns : MapFns) (hp : LinearProbe fns) (hk : KeyLaws fns)
    (fuel oldlen ncap : Nat) (hfuel : ncap ≤ fuel) :
    ∀ (rest : List MapBucket) (moved : Nat) (s : _Map),
      Fresh fns ncap s → Cached fns rest → countFull s.buckets + countFull rest ≤ ncap →
      rest.Pairwise (DistinctKeys fns) →
      (∀ x ∈ s.buckets, ∀ y ∈ rest, DistinctKeys fns y x) →
      moved + countFull rest = oldlen →
      ∃ s1, rehashLoop fns fuel oldlen rest moved s = .ok (s1, oldlen) ∧ Fresh fns ncap s1 ∧
        (∀ x ∈ s.buckets, _mapbucket_isfull x = true → x ∈ s1.buckets) ∧
        (∀ y ∈ rest, _mapbucket_isfull y = true → y ∈ s1.buckets) ∧
        (∀ z ∈ s1.buckets, _mapbucket_isfull z = true → z ∈ s.buckets ∨ z ∈ rest) ∧
        countFull s1.buckets = countFull s.buckets + countFull rest ∧
        s1.dtors = s.dtors ∧ s1.keydel = s.keydel ∧ s1.valuedel = s.valuedel := by
  intro rest
  induction rest with
  | nil =>
    intro moved s hf _ _ _ _ hm
    have : moved = oldlen := by simpa [countFull] using hm
    subst this
    exact ⟨s, rfl, hf, fun x _ _ => ‹x ∈ s.buckets›, by simp, fun z hz _ => Or.inl hz,
      by simp [countFull], rfl, rfl, rfl⟩
  | cons b rest ih =>
    intro moved s hf hc hroom hpw hdis hm
    have hcr : Cached fns rest := fun x hx => hc x (List.mem_cons_of_mem _ hx)
    rw [List.pairwise_cons] at hpw
    rw [countFull_cons] at hm hroom
    cases hfull : _mapbucket_isfull b with
    | false =>
      simp only [hfull, Bool.false_eq_true, if_false, Nat.add_zero] at hm hroom
      have hdis1 : ∀ x ∈ s.buckets, ∀ y ∈ rest, DistinctKeys fns y x :=
        fun x hx y hy => hdis x hx y (List.mem_cons_of_mem _ hy)
      obtain ⟨s1, h1, hf1, hx1, hy1, hz1, hc1, hd1⟩ := ih moved s hf hcr hroom hpw.2 hdis1 hm
      refine ⟨s1, ?_, hf1, hx1, ?_, ?_, ?_, hd1⟩
      · by_cases hlt : moved < oldlen
        · rw [rehashLoop_cons_skip fns fuel oldlen b rest moved s hfull hlt]; exact h1
        · rw [rehashLoop_cons_stop fns fuel oldlen b rest moved s hlt]
          have h0 : countFull rest = 0 := by omega
          have hmo : moved = oldlen := by omega
          cases rest with
          | nil => rw [← h1]; simp [rehashLoop]
          | cons c rest2 =>
            rw [rehashLoop_cons_stop fns fuel oldlen c rest2 moved s hlt] at h1
            rw [h1]
      · intro y hy hyf
        rcases List.mem_cons.mp hy with rfl | hy2
        · rw [hfull] at hyf; exact absurd hyf (by simp)
        · exact hy1 y hy2 hyf
      · intro z hz hzf
        rcases hz1 z hz hzf with h | h
        · exact Or.inl h
        · exact Or.inr (List.mem_cons_of_mem _ h)
      · rw [countFull_cons, hc1]; simp [hfull]
    | true =>
      simp only [hfull, if_true] at hm hroom
      have hlt : moved < oldlen := by omega
      have hcapp : 0 < s.capacity := by rw [hf.cap]; omega
      have hcap : s.capacity ≠ 0 := by omega
      have hemp := fresh_hasEmpty fns ncap s hf (by omega)
      obtain ⟨r, hr⟩ := stopL_terminates fns s.buckets s.capacity b.key (fns.hash b.key)
        hf.sound.size hemp fuel (fns.hash b.key % s.capacity) (Nat.mod_lt _ hcapp)
        (by rw [hf.cap]; exact hfuel)
      obtain ⟨hf1, hc1⟩ := put_fresh fns hk ncap s b hf hfull
        (hc b (List.mem_cons_self _ _) hfull) (by omega) fuel r hr
      obtain ⟨fl, i⟩ := r
      obtain ⟨bi, hbi, hmi, hei⟩ := stopL_spec fns _ _ _ _ _ _ _ _ hr
      have hfl : fl = false := by
        cases fl with
        | false => rfl
        | true =>
          rw [matches_iff] at hmi
          have := hdis bi (List.getElem?_mem hbi) b (List.mem_cons_self _ _) hfull hmi.1
          rw [hmi.2.2] at this; exact absurd this (by simp)
      subst hfl
      have hbie := hei rfl
      have hlti := getElem?_lt _ _ _ hbi
      have hdis1 : ∀ x ∈ (putOf s (fns.hash b.key)
          (tombFinal fns s.buckets s.capacity b.key (fns.hash b.key) fuel
            (fns.hash b.key % s.capacity) UINTPTR_MAX) b (false, i)).buckets,
          ∀ y ∈ rest, DistinctKeys fns y x := by
        intro x hx y hy
        rw [putOf_buckets] at hx
        rcases List.mem_or_eq_of_mem_set hx with hx1 | hx1
        · exact hdis x hx1 y (List.mem_cons_of_mem _ hy)
        · subst hx1
          intro hyf hxf
          have := hpw.1 y hy hxf hyf
          cases he : fns.equals y.key x.key with
          | false => rfl
          | true => rw [hk.symm _ _ he] at this; exact absurd this (by simp)
      simp only [Bool.false_eq_true, if_false] at hc1
      obtain ⟨s1, h1, hfs1, hx1, hy1, hz1, hcnt1, hd1, hkd1, hvd1⟩ :=
        ih (moved + 1) _ hf1 hcr (by rw [hc1]; omega) hpw.2 hdis1 (by omega)
      refine ⟨s1, ?_, hfs1, ?_, ?_, ?_, ?_, ?_, ?_, ?_⟩
      · rw [rehashLoop_cons_full fns hp fuel oldlen b rest moved s hfull hlt hcap, hr]
        exact h1
      · intro x hx hxf
        apply hx1 x _ hxf
        rw [putOf_buckets]
        obtain ⟨j, hj⟩ := List.mem_iff_getElem?.mp hx
        have hji : i ≠ j := by
          rintro rfl
          rw [hbi] at hj
          have : bi = x := Option.some.inj hj
          subst this
          rw [full_not_empty _ hxf] at hbie; exact absurd hbie (by simp)
        apply List.mem_iff_getElem?.mpr
        exact ⟨j, by rw [List.getElem?_set_ne hji]; exact hj⟩
      · intro y hy hyf
        rcases List.mem_cons.mp hy with rfl | hy2
        · apply hx1 y _ hyf
          rw [putOf_buckets]
          apply List.mem_iff_getElem?.mpr
          exact ⟨i, List.getElem?_set_self hlti⟩
        · exact hy1 y hy2 hyf
      · intro z hz hzf
        rcases hz1 z hz hzf with h | h
        · rw [putOf_buckets] at h
          rcases List.mem_or_eq_of_mem_set h with h2 | h2
          · exact Or.inl h2
          · exact Or.inr (by rw [h2]; exact List.mem_cons_self _ _)
        · exact Or.inr (List.mem_cons_of_mem _ h)
      · rw [hcnt1, hc1, countFull_cons]; simp [hfull]; omega
      · rw [hd1, putOf_dtors]
      · rw [hkd1, putOf_keydel]
      · rw [hvd1, putOf_valuedel]

theorem found_replicate (fns : MapFns) (n cap : Nat) :
    Found fns (List.replicate n ⟨0, 0, 0⟩) cap := by
  intro i b hb hfull
  have := List.eq_of_mem_replicate (List.getElem?_mem hb)
  subst this
  exact absurd hfull (by decide)

/-- The zeroed array `map_rehash` allocates is well formed and counted. -/
theorem fresh_replicate (fns : MapFns) (t : _Map) (ncap : Nat)
    (hsmall : ¬ UWORD ≤ sizeof_MapBucket * ncap) :
    Fresh fns ncap { t with tombs := 0, length := 0, capacity := ncap,
                            buckets := List.replicate ncap ⟨0, 0, 0⟩ } := by
  have hmem : ∀ b ∈ List.replicate ncap (⟨0, 0, 0⟩ : MapBucket), b = ⟨0, 0, 0⟩ :=
    fun b hb => List.eq_of_mem_replicate hb
  refine ⟨⟨by simp, by simp only; omega, ?_, ?_, found_replicate fns ncap ncap⟩, rfl, ?_, rfl, ?_⟩
  · intro b hb; rw [hmem b hb]; exact Or.inl (by decide)
  · intro b hb hfull; rw [hmem b hb] at hfull; exact absurd hfull (by decide)
  · intro b hb; rw [hmem b hb]; decide
  · simp only [countFull]
    symm
    rw [List.countP_eq_zero]
    intro b hb; rw [hmem b hb]; decide

theorem pairwise_distinct (fns : MapFns) (hk : KeyLaws fns) (bs : List MapBucket) (cap : Nat)
    (hf : Found fns bs cap) : bs.Pairwise (DistinctKeys fns) := by
  rw [List.pairwise_iff_getElem]
  intro i j hi hj hij hfi hfj
  cases he : fns.equals bs[i].key bs[j].key with
  | false => rfl
  | true =>
    have := found_unique fns hk bs cap hf i j bs[i] bs[j] (List.getElem?_eq_getElem hi)
      (List.getElem?_eq_getElem hj) hfi hfj he
    omega

theorem rehashTo_eq (fns : MapFns) (nd : Bool) (fuel : Nat) (t : _Map) (ncap : Nat)
    (hsmall : ¬ UWORD ≤ sizeof_MapBucket * ncap) (hsz : t.buckets.length = t.capacity) :
    rehashTo fns nd fuel t ncap =
      match rehashLoop fns fuel t.length t.buckets 0
          { t with tombs := 0, length := 0, capacity := ncap,
                   buckets := List.replicate ncap ⟨0, 0, 0⟩ } with
      | .error e => .error e
      | .ok (s, moved) => if !nd && moved != t.length then .error .assertion else .ok s := by
  unfold rehashTo
  rw [if_neg hsmall, List.take_of_length_le (by omega)]

/-- Whatever `map_rehash` builds in a new array is well formed, counted and free of
Tombstones, and holds no more Full buckets than the old array. -/
theorem rehashTo_fresh (fns : MapFns) (hp : LinearProbe fns) (hk : KeyLaws fns) (nd : Bool)
    (fuel : Nat) (t t1 : _Map) (ncap : Nat) (hs : Sound fns t) (hle : t.capacity ≤ ncap)
    (h : rehashTo fns nd fuel t ncap = .ok t1) :
    Fresh fns ncap t1 ∧ countFull t1.buckets ≤ countFull t.buckets := by
  by_cases hsmall : UWORD ≤ sizeof_MapBucket * ncap
  · unfold rehashTo at h; simp [hsmall] at h
  · rw [rehashTo_eq fns nd fuel t ncap hsmall hs.size] at h
    cases hl : rehashLoop fns fuel t.length t.buckets 0
          { t with tombs := 0, length := 0, capacity := ncap,
                   buckets := List.replicate ncap ⟨0, 0, 0⟩ } with
    | error e => simp [hl] at h
    | ok r =>
      obtain ⟨s, moved⟩ := r
      simp only [hl] at h
      have hfr := fresh_replicate fns t ncap hsmall
      have hcl : countFull t.buckets ≤ t.buckets.length := List.countP_le_length _
      have hsz := hs.size
      have h0 : countFull (List.replicate ncap (⟨0, 0, 0⟩ : MapBucket)) = 0 := by
        have := hfr.length; simp only at this; exact this.symm
      obtain ⟨this, hcnt⟩ := rehashLoop_fresh fns hp hk fuel t.length ncap t.buckets 0 _ _ hfr
        hs.cached (by simp only; omega) hl
      simp only at hcnt
      split at h
      · simp at h
      · simp only [Except.ok.injEq] at h; subst h; exact ⟨this, by omega⟩

/-- With accurate bookkeeping `map_rehash` into a new array returns, and the new array holds
exactly the Full buckets of the old one. -/
theorem rehashTo_total (fns : MapFns) (hp : LinearProbe fns) (hk : KeyLaws fns) (nd : Bool)
    (fuel : Nat) (t : _Map) (ncap : Nat) (hs : Sound fns t) (hlen : t.length = countFull t.buckets)
    (hle : t.capacity ≤ ncap) (hsmall : sizeof_MapBucket * ncap < UWORD) (hfuel : ncap ≤ fuel) :
    ∃ t1, rehashTo fns nd fuel t ncap = .ok t1 ∧ Fresh fns ncap t1 ∧
      (∀ b ∈ t.buckets, _mapbucket_isfull b = true → b ∈ t1.buckets) ∧
      (∀ b ∈ t1.buckets, _mapbucket_isfull b = true → b ∈ t.buckets) ∧
      countFull t1.buckets = countFull t.buckets ∧
      t1.dtors = t.dtors ∧ t1.keydel = t.keydel ∧ t1.valuedel = t.valuedel := by
  have hsm : ¬ UWORD ≤ sizeof_MapBucket * ncap := by omega
  have hfr := fresh_replicate fns t ncap hsm
  have hcl : countFull t.buckets ≤ t.buckets.length := List.countP_le_length _
  have hsz := hs.size
  have hmem : ∀ b ∈ List.replicate ncap (⟨0, 0, 0⟩ : MapBucket), b = ⟨0, 0, 0⟩ :=
    fun b hb => List.eq_of_mem_replicate hb
  obtain ⟨s1, h1, hf1, _, hy1, hz1, hc1, hd1, hkd1, hvd1⟩ :=
    rehashLoop_content fns hp hk fuel t.length ncap hfuel t.buckets 0 _ hfr hs.cached
      (by rw [hfr.length.symm]; simp only; omega)
      (pairwise_distinct fns hk t.buckets t.capacity hs.found)
      (by
        intro x hx y _ _ hxf
        simp only at hx
        rw [hmem x hx] at hxf; exact absurd hxf (by decide))
      (by rw [hlen]; omega)
  refine ⟨s1, ?_, hf1, hy1, ?_, ?_, hd1, hkd1, hvd1⟩
  · rw [rehashTo_eq fns nd fuel t ncap hsm hs.size, h1]
    simp
  · intro z hz hzf
    rcases hz1 z hz hzf with h | h
    · simp only at h
      rw [hmem z h] at hzf; exact absurd hzf (by decide)
    · exact h
  · rw [hc1, ← hfr.length]; simp

theorem map_rehash_grow (fns : MapFns) (nd : Bool) (fuel : Nat) (t : _Map) (ncap : Nat)
    (h0 : ncap ≠ 0) (hlt : t.capacity < ncap) :
    map_rehash fns nd fuel t ncap = rehashTo fns nd fuel t ncap := by
  unfold map_rehash
  rw [if_neg h0, if_neg (by omega)]

theorem map_rehash_zero (fns : MapFns) (nd : Bool) (fuel : Nat) (t : _Map) :
    map_rehash fns nd fuel t 0 = rehashTo fns nd fuel t t.capacity := by
  unfold map_rehash
  rw [if_pos rfl]

theorem map_rehash_noop (fns : MapFns) (nd : Bool) (fuel : Nat) (t : _Map) (ncap : Nat)
    (h0 : ncap ≠ 0) (hle : ncap ≤ t.capacity) : map_rehash fns nd fuel t ncap = .ok t := by
  unfold map_rehash
  rw [if_neg h0, if_pos (by omega)]

theorem fresh_counted (fns : MapFns) (ncap : Nat) (s : _Map) (hf : Fresh fns ncap s) :
    Counted s :=
  ⟨hf.length, by rw [hf.tombs, countTomb_noTomb _ hf.notomb]⟩

theorem counted_used (fns : MapFns) (t : _Map) (hs : Sound fns t) (hc : Counted t) :
    t.length + t.tombs = countUsed t.buckets ∧ countUsed t.buckets ≤ t.capacity := by
  have h1 := countUsed_shaped _ hs.shaped
  have h2 : countUsed t.buckets ≤ t.buckets.length := List.countP_le_length _
  rw [hs.size] at h2
  exact ⟨by rw [hc.1, hc.2, h1], h2⟩

/-- What the growth step of `_map_set` hands to the slot acquisition, whenever it returns:
a well-formed, counted table with an Empty bucket and a load factor below
`0.75 * (1 + 2^-22)`, and below 0.75 when the capacity is at most `2^23`. -/
theorem grow_cond (fns : MapFns) (hp : LinearProbe fns) (hk : KeyLaws fns) (nd : Bool)
    (fuel : Nat) (t s1 : _Map) (hs : Sound fns t) (hc : Counted t)
    (hg : growFor fns nd fuel t = .ok s1) :
    Sound fns s1 ∧ Counted s1 ∧ HasEmpty s1.buckets ∧ 0 < s1.capacity ∧
      ((s1.capacity ≤ 2 ^ 23 → 4 * (s1.length + s1.tombs) < 3 * s1.capacity) ∧
        2 ^ 24 * (s1.length + s1.tombs) < 3 * (2 ^ 22 + 1) * s1.capacity) ∧
      (s1 = t ∨ (Fresh fns s1.capacity s1 ∧ countFull s1.buckets ≤ countFull t.buckets ∧
        (s1.capacity = 2 * t.capacity ∨ (t.capacity = 0 ∧ s1.capacity = map_init_capacity)))) := by
  obtain ⟨hu1, hu2⟩ := counted_used fns t hs hc
  have hsmall := hs.small
  have hsz := hs.size
  have hcl : countFull t.buckets ≤ t.buckets.length := List.countP_le_length _
  unfold sizeof_MapBucket at hsmall
  unfold growFor at hg
  split at hg
  · next hemp =>
    have hnil : t.buckets = [] := List.isEmpty_iff.mp hemp
    have hcap0 : t.capacity = 0 := by rw [← hsz, hnil]; rfl
    rw [map_rehash_grow fns nd fuel t map_init_capacity (by decide)
      (by rw [hcap0]; decide)] at hg
    obtain ⟨hf, hcnt⟩ := rehashTo_fresh fns hp hk nd fuel t s1 _ hs (by rw [hcap0]; decide) hg
    have hcz : countFull s1.buckets = 0 := by
      rw [hnil] at hcnt; simpa [countFull] using hcnt
    have hcap1 : s1.capacity = map_init_capacity := hf.cap
    refine ⟨hf.sound, fresh_counted fns _ _ hf, fresh_hasEmpty fns _ _ hf (by rw [hcz]; decide),
      by rw [hcap1]; decide, ?_, Or.inr ⟨by rw [hcap1]; exact hf, by omega, Or.inr ⟨hcap0, hcap1⟩⟩⟩
    rw [hf.length, hf.tombs, hcz, hcap1]; decide
  · next hne =>
    have hpos : 0 < t.capacity := by
      rw [← hsz]
      cases hb : t.buckets with
      | nil => rw [hb] at hne; simp at hne
      | cons x l => simp
    split at hg
    · have h2 : (t.capacity * 2) % UWORD = 2 * t.capacity := by
        unfold UWORD at hsmall ⊢; omega
      rw [h2, map_rehash_grow fns nd fuel t _ (by omega) (by omega)] at hg
      obtain ⟨hf, hcnt⟩ := rehashTo_fresh fns hp hk nd fuel t s1 _ hs (by omega) hg
      have hcap1 : s1.capacity = 2 * t.capacity := hf.cap
      refine ⟨hf.sound, fresh_counted fns _ _ hf, fresh_hasEmpty fns _ _ hf (by omega),
        by omega, ?_, Or.inr ⟨by rw [hcap1]; exact hf, hcnt, Or.inl hcap1⟩⟩
      have := hc.1
      rw [hf.length, hf.tombs, hcap1]
      exact ⟨fun _ => by omega, by omega⟩
    · next hlf =>
      simp only [Except.ok.injEq] at hg
      subst hg
      have hlf2 : loadfactor_ge_max t = false := by simpa using hlf
      have hmod : (t.length + t.tombs) % UWORD = t.length + t.tombs := by
        apply Nat.mod_eq_of_lt; unfold UWORD at hsmall ⊢; omega
      have hgen := loadfactor_false t hpos (by omega) hlf2
      rw [hmod] at hgen
      have hsm : t.capacity ≤ 2 ^ 23 → 4 * (t.length + t.tombs) < 3 * t.capacity := by
        intro hle
        rw [loadfactor_small t hpos hle, hmod] at hlf2
        have := of_decide_eq_false hlf2
        omega
      refine ⟨hs, hc, hasEmpty_of_count _ (by omega), hpos, ⟨hsm, hgen⟩, Or.inl rfl⟩

/-- The table the growth step of `_map_set` hands to the slot acquisition fails the load
test. -/
theorem grow_load_false (fns : MapFns) (hp : LinearProbe fns) (hk : KeyLaws fns) (nd : Bool)
    (fuel : Nat) (t s1 : _Map) (hs : Sound fns t) (hc : Counted t)
    (hg : growFor fns nd fuel t = .ok s1) : loadfactor_ge_max s1 = false := by
  obtain ⟨hs1, hc1, _, hpos1, _, _⟩ := grow_cond fns hp hk nd fuel t s1 hs hc hg
  have hsm1 := hs1.small
  have hsmall := hs.small
  have hsz := hs.size
  have hcl : countFull t.buckets ≤ t.buckets.length := List.countP_le_length _
  unfold sizeof_MapBucket at hsm1 hsmall
  unfold growFor at hg
  split at hg
  · next hemp =>
    have hnil : t.buckets = [] := List.isEmpty_iff.mp hemp
    have hcap0 : t.capacity = 0 := by rw [← hsz, hnil]; rfl
    rw [map_rehash_grow fns nd fuel t map_init_capacity (by decide)
      (by rw [hcap0]; decide)] at hg
    obtain ⟨hf, hcnt⟩ := rehashTo_fresh fns hp hk nd fuel t s1 _ hs (by rw [hcap0]; decide) hg
    have hcz : countFull s1.buckets = 0 := by
      rw [hnil] at hcnt; simpa [countFull] using hcnt
    apply loadfactor_low s1 hpos1 (by omega)
    rw [hf.length, hf.tombs, hcz, hf.cap]; decide
  · next hne =>
    split at hg
    · have hpos : 0 < t.capacity := by
        rw [← hsz]
        cases hb : t.buckets with
        | nil => rw [hb] at hne; simp at hne
        | cons x l => simp
      have h2 : (t.capacity * 2) % UWORD = 2 * t.capacity := by
        unfold UWORD at hsmall ⊢; omega
      rw [h2, map_rehash_grow fns nd fuel t _ (by omega) (by omega)] at hg
      obtain ⟨hf, hcnt⟩ := rehashTo_fresh fns hp hk nd fuel t s1 _ hs (by omega) hg
      apply loadfactor_low s1 hpos1 (by omega)
      have := Nat.mod_le (countFull s1.buckets + 0) UWORD
      rw [hf.length, hf.tombs, hf.cap]
      omega
    · next hlf =>
      simp only [Except.ok.injEq] at hg
      subst hg
      simpa using hlf

/-- Whenever `_map_set` returns on a well-formed, counted table, it has written the bucket
`(hash k, k, v)` where the probe for `k` stopped in the table left by the growth step. -/
theorem set_cond (fns : MapFns) (hp : LinearProbe fns) (hk : KeyLaws fns) (nd : Bool)
    (fuel : Nat) (t t1 : _Map) (k v : Nat) (hs : Sound fns t) (hc : Counted t)
    (h : _map_set fns nd fuel t k v = .ok t1) :
    ∃ s1 fl i tf, growFor fns nd fuel t = .ok s1 ∧
      stopL fns s1.buckets s1.capacity k (fns.hash k) fuel (fns.hash k % s1.capacity)
        = .ok (fl, i) ∧
      t1 = putOf s1 (fns.hash k) tf ⟨fns.hash k, k, v⟩ (fl, i) ∧
      (tf = UINTPTR_MAX ∨ ∃ b ∈ s1.buckets, _mapbucket_istomb b = true) := by
  cases hg : growFor fns nd fuel t with
  | error e => rw [map_set_eq, hg] at h; simp at h
  | ok s1 =>
    obtain ⟨_, _, _, hpos, _, _⟩ := grow_cond fns hp hk nd fuel t s1 hs hc hg
    rw [map_set_put fns hp nd fuel t s1 k v hg (by omega)] at h
    cases hst : stopL fns s1.buckets s1.capacity k (fns.hash k) fuel
        (fns.hash k % s1.capacity) with
    | error e => rw [hst] at h; simp [Except.map] at h
    | ok r =>
      obtain ⟨fl, i⟩ := r
      rw [hst] at h
      simp only [Except.map, Except.ok.injEq] at h
      refine ⟨s1, fl, i, _, rfl, hst, h.symm, ?_⟩
      by_cases htf : tombFinal fns s1.buckets s1.capacity k (fns.hash k) fuel
          (fns.hash k % s1.capacity) UINTPTR_MAX = UINTPTR_MAX
      · exact Or.inl htf
      · exact Or.inr (tombFinal_changed fns _ _ _ _ _ _ _ htf)

theorem countTomb_pos (bs : List MapBucket) (h : ∃ b ∈ bs, _mapbucket_istomb b = true) :
    0 < countTomb bs := by
  unfold countTomb
  rw [List.countP_pos_iff]
  exact h

/-- Load after a set: on a well-formed, counted table a `_map_set` that returns leaves
`4 * (length + tombs) < 3 * capacity + 4` when the capacity is at most `2^23`, and
`(length + tombs - 1) / capacity` below `0.75 * (1 + 2^-22)` in every case. -/
theorem set_load (fns : MapFns) (hp : LinearProbe fns) (hk : KeyLaws fns) (nd : Bool)
    (fuel : Nat) (t t1 : _Map) (k v : Nat) (hs : Sound fns t) (hc : Counted t)
    (h : _map_set fns nd fuel t k v = .ok t1) :
    (t1.capacity ≤ 2 ^ 23 → 4 * (t1.length + t1.tombs) < 3 * t1.capacity + 4) ∧
      2 ^ 24 * (t1.length + t1.tombs) < 3 * (2 ^ 22 + 1) * t1.capacity + 2 ^ 24 := by
  obtain ⟨s1, fl, i, tf, hg, _, ht1, htf⟩ := set_cond fns hp hk nd fuel t t1 k v hs hc h
  obtain ⟨hs1, hc1, _, _, ⟨hsm, hgen⟩, _⟩ := grow_cond fns hp hk nd fuel t s1 hs hc hg
  obtain ⟨hu1, hu2⟩ := counted_used fns s1 hs1 hc1
  have hsmall := hs1.small
  unfold sizeof_MapBucket at hsmall
  subst ht1
  rw [putOf_length, putOf_tombs, putOf_capacity]
  cases fl with
  | true =>
    simp only [if_true]
    exact ⟨fun hle => by have := hsm hle; omega, by omega⟩
  | false =>
    simp only [Bool.false_eq_true, if_false]
    by_cases h1 : tf = UINTPTR_MAX
    · simp only [h1, if_true]
      have := Nat.mod_le (s1.length + 1) UWORD
      exact ⟨fun hle => by have := hsm hle; omega, by omega⟩
    · simp only [h1, if_false]
      have hex : ∃ b ∈ s1.buckets, _mapbucket_istomb b = true := by
        rcases htf with h2 | h2
        · exact absurd h2 h1
        · exact h2
      have hpos := countTomb_pos _ hex
      rw [← hc1.2] at hpos
      have : (s1.tombs + UWORD - 1) % UWORD = s1.tombs - 1 := by
        unfold UWORD at hsmall ⊢; omega
      exact ⟨fun hle => by have := hsm hle; omega, by omega⟩

theorem map_del_eq (fns : MapFns) (hp : LinearProbe fns) (fuel : Nat) (t : _Map) (k : Nat)
    (hcap : t.capacity ≠ 0) :
    _map_del fns fuel t k =
      (stopL fns t.buckets t.capacity k (fns.hash k) fuel (fns.hash k % t.capacity)).map
        (delOf t) := by
  unfold _map_del
  rw [if_neg hcap, delLoop_eq fns hp]

theorem delOf_absent (t : _Map) (i : Nat) : delOf t (false, i) = t := by
  simp [delOf]

theorem delOf_buckets (t : _Map) (i : Nat) (bi : MapBucket) (hbi : t.buckets[i]? = some bi) :
    (delOf t (true, i)).buckets = t.buckets.set i (_mapbucket_astomb bi) := by
  simp [delOf, callValuedel_buckets, callKeydel_buckets, hbi]

theorem delOf_capacity (t : _Map) (r : Bool × Nat) : (delOf t r).capacity = t.capacity := by
  unfold delOf
  by_cases hr : r.1 = true
  · simp [hr, callValuedel_capacity, callKeydel_capacity]
  · simp [hr]

theorem delOf_length (t : _Map) (i : Nat) :
    (delOf t (true, i)).length = (t.length + UWORD - 1) % UWORD := by
  simp [delOf, callValuedel_length, callKeydel_length]

theorem delOf_tombs (t : _Map) (i : Nat) :
    (delOf t (true, i)).tombs = (t.tombs + 1) % UWORD := by
  simp [delOf, callValuedel_tombs, callKeydel_tombs]

/-- Whenever `_map_del` returns, it has turned the bucket where the probe for `k` stopped
into a Tombstone if that bucket matched, and has changed nothing otherwise. -/
theorem del_cond (fns : MapFns) (hp : LinearProbe fns) (fuel : Nat) (t t1 : _Map) (k : Nat)
    (h : _map_del fns fuel t k = .ok t1) :
    t.capacity ≠ 0 ∧ ∃ fl i,
      stopL fns t.buckets t.capacity k (fns.hash k) fuel (fns.hash k % t.capacity)
        = .ok (fl, i) ∧ t1 = delOf t (fl, i) := by
  by_cases hcap : t.capacity = 0
  · unfold _map_del at h; simp [hcap] at h
  · refine ⟨hcap, ?_⟩
    rw [map_del_eq fns hp fuel t k hcap] at h
    cases hst : stopL fns t.buckets t.capacity k (fns.hash k) fuel
        (fns.hash k % t.capacity) with
    | error e => rw [hst] at h; simp [Except.map] at h
    | ok r =>
      obtain ⟨fl, i⟩ := r
      rw [hst] at h
      simp only [Except.map, Except.ok.injEq] at h
      exact ⟨fl, i, rfl, h.symm⟩

/-- Counts of Full, Tombstone and non-Empty buckets after a Full bucket becomes a
Tombstone. -/
theorem tomb_counts (bs : List MapBucket) (i : Nat) (bi : MapBucket) (hbi : bs[i]? = some bi)
    (hfull : _mapbucket_isfull bi = true) :
    countFull (bs.set i (_mapbucket_astomb bi)) + 1 = countFull bs ∧
    countTomb (bs.set i (_mapbucket_astomb bi)) = countTomb bs + 1 ∧
    countUsed (bs.set i (_mapbucket_astomb bi)) = countUsed bs := by
  have h1 := countP_set_of _mapbucket_isfull bs i (_mapbucket_astomb bi) bi hbi
  have h2 := countP_set_of _mapbucket_istomb bs i (_mapbucket_astomb bi) bi hbi
  have h3 := countP_set_of (fun b => !_mapbucket_isempty b) bs i (_mapbucket_astomb bi) bi hbi
  have ht := astomb_istomb bi
  unfold countFull countTomb countUsed
  simp only [ht, tomb_not_full _ ht, tomb_not_empty _ ht, hfull, full_not_tomb _ hfull,
    full_not_empty _ hfull] at h1 h2 h3
  simp at h1 h2 h3
  omega

/-- A delete that returns keeps the table well formed. -/
theorem del_sound (fns : MapFns) (hp : LinearProbe fns) (fuel : Nat) (t t1 : _Map) (k : Nat)
    (hs : Sound fns t) (h : _map_del fns fuel t k = .ok t1) : Sound fns t1 := by
  obtain ⟨_, fl, i, hst, ht1⟩ := del_cond fns hp fuel t t1 k h
  subst ht1
  cases fl with
  | false => rw [delOf_absent]; exact hs
  | true =>
    obtain ⟨bi, hbi, hm, _⟩ := stopL_spec fns _ _ _ _ _ _ _ _ hst
    constructor
    · rw [delOf_buckets t i bi hbi, delOf_capacity, List.length_set]; exact hs.size
    · rw [delOf_capacity]; exact hs.small
    · rw [delOf_buckets t i bi hbi]
      intro b hb
      rcases List.mem_or_eq_of_mem_set hb with hb1 | hb1
      · exact hs.shaped b hb1
      · subst hb1; exact Or.inr (Or.inr (astomb_istomb bi))
    · rw [delOf_buckets t i bi hbi]
      intro b hb hfull
      rcases List.mem_or_eq_of_mem_set hb with hb1 | hb1
      · exact hs.cached b hb1 hfull
      · subst hb1
        rw [tomb_not_full _ (astomb_istomb bi)] at hfull; exact absurd hfull (by simp)
    · rw [delOf_buckets t i bi hbi, delOf_capacity]
      exact found_tomb fns t.buckets t.capacity hs.found i bi hbi

/-- A delete that returns keeps the bookkeeping accurate and the sum `length + tombs`. -/
theorem del_counted (fns : MapFns) (hp : LinearProbe fns) (fuel : Nat) (t t1 : _Map) (k : Nat)
    (hs : Sound fns t) (hc : Counted t) (h : _map_del fns fuel t k = .ok t1) :
    Counted t1 ∧ t1.length + t1.tombs = t.length + t.tombs ∧ t1.capacity = t.capacity := by
  obtain ⟨_, fl, i, hst, ht1⟩ := del_cond fns hp fuel t t1 k h
  subst ht1
  cases fl with
  | false => rw [delOf_absent]; exact ⟨hc, rfl, rfl⟩
  | true =>
    obtain ⟨bi, hbi, hm, _⟩ := stopL_spec fns _ _ _ _ _ _ _ _ hst
    have hfull := matches_full fns _ _ _ hm
    obtain ⟨c1, c2, _⟩ := tomb_counts t.buckets i bi hbi hfull
    obtain ⟨hu1, hu2⟩ := counted_used fns t hs hc
    have hsmall := hs.small
    unfold sizeof_MapBucket at hsmall
    have hl : (t.length + UWORD - 1) % UWORD = t.length - 1 := by
      have := hc.1
      unfold UWORD at hsmall ⊢; omega
    have ht : (t.tombs + 1) % UWORD = t.tombs + 1 := by
      unfold UWORD at hsmall ⊢; omega
    unfold Counted
    rw [delOf_buckets t i bi hbi, delOf_length, delOf_tombs, delOf_capacity, hl, ht, c2]
    have := hc.1
    have := hc.2
    omega

/-- A set with a valid key that returns keeps the table well formed. -/
theorem set_sound (fns : MapFns) (hp : LinearProbe fns) (hk : KeyLaws fns) (nd : Bool)
    (fuel : Nat) (t t1 : _Map) (k v : Nat) (hs : Sound fns t) (hc : Counted t) (hv : ValidKey k)
    (h : _map_set fns nd fuel t k v = .ok t1) : Sound fns t1 := by
  obtain ⟨s1, fl, i, tf, hg, hst, ht1, _⟩ := set_cond fns hp hk nd fuel t t1 k v hs hc h
  obtain ⟨hs1, _, hemp, hpos, _, _⟩ := grow_cond fns hp hk nd fuel t s1 hs hc hg
  subst ht1
  exact put_sound fns hk s1 k v tf hs1 hemp hpos hv fuel _ hst

theorem fresh_tidy (fns : MapFns) (ncap : Nat) (s : _Map) (hf : Fresh fns ncap s)
    (hload : (ncap ≤ 2 ^ 23 → 4 * countFull s.buckets < 3 * ncap + 4) ∧
      2 ^ 24 * countFull s.buckets < 3 * (2 ^ 22 + 1) * ncap + 2 ^ 24) : Tidy fns s :=
  ⟨hf.sound, fresh_counted fns ncap s hf, by
    rw [hf.length, hf.tombs, hf.cap]
    exact ⟨fun h => by have := hload.1 h; omega, by have := hload.2; omega⟩⟩

/-- A `map_rehash` that returns keeps a tidy table tidy. -/
theorem rehash_tidy (fns : MapFns) (hp : LinearProbe fns) (hk : KeyLaws fns) (nd : Bool)
    (fuel : Nat) (t t1 : _Map) (ncap : Nat) (ht : Tidy fns t)
    (h : map_rehash fns nd fuel t ncap = .ok t1) :
    Tidy fns t1 ∧ t.capacity ≤ t1.capacity := by
  have hlen := ht.counted.1
  obtain ⟨hl1, hl2⟩ := ht.load
  by_cases h0 : ncap = 0
  · subst h0
    rw [map_rehash_zero] at h
    obtain ⟨hf, hcnt⟩ := rehashTo_fresh fns hp hk nd fuel t t1 _ ht.sound (Nat.le_refl _) h
    exact ⟨fresh_tidy fns _ _ hf ⟨fun hc => by have := hl1 hc; omega, by omega⟩, by rw [hf.cap]⟩
  · by_cases hle : ncap ≤ t.capacity
    · rw [map_rehash_noop fns nd fuel t ncap h0 hle] at h
      simp only [Except.ok.injEq] at h
      subst h; exact ⟨ht, Nat.le_refl _⟩
    · rw [map_rehash_grow fns nd fuel t ncap h0 (by omega)] at h
      obtain ⟨hf, hcnt⟩ := rehashTo_fresh fns hp hk nd fuel t t1 _ ht.sound (by omega) h
      exact ⟨fresh_tidy fns _ _ hf ⟨fun hc => by have := hl1 (by omega); omega, by omega⟩,
        by rw [hf.cap]; omega⟩

theorem clearLoop_fields (len : Nat) :
    ∀ (l : List MapBucket) (clean : Nat) (s : _Map),
      (clearLoop len l clean s).1.capacity = s.capacity := by
  intro l
  induction l with
  | nil => intro clean s; rfl
  | cons b rest ih =>
    intro clean s
    unfold clearLoop
    split
    · split
      · rw [ih, callValuedel_capacity, callKeydel_capacity]
      · rw [ih]
    · rfl

theorem map_clear_result (nd : Bool) (t t1 : _Map) (h : map_clear nd t = .ok t1) :
    t1 = t ∨ (t1.buckets = List.replicate t.capacity ⟨0, 0, 0⟩ ∧ t1.length = 0 ∧ t1.tombs = 0 ∧
      t1.capacity = t.capacity) := by
  unfold map_clear at h
  by_cases he : t.buckets.isEmpty = true
  · rw [if_pos he] at h
    simp only [Except.ok.injEq] at h
    exact Or.inl h.symm
  · rw [if_neg he] at h
    simp only at h
    generalize hsw : (if (t.keydel || t.valuedel) = true then
        clearLoop t.length (List.take t.capacity t.buckets) 0 t else (t, t.length)) = sw at h
    have hcap : sw.1.capacity = t.capacity := by
      rw [← hsw]
      split
      · rw [clearLoop_fields]
      · rfl
    by_cases hass : (!nd && sw.2 != t.length) = true
    · rw [if_pos hass] at h; simp at h
    · rw [if_neg hass] at h
      simp only [Except.ok.injEq] at h
      right
      rw [← h]
      exact ⟨rfl, rfl, rfl, hcap⟩

/-- A `map_clear` that returns leaves a tidy table of the same capacity. -/
theorem clear_tidy (fns : MapFns) (nd : Bool) (t t1 : _Map) (ht : Tidy fns t)
    (h : map_clear nd t = .ok t1) : Tidy fns t1 ∧ t1.capacity = t.capacity := by
  rcases map_clear_result nd t t1 h with h1 | ⟨hb, hl, htb, hcap⟩
  · subst h1; exact ⟨ht, rfl⟩
  · have hmem : ∀ b ∈ List.replicate t.capacity (⟨0, 0, 0⟩ : MapBucket), b = ⟨0, 0, 0⟩ :=
      fun b hb => List.eq_of_mem_replicate hb
    have hsmall := ht.sound.small
    refine ⟨⟨⟨?_, ?_, ?_, ?_, ?_⟩, ⟨?_, ?_⟩, ?_⟩, hcap⟩
    · rw [hb, hcap]; simp
    · rw [hcap]; exact hsmall
    · rw [hb]; intro b hb2; rw [hmem b hb2]; exact Or.inl (by decide)
    · rw [hb]; intro b hb2 hfull; rw [hmem b hb2] at hfull; exact absurd hfull (by decide)
    · rw [hb, hcap]; exact found_replicate fns _ _
    · rw [hl, hb]; unfold countFull; symm; rw [List.countP_eq_zero]
      intro b hb2; rw [hmem b hb2]; decide
    · rw [htb, hb]; unfold countTomb; symm; rw [List.countP_eq_zero]
      intro b hb2; rw [hmem b hb2]; decide
    · rw [hl, htb]; omega

/-- A table just created is tidy, and has the capacity asked for. -/
theorem alloc_tidy (fns : MapFns) (hp : LinearProbe fns) (hk : KeyLaws fns) (nd : Bool)
    (cap : Nat) (t : _Map)
    (h : _map_alloc_full_n nd cap (some fns.hash) (some fns.equals) (some fns.probe) = .ok t) :
    Tidy fns t ∧ t.capacity = cap ∧ t.dtors = [] := by
  have hfns : allocFns (some fns.hash) (some fns.equals) (some fns.probe) = fns := by
    cases fns; rfl
  have h0 : Tidy fns (⟨[], 0, 0, 0, false, false, []⟩ : _Map) := by
    refine ⟨⟨rfl, by decide, ?_, ?_, ?_⟩, ⟨rfl, rfl⟩, by decide⟩
    · intro b hb; simp at hb
    · intro b hb; simp at hb
    · intro i b hb; simp at hb
  unfold _map_alloc_full_n at h
  simp only [Option.isNone_some, Bool.and_false, Bool.false_eq_true, if_false, hfns] at h
  split at h
  · next hc0 =>
    simp only [Except.ok.injEq] at h
    subst h; exact ⟨h0, hc0.symm, rfl⟩
  · next hc0 =>
    rw [map_rehash_grow fns nd 0 _ cap hc0 (by simp only; omega)] at h
    obtain ⟨hf, hcnt⟩ := rehashTo_fresh fns hp hk nd 0 _ t cap h0.sound (by simp only; omega) h
    have hz : countFull t.buckets = 0 := by simpa [countFull] using hcnt
    refine ⟨fresh_tidy fns _ _ hf (by omega), hf.cap, ?_⟩
    unfold rehashTo at h
    split at h
    · simp at h
    · simp only [List.take_nil, rehashLoop] at h
      split at h
      · simp at h
      · simp only [Except.ok.injEq] at h; rw [← h]

/-- Every table reachable through steps that keep the bookkeeping accurate is tidy. -/
theorem reachableCounted_tidy (fns : MapFns) (hp : LinearProbe fns) (hk : KeyLaws fns)
    (nd : Bool) (t : _Map) (h : ReachableCounted fns nd t) : Tidy fns t := by
  induction h with
  | create cap t h => exact (alloc_tidy fns hp hk nd cap t h).1
  | set fuel t t1 k v _ hv h hc ih =>
    exact ⟨set_sound fns hp hk nd fuel t t1 k v ih.sound ih.counted hv h, hc,
      set_load fns hp hk nd fuel t t1 k v ih.sound ih.counted h⟩
  | del fuel t t1 k _ h ih =>
    obtain ⟨hc, hsum, hcap⟩ := del_counted fns hp fuel t t1 k ih.sound ih.counted h
    exact ⟨del_sound fns hp fuel t t1 k ih.sound h, hc, by rw [hsum, hcap]; exact ih.load⟩
  | rehash fuel t t1 ncap _ h ih => exact (rehash_tidy fns hp hk nd fuel t t1 ncap ih h).1
  | reserve fuel t t1 n _ h ih =>
    exact (rehash_tidy fns hp hk nd fuel t t1 _ ih (map_reserve_ok fns nd fuel t t1 n h)).1
  | clear t t1 _ h ih => exact (clear_tidy fns nd t t1 ih h).1

theorem linearProbe_default : LinearProbe defaultFns := rfl

theorem keyLaws_default : KeyLaws defaultFns := by
  refine ⟨?_, ?_, ?_, ?_⟩
  · intro a; simp [defaultFns, _map_defaultequals]
  · intro a b h
    simp only [defaultFns, _map_defaultequals, beq_iff_eq] at h ⊢
    exact h.symm
  · intro a b c h1 h2
    simp only [defaultFns, _map_defaultequals, beq_iff_eq] at h1 h2 ⊢
    exact h1.trans h2
  · intro a b h
    simp only [defaultFns, _map_defaultequals, beq_iff_eq] at h
    rw [h]

/-- In a tidy table of capacity at least 4 some bucket is Empty. -/
theorem tidy_hasEmpty (fns : MapFns) (t : _Map) (ht : Tidy fns t) (hcap : 4 ≤ t.capacity) :
    HasEmpty t.buckets := by
  obtain ⟨hu1, _⟩ := counted_used fns t ht.sound ht.counted
  have := ht.load
  apply hasEmpty_of_count
  rw [ht.sound.size]
  omega

/-- With an Empty bucket in the array, lookup, slot acquisition and delete return within
`capacity` probe rounds. -/
theorem probes_return (fns : MapFns) (hp : LinearProbe fns) (t : _Map)
    (hsz : t.buckets.length = t.capacity) (hemp : HasEmpty t.buckets) (key fuel : Nat)
    (hfuel : t.capacity ≤ fuel) :
    (∃ r, _map_findbucket fns fuel t key = .ok r) ∧
    (∃ r, _map_acquirebucket fns fuel t key = .ok r) ∧
    (∃ r, _map_del fns fuel t key = .ok r) := by
  have hpos : 0 < t.capacity := by
    obtain ⟨e, b, hb, _⟩ := hemp
    have := getElem?_lt _ _ _ hb
    omega
  have hne : t.capacity ≠ 0 := by omega
  obtain ⟨r, hr⟩ := stopL_terminates fns t.buckets t.capacity key (fns.hash key) hsz hemp fuel
    (fns.hash key % t.capacity) (Nat.mod_lt _ hpos) hfuel
  refine ⟨?_, ?_, ?_⟩
  · unfold _map_findbucket
    rw [if_neg hne, findLoop_eq fns hp, hr]
    exact ⟨_, rfl⟩
  · rw [map_acquirebucket_eq fns hp fuel t key hne, hr]
    exact ⟨_, rfl⟩
  · rw [map_del_eq fns hp fuel t key hne, hr]
    exact ⟨_, rfl⟩

/-- C6 (as amended): for every table reachable from creation through steps that leave
`length` and `tombs` equal to the numbers of Full and Tombstone buckets, a `_map_set` that
returns leaves, when the capacity is at most `2^23`, `4 * (length + tombs) < 3 * capacity + 4`
(the load factor was strictly below 0.75 when the slot was acquired and the set adds at most
one entry), hence a load factor of at most 0.75 when the capacity is a multiple of 4.  For
every capacity it leaves `(length + tombs - 1) / capacity` below `0.75 * (1 + 2^-22)`: the
test of `_map_set` is made in single precision, which above `2^23` buckets lets a load
factor of 0.75 or slightly more pass. -/
theorem C6_load_after_set (fns : MapFns) (hp : LinearProbe fns) (hk : KeyLaws fns) (nd : Bool)
    (fuel : Nat) (t t1 : _Map) (k v : Nat) (hr : ReachableCounted fns nd t)
    (h : _map_set fns nd fuel t k v = .ok t1) :
    (t1.capacity ≤ 2 ^ 23 →
      4 * (t1.length + t1.tombs) < 3 * t1.capacity + 4 ∧
      (4 ∣ t1.capacity → 4 * (t1.length + t1.tombs) ≤ 3 * t1.capacity)) ∧
    2 ^ 24 * (t1.length + t1.tombs) < 3 * (2 ^ 22 + 1) * t1.capacity + 2 ^ 24 := by
  have ht := reachableCounted_tidy fns hp hk nd t hr
  obtain ⟨h1, h2⟩ := set_load fns hp hk nd fuel t t1 k v ht.sound ht.counted h
  exact ⟨fun hle => ⟨h1 hle, fun hd => by have := h1 hle; omega⟩, h2⟩

theorem C6_load_after_set_witness :
    LinearProbe defaultFns ∧ KeyLaws defaultFns ∧
    ReachableCounted defaultFns false (tbl [⟨0, 0, 0⟩, ⟨1, 1, 1⟩, ⟨2, 2, 1⟩, ⟨0, 0, 0⟩] 2 0) ∧
    _map_set defaultFns false 4 (tbl [⟨0, 0, 0⟩, ⟨1, 1, 1⟩, ⟨2, 2, 1⟩, ⟨0, 0, 0⟩] 2 0) 3 1
      = .ok (tbl [⟨0, 0, 0⟩, ⟨1, 1, 1⟩, ⟨2, 2, 1⟩, ⟨3, 3, 1⟩] 3 0) ∧
    (((tbl [⟨0, 0, 0⟩, ⟨1, 1, 1⟩, ⟨2, 2, 1⟩, ⟨3, 3, 1⟩] 3 0).capacity ≤ 2 ^ 23 →
      4 * ((tbl [⟨0, 0, 0⟩, ⟨1, 1, 1⟩, ⟨2, 2, 1⟩, ⟨3, 3, 1⟩] 3 0).length +
          (tbl [⟨0, 0, 0⟩, ⟨1, 1, 1⟩, ⟨2, 2, 1⟩, ⟨3, 3, 1⟩] 3 0).tombs)
        < 3 * (tbl [⟨0, 0, 0⟩, ⟨1, 1, 1⟩, ⟨2, 2, 1⟩, ⟨3, 3, 1⟩] 3 0).capacity + 4 ∧
      (4 ∣ (tbl [⟨0, 0, 0⟩, ⟨1, 1, 1⟩, ⟨2, 2, 1⟩, ⟨3, 3, 1⟩] 3 0).capacity →
        4 * ((tbl [⟨0, 0, 0⟩, ⟨1, 1, 1⟩, ⟨2, 2, 1⟩, ⟨3, 3, 1⟩] 3 0).length +
          (tbl [⟨0, 0, 0⟩, ⟨1, 1, 1⟩, ⟨2, 2, 1⟩, ⟨3, 3, 1⟩] 3 0).tombs)
        ≤ 3 * (tbl [⟨0, 0, 0⟩, ⟨1, 1, 1⟩, ⟨2, 2, 1⟩, ⟨3, 3, 1⟩] 3 0).capacity)) ∧
      2 ^ 24 * ((tbl [⟨0, 0, 0⟩, ⟨1, 1, 1⟩, ⟨2, 2, 1⟩, ⟨3, 3, 1⟩] 3 0).length +
          (tbl [⟨0, 0, 0⟩, ⟨1, 1, 1⟩, ⟨2, 2, 1⟩, ⟨3, 3, 1⟩] 3 0).tombs)
        < 3 * (2 ^ 22 + 1) * (tbl [⟨0, 0, 0⟩, ⟨1, 1, 1⟩, ⟨2, 2, 1⟩, ⟨3, 3, 1⟩] 3 0).capacity
          + 2 ^ 24) :=
  have hr : ReachableCounted defaultFns false
      (tbl [⟨0, 0, 0⟩, ⟨1, 1, 1⟩, ⟨2, 2, 1⟩, ⟨0, 0, 0⟩] 2 0) :=
    ReachableCounted.set 4 (tbl [⟨0, 0, 0⟩, ⟨1, 1, 1⟩, ⟨0, 0, 0⟩, ⟨0, 0, 0⟩] 1 0) _ 2 1
      (ReachableCounted.set 4 (tbl [⟨0, 0, 0⟩, ⟨0, 0, 0⟩, ⟨0, 0, 0⟩, ⟨0, 0, 0⟩] 0 0) _ 1 1
        (ReachableCounted.create 4 _ (by decide)) (by decide) (by decide) (by decide))
      (by decide) (by decide) (by decide)
  ⟨linearProbe_default, keyLaws_default, hr, by decide,
    C6_load_after_set defaultFns linearProbe_default keyLaws_default false 4 _ _ 3 1 hr
      (by decide)⟩

/-- C6 (counterexample): in a fresh table of capacity 4, after `set(1); set(2)` the call
`set(3, 1)` returns with `length = 3`, `tombs = 0` and capacity 4, a load factor of exactly
0.75, which is not strictly below the maximum. -/
theorem C6_load_reaches_max :
    ∃ t t1, Reachable defaultFns false t ∧ _map_set defaultFns false 4 t 3 1 = .ok t1 ∧
      ¬ (4 * (t1.length + t1.tombs) < 3 * t1.capacity) :=
  ⟨tbl [⟨0, 0, 0⟩, ⟨1, 1, 1⟩, ⟨2, 2, 1⟩, ⟨0, 0, 0⟩] 2 0,
    tbl [⟨0, 0, 0⟩, ⟨1, 1, 1⟩, ⟨2, 2, 1⟩, ⟨3, 3, 1⟩] 3 0,
    reachable_runFrom defaultFns false 4 4 [.set 1 1, .set 2 1] _ (by decide) (by decide),
    by decide, by decide⟩

theorem find_cycles (fuel : Nat) :
    findLoop defaultFns (tbl [⟨5, 5, 1⟩] 1 0) 7 7 fuel 0 = .error .fuel := by
  induction fuel with
  | zero => rfl
  | succ n ih =>
    simpa [findLoop, loadBucket, tbl, bucketMatches, _mapbucket_isfull, _mapbucket_isempty,
      defaultFns, _map_defaultprobe, _map_defaulthash, _map_defaultequals, MAP_TOMB, UWORD]
      using ih

theorem mem_set_cases {α : Type} (l : List α) (i : Nat) (a x : α) (h : x ∈ l.set i a) :
    x = a ∨ ∃ j, j ≠ i ∧ l[j]? = some x := by
  obtain ⟨j, hj⟩ := List.mem_iff_getElem?.mp h
  by_cases hji : j = i
  · subst hji
    have hlt : j < l.length := by
      have := getElem?_lt _ _ _ hj
      rw [List.length_set] at this; exact this
    rw [List.getElem?_set_self hlt] at hj
    exact Or.inl (Option.some.inj hj).symm
  · rw [List.getElem?_set_ne (Ne.symm hji)] at hj
    exact Or.inr ⟨j, hji, hj⟩

theorem mem_set_of_ne {α : Type} (l : List α) (i j : Nat) (a x : α) (hj : l[j]? = some x)
    (hne : j ≠ i) : x ∈ l.set i a :=
  List.mem_iff_getElem?.mpr ⟨j, by rw [List.getElem?_set_ne (Ne.symm hne)]; exact hj⟩

theorem mem_set_self {α : Type} (l : List α) (i : Nat) (a : α) (h : i < l.length) :
    a ∈ l.set i a :=
  List.mem_iff_getElem?.mpr ⟨i, List.getElem?_set_self h⟩

/-- Slot acquisition and the write that follows, on a well-formed table with an Empty
bucket: the call returns within `capacity` probe rounds; afterwards the table is well
formed, holds the new entry, keeps every entry under another key and holds nothing else. -/
theorem put_total (fns : MapFns) (hk : KeyLaws fns) (s : _Map) (k v : Nat)
    (hs : Sound fns s) (hemp : HasEmpty s.buckets) (hv : ValidKey k) (fuel : Nat)
    (hfuel : s.capacity ≤ fuel) :
    ∃ fl i, stopL fns s.buckets s.capacity k (fns.hash k) fuel (fns.hash k % s.capacity)
        = .ok (fl, i) ∧
      (∀ tf, Sound fns (putOf s (fns.hash k) tf ⟨fns.hash k, k, v⟩ (fl, i))) ∧
      (⟨fns.hash k, k, v⟩ : MapBucket) ∈ s.buckets.set i ⟨fns.hash k, k, v⟩ ∧
      (∀ x ∈ s.buckets, _mapbucket_isfull x = true → fns.equals k x.key = false →
        x ∈ s.buckets.set i ⟨fns.hash k, k, v⟩) ∧
      (∀ x ∈ s.buckets.set i ⟨fns.hash k, k, v⟩, _mapbucket_isfull x = true →
        x = ⟨fns.hash k, k, v⟩ ∨ (x ∈ s.buckets ∧ fns.equals k x.key = false)) ∧
      countFull (s.buckets.set i ⟨fns.hash k, k, v⟩)
        = countFull s.buckets + (if fl = true then 0 else 1) ∧
      countTomb (s.buckets.set i ⟨fns.hash k, k, v⟩) = countTomb s.buckets ∧
      countUsed (s.buckets.set i ⟨fns.hash k, k, v⟩)
        = countUsed s.buckets + (if fl = true then 0 else 1) ∧
      (fl = true ↔ ∃ x ∈ s.buckets, _mapbucket_isfull x = true ∧ fns.equals k x.key = true) := by
  have hpos : 0 < s.capacity := by
    obtain ⟨e, b, hb, _⟩ := hemp
    have := getElem?_lt _ _ _ hb
    have := hs.size
    omega
  obtain ⟨r, hr⟩ := stopL_terminates fns s.buckets s.capacity k (fns.hash k) hs.size hemp fuel
    (fns.hash k % s.capacity) (Nat.mod_lt _ hpos) hfuel
  obtain ⟨fl, i⟩ := r
  have hr2 := stop_at_cap fns s.buckets s.capacity k (fns.hash k) hs.size hemp fuel _
    (Nat.mod_lt _ hpos) _ hr
  obtain ⟨bi, hbi, hmi, hei⟩ := stopL_spec fns _ _ _ _ _ _ _ _ hr
  have hlt := getElem?_lt _ _ _ hbi
  have hnf := valid_full (fns.hash k) k v hv
  obtain ⟨c1, c2, c3⟩ := put_counts fns s.buckets k (fns.hash k) ⟨fns.hash k, k, v⟩ bi fl i hbi
    hmi hei hnf
  have hother : ∀ j x, j ≠ i → s.buckets[j]? = some x → _mapbucket_isfull x = true →
      fns.equals k x.key = false := by
    intro j x hji hj hxf
    cases he : fns.equals k x.key with
    | false => rfl
    | true =>
      have := found_present fns hk s.buckets s.capacity k hs.found j x hj hxf he
      rw [hr2] at this
      simp only [Except.ok.injEq, Prod.mk.injEq] at this
      exact absurd this.2.symm hji
  refine ⟨fl, i, hr, fun tf => put_sound fns hk s k v tf hs hemp hpos hv fuel _ hr,
    mem_set_self _ _ _ hlt, ?_, ?_, c1, c2, c3, ?_⟩
  · intro x hx hxf hne
    obtain ⟨j, hj⟩ := List.mem_iff_getElem?.mp hx
    have hji : j ≠ i := by
      rintro rfl
      rw [hbi] at hj
      have hbx : bi = x := Option.some.inj hj
      subst hbx
      cases fl with
      | false => rw [full_not_empty _ hxf] at hei; exact absurd (hei rfl) (by simp)
      | true =>
        rw [matches_iff] at hmi
        rw [hmi.2.2] at hne; exact absurd hne (by simp)
    exact mem_set_of_ne _ _ _ _ _ hj hji
  · intro x hx hxf
    rcases mem_set_cases _ _ _ _ hx with h1 | ⟨j, hji, hj⟩
    · exact Or.inl h1
    · exact Or.inr ⟨List.getElem?_mem hj, hother j x hji hj hxf⟩
  · constructor
    · intro hfl
      subst hfl
      rw [matches_iff] at hmi
      exact ⟨bi, List.getElem?_mem hbi, hmi.1, hmi.2.2⟩
    · rintro ⟨x, hx, hxf, hxe⟩
      have := found_present fns hk s.buckets s.capacity k hs.found
      obtain ⟨j, hj⟩ := List.mem_iff_getElem?.mp hx
      have := this j x hj hxf hxe
      rw [hr2] at this
      simp only [Except.ok.injEq, Prod.mk.injEq] at this
      exact this.1

theorem map_get_ex_eq (fns : MapFns) (hp : LinearProbe fns) (fuel : Nat) (t : _Map) (k : Nat)
    (hcap : t.capacity ≠ 0) (fl : Bool) (i : Nat)
    (hr : stopL fns t.buckets t.capacity k (fns.hash k) fuel (fns.hash k % t.capacity)
      = .ok (fl, i)) :
    _map_get_ex fns fuel t k =
      if fl = true then
        match t.buckets[i]? with
        | none => .error .oob
        | some b => .ok (some (b.key, b.value))
      else .ok none := by
  unfold _map_get_ex _map_findbucket
  rw [if_neg hcap, findLoop_eq fns hp, hr]
  cases fl with
  | true => simp only [Except.map, findOf, if_true, loadBucket]; cases t.buckets[i]? <;> rfl
  | false => simp [Except.map, findOf]

/-- The lookup of a key equal to a stored key returns the stored key and its value. -/
theorem get_of_mem (fns : MapFns) (hp : LinearProbe fns) (hk : KeyLaws fns) (t : _Map)
    (k : Nat) (b : MapBucket) (fuel : Nat) (hs : Sound fns t) (hb : b ∈ t.buckets)
    (hfull : _mapbucket_isfull b = true) (he : fns.equals k b.key = true)
    (hfuel : t.capacity ≤ fuel) :
    _map_get_ex fns fuel t k = .ok (some (b.key, b.value)) := by
  obtain ⟨j, hj⟩ := List.mem_iff_getElem?.mp hb
  have hlt := getElem?_lt _ _ _ hj
  have hcap : t.capacity ≠ 0 := by have := hs.size; omega
  have h1 := found_present fns hk t.buckets t.capacity k hs.found j b hj hfull he
  have h2 := stopL_mono fns _ _ _ _ _ _ _ h1 fuel hfuel
  rw [map_get_ex_eq fns hp fuel t k hcap true j h2]
  simp [hj]

/-- The lookup of a key that no Full bucket stores returns not-found. -/
theorem get_absent (fns : MapFns) (hp : LinearProbe fns) (t : _Map) (k fuel : Nat)
    (hs : Sound fns t) (hemp : HasEmpty t.buckets)
    (hno : ∀ b ∈ t.buckets, _mapbucket_isfull b = true → fns.equals k b.key = false)
    (hfuel : t.capacity ≤ fuel) :
    _map_get_ex fns fuel t k = .ok none := by
  have hpos : 0 < t.capacity := by
    obtain ⟨e, b, hb, _⟩ := hemp
    have := getElem?_lt _ _ _ hb
    have := hs.size
    omega
  obtain ⟨e, he⟩ := found_absent fns t.buckets t.capacity k hs.size hpos hemp hno
  have h2 := stopL_mono fns _ _ _ _ _ _ _ he fuel hfuel
  rw [map_get_ex_eq fns hp fuel t k (by omega) false e h2]
  simp

theorem map_get_of_ex (fns : MapFns) (fuel : Nat) (t : _Map) (k : Nat) (r : Option (Nat × Nat))
    (h : _map_get_ex fns fuel t k = .ok r) :
    _map_get fns fuel t k = .ok ((r.map Prod.snd).getD 0) := by
  unfold _map_get
  rw [h]
  cases r <;> rfl

/-- The growth step of `_map_set` on a well-formed, counted table returns when given
`max 256 (2 * capacity)` probe rounds and the doubled array can be allocated; the table it
returns holds exactly the Full buckets it held. -/
theorem grow_total (fns : MapFns) (hp : LinearProbe fns) (hk : KeyLaws fns) (nd : Bool)
    (fuel : Nat) (t : _Map) (hs : Sound fns t) (hc : Counted t)
    (hf1 : map_init_capacity ≤ fuel) (hf2 : 2 * t.capacity ≤ fuel)
    (hsmall : sizeof_MapBucket * (2 * t.capacity) < UWORD) :
    ∃ s1, growFor fns nd fuel t = .ok s1 ∧
      (∀ b ∈ t.buckets, _mapbucket_isfull b = true → b ∈ s1.buckets) ∧
      (∀ b ∈ s1.buckets, _mapbucket_isfull b = true → b ∈ t.buckets) ∧
      countFull s1.buckets = countFull t.buckets ∧
      (NoTomb t.buckets → NoTomb s1.buckets) ∧
      s1.dtors = t.dtors ∧ s1.keydel = t.keydel ∧ s1.valuedel = t.valuedel := by
  have hsz := hs.size
  have hsm := hs.small
  unfold sizeof_MapBucket at hsm hsmall
  unfold growFor
  split
  · next hemp =>
    have hnil : t.buckets = [] := List.isEmpty_iff.mp hemp
    have hcap0 : t.capacity = 0 := by rw [← hsz, hnil]; rfl
    rw [map_rehash_grow fns nd fuel t map_init_capacity (by decide) (by rw [hcap0]; decide)]
    obtain ⟨t1, h1, hfr, ha, hb, hcnt, hd⟩ := rehashTo_total fns hp hk nd fuel t
      map_init_capacity hs hc.1 (by rw [hcap0]; decide) (by decide) hf1
    exact ⟨t1, h1, ha, hb, hcnt, fun _ => hfr.notomb, hd⟩
  · split
    · have hpos : 0 < t.capacity := by
        by_contra h0
        have : t.buckets.length = 0 := by omega
        have : t.buckets = [] := List.length_eq_zero.mp this
        simp_all
      have h2 : (t.capacity * 2) % UWORD = 2 * t.capacity := by
        unfold UWORD at hsm ⊢; omega
      rw [h2, map_rehash_grow fns nd fuel t _ (by omega) (by omega)]
      obtain ⟨t1, h1, hfr, ha, hb, hcnt, hd⟩ := rehashTo_total fns hp hk nd fuel t
        (2 * t.capacity) hs hc.1 (by omega) (by unfold sizeof_MapBucket; exact hsmall) hf2
      exact ⟨t1, h1, ha, hb, hcnt, fun _ => hfr.notomb, hd⟩
    · exact ⟨t, rfl, fun b hb _ => hb, fun b hb _ => hb, rfl, fun h => h, rfl, rfl, rfl⟩

/-- When the key was found, or the probe passed no Tombstone, slot acquisition keeps the
bookkeeping accurate. -/
theorem put_counted (fns : MapFns) (s : _Map) (k h tf : Nat) (nb : MapBucket) (hs : Sound fns s)
    (hc : Counted s) (hnb : _mapbucket_isfull nb = true) (fuel fl i)
    (hr : stopL fns s.buckets s.capacity k h fuel (h % s.capacity) = .ok (fl, i))
    (htf : fl = false → tf = UINTPTR_MAX) :
    Counted (putOf s h tf nb (fl, i)) := by
  obtain ⟨bi, hbi, hmi, hei⟩ := stopL_spec fns _ _ _ _ _ _ _ _ hr
  obtain ⟨c1, c2, _⟩ := put_counts fns s.buckets k h nb bi fl i hbi hmi hei hnb
  obtain ⟨hu1, hu2⟩ := counted_used fns s hs hc
  have hsmall := hs.small
  unfold sizeof_MapBucket at hsmall
  have hcl : countFull s.buckets ≤ s.buckets.length := List.countP_le_length _
  have hsz := hs.size
  unfold Counted
  rw [putOf_buckets, putOf_length, putOf_tombs, c1, c2]
  cases fl with
  | true => simp only [if_true]; exact ⟨by have := hc.1; omega, hc.2⟩
  | false =>
    simp only [Bool.false_eq_true, if_false, htf rfl, if_true]
    refine ⟨?_, hc.2⟩
    have := hc.1
    have : (s.length + 1) % UWORD = s.length + 1 := by
      apply Nat.mod_eq_of_lt; unfold UWORD at hsmall ⊢; omega
    omega

/-- A set with a valid key on a well-formed, counted table returns when given
`max 256 (2 * capacity)` probe rounds and the doubled array can be allocated.  Afterwards
the table is well formed, holds the entry `(k, v)`, keeps every entry under another key,
and holds nothing else. -/
theorem set_total (fns : MapFns) (hp : LinearProbe fns) (hk : KeyLaws fns) (nd : Bool)
    (fuel : Nat) (t : _Map) (k v : Nat) (hs : Sound fns t) (hc : Counted t) (hv : ValidKey k)
    (hf1 : map_init_capacity ≤ fuel) (hf2 : 2 * t.capacity ≤ fuel)
    (hsmall : sizeof_MapBucket * (2 * t.capacity) < UWORD) :
    ∃ t1, _map_set fns nd fuel t k v = .ok t1 ∧ Sound fns t1 ∧
      (⟨fns.hash k, k, v⟩ : MapBucket) ∈ t1.buckets ∧
      (∀ x ∈ t.buckets, _mapbucket_isfull x = true → fns.equals k x.key = false →
        x ∈ t1.buckets) ∧
      (∀ x ∈ t1.buckets, _mapbucket_isfull x = true →
        x = ⟨fns.hash k, k, v⟩ ∨ (x ∈ t.buckets ∧ fns.equals k x.key = false)) ∧
      ((∀ x ∈ t.buckets, _mapbucket_isfull x = true → fns.equals k x.key = false) →
        countFull t1.buckets = countFull t.buckets + 1) ∧
      ((∃ x ∈ t.buckets, _mapbucket_isfull x = true ∧ fns.equals k x.key = true) →
        countFull t1.buckets = countFull t.buckets) ∧
      (NoTomb t.buckets → NoTomb t1.buckets ∧ Counted t1) ∧
      0 < t1.capacity ∧
      ((t1.capacity ≤ 2 ^ 23 → 4 * countUsed t1.buckets < 3 * t1.capacity + 4) ∧
        2 ^ 24 * countUsed t1.buckets < 3 * (2 ^ 22 + 1) * t1.capacity + 2 ^ 24) ∧
      (t1.capacity = t.capacity ∨
        (t1.capacity = 2 * t.capacity ∧ 0 < t.capacity ∧
          3 * (2 ^ 22 - 1) * t.capacity ≤ 2 ^ 24 * (t.length + t.tombs) ∧
          (t.capacity ≤ 2 ^ 23 → 3 * t.capacity ≤ 4 * (t.length + t.tombs))) ∨
        (t.capacity = 0 ∧ t1.capacity = map_init_capacity)) := by
  obtain ⟨s1, hg, ga, gb, gcnt, gnt, _⟩ := grow_total fns hp hk nd fuel t hs hc hf1 hf2 hsmall
  obtain ⟨hs1, hc1, hemp, hpos, ⟨hsm, hgen⟩, hcase⟩ :=
    grow_cond fns hp hk nd fuel t s1 hs hc hg
  obtain ⟨hu1, _⟩ := counted_used fns s1 hs1 hc1
  have hfuel1 : s1.capacity ≤ fuel := by
    rcases hcase with h | ⟨_, _, h | ⟨_, h⟩⟩
    · rw [h]; omega
    · omega
    · omega
  obtain ⟨fl, i, hr, hsound, hmem, hframe, hrev, c1, c2, c3, hfl⟩ :=
    put_total fns hk s1 k v hs1 hemp hv fuel hfuel1
  refine ⟨putOf s1 (fns.hash k)
    (tombFinal fns s1.buckets s1.capacity k (fns.hash k) fuel (fns.hash k % s1.capacity)
      UINTPTR_MAX) ⟨fns.hash k, k, v⟩ (fl, i), ?_, hsound _, ?_, ?_, ?_, ?_, ?_, ?_, ?_, ?_, ?_⟩
  · rw [map_set_put fns hp nd fuel t s1 k v hg (by omega), hr]; rfl
  · rw [putOf_buckets]; exact hmem
  · rw [putOf_buckets]
    intro x hx hxf hne
    exact hframe x (ga x hx hxf) hxf hne
  · rw [putOf_buckets]
    intro x hx hxf
    rcases hrev x hx hxf with h | ⟨h1, h2⟩
    · exact Or.inl h
    · exact Or.inr ⟨gb x h1 hxf, h2⟩
  · intro hno
    rw [putOf_buckets, c1, gcnt]
    have : fl = false := by
      cases hflv : fl with
      | false => rfl
      | true =>
        obtain ⟨x, hx, hxf, hxe⟩ := hfl.mp hflv
        have := hno x (gb x hx hxf) hxf
        rw [hxe] at this; exact absurd this (by simp)
    simp [this]
  · rintro ⟨x, hx, hxf, hxe⟩
    rw [putOf_buckets, c1, gcnt]
    have : fl = true := hfl.mpr ⟨x, ga x hx hxf, hxf, hxe⟩
    simp [this]
  · intro hnt
    have hnt1 := gnt hnt
    rw [tombFinal_noTomb fns _ _ _ _ hnt1]
    refine ⟨?_, put_counted fns s1 k (fns.hash k) _ _ hs1 hc1 (valid_full _ _ _ hv) fuel fl i hr
      (fun _ => rfl)⟩
    rw [putOf_buckets]
    intro x hx
    rcases List.mem_or_eq_of_mem_set hx with h | h
    · exact hnt1 x h
    · rw [h]; exact full_not_tomb _ (valid_full _ _ _ hv)
  · rw [putOf_capacity]; exact hpos
  · rw [putOf_buckets, putOf_capacity, c3]
    split <;> exact ⟨fun hle => by have := hsm hle; omega, by omega⟩
  · rw [putOf_capacity]
    rcases hcase with h | ⟨_, _, h | ⟨h0, h⟩⟩
    · left; rw [h]
    · right; left
      refine ⟨h, by omega, ?_⟩
      unfold growFor at hg
      split at hg
      · next hem =>
        have hnil : t.buckets = [] := List.isEmpty_iff.mp hem
        have : t.capacity = 0 := by rw [← hs.size, hnil]; rfl
        omega
      · split at hg
        · next hlf =>
          have hts := hs.small
          unfold sizeof_MapBucket at hts
          have := loadfactor_true t (by omega) (by omega) hlf
          have := Nat.mod_le (t.length + t.tombs) UWORD
          refine ⟨by omega, fun hle => ?_⟩
          rw [loadfactor_small t (by omega) hle] at hlf
          have := of_decide_eq_true hlf
          omega
        · simp only [Except.ok.injEq] at hg
          rw [← hg] at h
          omega
    · right; right; exact ⟨h0, h⟩

/-- On a well-formed, counted table `map_rehash` returns when given `max capacity ncap` probe
rounds and the new array can be allocated; the table it returns is well formed and counted
and holds exactly the Full buckets it held. -/
theorem rehash_total (fns : MapFns) (hp : LinearProbe fns) (hk : KeyLaws fns) (nd : Bool)
    (fuel : Nat) (t : _Map) (ncap : Nat) (hs : Sound fns t) (hc : Counted t)
    (hf1 : t.capacity ≤ fuel) (hf2 : ncap ≤ fuel) (hsmall : sizeof_MapBucket * ncap < UWORD) :
    ∃ t1, map_rehash fns nd fuel t ncap = .ok t1 ∧ Sound fns t1 ∧ Counted t1 ∧
      (∀ b ∈ t.buckets, _mapbucket_isfull b = true → b ∈ t1.buckets) ∧
      (∀ b ∈ t1.buckets, _mapbucket_isfull b = true → b ∈ t.buckets) ∧
      countFull t1.buckets = countFull t.buckets ∧
      (t1 = t ∨ t1.tombs = 0) ∧
      t1.capacity = (if ncap = 0 then t.capacity else max t.capacity ncap) ∧
      (ncap = 0 ∨ t.capacity < ncap → NoTomb t1.buckets) := by
  by_cases h0 : ncap = 0
  · subst h0
    rw [map_rehash_zero]
    obtain ⟨t1, h1, hfr, ha, hb, hcnt, _⟩ := rehashTo_total fns hp hk nd fuel t t.capacity hs hc.1
      (Nat.le_refl _) hs.small hf1
    exact ⟨t1, h1, hfr.sound, fresh_counted fns _ _ hfr, ha, hb, hcnt, Or.inr hfr.tombs,
      by simp [hfr.cap], fun _ => hfr.notomb⟩
  · by_cases hle : ncap ≤ t.capacity
    · rw [map_rehash_noop fns nd fuel t ncap h0 hle]
      refine ⟨t, rfl, hs, hc, fun b hb _ => hb, fun b hb _ => hb, rfl, Or.inl rfl, ?_, ?_⟩
      · rw [if_neg h0, Nat.max_eq_left hle]
      · intro h; rcases h with h | h
        · exact absurd h h0
        · omega
    · rw [map_rehash_grow fns nd fuel t ncap h0 (by omega)]
      obtain ⟨t1, h1, hfr, ha, hb, hcnt, _⟩ := rehashTo_total fns hp hk nd fuel t ncap hs hc.1
        (by omega) hsmall hf2
      refine ⟨t1, h1, hfr.sound, fresh_counted fns _ _ hfr, ha, hb, hcnt, Or.inr hfr.tombs, ?_,
        fun _ => hfr.notomb⟩
      rw [if_neg h0, hfr.cap, Nat.max_eq_right (by omega)]

/-- Setting pairwise different valid keys that the table does not hold yet, in a table
without Tombstones: every set returns, and the table finally holds all of them. -/
theorem runOps_sets (fns : MapFns) (hp : LinearProbe fns) (hk : KeyLaws fns) (nd : Bool)
    (fuel bound total : Nat) (hb1 : map_init_capacity ≤ bound) (hb2 : 4 * total ≤ bound)
    (hfuel : 2 * bound ≤ fuel) (hsmall : sizeof_MapBucket * (2 * bound) < UWORD) :
    ∀ (kvs : List (Nat × Nat)) (t : _Map), Sound fns t → Counted t → NoTomb t.buckets →
      (∀ kv ∈ kvs, ValidKey kv.1) →
      kvs.Pairwise (fun a b => fns.equals a.1 b.1 = false) →
      (∀ x ∈ t.buckets, _mapbucket_isfull x = true → ∀ kv ∈ kvs, fns.equals kv.1 x.key = false) →
      t.capacity ≤ bound → countFull t.buckets + kvs.length ≤ total →
      ∃ t1, runOps fns nd fuel (kvs.map fun kv => MapOp.set kv.1 kv.2) t = .ok t1 ∧
        Sound fns t1 ∧ Counted t1 ∧ NoTomb t1.buckets ∧
        countFull t1.buckets = countFull t.buckets + kvs.length ∧
        (∀ kv ∈ kvs, (⟨fns.hash kv.1, kv.1, kv.2⟩ : MapBucket) ∈ t1.buckets) ∧
        (∀ x ∈ t.buckets, _mapbucket_isfull x = true → x ∈ t1.buckets) ∧
        t1.capacity ≤ bound := by
  intro kvs
  induction kvs with
  | nil =>
    intro t hs hc hnt _ _ _ hcap _
    exact ⟨t, rfl, hs, hc, hnt, by simp, by simp, fun x hx _ => hx, hcap⟩
  | cons kv rest ih =>
    intro t hs hc hnt hval hpw hnew hcap htot
    rw [List.pairwise_cons] at hpw
    have hvkv := hval kv (List.mem_cons_self _ _)
    unfold sizeof_MapBucket at hsmall
    obtain ⟨t1, h1, hs1, hmem, hframe, hrev, hcnt, _, hnt1, _, _, hcap1⟩ :=
      set_total fns hp hk nd fuel t kv.1 kv.2 hs hc hvkv (by omega) (by omega)
        (by unfold sizeof_MapBucket; omega)
    obtain ⟨hnt1, hc1⟩ := hnt1 hnt
    have hcnt1 := hcnt (fun x hx hxf => hnew x hx hxf kv (List.mem_cons_self _ _))
    have hcapb : t1.capacity ≤ bound := by
      have hl := hc.1
      have htb : t.tombs = 0 := by rw [hc.2, countTomb_noTomb _ hnt]
      simp only [List.length_cons] at htot
      rcases hcap1 with h | ⟨h, _, h2⟩ | ⟨_, h⟩
      · omega
      · omega
      · omega
    have hnew1 : ∀ x ∈ t1.buckets, _mapbucket_isfull x = true →
        ∀ kv2 ∈ rest, fns.equals kv2.1 x.key = false := by
      intro x hx hxf kv2 hkv2
      rcases hrev x hx hxf with h | ⟨h, _⟩
      · subst h
        simp only
        cases he : fns.equals kv2.1 kv.1 with
        | false => rfl
        | true =>
          have := hpw.1 kv2 hkv2
          rw [hk.symm _ _ he] at this; exact absurd this (by simp)
      · exact hnew x h hxf kv2 (List.mem_cons_of_mem _ hkv2)
    obtain ⟨t2, h2, hs2, hc2, hnt2, hcnt2, hmem2, hframe2, hcap2⟩ :=
      ih t1 hs1 hc1 hnt1 (fun x hx => hval x (List.mem_cons_of_mem _ hx)) hpw.2 hnew1 hcapb
        (by simp only [List.length_cons] at htot; omega)
    refine ⟨t2, ?_, hs2, hc2, hnt2, ?_, ?_, ?_, hcap2⟩
    · simp only [List.map_cons, runOps, applyOp, h1]
      exact h2
    · rw [hcnt2, hcnt1]; simp only [List.length_cons]; omega
    · intro kv2 hkv2
      rcases List.mem_cons.mp hkv2 with h | h
      · subst h
        exact hframe2 _ hmem (valid_full _ _ _ hvkv)
      · exact hmem2 kv2 h
    · intro x hx hxf
      exact hframe2 x (hframe x hx hxf (hnew x hx hxf kv (List.mem_cons_self _ _))) hxf

/-- Creation with all three callbacks given returns when the array can be allocated; the
table is tidy, has the capacity asked for and every bucket of it is Empty. -/
theorem alloc_total (fns : MapFns) (hp : LinearProbe fns) (hk : KeyLaws fns) (nd : Bool)
    (cap : Nat) (hsmall : sizeof_MapBucket * cap < UWORD) :
    ∃ t, _map_alloc_full_n nd cap (some fns.hash) (some fns.equals) (some fns.probe) = .ok t ∧
      Tidy fns t ∧ t.capacity = cap ∧
      (∀ b ∈ t.buckets, _mapbucket_isfull b = false) ∧ NoTomb t.buckets := by
  have hfns : allocFns (some fns.hash) (some fns.equals) (some fns.probe) = fns := by
    cases fns; rfl
  have hex : ∃ t, _map_alloc_full_n nd cap (some fns.hash) (some fns.equals)
      (some fns.probe) = .ok t ∧ ∀ b ∈ t.buckets, b = ⟨0, 0, 0⟩ := by
    unfold _map_alloc_full_n
    simp only [Option.isNone_some, Bool.and_false, Bool.false_eq_true, if_false, hfns]
    split
    · exact ⟨_, rfl, fun b hb => by simp at hb⟩
    · next hc0 =>
      rw [map_rehash_grow fns nd 0 _ cap hc0 (by simp only; omega)]
      unfold rehashTo
      rw [if_neg (by omega)]
      simp only [List.take_nil, rehashLoop]
      refine ⟨_, by simp; rfl, ?_⟩
      intro b hb
      exact List.eq_of_mem_replicate hb
  obtain ⟨t, h, hall⟩ := hex
  obtain ⟨ht, hcap, _⟩ := alloc_tidy fns hp hk nd cap t h
  refine ⟨t, h, ht, hcap, ?_, ?_⟩
  · intro b hb; rw [hall b hb]; decide
  · intro b hb; rw [hall b hb]; decide

/-- C5: a table populated from creation by `_map_set` on pairwise different valid keys (no
deletion, whatever growth rehashes the sets trigger) has `map_length` equal to the number
of keys and `tombs = 0`, and every key maps to its value; the same holds after a
`map_rehash` to any larger capacity and after any `map_reserve`.  Probe rounds are bounded
by twice `max (initial capacity) (max 256 (4 * number of keys))`, respectively by the
capacities involved, and the arrays are assumed allocatable. -/
theorem C5_rehash_preserves_content (fns : MapFns) (hp : LinearProbe fns) (hk : KeyLaws fns)
    (nd : Bool) (fuel cap : Nat) (kvs : List (Nat × Nat))
    (hval : ∀ kv ∈ kvs, ValidKey kv.1)
    (hdist : kvs.Pairwise (fun a b => fns.equals a.1 b.1 = false))
    (hfuel : 2 * max cap (max map_init_capacity (4 * kvs.length)) ≤ fuel)
    (hsmall : sizeof_MapBucket * (2 * max cap (max map_init_capacity (4 * kvs.length))) < UWORD) :
    ∃ t, populate fns nd fuel cap kvs = .ok t ∧
      (map_length t = kvs.length ∧ t.tombs = 0 ∧
        ∀ kv ∈ kvs, _map_get_ex fns fuel t kv.1 = .ok (some (kv.1, kv.2)) ∧
          _map_get fns fuel t kv.1 = .ok kv.2) ∧
      (∀ ncap fuel1, t.capacity < ncap → sizeof_MapBucket * ncap < UWORD → ncap ≤ fuel1 →
        ∃ t1, map_rehash fns nd fuel1 t ncap = .ok t1 ∧ t1.capacity = ncap ∧
          map_length t1 = kvs.length ∧ t1.tombs = 0 ∧
          ∀ kv ∈ kvs, _map_get_ex fns fuel1 t1 kv.1 = .ok (some (kv.1, kv.2)) ∧
            _map_get fns fuel1 t1 kv.1 = .ok kv.2) ∧
      (∀ n fuel1, sizeof_MapBucket * reserveRequest n < UWORD → t.capacity ≤ fuel1 →
        reserveRequest n ≤ fuel1 →
        ∃ t1, map_reserve fns nd fuel1 t n = .ok t1 ∧
          map_length t1 = kvs.length ∧ t1.tombs = 0 ∧
          ∀ kv ∈ kvs, _map_get_ex fns fuel1 t1 kv.1 = .ok (some (kv.1, kv.2)) ∧
            _map_get fns fuel1 t1 kv.1 = .ok kv.2) := by
  have hB1 : cap ≤ max cap (max map_init_capacity (4 * kvs.length)) := Nat.le_max_left _ _
  have hB2 : map_init_capacity ≤ max cap (max map_init_capacity (4 * kvs.length)) :=
    Nat.le_trans (Nat.le_max_left _ _) (Nat.le_max_right _ _)
  have hB3 : 4 * kvs.length ≤ max cap (max map_init_capacity (4 * kvs.length)) :=
    Nat.le_trans (Nat.le_max_right _ _) (Nat.le_max_right _ _)
  generalize max cap (max map_init_capacity (4 * kvs.length)) = bound at hfuel hsmall hB1 hB2 hB3
  have hsm := hsmall
  unfold sizeof_MapBucket at hsm
  obtain ⟨t0, h0, ht0, hcap0, hnofull, hnt0⟩ := alloc_total fns hp hk nd cap
    (by unfold sizeof_MapBucket; omega)
  have hz : countFull t0.buckets = 0 := by
    unfold countFull
    rw [List.countP_eq_zero]
    intro b hb; simp [hnofull b hb]
  obtain ⟨t, hrun, hs, hc, hnt, hcnt, hmem, _, hcapb⟩ :=
    runOps_sets fns hp hk nd fuel bound kvs.length hB2 hB3 hfuel hsmall kvs t0 ht0.sound
      ht0.counted hnt0 hval hdist
      (fun x hx hxf => by rw [hnofull x hx] at hxf; exact absurd hxf (by simp))
      (by omega) (by omega)
  have hlen : map_length t = kvs.length := by
    unfold map_length; rw [hc.1, hcnt, hz]; omega
  have htombs : t.tombs = 0 := by rw [hc.2, countTomb_noTomb _ hnt]
  have hget : ∀ (t1 : _Map) (fuel1 : Nat), Sound fns t1 → t1.capacity ≤ fuel1 →
      (∀ kv ∈ kvs, (⟨fns.hash kv.1, kv.1, kv.2⟩ : MapBucket) ∈ t1.buckets) →
      ∀ kv ∈ kvs, _map_get_ex fns fuel1 t1 kv.1 = .ok (some (kv.1, kv.2)) ∧
        _map_get fns fuel1 t1 kv.1 = .ok kv.2 := by
    intro t1 fuel1 hs1 hf1 hm1 kv hkv
    have := get_of_mem fns hp hk t1 kv.1 ⟨fns.hash kv.1, kv.1, kv.2⟩ fuel1 hs1 (hm1 kv hkv)
      (valid_full _ _ _ (hval kv hkv)) (hk.refl _) hf1
    exact ⟨this, by rw [map_get_of_ex fns fuel1 t1 kv.1 _ this]; rfl⟩
  refine ⟨t, ?_, ⟨hlen, htombs, hget t fuel hs (by omega) hmem⟩, ?_, ?_⟩
  · unfold populate runFrom
    rw [h0]
    exact hrun
  · intro ncap fuel1 hlt hsm1 hf1
    obtain ⟨t1, h1, hs1, hc1, ha, _, hcnt1, htb, hcap1, hnt1⟩ :=
      rehash_total fns hp hk nd fuel1 t ncap hs hc (by omega) hf1 hsm1
    have hcapeq : t1.capacity = ncap := by
      rw [hcap1, if_neg (by omega), Nat.max_eq_right (by omega)]
    refine ⟨t1, h1, hcapeq, ?_, ?_, ?_⟩
    · unfold map_length at hlen ⊢; rw [hc1.1, hcnt1, ← hc.1]; exact hlen
    · rw [hc1.2, countTomb_noTomb _ (hnt1 (Or.inr hlt))]
    · exact hget t1 fuel1 hs1 (by omega)
        (fun kv hkv => ha _ (hmem kv hkv) (valid_full _ _ _ (hval kv hkv)))
  · intro n fuel1 hsm1 hf1 hf2
    rw [map_reserve_eq fns nd fuel1 t n (by unfold sizeof_MapBucket at hsm1; omega)]
    obtain ⟨t1, h1, hs1, hc1, ha, _, hcnt1, htb, hcap1, _⟩ :=
      rehash_total fns hp hk nd fuel1 t (reserveRequest n) hs hc hf1 hf2 hsm1
    refine ⟨t1, h1, ?_, ?_, ?_⟩
    · unfold map_length at hlen ⊢; rw [hc1.1, hcnt1, ← hc.1]; exact hlen
    · rcases htb with h | h
      · rw [h]; exact htombs
      · exact h
    · refine hget t1 fuel1 hs1 ?_
        (fun kv hkv => ha _ (hmem kv hkv) (valid_full _ _ _ (hval kv hkv)))
      rw [hcap1]
      split
      · exact hf1
      · exact Nat.max_le.mpr ⟨hf1, hf2⟩

theorem C5_rehash_preserves_content_witness :
    LinearProbe defaultFns ∧ KeyLaws defaultFns ∧
    (∀ kv ∈ [((1 : Nat), (10 : Nat)), (2, 20), (3, 30), (5, 50)], ValidKey kv.1) ∧
    [((1 : Nat), (10 : Nat)), (2, 20), (3, 30), (5, 50)].Pairwise
      (fun a b => defaultFns.equals a.1 b.1 = false) ∧
    2 * max 4 (max map_init_capacity (4 * [((1 : Nat), (10 : Nat)), (2, 20), (3, 30), (5, 50)].length))
      ≤ 512 ∧
    sizeof_MapBucket *
      (2 * max 4 (max map_init_capacity (4 * [((1 : Nat), (10 : Nat)), (2, 20), (3, 30), (5, 50)].length)))
      < UWORD ∧
    ∃ t, populate defaultFns false 512 4 [(1, 10), (2, 20), (3, 30), (5, 50)] = .ok t ∧
      map_length t = 4 ∧ t.tombs = 0 ∧ _map_get defaultFns 512 t 5 = .ok 50 :=
  ⟨linearProbe_default, keyLaws_default, by decide, by decide, by decide, by decide,
    (C5_rehash_preserves_content defaultFns linearProbe_default keyLaws_default false 512 4
      [(1, 10), (2, 20), (3, 30), (5, 50)] (by decide) (by decide) (by decide) (by decide)).elim
      fun t h => ⟨t, h.1, h.2.1.1, h.2.1.2.1, (h.2.1.2.2 (5, 50) (by decide)).2⟩⟩

theorem runOps_append (fns : MapFns) (nd : Bool) (fuel : Nat) :
    ∀ (a b : List MapOp) (t t1 : _Map), runOps fns nd fuel a t = .ok t1 →
      runOps fns nd fuel (a ++ b) t = runOps fns nd fuel b t1 := by
  intro a
  induction a with
  | nil =>
    intro b t t1 h
    simp only [runOps, Except.ok.injEq] at h
    subst h; rfl
  | cons op rest ih =>
    intro b t t1 h
    simp only [List.cons_append, runOps] at h ⊢
    cases ha : applyOp fns nd fuel t op with
    | error e => rw [ha] at h; simp at h
    | ok s =>
      rw [ha] at h
      simp only at h ⊢
      exact ih b s t1 h

/-- Deleting a key does not change the lookup of any key that is not equal to it. -/
theorem del_frame (fns : MapFns) (hp : LinearProbe fns) (hk : KeyLaws fns) (t t1 : _Map)
    (k k2 fuel fuel2 : Nat) (hne : fns.equals k2 k = false)
    (h : _map_del fns fuel t k = .ok t1) :
    _map_get_ex fns fuel2 t1 k2 = _map_get_ex fns fuel2 t k2 := by
  obtain ⟨hcap, fl, i, hst, ht1⟩ := del_cond fns hp fuel t t1 k h
  subst ht1
  cases fl with
  | false => rw [delOf_absent]
  | true =>
    obtain ⟨bi, hbi, hm, _⟩ := stopL_spec fns _ _ _ _ _ _ _ _ hst
    have hfull := matches_full fns _ _ _ hm
    have hnm : bucketMatches fns k2 (fns.hash k2) bi = false := by
      cases hm2 : bucketMatches fns k2 (fns.hash k2) bi with
      | false => rfl
      | true =>
        rw [matches_iff] at hm hm2
        have := hk.trans _ _ _ hm2.2.2 (hk.symm _ _ hm.2.2)
        rw [hne] at this; exact absurd this (by simp)
    have hs1 : stopsAt fns k2 (fns.hash k2) bi = false := by
      simp [stopsAt, hnm, full_not_empty _ hfull]
    have hs2 := tomb_never_stops fns k2 (fns.hash k2) _ (astomb_istomb bi)
    have hfr := stopL_frame_eq fns t.buckets t.capacity k2 (fns.hash k2) i bi
      (_mapbucket_astomb bi) hbi hs1 hs2 fuel2 (fns.hash k2 % t.capacity)
    unfold _map_get_ex _map_findbucket
    rw [delOf_capacity, if_neg hcap, if_neg hcap, findLoop_eq fns hp, findLoop_eq fns hp,
      delOf_buckets t i bi hbi, delOf_capacity, hfr]
    cases hr : stopL fns t.buckets t.capacity k2 (fns.hash k2) fuel2
        (fns.hash k2 % t.capacity) with
    | error e => rfl
    | ok r =>
      obtain ⟨fl2, j⟩ := r
      cases fl2 with
      | false => rfl
      | true =>
        obtain ⟨bj, hbj, hmj, _⟩ := stopL_spec fns _ _ _ _ _ _ _ _ hr
        have hji : i ≠ j := by
          rintro rfl
          rw [hbi] at hbj
          have : bi = bj := Option.some.inj hbj
          subst this
          rw [hnm] at hmj; exact absurd hmj (by simp)
        simp only [Except.map, findOf, if_true, loadBucket, delOf_buckets t i bi hbi,
          List.getElem?_set_ne hji]

/-- Deleting a stored key from a well-formed table returns within `capacity` probe rounds;
afterwards the table is well formed, holds no entry under the key and keeps every other
entry. -/
theorem del_total (fns : MapFns) (hp : LinearProbe fns) (hk : KeyLaws fns) (t : _Map)
    (k fuel : Nat) (b : MapBucket) (hs : Sound fns t) (hb : b ∈ t.buckets)
    (hfull : _mapbucket_isfull b = true) (he : fns.equals k b.key = true)
    (hfuel : t.capacity ≤ fuel) :
    ∃ t1 i bi, _map_del fns fuel t k = .ok t1 ∧ t1 = delOf t (true, i) ∧
      t.buckets[i]? = some bi ∧ _mapbucket_isfull bi = true ∧ Sound fns t1 ∧
      t1.capacity = t.capacity ∧
      (∀ x ∈ t.buckets, _mapbucket_isfull x = true → fns.equals k x.key = false →
        x ∈ t1.buckets) ∧
      (∀ x ∈ t1.buckets, _mapbucket_isfull x = true →
        x ∈ t.buckets ∧ fns.equals k x.key = false) ∧
      countUsed t1.buckets = countUsed t.buckets := by
  obtain ⟨j, hj⟩ := List.mem_iff_getElem?.mp hb
  have hlt := getElem?_lt _ _ _ hj
  have hcap : t.capacity ≠ 0 := by have := hs.size; omega
  have h1 := found_present fns hk t.buckets t.capacity k hs.found j b hj hfull he
  have h2 := stopL_mono fns _ _ _ _ _ _ _ h1 fuel hfuel
  have hdel : _map_del fns fuel t k = .ok (delOf t (true, j)) := by
    rw [map_del_eq fns hp fuel t k hcap, h2]; rfl
  obtain ⟨_, _, c3⟩ := tomb_counts t.buckets j b hj hfull
  refine ⟨_, j, b, hdel, rfl, hj, hfull, del_sound fns hp fuel t _ k hs hdel, delOf_capacity _ _,
    ?_, ?_, ?_⟩
  · intro x hx hxf hne
    rw [delOf_buckets t j b hj]
    obtain ⟨m, hm⟩ := List.mem_iff_getElem?.mp hx
    have hmj : m ≠ j := by
      rintro rfl
      rw [hj] at hm
      have : b = x := Option.some.inj hm
      subst this
      rw [he] at hne; exact absurd hne (by simp)
    exact mem_set_of_ne _ _ _ _ _ hm hmj
  · intro x hx hxf
    rw [delOf_buckets t j b hj] at hx
    rcases mem_set_cases _ _ _ _ hx with hx1 | ⟨m, hmj, hm⟩
    · subst hx1
      rw [tomb_not_full _ (astomb_istomb b)] at hxf; exact absurd hxf (by simp)
    · refine ⟨List.getElem?_mem hm, ?_⟩
      cases hex : fns.equals k x.key with
      | false => rfl
      | true =>
        have := found_present fns hk t.buckets t.capacity k hs.found m x hm hxf hex
        rw [h1] at this
        simp only [Except.ok.injEq, Prod.mk.injEq, true_and] at this
        exact absurd this.symm hmj
  · rw [delOf_buckets t j b hj]; exact c3

/-- C2: deleting a key changes the lookup of no key that is not equal to it, on every table
(the lookup returns the same result, found or not, for the same number of probe rounds); in
particular, in a fresh table of any initial capacity, after `set` on three different valid
keys (colliding or not) and `del` of the second one the lookup of the third still returns
its value.  The callback `equals` is an equivalence relation compatible with `hash` and the
probe is the default one. -/
theorem C2_tombstone_transparency (fns : MapFns) (hp : LinearProbe fns) (hk : KeyLaws fns) :
    (∀ (t t1 : _Map) (k k2 fuel fuel2 : Nat), fns.equals k2 k = false →
      _map_del fns fuel t k = .ok t1 →
      _map_get_ex fns fuel2 t1 k2 = _map_get_ex fns fuel2 t k2) ∧
    (∀ (nd : Bool) (cap fuel k1 k2 k3 v1 v2 v3 : Nat),
      ValidKey k1 → ValidKey k2 → ValidKey k3 →
      fns.equals k1 k2 = false → fns.equals k1 k3 = false → fns.equals k2 k3 = false →
      2 * max cap map_init_capacity ≤ fuel →
      sizeof_MapBucket * (2 * max cap map_init_capacity) < UWORD →
      ∃ t, runFrom fns nd fuel cap [.set k1 v1, .set k2 v2, .set k3 v3, .del k2] = .ok t ∧
        _map_get_ex fns fuel t k3 = .ok (some (k3, v3)) ∧
        _map_get fns fuel t k3 = .ok v3) := by
  refine ⟨fun t t1 k k2 fuel fuel2 hne h => del_frame fns hp hk t t1 k k2 fuel fuel2 hne h, ?_⟩
  intro nd cap fuel k1 k2 k3 v1 v2 v3 hv1 hv2 hv3 h12 h13 h23 hfuel hsmall
  have hB1 : cap ≤ max cap map_init_capacity := Nat.le_max_left _ _
  have hB2 : map_init_capacity ≤ max cap map_init_capacity := Nat.le_max_right _ _
  generalize max cap map_init_capacity = bound at hfuel hsmall hB1 hB2
  have hsm := hsmall
  unfold sizeof_MapBucket at hsm
  obtain ⟨t0, h0, ht0, hcap0, hnofull, hnt0⟩ := alloc_total fns hp hk nd cap
    (by unfold sizeof_MapBucket; omega)
  have hz : countFull t0.buckets = 0 := by
    unfold countFull
    rw [List.countP_eq_zero]
    intro b hb; simp [hnofull b hb]
  obtain ⟨t3, hrun, hs3, _, _, _, hmem, _, hcapb⟩ :=
    runOps_sets fns hp hk nd fuel bound 3 hB2 (by unfold map_init_capacity at hB2; omega)
      hfuel hsmall [(k1, v1), (k2, v2), (k3, v3)] t0 ht0.sound ht0.counted hnt0
      (by
        intro kv hkv
        simp only [List.mem_cons, List.mem_singleton, List.not_mem_nil, or_false] at hkv
        rcases hkv with h | h | h <;> subst h <;> assumption)
      (by simp [h12, h13, h23])
      (fun x hx hxf => by rw [hnofull x hx] at hxf; exact absurd hxf (by simp))
      (by omega) (by rw [hz]; simp)
  have hm2 := hmem (k2, v2) (by simp)
  have hm3 := hmem (k3, v3) (by simp)
  obtain ⟨t4, _, _, hdel, _, _, _, hs4, hcap4, hframe, _, _⟩ :=
    del_total fns hp hk t3 k2 fuel ⟨fns.hash k2, k2, v2⟩ hs3 hm2 (valid_full _ _ _ hv2)
      (hk.refl _) (by omega)
  have hm4 := hframe _ hm3 (valid_full _ _ _ hv3) h23
  have hget := get_of_mem fns hp hk t4 k3 ⟨fns.hash k3, k3, v3⟩ fuel hs4 hm4
    (valid_full _ _ _ hv3) (hk.refl _) (by omega)
  refine ⟨t4, ?_, hget, by rw [map_get_of_ex fns fuel t4 k3 _ hget]; rfl⟩
  unfold runFrom
  rw [h0]
  simp only
  have := runOps_append fns nd fuel [.set k1 v1, .set k2 v2, .set k3 v3] [.del k2] t0 t3 hrun
  simp only [List.cons_append, List.nil_append] at this
  rw [this]
  simp only [runOps, applyOp, hdel]

theorem C2_tombstone_transparency_witness :
    LinearProbe defaultFns ∧ KeyLaws defaultFns ∧
    ((defaultFns.equals 12 8 = false →
        _map_del defaultFns 4 (tbl [⟨4, 4, 1⟩, ⟨8, 8, 2⟩, ⟨12, 12, 3⟩, ⟨0, 0, 0⟩] 3 0) 8
          = .ok (tbl [⟨4, 4, 1⟩, ⟨8, MAP_TOMB, 0⟩, ⟨12, 12, 3⟩, ⟨0, 0, 0⟩] 2 1) →
        _map_get_ex defaultFns 4 (tbl [⟨4, 4, 1⟩, ⟨8, MAP_TOMB, 0⟩, ⟨12, 12, 3⟩, ⟨0, 0, 0⟩] 2 1) 12
          = _map_get_ex defaultFns 4 (tbl [⟨4, 4, 1⟩, ⟨8, 8, 2⟩, ⟨12, 12, 3⟩, ⟨0, 0, 0⟩] 3 0) 12) ∧
      defaultFns.equals 12 8 = false ∧
      _map_del defaultFns 4 (tbl [⟨4, 4, 1⟩, ⟨8, 8, 2⟩, ⟨12, 12, 3⟩, ⟨0, 0, 0⟩] 3 0) 8
        = .ok (tbl [⟨4, 4, 1⟩, ⟨8, MAP_TOMB, 0⟩, ⟨12, 12, 3⟩, ⟨0, 0, 0⟩] 2 1)) ∧
    (ValidKey 4 ∧ ValidKey 8 ∧ ValidKey 12 ∧ defaultFns.equals 4 8 = false ∧
      defaultFns.equals 4 12 = false ∧ defaultFns.equals 8 12 = false ∧
      2 * max 4 map_init_capacity ≤ 512 ∧
      sizeof_MapBucket * (2 * max 4 map_init_capacity) < UWORD ∧
      ∃ t, runFrom defaultFns false 512 4 [.set 4 1, .set 8 2, .set 12 3, .del 8] = .ok t ∧
        _map_get_ex defaultFns 512 t 12 = .ok (some (12, 3)) ∧
        _map_get defaultFns 512 t 12 = .ok 3) :=
  ⟨linearProbe_default, keyLaws_default,
    ⟨(C2_tombstone_transparency defaultFns linearProbe_default keyLaws_default).1 _ _ 8 12 4 4,
      by decide, by decide⟩,
    by decide, by decide, by decide, by decide, by decide, by decide, by decide, by decide,
    (C2_tombstone_transparency defaultFns linearProbe_default keyLaws_default).2 false 4 512
      4 8 12 1 2 3 (by decide) (by decide) (by decide) (by decide) (by decide) (by decide)
      (by decide) (by decide)⟩

theorem uword_eq : UWORD = 18446744073709551616 := by unfold UWORD; norm_num

/-- Machine sum `length + tombs` after a set that decremented `tombs` and a delete that
decremented `length`. -/
theorem slip_sum (a b c : Nat) (hb : 1 ≤ b) (hab : a + b ≤ c) (hc : 24 * c < UWORD) :
    ((a + UWORD - 1) % UWORD + ((b + UWORD - 1) % UWORD + 1) % UWORD) % UWORD = a + b - 1 := by
  rw [uword_eq] at hc ⊢
  omega

/-- A set on a well-formed table with an Empty bucket and allocated buckets that fails the
load test does not grow the table: it returns within `capacity` probe rounds, and
the table then is well formed and holds the entry. -/
theorem set_nogrow (fns : MapFns) (hp : LinearProbe fns) (hk : KeyLaws fns) (nd : Bool)
    (fuel : Nat) (t : _Map) (k v : Nat) (hs : Sound fns t) (hemp : HasEmpty t.buckets)
    (hv : ValidKey k) (hlf : loadfactor_ge_max t = false) (hfuel : t.capacity ≤ fuel) :
    ∃ t1, _map_set fns nd fuel t k v = .ok t1 ∧ Sound fns t1 ∧ t1.capacity = t.capacity ∧
      (⟨fns.hash k, k, v⟩ : MapBucket) ∈ t1.buckets := by
  have hne : t.buckets.isEmpty = false := by
    obtain ⟨e, b, hb, _⟩ := hemp
    cases hbs : t.buckets with
    | nil => rw [hbs] at hb; simp at hb
    | cons x l => rfl
  have hpos : 0 < t.capacity := by
    obtain ⟨e, b, hb, _⟩ := hemp
    have := getElem?_lt _ _ _ hb
    have := hs.size
    omega
  have hg : growFor fns nd fuel t = .ok t := by
    unfold growFor
    simp [hne, hlf]
  obtain ⟨fl, i, hr, hsound, hmem, _⟩ := put_total fns hk t k v hs hemp hv fuel hfuel
  refine ⟨putOf t (fns.hash k)
    (tombFinal fns t.buckets t.capacity k (fns.hash k) fuel (fns.hash k % t.capacity)
      UINTPTR_MAX) ⟨fns.hash k, k, v⟩ (fl, i), ?_, hsound _, putOf_capacity _ _ _ _ _, ?_⟩
  · rw [map_set_put fns hp nd fuel t t k v hg (by omega), hr]; rfl
  · rw [putOf_buckets]; exact hmem

/-- C4 (as amended): for every table of capacity 0 or at least 4 that is reachable from
creation through steps that leave `length` and `tombs` equal to the numbers of Full and
Tombstone buckets, every valid key `k` and all values `v`, `v2`: `set(k, v)` and `del(k)`
return, the lookup of `k` then returns not-found, a further `set(k, v2)` returns and the
lookup of `k` then returns `v2`.  Probe rounds are bounded by `4 * max capacity 256` and
the arrays of up to that many buckets are assumed allocatable. -/
theorem C4_delete_then_reinsert (fns : MapFns) (hp : LinearProbe fns) (hk : KeyLaws fns)
    (nd : Bool) (t : _Map) (k v v2 fuel : Nat) (hr : ReachableCounted fns nd t)
    (hcap : t.capacity = 0 ∨ 4 ≤ t.capacity) (hv : ValidKey k)
    (hfuel : 4 * max t.capacity map_init_capacity ≤ fuel)
    (hsmall : sizeof_MapBucket * (4 * max t.capacity map_init_capacity) < UWORD) :
    ∃ t1 t2 t3, _map_set fns nd fuel t k v = .ok t1 ∧ _map_del fns fuel t1 k = .ok t2 ∧
      _map_get_ex fns fuel t2 k = .ok none ∧ _map_get fns fuel t2 k = .ok 0 ∧
      _map_set fns nd fuel t2 k v2 = .ok t3 ∧
      _map_get_ex fns fuel t3 k = .ok (some (k, v2)) ∧ _map_get fns fuel t3 k = .ok v2 := by
  have ht := reachableCounted_tidy fns hp hk nd t hr
  have hM1 : t.capacity ≤ max t.capacity map_init_capacity := Nat.le_max_left _ _
  have hM2 : map_init_capacity ≤ max t.capacity map_init_capacity := Nat.le_max_right _ _
  generalize max t.capacity map_init_capacity = M at hfuel hsmall hM1 hM2
  unfold sizeof_MapBucket at hsmall
  unfold map_init_capacity at hM2
  -- first set
  obtain ⟨t1, h1, hs1, hmem1, _, _, _, _, _, hpos1, hload1, hcap1⟩ :=
    set_total fns hp hk nd fuel t k v ht.sound ht.counted hv (by unfold map_init_capacity; omega)
      (by omega) (by unfold sizeof_MapBucket; omega)
  have hc1le : t1.capacity ≤ 2 * M := by
    unfold map_init_capacity at hcap1
    rcases hcap1 with h | ⟨h, _, _⟩ | ⟨_, h⟩ <;> omega
  have hc1ge : 4 ≤ t1.capacity := by
    unfold map_init_capacity at hcap1
    rcases hcap1 with h | ⟨h, _, _⟩ | ⟨_, h⟩ <;> omega
  -- delete
  obtain ⟨t2, i, bi, h2, ht2, hbi, hbif, hs2, hcap2, _, hrev2, hused2⟩ :=
    del_total fns hp hk t1 k fuel ⟨fns.hash k, k, v⟩ hs1 hmem1 (valid_full _ _ _ hv)
      (hk.refl _) (by omega)
  have hemp2 : HasEmpty t2.buckets := by
    apply hasEmpty_of_count
    rw [hused2, hs2.size, hcap2]
    omega
  -- lookup after the delete
  have hget2 := get_absent fns hp t2 k fuel hs2 hemp2 (fun b hb hbf => (hrev2 b hb hbf).2)
    (by omega)
  -- second set
  have hset3 : ∃ t3, _map_set fns nd fuel t2 k v2 = .ok t3 ∧ Sound fns t3 ∧
      t3.capacity ≤ fuel ∧ (⟨fns.hash k, k, v2⟩ : MapBucket) ∈ t3.buckets := by
    obtain ⟨s1, fl, j, tf, hg, hst, hput, htf⟩ :=
      set_cond fns hp hk nd fuel t t1 k v ht.sound ht.counted h1
    obtain ⟨hss1, hcs1, _, _, hloads1, _⟩ := grow_cond fns hp hk nd fuel t s1 ht.sound ht.counted hg
    by_cases hslip : fl = false ∧ tf ≠ UINTPTR_MAX
    · -- the first set took the branch that decrements `tombs`
      obtain ⟨hfl, htfne⟩ := hslip
      subst hfl
      have hex : ∃ b ∈ s1.buckets, _mapbucket_istomb b = true := by
        rcases htf with h | h
        · exact absurd h htfne
        · exact h
      have htpos := countTomb_pos _ hex
      rw [← hcs1.2] at htpos
      obtain ⟨hu1, hu2⟩ := counted_used fns s1 hss1 hcs1
      have hsm1 := hss1.small
      unfold sizeof_MapBucket at hsm1
      have hl1 : t1.length = s1.length := by rw [hput, putOf_length]; simp [htfne]
      have htb1 : t1.tombs = (s1.tombs + UWORD - 1) % UWORD := by
        rw [hput, putOf_tombs]; simp [htfne]
      have hcp1 : t1.capacity = s1.capacity := by rw [hput, putOf_capacity]
      have hlf : loadfactor_ge_max t2 = false := by
        have hlfs := grow_load_false fns hp hk nd fuel t s1 ht.sound ht.counted hg
        have hmod : (s1.length + s1.tombs) % UWORD = s1.length + s1.tombs := by
          apply Nat.mod_eq_of_lt; unfold UWORD at hsm1 ⊢; omega
        apply loadfactor_mono s1 t2 (by rw [hcap2, hcp1]) (by omega) (by omega) ?_ hlfs
        rw [ht2, delOf_length, delOf_tombs, hl1, htb1,
          slip_sum s1.length s1.tombs s1.capacity htpos (by omega) hsm1, hmod]
        omega
      obtain ⟨t3, h3, hs3, hcap3, hmem3⟩ :=
        set_nogrow fns hp hk nd fuel t2 k v2 hs2 hemp2 hv hlf (by omega)
      exact ⟨t3, h3, hs3, by omega, hmem3⟩
    · -- the bookkeeping is still accurate
      have hc1 : Counted t1 := by
        rw [hput]
        apply put_counted fns s1 k (fns.hash k) tf _ hss1 hcs1 (valid_full _ _ _ hv) fuel fl j hst
        intro hfl
        by_contra hne
        exact hslip ⟨hfl, hne⟩
      obtain ⟨hc2, _, _⟩ := del_counted fns hp fuel t1 t2 k hs1 hc1 h2
      obtain ⟨t3, h3, hs3, hmem3, _, _, _, _, _, _, _, hcap3⟩ :=
        set_total fns hp hk nd fuel t2 k v2 hs2 hc2 hv (by unfold map_init_capacity; omega)
          (by omega) (by unfold sizeof_MapBucket; omega)
      refine ⟨t3, h3, hs3, ?_, hmem3⟩
      unfold map_init_capacity at hcap3
      rcases hcap3 with h | ⟨h, _, _⟩ | ⟨_, h⟩ <;> omega
  obtain ⟨t3, h3, hs3, hcap3, hmem3⟩ := hset3
  have hget3 := get_of_mem fns hp hk t3 k ⟨fns.hash k, k, v2⟩ fuel hs3 hmem3
    (valid_full _ _ _ hv) (hk.refl _) hcap3
  exact ⟨t1, t2, t3, h1, h2, hget2, by rw [map_get_of_ex fns fuel t2 k _ hget2]; rfl, h3, hget3,
    by rw [map_get_of_ex fns fuel t3 k _ hget3]; rfl⟩

theorem C4_delete_then_reinsert_witness :
    LinearProbe defaultFns ∧ KeyLaws defaultFns ∧
    ReachableCounted defaultFns false
      (tbl [⟨4, MAP_TOMB, 0⟩, ⟨0, 0, 0⟩, ⟨0, 0, 0⟩, ⟨0, 0, 0⟩] 0 1) ∧
    ((tbl [⟨4, MAP_TOMB, 0⟩, ⟨0, 0, 0⟩, ⟨0, 0, 0⟩, ⟨0, 0, 0⟩] 0 1).capacity = 0 ∨
      4 ≤ (tbl [⟨4, MAP_TOMB, 0⟩, ⟨0, 0, 0⟩, ⟨0, 0, 0⟩, ⟨0, 0, 0⟩] 0 1).capacity) ∧
    ValidKey 8 ∧
    4 * max (tbl [⟨4, MAP_TOMB, 0⟩, ⟨0, 0, 0⟩, ⟨0, 0, 0⟩, ⟨0, 0, 0⟩] 0 1).capacity
      map_init_capacity ≤ 1024 ∧
    sizeof_MapBucket *
      (4 * max (tbl [⟨4, MAP_TOMB, 0⟩, ⟨0, 0, 0⟩, ⟨0, 0, 0⟩, ⟨0, 0, 0⟩] 0 1).capacity
        map_init_capacity) < UWORD ∧
    ∃ t1 t2 t3,
      _map_set defaultFns false 1024
        (tbl [⟨4, MAP_TOMB, 0⟩, ⟨0, 0, 0⟩, ⟨0, 0, 0⟩, ⟨0, 0, 0⟩] 0 1) 8 1 = .ok t1 ∧
      _map_del defaultFns 1024 t1 8 = .ok t2 ∧
      _map_get_ex defaultFns 1024 t2 8 = .ok none ∧ _map_get defaultFns 1024 t2 8 = .ok 0 ∧
      _map_set defaultFns false 1024 t2 8 2 = .ok t3 ∧
      _map_get_ex defaultFns 1024 t3 8 = .ok (some (8, 2)) ∧
      _map_get defaultFns 1024 t3 8 = .ok 2 :=
  have hr : ReachableCounted defaultFns false
      (tbl [⟨4, MAP_TOMB, 0⟩, ⟨0, 0, 0⟩, ⟨0, 0, 0⟩, ⟨0, 0, 0⟩] 0 1) :=
    ReachableCounted.del 4 (tbl [⟨4, 4, 1⟩, ⟨0, 0, 0⟩, ⟨0, 0, 0⟩, ⟨0, 0, 0⟩] 1 0) _ 4
      (ReachableCounted.set 4 (tbl [⟨0, 0, 0⟩, ⟨0, 0, 0⟩, ⟨0, 0, 0⟩, ⟨0, 0, 0⟩] 0 0) _ 4 1
        (ReachableCounted.create 4 _ (by decide)) (by decide) (by decide) (by decide))
      (by decide)
  ⟨linearProbe_default, keyLaws_default, hr, by decide, by decide, by decide, by decide,
    C4_delete_then_reinsert defaultFns linearProbe_default keyLaws_default false _ 8 1 2 1024 hr
      (by decide) (by decide) (by decide) (by decide)⟩

theorem find_cycles_tomb (fuel : Nat) :
    findLoop defaultFns (tbl [⟨5, MAP_TOMB, 0⟩] 0 1) 5 5 fuel 0 = .error .fuel := by
  induction fuel with
  | zero => rfl
  | succ n ih =>
    simpa [findLoop, loadBucket, tbl, bucketMatches, _mapbucket_isfull, _mapbucket_isempty,
      defaultFns, _map_defaultprobe, _map_defaulthash, _map_defaultequals, MAP_TOMB, UWORD]
      using ih

/-- C4 (counterexample): in a fresh table of capacity 1, `set(5, 1)` and `del(5)` return and
leave the single bucket a Tombstone; the lookup of key 5 then never returns, so it does not
return not-found. -/
theorem C4_lookup_diverges_at_capacity_one :
    ∃ t t1 t2, Reachable defaultFns false t ∧ _map_set defaultFns false 1 t 5 1 = .ok t1 ∧
      _map_del defaultFns 1 t1 5 = .ok t2 ∧
      ∀ fuel, _map_get_ex defaultFns fuel t2 5 = .error .fuel := by
  refine ⟨tbl [⟨0, 0, 0⟩] 0 0, tbl [⟨5, 5, 1⟩] 1 0, tbl [⟨5, MAP_TOMB, 0⟩] 0 1,
    reachable_runFrom defaultFns false 1 1 [] _ (by decide) (by decide),
    by decide, by decide, ?_⟩
  intro fuel
  have := find_cycles_tomb fuel
  unfold _map_get_ex _map_findbucket
  simp only [tbl, defaultFns, _map_defaulthash, List.length_singleton] at this ⊢
  simp [this]

/-- A probe started inside the array stops within as many steps as lie between its start
and a bucket that stops it. -/
theorem stopL_reaches (fns : MapFns) (bs : List MapBucket) (cap key h e : Nat)
    (hsz : bs.length = cap) (he : e < cap)
    (hstop : ∃ b, bs[e]? = some b ∧ stopsAt fns key h b = true) :
    ∀ d idx, idx < cap → probeDist cap idx e = d →
      ∃ r, stopL fns bs cap key h (d + 1) idx = .ok r := by
  intro d
  induction d with
  | zero =>
    intro idx hidx hd
    have : idx = e := by unfold probeDist at hd; split at hd <;> omega
    subst this
    obtain ⟨b, hb, hbs⟩ := hstop
    unfold stopL
    simp only [hb]
    by_cases hm : bucketMatches fns key h b = true
    · exact ⟨(true, idx), by simp [hm]⟩
    · have hbe : _mapbucket_isempty b = true := by
        unfold stopsAt at hbs
        simpa [hm] using hbs
      exact ⟨(false, idx), by simp [hm, hbe]⟩
  | succ n ih =>
    intro idx hidx hd
    unfold stopL
    have hlt : idx < bs.length := by omega
    obtain ⟨b, hb⟩ : ∃ b, bs[idx]? = some b := ⟨bs[idx], List.getElem?_eq_getElem hlt⟩
    simp only [hb]
    by_cases hm : bucketMatches fns key h b = true
    · exact ⟨(true, idx), by simp [hm]⟩
    · by_cases hbe : _mapbucket_isempty b = true
      · exact ⟨(false, idx), by simp [hm, hbe]⟩
      · simp only [hm, hbe, if_false, Bool.false_eq_true]
        apply ih
        · exact Nat.mod_lt _ (by omega)
        · rw [next_index cap idx hidx]
          unfold probeDist at hd ⊢
          split at hd <;> split <;> split <;> omega

/-- A probe that stops does so within `cap` steps, whether or not the array has an Empty
bucket. -/
theorem stop_within_cap (fns : MapFns) (bs : List MapBucket) (cap key h : Nat)
    (hsz : bs.length = cap) (fuel idx : Nat) (hidx : idx < cap)
    (r : Bool × Nat) (hs : stopL fns bs cap key h fuel idx = .ok r) :
    stopL fns bs cap key h cap idx = .ok r := by
  obtain ⟨fl, i⟩ := r
  obtain ⟨b, hb, hst⟩ := stopL_stops fns bs cap key h fuel idx fl i hs
  have hi : i < cap := by have := getElem?_lt bs i b hb; omega
  obtain ⟨r1, hr1⟩ := stopL_reaches fns bs cap key h i hsz hi ⟨b, hb, hst⟩
    (probeDist cap idx i) idx hidx rfl
  have hd : probeDist cap idx i + 1 ≤ cap := by unfold probeDist; split <;> omega
  have h1 := stopL_mono fns bs cap key h _ _ _ hr1 cap hd
  rcases Nat.le_total fuel cap with hle | hle
  · exact stopL_mono fns bs cap key h _ _ _ hs cap hle
  · have := stopL_mono fns bs cap key h _ _ _ h1 fuel hle
    rw [hs] at this
    rw [h1, ← Except.ok.inj this]

/-- Writing a Full bucket for `k` where the probe for `k` stopped keeps the table well
formed, also when no bucket is Empty. -/
theorem put_sound_any (fns : MapFns) (hk : KeyLaws fns) (s : _Map) (k v tf : Nat)
    (hs : Sound fns s) (hcap : 0 < s.capacity) (hv : ValidKey k)
    (fuel : Nat) (r : Bool × Nat)
    (hr : stopL fns s.buckets s.capacity k (fns.hash k) fuel (fns.hash k % s.capacity) = .ok r) :
    Sound fns (putOf s (fns.hash k) tf ⟨fns.hash k, k, v⟩ r) := by
  obtain ⟨fl, i⟩ := r
  have hr2 := stop_within_cap fns s.buckets s.capacity k (fns.hash k) hs.size fuel _
    (Nat.mod_lt _ hcap) _ hr
  constructor
  · rw [putOf_buckets, putOf_capacity, List.length_set]; exact hs.size
  · rw [putOf_capacity]; exact hs.small
  · rw [putOf_buckets]
    intro b hb
    rcases List.mem_or_eq_of_mem_set hb with hb1 | hb1
    · exact hs.shaped b hb1
    · subst hb1; exact Or.inr (Or.inl (valid_full _ _ _ hv))
  · rw [putOf_buckets]
    intro b hb hfull
    rcases List.mem_or_eq_of_mem_set hb with hb1 | hb1
    · exact hs.cached b hb1 hfull
    · subst hb1; rfl
  · rw [putOf_buckets, putOf_capacity]
    exact found_put fns hk s.buckets s.capacity k v hs.found hv fl i hr2

/-- The growth step of `_map_set` leaves a well-formed table with at least one bucket,
whatever the counters say. -/
theorem grow_sound (fns : MapFns) (hp : LinearProbe fns) (hk : KeyLaws fns) (nd : Bool)
    (fuel : Nat) (t s1 : _Map) (hs : Sound fns t) (hg : growFor fns nd fuel t = .ok s1) :
    Sound fns s1 ∧ 0 < s1.capacity ∧ t.capacity ≤ s1.capacity := by
  have hsmall := hs.small
  have hsz := hs.size
  unfold sizeof_MapBucket at hsmall
  unfold growFor at hg
  split at hg
  · next hemp =>
    have hnil : t.buckets = [] := List.isEmpty_iff.mp hemp
    have hcap0 : t.capacity = 0 := by rw [← hsz, hnil]; rfl
    rw [map_rehash_grow fns nd fuel t map_init_capacity (by decide)
      (by rw [hcap0]; decide)] at hg
    obtain ⟨hf, _⟩ := rehashTo_fresh fns hp hk nd fuel t s1 _ hs (by rw [hcap0]; decide) hg
    have hcap1 : s1.capacity = map_init_capacity := hf.cap
    exact ⟨hf.sound, by rw [hcap1]; decide, by omega⟩
  · next hne =>
    have hpos : 0 < t.capacity := by
      rw [← hsz]
      cases hb : t.buckets with
      | nil => rw [hb] at hne; simp at hne
      | cons x l => simp
    split at hg
    · have h2 : (t.capacity * 2) % UWORD = 2 * t.capacity := by
        unfold UWORD at hsmall ⊢; omega
      rw [h2, map_rehash_grow fns nd fuel t _ (by omega) (by omega)] at hg
      obtain ⟨hf, _⟩ := rehashTo_fresh fns hp hk nd fuel t s1 _ hs (by omega) hg
      have hcap1 : s1.capacity = 2 * t.capacity := hf.cap
      exact ⟨hf.sound, by omega, by omega⟩
    · simp only [Except.ok.injEq] at hg
      subst hg
      exact ⟨hs, hpos, Nat.le_refl _⟩

/-- A `_map_set` of a valid key that returns leaves a well-formed table, whatever the
counters say. -/
theorem set_sound_any (fns : MapFns) (hp : LinearProbe fns) (hk : KeyLaws fns) (nd : Bool)
    (fuel : Nat) (t t1 : _Map) (k v : Nat) (hs : Sound fns t) (hv : ValidKey k)
    (h : _map_set fns nd fuel t k v = .ok t1) : Sound fns t1 ∧ t.capacity ≤ t1.capacity := by
  cases hg : growFor fns nd fuel t with
  | error e => rw [map_set_eq, hg] at h; simp at h
  | ok s1 =>
    obtain ⟨hs1, hpos, hle⟩ := grow_sound fns hp hk nd fuel t s1 hs hg
    rw [map_set_put fns hp nd fuel t s1 k v hg (by omega)] at h
    cases hst : stopL fns s1.buckets s1.capacity k (fns.hash k) fuel
        (fns.hash k % s1.capacity) with
    | error e => rw [hst] at h; simp [Except.map] at h
    | ok r =>
      rw [hst] at h
      simp only [Except.map, Except.ok.injEq] at h
      rw [← h]
      exact ⟨put_sound_any fns hk s1 k v _ hs1 hpos hv fuel r hst,
        by rw [putOf_capacity]; exact hle⟩

/-- A `map_rehash` that returns leaves a well-formed table, whatever the counters say. -/
theorem rehash_sound (fns : MapFns) (hp : LinearProbe fns) (hk : KeyLaws fns) (nd : Bool)
    (fuel : Nat) (t t1 : _Map) (ncap : Nat) (hs : Sound fns t)
    (h : map_rehash fns nd fuel t ncap = .ok t1) : Sound fns t1 := by
  by_cases h0 : ncap = 0
  · subst h0
    rw [map_rehash_zero] at h
    exact (rehashTo_fresh fns hp hk nd fuel t t1 _ hs (Nat.le_refl _) h).1.sound
  · by_cases hle : ncap ≤ t.capacity
    · rw [map_rehash_noop fns nd fuel t ncap h0 hle] at h
      simp only [Except.ok.injEq] at h
      rw [← h]; exact hs
    · rw [map_rehash_grow fns nd fuel t ncap h0 (by omega)] at h
      exact (rehashTo_fresh fns hp hk nd fuel t t1 _ hs (by omega) h).1.sound

/-- The table `map_clear` leaves is well formed. -/
theorem clear_sound (fns : MapFns) (nd : Bool) (t t1 : _Map) (hs : Sound fns t)
    (h : map_clear nd t = .ok t1) : Sound fns t1 := by
  rcases map_clear_result nd t t1 h with rfl | ⟨hb, _, _, hc⟩
  · exact hs
  · constructor
    · rw [hb, hc, List.length_replicate]
    · rw [hc]; exact hs.small
    · rw [hb]
      intro b hbm
      rw [List.eq_of_mem_replicate hbm]
      exact Or.inl rfl
    · rw [hb]
      intro b hbm hfull
      rw [List.eq_of_mem_replicate hbm] at hfull
      exact absurd hfull (by decide)
    · rw [hb, hc]
      exact found_replicate fns _ _

/-- Every reachable table is well formed: the bucket array has `capacity` buckets, each
Empty, Full or Tombstone, every Full bucket caches the hash of its key and the probe for
its key stops at it.  This holds also where `length` and `tombs` have drifted. -/
theorem reachable_sound (fns : MapFns) (hp : LinearProbe fns) (hk : KeyLaws fns) (nd : Bool)
    (t : _Map) (h : Reachable fns nd t) : Sound fns t := by
  induction h with
  | create cap t h => exact (alloc_tidy fns hp hk nd cap t h).1.sound
  | set fuel t t1 k v _ hv h ih => exact (set_sound_any fns hp hk nd fuel t t1 k v ih hv h).1
  | del fuel t t1 k _ h ih => exact del_sound fns hp fuel t t1 k ih h
  | rehash fuel t t1 ncap _ h ih => exact rehash_sound fns hp hk nd fuel t t1 ncap ih h
  | reserve fuel t t1 n _ h ih =>
    exact rehash_sound fns hp hk nd fuel t t1 _ ih (map_reserve_ok fns nd fuel t t1 n h)
  | clear t t1 _ h ih => exact clear_sound fns nd t t1 ih h

/-- C11 (key uniqueness): in every table reachable from creation by set (of valid keys),
delete, rehash, reserve and clear, with the default probe and an `equals` that is an
equivalence compatible with `hash`, two Full buckets whose keys are equal under `equals`
are the same bucket. -/
theorem C11_key_uniqueness (fns : MapFns) (hp : LinearProbe fns) (hk : KeyLaws fns) (nd : Bool)
    (t : _Map) (hr : Reachable fns nd t) (i j : Nat) (bi bj : MapBucket)
    (hbi : t.buckets[i]? = some bi) (hbj : t.buckets[j]? = some bj)
    (hfi : _mapbucket_isfull bi = true) (hfj : _mapbucket_isfull bj = true)
    (he : fns.equals bi.key bj.key = true) : i = j :=
  found_unique fns hk t.buckets t.capacity (reachable_sound fns hp hk nd t hr).found
    i j bi bj hbi hbj hfi hfj he

theorem C11_key_uniqueness_witness :
    LinearProbe defaultFns ∧ KeyLaws defaultFns ∧
    Reachable defaultFns false (tbl [⟨4, 4, 1⟩, ⟨8, 8, 2⟩, ⟨0, 0, 0⟩, ⟨0, 0, 0⟩] 2 0) ∧
    (tbl [⟨4, 4, 1⟩, ⟨8, 8, 2⟩, ⟨0, 0, 0⟩, ⟨0, 0, 0⟩] 2 0).buckets[1]? = some ⟨8, 8, 2⟩ ∧
    _mapbucket_isfull ⟨8, 8, 2⟩ = true ∧ defaultFns.equals 8 8 = true ∧ 1 = 1 :=
  have hr : Reachable defaultFns false (tbl [⟨4, 4, 1⟩, ⟨8, 8, 2⟩, ⟨0, 0, 0⟩, ⟨0, 0, 0⟩] 2 0) :=
    reachable_runFrom defaultFns false 4 4 [.set 4 1, .set 8 2] _ (by decide) (by decide)
  ⟨linearProbe_default, keyLaws_default, hr, by decide, by decide, by decide,
    C11_key_uniqueness defaultFns linearProbe_default keyLaws_default false _ hr 1 1
      ⟨8, 8, 2⟩ ⟨8, 8, 2⟩ (by decide) (by decide) (by decide) (by decide) (by decide)⟩

/-- C14 (delete of a present key): in every reachable table (default probe, `equals` an
equivalence compatible with `hash`) in which the Full bucket `i` holds a key equal to `k`,
`_map_del(k)` returns within `capacity` probe rounds; it has turned bucket `i` into a
Tombstone (key = sentinel, value = null, cached hash untouched), left every other bucket
and the capacity unchanged, called the registered destructors on the key and the value of
that bucket, and decremented `length` and incremented `tombs` as machine words.  Where the
counters were accurate before the call, `length` is one less and `tombs` one more. -/
theorem C14_delete_present (fns : MapFns) (hp : LinearProbe fns) (hk : KeyLaws fns) (nd : Bool)
    (t : _Map) (hr : Reachable fns nd t) (k fuel i : Nat) (bi : MapBucket)
    (hbi : t.buckets[i]? = some bi) (hfull : _mapbucket_isfull bi = true)
    (he : fns.equals k bi.key = true) (hfuel : t.capacity ≤ fuel) :
    ∃ t1, _map_del fns fuel t k = .ok t1 ∧
      t1.buckets = t.buckets.set i ⟨bi.hash, MAP_TOMB, 0⟩ ∧
      _mapbucket_istomb ⟨bi.hash, MAP_TOMB, 0⟩ = true ∧
      (∀ j, j ≠ i → t1.buckets[j]? = t.buckets[j]?) ∧
      t1.capacity = t.capacity ∧
      t1.length = (t.length + UWORD - 1) % UWORD ∧ t1.tombs = (t.tombs + 1) % UWORD ∧
      (Counted t → t1.length + 1 = t.length ∧ t1.tombs = t.tombs + 1) ∧
      t1.dtors = (callValuedel (callKeydel t bi.key) bi.value).dtors := by
  have hs := reachable_sound fns hp hk nd t hr
  have hilt : i < t.buckets.length := getElem?_lt _ _ _ hbi
  have hcap : t.capacity ≠ 0 := by have := hs.size; omega
  have hst := stopL_mono fns t.buckets t.capacity k (fns.hash k) _ _ _
    (found_present fns hk t.buckets t.capacity k hs.found i bi hbi hfull he) fuel hfuel
  refine ⟨delOf t (true, i), ?_, ?_, astomb_istomb bi, ?_, delOf_capacity _ _, delOf_length _ _,
    delOf_tombs _ _, ?_, ?_⟩
  · rw [map_del_eq fns hp fuel t k hcap, hst]; rfl
  · rw [delOf_buckets t i bi hbi]; rfl
  · intro j hj
    rw [delOf_buckets t i bi hbi, List.getElem?_set_ne (Ne.symm hj)]
  · intro hc
    rw [delOf_length, delOf_tombs]
    have hpos : 0 < countFull t.buckets := by
      unfold countFull
      rw [List.countP_pos_iff]
      exact ⟨bi, List.getElem?_mem hbi, hfull⟩
    have htl : countTomb t.buckets ≤ t.buckets.length := List.countP_le_length _
    have hfl : countFull t.buckets ≤ t.buckets.length := List.countP_le_length _
    have hsm := hs.small
    have hsz := hs.size
    unfold sizeof_MapBucket at hsm
    rw [hc.1, hc.2]
    unfold UWORD at hsm ⊢
    omega
  · simp [delOf, hbi]

theorem C14_delete_present_witness :
    LinearProbe defaultFns ∧ KeyLaws defaultFns ∧
    Reachable defaultFns false (tbl [⟨4, 4, 1⟩, ⟨8, 8, 2⟩, ⟨0, 0, 0⟩, ⟨0, 0, 0⟩] 2 0) ∧
    (tbl [⟨4, 4, 1⟩, ⟨8, 8, 2⟩, ⟨0, 0, 0⟩, ⟨0, 0, 0⟩] 2 0).buckets[1]? = some ⟨8, 8, 2⟩ ∧
    _mapbucket_isfull ⟨8, 8, 2⟩ = true ∧ defaultFns.equals 8 8 = true ∧
    (tbl [⟨4, 4, 1⟩, ⟨8, 8, 2⟩, ⟨0, 0, 0⟩, ⟨0, 0, 0⟩] 2 0).capacity ≤ 4 ∧
    ∃ t1, _map_del defaultFns 4 (tbl [⟨4, 4, 1⟩, ⟨8, 8, 2⟩, ⟨0, 0, 0⟩, ⟨0, 0, 0⟩] 2 0) 8 = .ok t1 ∧
      t1.buckets = [⟨4, 4, 1⟩, ⟨8, MAP_TOMB, 0⟩, ⟨0, 0, 0⟩, ⟨0, 0, 0⟩] ∧
      t1.capacity = 4 ∧ t1.length + 1 = 2 ∧ t1.tombs = 1 := by
  have hr : Reachable defaultFns false (tbl [⟨4, 4, 1⟩, ⟨8, 8, 2⟩, ⟨0, 0, 0⟩, ⟨0, 0, 0⟩] 2 0) :=
    reachable_runFrom defaultFns false 4 4 [.set 4 1, .set 8 2] _ (by decide) (by decide)
  obtain ⟨t1, h1, hb, _, _, hc, _, _, hcnt, _⟩ :=
    C14_delete_present defaultFns linearProbe_default keyLaws_default false _ hr 8 4 1
      ⟨8, 8, 2⟩ (by decide) (by decide) (by decide) (by decide)
  exact ⟨linearProbe_default, keyLaws_default, hr, by decide, by decide, by decide, by decide,
    t1, h1, hb, hc, (hcnt (by decide)).1, (hcnt (by decide)).2⟩

/-- C12: in the table reached by `set(4, 1); set(1, 2)` from a fresh table of capacity 4
bucket 0 is Full (key 4) and `map_length` is 2, but the traversal
`map_iterator; while map_hasnext: (visit; map_next)` visits one bucket only, the one at
index 1: `map_iterator` starts at index 0 and `map_next` increments before it looks. -/
theorem C12_iteration_skips_bucket_zero :
    ∀ nd : Bool, ∃ t, Reachable defaultFns nd t ∧ map_length t = 2 ∧
      t.buckets[0]? = some ⟨4, 4, 1⟩ ∧ _mapbucket_isfull ⟨4, 4, 1⟩ = true ∧
      traverse 8 t = .ok [⟨1, 1, 2⟩] := by
  intro nd
  refine ⟨tbl [⟨4, 4, 1⟩, ⟨1, 1, 2⟩, ⟨0, 0, 0⟩, ⟨0, 0, 0⟩] 2 0,
    reachable_runFrom defaultFns nd 4 4 [.set 4 1, .set 1 2] _ (by decide) ?_, rfl, rfl,
    by decide, by decide⟩
  cases nd <;> decide

/-- C16: the table reached by `set(1, 1); set(4, 1); del(4); set(8, 2)` from a fresh table
of capacity 4 holds the live keys 1 and 8 (`get(8)` returns 2), but `_map_getkeys` and
`_map_getvalues` return the arrays `[1, NULL]`: `length` is 1, and the copy loop stops
after `length` entries. -/
theorem C16_snapshot_misses_a_live_key :
    ∀ nd : Bool, ∃ t, Reachable defaultFns nd t ∧
      t.buckets = [⟨4, MAP_TOMB, 0⟩, ⟨1, 1, 1⟩, ⟨8, 8, 2⟩, ⟨0, 0, 0⟩] ∧
      _map_get defaultFns 4 t 8 = .ok 2 ∧ map_length t = 1 ∧
      _map_getkeys t = .ok (some [1, 0]) ∧ _map_getvalues t = .ok (some [1, 0]) := by
  intro nd
  refine ⟨tbl [⟨4, MAP_TOMB, 0⟩, ⟨1, 1, 1⟩, ⟨8, 8, 2⟩, ⟨0, 0, 0⟩] 1 0,
    reachable_runFrom defaultFns nd 4 4 [.set 1 1, .set 4 1, .del 4, .set 8 2] _ (by decide) ?_,
    rfl, by decide, rfl, by decide, by decide⟩
  cases nd <;> decide

/-- C17 (as amended): `_map_getkeys` and `_map_getvalues` return null for a table whose
bucket array was never allocated; for a table with allocated buckets and `length = 0` they
return a non-null array of one slot, which holds the null terminator. -/
theorem C17_snapshot_of_nothing (t : _Map) :
    (t.buckets = [] → _map_getkeys t = .ok none ∧ _map_getvalues t = .ok none) ∧
    (t.buckets ≠ [] → t.length = 0 →
      _map_getkeys t = .ok (some [0]) ∧ _map_getvalues t = .ok (some [0])) := by
  constructor
  · intro h
    simp [_map_getkeys, _map_getvalues, kvSnapshot, h]
  · intro h hl
    have hne : t.buckets.isEmpty = false := by
      cases hb : t.buckets with
      | nil => exact absurd hb h
      | cons x l => rfl
    have hk : ∀ (f : MapBucket → Nat) (l : List MapBucket), kvLoop f 0 l [] = [] := by
      intro f l
      cases l <;> simp [kvLoop]
    have hs : sizeof_MapKVList + sizeof_voidp < UWORD := by decide
    have h1 : (1 : Nat) % UWORD = 1 := by decide
    simp [_map_getkeys, _map_getvalues, kvSnapshot, hne, hl, hk, hs, h1]

theorem C17_snapshot_of_nothing_witness :
    ((tbl [] 0 0).buckets = [] ∧ _map_getkeys (tbl [] 0 0) = .ok none ∧
      _map_getvalues (tbl [] 0 0) = .ok none) ∧
    ((tbl [⟨4, MAP_TOMB, 0⟩, ⟨0, 0, 0⟩] 0 1).buckets ≠ [] ∧
      (tbl [⟨4, MAP_TOMB, 0⟩, ⟨0, 0, 0⟩] 0 1).length = 0 ∧
      _map_getkeys (tbl [⟨4, MAP_TOMB, 0⟩, ⟨0, 0, 0⟩] 0 1) = .ok (some [0]) ∧
      _map_getvalues (tbl [⟨4, MAP_TOMB, 0⟩, ⟨0, 0, 0⟩] 0 1) = .ok (some [0])) :=
  ⟨⟨rfl, (C17_snapshot_of_nothing (tbl [] 0 0)).1 rfl⟩,
    ⟨by decide, rfl,
      (C17_snapshot_of_nothing (tbl [⟨4, MAP_TOMB, 0⟩, ⟨0, 0, 0⟩] 0 1)).2 (by decide) rfl⟩⟩

/-- C17 (counterexample): the table reached by `set(4, 1); del(4)` from a fresh table of
capacity 4 has allocated buckets and no live entry (`map_length` is 0, no bucket is Full),
and so has the table `map_clear` then leaves; on both `_map_getkeys` and `_map_getvalues`
return a non-null array, not null. -/
theorem C17_snapshot_of_emptied_table_not_null :
    ∃ t t1, Reachable defaultFns false t ∧ map_clear false t = .ok t1 ∧
      map_length t = 0 ∧ countFull t.buckets = 0 ∧
      map_length t1 = 0 ∧ countFull t1.buckets = 0 ∧
      _map_getkeys t ≠ .ok none ∧ _map_getvalues t ≠ .ok none ∧
      _map_getkeys t1 ≠ .ok none ∧ _map_getvalues t1 ≠ .ok none := by
  refine ⟨tbl [⟨4, MAP_TOMB, 0⟩, ⟨0, 0, 0⟩, ⟨0, 0, 0⟩, ⟨0, 0, 0⟩] 0 1,
    tbl [⟨0, 0, 0⟩, ⟨0, 0, 0⟩, ⟨0, 0, 0⟩, ⟨0, 0, 0⟩] 0 0,
    reachable_runFrom defaultFns false 4 4 [.set 4 1, .del 4] _ (by decide) ?_, ?_,
    rfl, by decide, rfl, by decide, by decide, by decide, by decide, by decide⟩
  · decide
  · decide

/-- C19: on the table created with initial capacity zero, before any set (capacity 0, no
bucket array), `_map_get_ex`, `_map_get` and `_map_del` divide by zero for every key:
each computes `h % self->capacity` before it looks at the buckets. -/
theorem C19_lookup_divides_by_zero :
    ∀ nd : Bool, ∃ t, Reachable defaultFns nd t ∧ t.capacity = 0 ∧ t.buckets = [] ∧
      ∀ fuel k, _map_get_ex defaultFns fuel t k = .error .divzero ∧
        _map_get defaultFns fuel t k = .error .divzero ∧
        _map_del defaultFns fuel t k = .error .divzero := by
  intro nd
  refine ⟨tbl [] 0 0, Reachable.create 0 _ ?_, rfl, rfl, ?_⟩
  · cases nd <;> decide
  · intro fuel k
    simp [_map_get, _map_get_ex, _map_findbucket, _map_del, tbl]

/-- C20: with assertions compiled in, `_map_alloc_full_n` called with the hash, equals and
probe functions omitted fails the assertion on `hashfn` for every capacity, before the
lines that install the defaults; with the hash given and equals omitted it fails the
assertion on `equalsfn`.  With assertions compiled out the call returns, and the callbacks
installed are pointer identity, pointer equality and `(idx + 1) % capacity`. -/
theorem C20_omitted_callbacks_fail_assertion :
    (∀ cap, _map_alloc_full_n false cap none none none = .error .assertion) ∧
    (∀ cap hashfn, _map_alloc_full_n false cap (some hashfn) none none = .error .assertion) ∧
    _map_alloc_full_n true 4 none none none =
      .ok (tbl [⟨0, 0, 0⟩, ⟨0, 0, 0⟩, ⟨0, 0, 0⟩, ⟨0, 0, 0⟩] 0 0) ∧
    (∀ k, (allocFns none none none).hash k = k) ∧
    (∀ a b, (allocFns none none none).equals a b = true ↔ a = b) ∧
    (∀ self idx, (allocFns none none none).probe self idx = (idx + 1) % self.capacity) := by
  refine ⟨fun cap => rfl, fun cap hashfn => rfl, by decide, fun k => rfl, ?_, fun self idx => rfl⟩
  intro a b
  simp [allocFns, _map_defaultequals]

theorem tomb_eq : MAP_TOMB = 18446744073709551615 := by decide

/-- Keys that are not equal are not equal the other way round either. -/
theorem equals_false_symm (fns : MapFns) (hk : KeyLaws fns) (x y : Nat)
    (h : fns.equals x y = false) : fns.equals y x = false := by
  cases h1 : fns.equals y x with
  | false => rfl
  | true => rw [hk.symm y x h1] at h; exact absurd h (by simp)

theorem scenario_alloc (fns : MapFns) (nd : Bool) :
    _map_alloc_full_n nd 4 (some fns.hash) (some fns.equals) (some fns.probe) =
      .ok (tbl [⟨0, 0, 0⟩, ⟨0, 0, 0⟩, ⟨0, 0, 0⟩, ⟨0, 0, 0⟩] 0 0) := by
  cases nd <;> rfl

/-- The growth step of `_map_set` leaves a table with allocated buckets that fails the
load test as it is. -/
theorem growFor_keep (fns : MapFns) (nd : Bool) (fuel : Nat) (t : _Map) (hne : t.buckets ≠ [])
    (hlf : loadfactor_ge_max t = false) : growFor fns nd fuel t = .ok t := by
  have he : t.buckets.isEmpty = false := by
    cases hb : t.buckets with
    | nil => exact absurd hb hne
    | cons x l => rfl
  unfold growFor
  rw [he, hlf]
  simp

theorem scenario_set_a (fns : MapFns) (nd : Bool) (a m : Nat) (ha : fns.hash a % 4 = 1) :
    _map_set fns nd (m + 8) (tbl [⟨0, 0, 0⟩, ⟨0, 0, 0⟩, ⟨0, 0, 0⟩, ⟨0, 0, 0⟩] 0 0) a 1 =
      .ok (tbl [⟨0, 0, 0⟩, ⟨fns.hash a, a, 1⟩, ⟨0, 0, 0⟩, ⟨0, 0, 0⟩] 1 0) := by
  have hlf : loadfactor_ge_max (tbl [⟨0, 0, 0⟩, ⟨0, 0, 0⟩, ⟨0, 0, 0⟩, ⟨0, 0, 0⟩] 0 0) = false := by
    rw [loadfactor_small _ (by simp [tbl]) (by simp [tbl])]
    simp [tbl, UWORD]
  rw [map_set_eq, growFor_keep fns nd _ _ (by simp [tbl]) hlf]
  simp [tbl, _map_acquirebucket, acquireLoop, loadBucket, ha,
    bucketMatches, _mapbucket_isfull, _mapbucket_isempty, _mapbucket_istomb, UINTPTR_MAX, UWORD,
    tomb_eq]

theorem scenario_set_b (fns : MapFns) (hp : LinearProbe fns) (nd : Bool) (a b m : Nat)
    (hva : ValidKey a) (hb : fns.hash b % 4 = 1) (hba : fns.equals b a = false) :
    _map_set fns nd (m + 8) (tbl [⟨0, 0, 0⟩, ⟨fns.hash a, a, 1⟩, ⟨0, 0, 0⟩, ⟨0, 0, 0⟩] 1 0) b 2 =
      .ok (tbl [⟨0, 0, 0⟩, ⟨fns.hash a, a, 1⟩, ⟨fns.hash b, b, 2⟩, ⟨0, 0, 0⟩] 2 0) := by
  unfold LinearProbe at hp
  have h1 := hva.1
  have h2 := hva.2
  rw [tomb_eq] at h2
  have hlf : loadfactor_ge_max (tbl [⟨0, 0, 0⟩, ⟨fns.hash a, a, 1⟩, ⟨0, 0, 0⟩, ⟨0, 0, 0⟩] 1 0) = false := by
    rw [loadfactor_small _ (by simp [tbl]) (by simp [tbl])]
    simp [tbl, UWORD]
  rw [map_set_eq, growFor_keep fns nd _ _ (by simp [tbl]) hlf]
  simp [tbl, _map_acquirebucket, acquireLoop, loadBucket, hb,
    bucketMatches, _mapbucket_isfull, _mapbucket_isempty, _mapbucket_istomb, UINTPTR_MAX, UWORD,
    hp, _map_defaultprobe, hba, h1, h2, tomb_eq]

theorem scenario_set_c (fns : MapFns) (hp : LinearProbe fns) (nd : Bool) (a b c m : Nat)
    (hvb : ValidKey b) (hc : fns.hash c % 4 = 2) (hcb : fns.equals c b = false) :
    _map_set fns nd (m + 8)
        (tbl [⟨0, 0, 0⟩, ⟨fns.hash a, a, 1⟩, ⟨fns.hash b, b, 2⟩, ⟨0, 0, 0⟩] 2 0) c 3 =
      .ok (tbl [⟨0, 0, 0⟩, ⟨fns.hash a, a, 1⟩, ⟨fns.hash b, b, 2⟩, ⟨fns.hash c, c, 3⟩] 3 0) := by
  unfold LinearProbe at hp
  have h1 := hvb.1
  have h2 := hvb.2
  rw [tomb_eq] at h2
  have hlf : loadfactor_ge_max (tbl [⟨0, 0, 0⟩, ⟨fns.hash a, a, 1⟩, ⟨fns.hash b, b, 2⟩, ⟨0, 0, 0⟩] 2 0) = false := by
    rw [loadfactor_small _ (by simp [tbl]) (by simp [tbl])]
    simp [tbl, UWORD]
  rw [map_set_eq, growFor_keep fns nd _ _ (by simp [tbl]) hlf]
  simp [tbl, _map_acquirebucket, acquireLoop, loadBucket, hc,
    bucketMatches, _mapbucket_isfull, _mapbucket_isempty, _mapbucket_istomb, UINTPTR_MAX, UWORD,
    hp, _map_defaultprobe, hcb, h1, h2, tomb_eq]

theorem callKeydel_off (s : _Map) (p : Nat) (h : s.keydel = false) : callKeydel s p = s := by
  simp [callKeydel, h]

theorem callValuedel_off (s : _Map) (p : Nat) (h : s.valuedel = false) :
    callValuedel s p = s := by
  simp [callValuedel, h]

theorem scenario_del_a (fns : MapFns) (hp : LinearProbe fns) (hk : KeyLaws fns) (a b c m : Nat)
    (hva : ValidKey a) (ha : fns.hash a % 4 = 1) :
    _map_del fns (m + 8)
        (tbl [⟨0, 0, 0⟩, ⟨fns.hash a, a, 1⟩, ⟨fns.hash b, b, 2⟩, ⟨fns.hash c, c, 3⟩] 3 0) a =
      .ok (tbl [⟨0, 0, 0⟩, ⟨fns.hash a, MAP_TOMB, 0⟩, ⟨fns.hash b, b, 2⟩,
        ⟨fns.hash c, c, 3⟩] 2 1) := by
  have h1 := hva.1
  have h2 := hva.2
  rw [tomb_eq] at h2
  have haa := hk.refl a
  have hst : stopL fns [⟨0, 0, 0⟩, ⟨fns.hash a, a, 1⟩, ⟨fns.hash b, b, 2⟩, ⟨fns.hash c, c, 3⟩] 4 a
      (fns.hash a) 1 1 = .ok (true, 1) := by
    simp [stopL, bucketMatches, _mapbucket_isfull, haa, h1, h2, tomb_eq]
  have hst2 := stopL_mono fns _ 4 a (fns.hash a) _ _ _ hst (m + 8) (by omega)
  have hc0 : (tbl [⟨0, 0, 0⟩, ⟨fns.hash a, a, 1⟩, ⟨fns.hash b, b, 2⟩, ⟨fns.hash c, c, 3⟩] 3 0).capacity ≠ 0 := by
    simp [tbl]
  rw [map_del_eq fns hp _ _ _ hc0]
  simp only [tbl, List.length_cons, List.length_nil, ha]
  rw [hst2]
  simp only [Except.map, delOf, if_true]
  rw [callKeydel_off _ _ rfl, callValuedel_off _ _ rfl]
  simp only [_mapbucket_astomb, List.getElem?_cons_succ, List.getElem?_cons_zero, Option.getD_some, List.set_cons_succ, List.set_cons_zero]
  have e1 : (3 + UWORD - 1) % UWORD = 2 := by decide
  have e2 : (0 + 1) % UWORD = 1 := by decide
  rw [e1, e2]

theorem runOps_set (fns : MapFns) (nd : Bool) (fuel k v : Nat) (rest : List MapOp)
    (t t1 : _Map) (h : _map_set fns nd fuel t k v = .ok t1) :
    runOps fns nd fuel (.set k v :: rest) t = runOps fns nd fuel rest t1 := by
  simp only [runOps, applyOp, h]

theorem runOps_del (fns : MapFns) (nd : Bool) (fuel k : Nat) (rest : List MapOp)
    (t t1 : _Map) (h : _map_del fns fuel t k = .ok t1) :
    runOps fns nd fuel (.del k :: rest) t = runOps fns nd fuel rest t1 := by
  simp only [runOps, applyOp, h]

/-- The first four calls of the scenario: in a fresh table of capacity 4, with the keys
`a`, `b`, `c` hashing to the indices 1, 1 and 2, the calls `set(a, 1); set(b, 2);
set(c, 3); del(a)` leave `a`'s Tombstone at index 1, `b` at index 2 and `c` at index 3. -/
theorem scenario_first (fns : MapFns) (hp : LinearProbe fns) (hk : KeyLaws fns) (nd : Bool)
    (a b c m : Nat) (hva : ValidKey a) (hvb : ValidKey b)
    (hab : fns.equals a b = false) (hbc : fns.equals b c = false)
    (ha : fns.hash a % 4 = 1) (hb : fns.hash b % 4 = 1) (hc : fns.hash c % 4 = 2) :
    runFrom fns nd (m + 8) 4 [.set a 1, .set b 2, .set c 3, .del a] =
      .ok (tbl [⟨0, 0, 0⟩, ⟨fns.hash a, MAP_TOMB, 0⟩, ⟨fns.hash b, b, 2⟩,
        ⟨fns.hash c, c, 3⟩] 2 1) := by
  have h1 := scenario_set_a fns nd a m ha
  have h2 := scenario_set_b fns hp nd a b m hva hb (equals_false_symm fns hk _ _ hab)
  have h3 := scenario_set_c fns hp nd a b c m hvb hc (equals_false_symm fns hk _ _ hbc)
  have h4 := scenario_del_a fns hp hk a b c m hva ha
  unfold runFrom
  rw [scenario_alloc]
  simp only []
  rw [runOps_set fns nd _ _ _ _ _ _ h1, runOps_set fns nd _ _ _ _ _ _ h2,
    runOps_set fns nd _ _ _ _ _ _ h3, runOps_del fns nd _ _ _ _ _ h4]
  rfl

/-- A set of a new key on a well-formed, accurately counted table of capacity 4 that holds
two entries and one Tombstone: the load factor is 3/4, so the table is rehashed to capacity
8 first, which drops the Tombstone, and the key goes to a bucket of the new array. -/
theorem scenario_set_d (fns : MapFns) (hp : LinearProbe fns) (hk : KeyLaws fns) (nd : Bool)
    (T : _Map) (B C : MapBucket) (d fuel : Nat) (hs : Sound fns T) (hct : Counted T)
    (hcap : T.capacity = 4) (hlen : T.length = 2) (htombs : T.tombs = 1)
    (hB : B ∈ T.buckets) (hC : C ∈ T.buckets)
    (hfull : ∀ x ∈ T.buckets, _mapbucket_isfull x = true → x = B ∨ x = C)
    (hBf : _mapbucket_isfull B = true) (hCf : _mapbucket_isfull C = true) (hvd : ValidKey d)
    (hdb : fns.equals d B.key = false) (hdc : fns.equals d C.key = false) (hfuel : 8 ≤ fuel) :
    ∃ t1, _map_set fns nd fuel T d 4 = .ok t1 ∧ Sound fns t1 ∧ t1.capacity = 8 ∧
      countTomb t1.buckets = 0 ∧ t1.tombs = 0 ∧ t1.length = 3 ∧ countUsed t1.buckets = 3 ∧
      B ∈ t1.buckets ∧ C ∈ t1.buckets ∧ (⟨fns.hash d, d, 4⟩ : MapBucket) ∈ t1.buckets ∧
      (∀ x ∈ t1.buckets, _mapbucket_isfull x = true →
        x = ⟨fns.hash d, d, 4⟩ ∨ x = B ∨ x = C) := by
  have hne : T.buckets.isEmpty = false := by
    cases hbs : T.buckets with
    | nil => rw [hbs] at hB; simp at hB
    | cons x l => rfl
  have hlf : loadfactor_ge_max T = true := by
    unfold loadfactor_ge_max; rw [hcap, hlen, htombs]; decide
  have hg : growFor fns nd fuel T = map_rehash fns nd fuel T 8 := by
    unfold growFor
    rw [hne, hlf, hcap]
    rfl
  obtain ⟨s1, hre, hs1, hc1, hin, hout, hcf, _, hcap1, hnt⟩ :=
    rehash_total fns hp hk nd fuel T 8 hs hct (by omega) hfuel (by decide)
  have hnt1 : NoTomb s1.buckets := hnt (Or.inr (by omega))
  have hcap8 : s1.capacity = 8 := by rw [hcap1, hcap]; decide
  have hcfT : countFull T.buckets = 2 := by rw [← hct.1, hlen]
  have hused1 : countUsed s1.buckets = 2 := by
    rw [countUsed_shaped _ hs1.shaped, countTomb_noTomb _ hnt1, hcf, hcfT]
  have hemp1 : HasEmpty s1.buckets :=
    hasEmpty_of_count _ (by rw [hused1, hs1.size, hcap8]; decide)
  obtain ⟨fl, i, hst, hsound, hmemD, hpers, hchar, hcF, hcT, hcU, hfl⟩ :=
    put_total fns hk s1 d 4 hs1 hemp1 hvd fuel (by omega)
  have hflf : fl = false := by
    cases hfl1 : fl with
    | false => rfl
    | true =>
      obtain ⟨x, hx, hxf, hxe⟩ := hfl.mp hfl1
      rcases hfull x (hout x hx hxf) hxf with rfl | rfl
      · rw [hdb] at hxe; exact absurd hxe (by simp)
      · rw [hdc] at hxe; exact absurd hxe (by simp)
  subst hflf
  have htf := tombFinal_noTomb fns s1.buckets s1.capacity d (fns.hash d) hnt1 fuel
    (fns.hash d % s1.capacity)
  refine ⟨putOf s1 (fns.hash d) (tombFinal fns s1.buckets s1.capacity d (fns.hash d) fuel
    (fns.hash d % s1.capacity) UINTPTR_MAX) ⟨fns.hash d, d, 4⟩ (false, i), ?_, hsound _, ?_, ?_,
    ?_, ?_, ?_, ?_, ?_, ?_, ?_⟩
  · rw [map_set_put fns hp nd fuel T s1 d 4 (by rw [hg]; exact hre) (by omega), hst]; rfl
  · rw [putOf_capacity]; exact hcap8
  · rw [putOf_buckets, hcT]; exact countTomb_noTomb _ hnt1
  · rw [putOf_tombs, htf]
    simp only [Bool.false_eq_true, if_false, if_true]
    rw [hc1.2]; exact countTomb_noTomb _ hnt1
  · rw [putOf_length, htf]
    simp only [Bool.false_eq_true, if_false, if_true]
    rw [hc1.1, hcf, hcfT]; decide
  · rw [putOf_buckets, hcU, hused1]; rfl
  · rw [putOf_buckets]; exact hpers B (hin B hB hBf) hBf hdb
  · rw [putOf_buckets]; exact hpers C (hin C hC hCf) hCf hdc
  · rw [putOf_buckets]; exact hmemD
  · rw [putOf_buckets]
    intro x hx hxf
    rcases hchar x hx hxf with h | ⟨h, _⟩
    · exact Or.inl h
    · exact Or.inr (hfull x (hout x h hxf) hxf)

/-- C13 (as amended): in a table created with capacity 4 where the keys `a`, `b`, `c`, `d`
hash to the indices 1, 1, 2, 1, the calls `set(a, 1); set(b, 2); set(c, 3); del(a)` leave
`a`'s Tombstone at index 1 (where the probe for `d` would start), `length = 2` and
`tombs = 1`.  The load factor is then 3/4, so `set(d, 4)` first rehashes to capacity 8,
which drops the Tombstone, and stores `d` in a bucket of the new array: afterwards the
capacity is 8, no bucket is a Tombstone, `tombs = 0`, `length = 3`, the lookups of `b`,
`c`, `d` return 2, 3, 4 and `a` is not found. -/
theorem C13_scenario_grows_table (fns : MapFns) (hp : LinearProbe fns) (hk : KeyLaws fns)
    (nd : Bool) (a b c d fuel : Nat)
    (hva : ValidKey a) (hvb : ValidKey b) (hvc : ValidKey c) (hvd : ValidKey d)
    (hab : fns.equals a b = false) (hac : fns.equals a c = false)
    (had : fns.equals a d = false) (hbc : fns.equals b c = false)
    (hbd : fns.equals b d = false) (hcd : fns.equals c d = false)
    (ha : fns.hash a % 4 = 1) (hb : fns.hash b % 4 = 1) (hc : fns.hash c % 4 = 2)
    (hd : fns.hash d % 4 = 1) (hfuel : 8 ≤ fuel) :
    runFrom fns nd fuel 4 [.set a 1, .set b 2, .set c 3, .del a] =
      .ok (tbl [⟨0, 0, 0⟩, ⟨fns.hash a, MAP_TOMB, 0⟩, ⟨fns.hash b, b, 2⟩,
        ⟨fns.hash c, c, 3⟩] 2 1) ∧
    (tbl [⟨0, 0, 0⟩, ⟨fns.hash a, MAP_TOMB, 0⟩, ⟨fns.hash b, b, 2⟩,
        ⟨fns.hash c, c, 3⟩] 2 1).buckets[fns.hash d % 4]? = some ⟨fns.hash a, MAP_TOMB, 0⟩ ∧
    ∃ t1, _map_set fns nd fuel (tbl [⟨0, 0, 0⟩, ⟨fns.hash a, MAP_TOMB, 0⟩, ⟨fns.hash b, b, 2⟩,
        ⟨fns.hash c, c, 3⟩] 2 1) d 4 = .ok t1 ∧
      t1.capacity = 8 ∧ t1.buckets.length = 8 ∧ countTomb t1.buckets = 0 ∧ t1.tombs = 0 ∧
      t1.length = 3 ∧ (⟨fns.hash d, d, 4⟩ : MapBucket) ∈ t1.buckets ∧
      _map_get fns fuel t1 b = .ok 2 ∧ _map_get fns fuel t1 c = .ok 3 ∧
      _map_get fns fuel t1 d = .ok 4 ∧ _map_get_ex fns fuel t1 a = .ok none := by
  obtain ⟨m, rfl⟩ : ∃ m, fuel = m + 8 := ⟨fuel - 8, by omega⟩
  have hfirst := scenario_first fns hp hk nd a b c m hva hvb hab hbc ha hb hc
  have hta : _mapbucket_isfull ⟨fns.hash a, MAP_TOMB, 0⟩ = false := by
    simp [_mapbucket_isfull]
  have hBf : _mapbucket_isfull ⟨fns.hash b, b, 2⟩ = true := valid_full _ _ _ hvb
  have hCf : _mapbucket_isfull ⟨fns.hash c, c, 3⟩ = true := valid_full _ _ _ hvc
  have hr : Reachable fns nd (tbl [⟨0, 0, 0⟩, ⟨fns.hash a, MAP_TOMB, 0⟩, ⟨fns.hash b, b, 2⟩,
      ⟨fns.hash c, c, 3⟩] 2 1) := by
    refine reachable_runFrom fns nd (m + 8) 4 _ _ ?_ hfirst
    intro op hop
    simp only [List.mem_cons, List.mem_singleton, List.mem_nil_iff, or_false] at hop
    rcases hop with rfl | rfl | rfl | rfl
    · exact hva
    · exact hvb
    · exact hvc
    · trivial
  have hs := reachable_sound fns hp hk nd _ hr
  have hct : Counted (tbl [⟨0, 0, 0⟩, ⟨fns.hash a, MAP_TOMB, 0⟩, ⟨fns.hash b, b, 2⟩,
      ⟨fns.hash c, c, 3⟩] 2 1) := by
    have hBt := full_not_tomb _ hBf
    have hCt := full_not_tomb _ hCf
    have hat : _mapbucket_istomb ⟨fns.hash a, MAP_TOMB, 0⟩ = true := by
      simp [_mapbucket_istomb]
    have he : _mapbucket_isfull ⟨0, 0, 0⟩ = false := by decide
    have het : _mapbucket_istomb ⟨0, 0, 0⟩ = false := by decide
    unfold Counted countFull countTomb
    simp [tbl, List.countP_cons, hta, hBf, hCf, hBt, hCt, hat, he, het]
  have hfull : ∀ x ∈ (tbl [⟨0, 0, 0⟩, ⟨fns.hash a, MAP_TOMB, 0⟩, ⟨fns.hash b, b, 2⟩,
      ⟨fns.hash c, c, 3⟩] 2 1).buckets, _mapbucket_isfull x = true →
      x = ⟨fns.hash b, b, 2⟩ ∨ x = ⟨fns.hash c, c, 3⟩ := by
    intro x hx hxf
    simp only [tbl, List.mem_cons, List.mem_singleton, List.mem_nil_iff, or_false] at hx
    rcases hx with rfl | rfl | rfl | rfl
    · exact absurd hxf (by decide)
    · rw [hta] at hxf; exact absurd hxf (by simp)
    · exact Or.inl rfl
    · exact Or.inr rfl
  obtain ⟨t1, hset, hs1, hcap1, hnt1, htb1, hlen1, hused1, hB1, hC1, hD1, hchar1⟩ :=
    scenario_set_d fns hp hk nd _ ⟨fns.hash b, b, 2⟩ ⟨fns.hash c, c, 3⟩ d (m + 8) hs hct rfl rfl
      rfl (by simp [tbl]) (by simp [tbl]) hfull hBf hCf hvd
      (equals_false_symm fns hk _ _ hbd) (equals_false_symm fns hk _ _ hcd) hfuel
  have hemp1 : HasEmpty t1.buckets :=
    hasEmpty_of_count _ (by rw [hused1, hs1.size, hcap1]; decide)
  have hgb := get_of_mem fns hp hk t1 b _ (m + 8) hs1 hB1 hBf (hk.refl b) (by omega)
  have hgc := get_of_mem fns hp hk t1 c _ (m + 8) hs1 hC1 hCf (hk.refl c) (by omega)
  have hgd := get_of_mem fns hp hk t1 d _ (m + 8) hs1 hD1 (valid_full _ _ _ hvd) (hk.refl d)
    (by omega)
  have hga := get_absent fns hp t1 a (m + 8) hs1 hemp1 (by
    intro x hx hxf
    rcases hchar1 x hx hxf with rfl | rfl | rfl
    · exact had
    · exact hab
    · exact hac) (by omega)
  refine ⟨hfirst, by simp [tbl, hd], t1, hset, hcap1, by rw [hs1.size, hcap1], hnt1, htb1,
    hlen1, hD1, ?_, ?_, ?_, hga⟩
  · rw [map_get_of_ex fns _ t1 b _ hgb]; rfl
  · rw [map_get_of_ex fns _ t1 c _ hgc]; rfl
  · rw [map_get_of_ex fns _ t1 d _ hgd]; rfl

theorem C13_scenario_grows_table_witness :
    LinearProbe defaultFns ∧ KeyLaws defaultFns ∧
    ValidKey 1 ∧ ValidKey 5 ∧ ValidKey 2 ∧ ValidKey 9 ∧
    defaultFns.equals 1 5 = false ∧ defaultFns.equals 1 2 = false ∧
    defaultFns.equals 1 9 = false ∧ defaultFns.equals 5 2 = false ∧
    defaultFns.equals 5 9 = false ∧ defaultFns.equals 2 9 = false ∧
    defaultFns.hash 1 % 4 = 1 ∧ defaultFns.hash 5 % 4 = 1 ∧ defaultFns.hash 2 % 4 = 2 ∧
    defaultFns.hash 9 % 4 = 1 ∧ 8 ≤ 8 ∧
    ∃ t1, _map_set defaultFns false 8
        (tbl [⟨0, 0, 0⟩, ⟨1, MAP_TOMB, 0⟩, ⟨5, 5, 2⟩, ⟨2, 2, 3⟩] 2 1) 9 4 = .ok t1 ∧
      t1.capacity = 8 ∧ t1.tombs = 0 ∧ t1.length = 3 ∧
      _map_get defaultFns 8 t1 5 = .ok 2 ∧ _map_get defaultFns 8 t1 2 = .ok 3 ∧
      _map_get defaultFns 8 t1 9 = .ok 4 := by
  obtain ⟨_, _, t1, h1, h2, _, _, h3, h4, _, h5, h6, h7, _⟩ :=
    C13_scenario_grows_table defaultFns linearProbe_default keyLaws_default false 1 5 2 9 8
      (by decide) (by decide) (by decide) (by decide) (by decide) (by decide) (by decide)
      (by decide) (by decide) (by decide) (by decide) (by decide) (by decide) (by decide)
      (by decide)
  exact ⟨linearProbe_default, keyLaws_default, by decide, by decide, by decide, by decide,
    by decide, by decide, by decide, by decide, by decide, by decide, by decide, by decide,
    by decide, by decide, by decide, t1, h1, h2, h3, h4, h5, h6, h7⟩

/-- C13 (counterexample): with the default callbacks and the keys 1, 5, 2, 9 (which hash to
the indices 1, 1, 2, 1 of a capacity-4 array), after `set(1, 1); set(5, 2); set(2, 3);
del(1)` bucket 1 of the capacity-4 array is the Tombstone of key 1, and `set(9, 4)` leaves
a table of capacity 8: key 9 is not stored in the bucket that held the Tombstone, that
array is gone. -/
theorem C13_tombstone_slot_not_reused :
    ∃ t t1,
      runFrom defaultFns false 8 4 [.set 1 1, .set 5 2, .set 2 3, .del 1] = .ok t ∧
      t.capacity = 4 ∧ t.buckets[1]? = some ⟨1, MAP_TOMB, 0⟩ ∧
      _map_set defaultFns false 8 t 9 4 = .ok t1 ∧ t1.capacity = 8 ∧
      t1.buckets = [⟨0, 0, 0⟩, ⟨9, 9, 4⟩, ⟨2, 2, 3⟩, ⟨0, 0, 0⟩, ⟨0, 0, 0⟩, ⟨5, 5, 2⟩,
        ⟨0, 0, 0⟩, ⟨0, 0, 0⟩] := by
  refine ⟨tbl [⟨0, 0, 0⟩, ⟨1, MAP_TOMB, 0⟩, ⟨5, 5, 2⟩, ⟨2, 2, 3⟩] 2 1,
    tbl [⟨0, 0, 0⟩, ⟨9, 9, 4⟩, ⟨2, 2, 3⟩, ⟨0, 0, 0⟩, ⟨0, 0, 0⟩, ⟨5, 5, 2⟩,
      ⟨0, 0, 0⟩, ⟨0, 0, 0⟩] 3 0, ?_, rfl, rfl, ?_, rfl, rfl⟩
  · decide
  · decide

/-- The copy loop of the snapshot functions collects the selected member of every Full
bucket, in order, when `len` leaves room for all of them. -/
theorem kvLoop_all (field : MapBucket → Nat) (len : Nat) :
    ∀ (l : List MapBucket) (out : List Nat), out.length + countFull l ≤ len →
      kvLoop field len l out = out ++ (l.filter _mapbucket_isfull).map field := by
  intro l
  induction l with
  | nil => intro out _; simp [kvLoop]
  | cons b rest ih =>
    intro out h
    rw [countFull_cons] at h
    unfold kvLoop
    cases hb : _mapbucket_isfull b with
    | false =>
      simp only [hb, Bool.false_eq_true, if_false, Nat.add_zero] at h
      rw [List.filter_cons_of_neg (by simp [hb])]
      by_cases hlt : out.length < len
      · simp only [hlt, if_true, Bool.false_eq_true, if_false]
        exact ih out h
      · have hz : countFull rest = 0 := by omega
        have hnil : rest.filter _mapbucket_isfull = [] := by
          rw [List.filter_eq_nil_iff]
          intro x hx
          rw [countFull_zero rest hz x hx]; simp
        simp [hlt, hnil]
    | true =>
      simp only [hb, if_true] at h
      have hlt : out.length < len := by omega
      rw [List.filter_cons_of_pos hb]
      simp only [hlt, if_true, List.map_cons]
      rw [ih (out ++ [field b]) (by simp only [List.length_append, List.length_singleton]; omega)]
      simp

/-- On a well-formed table with allocated buckets whose `length` counts the Full buckets,
the snapshot functions return the keys, and the values, of all Full buckets in index order,
followed by the null terminator. -/
theorem snapshot_counted (fns : MapFns) (t : _Map) (hs : Sound fns t)
    (hc : t.length = countFull t.buckets) (hne : t.buckets ≠ []) :
    _map_getkeys t =
      .ok (some ((t.buckets.filter _mapbucket_isfull).map MapBucket.key ++ [0])) ∧
    _map_getvalues t =
      .ok (some ((t.buckets.filter _mapbucket_isfull).map MapBucket.value ++ [0])) := by
  have hemp : t.buckets.isEmpty = false := by
    cases hb : t.buckets with
    | nil => exact absurd hb hne
    | cons x l => rfl
  have hfl : countFull t.buckets ≤ t.buckets.length := List.countP_le_length _
  have hsm := hs.small
  have hsz := hs.size
  unfold sizeof_MapBucket at hsm
  have hslots : (t.length + 1) % UWORD = t.length + 1 := by
    apply Nat.mod_eq_of_lt
    rw [uword_eq] at hsm ⊢
    omega
  have halloc : ¬ UWORD ≤ sizeof_MapKVList + sizeof_voidp * (t.length + 1) := by
    unfold sizeof_MapKVList sizeof_voidp
    rw [uword_eq] at hsm ⊢
    omega
  have htake : t.buckets.take t.capacity = t.buckets := by
    rw [← hsz]; exact List.take_length _
  have hall : ∀ field : MapBucket → Nat,
      kvSnapshot field t = .ok (some ((t.buckets.filter _mapbucket_isfull).map field ++ [0])) := by
    intro field
    have hk := kvLoop_all field t.length t.buckets [] (by simp [hc])
    have hlen : ((t.buckets.filter _mapbucket_isfull).map field).length = t.length := by
      rw [List.length_map, hc]
      unfold countFull
      rw [List.countP_eq_length_filter]
    unfold kvSnapshot
    simp only [hemp, Bool.false_eq_true, if_false, hslots, halloc, htake, hk, List.nil_append,
      hlen]
    rw [if_neg (by omega)]
    have : t.length + 1 - t.length = 1 := by omega
    rw [this]
    rfl
  exact ⟨hall _, hall _⟩

/-- The loop of `map_next` ends at an index beyond the one it started from. -/
theorem nextLoop_advances (map : _Map) (hcap : map.capacity < UWORD) :
    ∀ fuel index r, index < map.capacity → nextLoop map fuel index = .ok r → index < r := by
  intro fuel
  induction fuel with
  | zero => intro index r _ h; simp [nextLoop] at h
  | succ n ih =>
    intro index r hidx h
    have h1 : (index + 1) % UWORD = index + 1 := Nat.mod_eq_of_lt (by omega)
    unfold nextLoop at h
    simp only [h1] at h
    by_cases hlt : index + 1 < map.capacity
    · simp only [hlt, if_true] at h
      cases hb : loadBucket map (index + 1) with
      | error e => simp [hb] at h
      | ok b =>
        simp only [hb] at h
        by_cases hf : _mapbucket_isfull b = true
        · simp only [hf, Bool.not_true, Bool.false_eq_true, if_false, Except.ok.injEq] at h
          omega
        · simp only [hf, Bool.not_eq_true', Bool.not_eq_true] at h
          have hff : _mapbucket_isfull b = false := by simpa using hf
          simp only [hff, Bool.not_false, if_true] at h
          have := ih _ _ hlt h
          omega
    · simp only [hlt, if_false, Except.ok.injEq] at h
      omega

/-- A call of `map_next` on an iterator that has a next element moves it forward. -/
theorem map_next_advances (fuel : Nat) (map : _Map) (hcap : map.capacity < UWORD)
    (it it1 : MapIterator) (hidx : it.index < map.capacity)
    (h : map_next fuel map it = .ok it1) : it.index < it1.index := by
  unfold map_next at h
  rw [if_neg (by omega)] at h
  cases hn : nextLoop map fuel it.index with
  | error e => simp [hn] at h
  | ok r =>
    have hr := nextLoop_advances map hcap fuel _ _ hidx hn
    simp only [hn] at h
    by_cases hlt : r < map.capacity
    · simp only [hlt, if_true] at h
      cases hb : loadBucket map r with
      | error e => simp [hb] at h
      | ok b =>
        simp only [hb, Except.ok.injEq] at h
        rw [← h]; exact hr
    · simp only [hlt, if_false, Except.ok.injEq] at h
      rw [← h]; exact hr

theorem traverseLoop_skips_zero (fuel : Nat) (map : _Map) (hcap : map.capacity < UWORD) :
    ∀ (rounds : Nat) (it : MapIterator) (seen l : List MapIterator),
      (map_hasnext map it = true → 1 ≤ it.index) → (∀ x ∈ seen, 1 ≤ x.index) →
      traverseLoop fuel map rounds it seen = .ok l → ∀ x ∈ l, 1 ≤ x.index := by
  intro rounds
  induction rounds with
  | zero => intro it seen l _ _ h; simp [traverseLoop] at h
  | succ n ih =>
    intro it seen l hit hseen h
    unfold traverseLoop at h
    by_cases hn : map_hasnext map it = true
    · simp only [hn, if_true] at h
      cases hm : map_next fuel map it with
      | error e => simp [hm] at h
      | ok it1 =>
        simp only [hm] at h
        have hidx : it.index < map.capacity := by
          unfold map_hasnext at hn; simpa using hn
        have hadv := map_next_advances fuel map hcap it it1 hidx hm
        refine ih it1 (seen ++ [it]) l (fun _ => by omega) ?_ h
        intro x hx
        rcases List.mem_append.mp hx with hx | hx
        · exact hseen x hx
        · rw [List.mem_singleton] at hx
          rw [hx]; exact hit hn
    · simp only [hn, Bool.false_eq_true, if_false, Except.ok.injEq] at h
      rw [← h]; exact hseen

/-- No traversal visits bucket 0: the index of every iterator state visited is at least 1,
on every table and for every number of rounds. -/
theorem traverse_skips_zero (fuel : Nat) (map : _Map) (hcap : map.capacity < UWORD)
    (l : List MapIterator) (h : traverse fuel map = .ok l) : ∀ x ∈ l, 1 ≤ x.index := by
  unfold traverse map_iterator at h
  cases hm : map_next fuel map { index := 0, key := 0, value := 0 } with
  | error e => simp [hm] at h
  | ok it =>
    simp only [hm] at h
    refine traverseLoop_skips_zero fuel map hcap fuel it [] l ?_ (by simp) h
    intro hn
    have hidx : it.index < map.capacity := by
      unfold map_hasnext at hn; simpa using hn
    by_cases h0 : 0 < map.capacity
    · have := map_next_advances fuel map hcap _ it h0 hm
      omega
    · omega

theorem callKeydel_flags (s : _Map) (p : Nat) :
    (callKeydel s p).keydel = s.keydel ∧ (callKeydel s p).valuedel = s.valuedel := by
  unfold callKeydel; split <;> exact ⟨rfl, rfl⟩

theorem callValuedel_flags (s : _Map) (p : Nat) :
    (callValuedel s p).keydel = s.keydel ∧ (callValuedel s p).valuedel = s.valuedel := by
  unfold callValuedel; split <;> exact ⟨rfl, rfl⟩

/-- What the loop of `_map_acquirebucket` has done when it returns the bucket `i`, for any
callbacks: either bucket `i` matched the key, the destructors were called on it and nothing
else changed, or bucket `i` was Empty, its cached hash was set and one of the counters
changed. -/
theorem acquireLoop_result (fns : MapFns) (self : _Map) (key h : Nat) :
    ∀ fuel idx tombidx s i, acquireLoop fns self key h fuel idx tombidx = .ok (s, i) →
      ∃ b, self.buckets[i]? = some b ∧ s.capacity = self.capacity ∧
        s.keydel = self.keydel ∧ s.valuedel = self.valuedel ∧
        ((bucketMatches fns key h b = true ∧ s.buckets = self.buckets ∧
            s.length = self.length ∧ s.tombs = self.tombs ∧
            s.dtors = (callValuedel (callKeydel self b.key) b.value).dtors) ∨
          (bucketMatches fns key h b = false ∧ _mapbucket_isempty b = true ∧
            s.buckets = self.buckets.set i { b with hash := h } ∧ s.dtors = self.dtors)) := by
  intro fuel
  induction fuel with
  | zero => intro idx tombidx s i h0; simp [acquireLoop] at h0
  | succ n ih =>
    intro idx tombidx s i h0
    unfold acquireLoop loadBucket at h0
    cases hb : self.buckets[idx]? with
    | none => simp [hb] at h0
    | some b =>
      simp only [hb] at h0
      by_cases hm : bucketMatches fns key h b = true
      · simp only [hm, if_true, Except.ok.injEq, Prod.mk.injEq] at h0
        obtain ⟨rfl, rfl⟩ := h0
        refine ⟨b, hb, ?_, ?_, ?_, Or.inl ⟨hm, ?_, ?_, ?_, rfl⟩⟩
        · rw [callValuedel_capacity, callKeydel_capacity]
        · rw [(callValuedel_flags _ _).1, (callKeydel_flags _ _).1]
        · rw [(callValuedel_flags _ _).2, (callKeydel_flags _ _).2]
        · rw [callValuedel_buckets, callKeydel_buckets]
        · rw [callValuedel_length, callKeydel_length]
        · rw [callValuedel_tombs, callKeydel_tombs]
      · have hmf : bucketMatches fns key h b = false := by simpa using hm
        simp only [hm, if_false] at h0
        by_cases he : _mapbucket_isempty b = true
        · simp only [he, if_true, Except.ok.injEq, Prod.mk.injEq] at h0
          obtain ⟨rfl, rfl⟩ := h0
          refine ⟨b, hb, ?_, ?_, ?_, Or.inr ⟨hmf, he, ?_, ?_⟩⟩
          · simp only; split <;> split <;> rfl
          · simp only; split <;> split <;> rfl
          · simp only; split <;> split <;> rfl
          · simp only; split <;> split <;> rfl
          · simp only; split <;> split <;> rfl
        · simp only [he, if_false] at h0
          exact ih _ _ _ _ h0

/-- In an array without Tombstones the loop of `_map_acquirebucket` leaves `tombs` alone,
and increments `length` when it stops at an Empty bucket. -/
theorem acquireLoop_noTomb (fns : MapFns) (self : _Map) (key h : Nat)
    (hn : NoTomb self.buckets) :
    ∀ fuel idx s i, acquireLoop fns self key h fuel idx UINTPTR_MAX = .ok (s, i) →
      s.tombs = self.tombs ∧
      (∀ b, self.buckets[i]? = some b → bucketMatches fns key h b = false →
        s.length = (self.length + 1) % UWORD) := by
  intro fuel
  induction fuel with
  | zero => intro idx s i h0; simp [acquireLoop] at h0
  | succ n ih =>
    intro idx s i h0
    unfold acquireLoop loadBucket at h0
    cases hb : self.buckets[idx]? with
    | none => simp [hb] at h0
    | some b =>
      simp only [hb] at h0
      have hbt : _mapbucket_istomb b = false := hn b (List.getElem?_mem hb)
      by_cases hm : bucketMatches fns key h b = true
      · simp only [hm, if_true, Except.ok.injEq, Prod.mk.injEq] at h0
        obtain ⟨rfl, rfl⟩ := h0
        refine ⟨by rw [callValuedel_tombs, callKeydel_tombs], ?_⟩
        intro b1 hb1 hm1
        rw [hb] at hb1
        rw [← Option.some.inj hb1, hm] at hm1
        exact absurd hm1 (by simp)
      · simp only [hm, if_false, hbt, Bool.false_and, Bool.false_eq_true] at h0
        by_cases he : _mapbucket_isempty b = true
        · simp only [he, if_true, bne_self_eq_false, Bool.false_eq_true, if_false,
            Except.ok.injEq, Prod.mk.injEq] at h0
          obtain ⟨rfl, rfl⟩ := h0
          exact ⟨rfl, fun _ _ _ => rfl⟩
        · simp only [he, if_false] at h0
          exact ih _ _ _ h0

/-- The array `_map_acquirebucket` leaves, with the bucket `nb` then written through the
pointer returned, is the old array with `nb` at the index returned; the capacity and the
destructor registrations are unchanged, and so is `tombs` when no bucket was a Tombstone. -/
theorem acquire_then_write (fns : MapFns) (fuel : Nat) (self s : _Map) (key i : Nat)
    (nb : MapBucket) (h : _map_acquirebucket fns fuel self key = .ok (s, i)) :
    (s.buckets.set i nb = self.buckets.set i nb ∧ i < self.buckets.length) ∧
    s.buckets.length = self.buckets.length ∧
    s.capacity = self.capacity ∧ s.keydel = self.keydel ∧ s.valuedel = self.valuedel ∧
    (NoTomb self.buckets → s.tombs = self.tombs) ∧
    (∃ b, self.buckets[i]? = some b ∧ ∃ x, s.buckets[i]? = some x ∧ x.hash = fns.hash key ∧
      (bucketMatches fns key (fns.hash key) b = true ∨ _mapbucket_isempty b = true)) := by
  unfold _map_acquirebucket at h
  split at h
  · simp at h
  · have hnt := acquireLoop_noTomb fns self key (fns.hash key)
    obtain ⟨b, hb, hcap, hkd, hvd, hcase⟩ := acquireLoop_result fns self key _ _ _ _ _ _ h
    have hlt : i < self.buckets.length := getElem?_lt _ _ _ hb
    refine ⟨?_, ?_, hcap, hkd, hvd, fun hn => (hnt hn _ _ _ _ h).1, b, hb, ?_⟩
    · rcases hcase with ⟨_, hbs, _⟩ | ⟨_, _, hbs, _⟩
      · rw [hbs]; exact ⟨rfl, hlt⟩
      · rw [hbs, List.set_set]; exact ⟨rfl, hlt⟩
    · rcases hcase with ⟨_, hbs, _⟩ | ⟨_, _, hbs, _⟩
      · rw [hbs]
      · rw [hbs, List.length_set]
    · rcases hcase with ⟨hm, hbs, _⟩ | ⟨_, he, hbs, _⟩
      · refine ⟨b, by rw [hbs]; exact hb, ?_, Or.inl hm⟩
        rw [matches_iff] at hm
        exact hm.2.1.symm
      · refine ⟨{ b with hash := fns.hash key }, ?_, rfl, Or.inr he⟩
        rw [hbs, List.getElem?_set_self hlt]

/-- What the copy loop of `map_rehash` leaves, for any callbacks: the capacity, the number
of buckets and the destructor registrations of the new table are unchanged, every bucket of
the new array was there before or is a Full bucket of the old array, and `tombs` is
unchanged when the new array had no Tombstone. -/
theorem rehashLoop_shape (fns : MapFns) (fuel oldlen : Nat) :
    ∀ (rest : List MapBucket) (moved : Nat) (s s1 : _Map) (m : Nat),
      rehashLoop fns fuel oldlen rest moved s = .ok (s1, m) →
      s1.capacity = s.capacity ∧ s1.buckets.length = s.buckets.length ∧
      s1.keydel = s.keydel ∧ s1.valuedel = s.valuedel ∧
      (∀ x ∈ s1.buckets, x ∈ s.buckets ∨ (x ∈ rest ∧ _mapbucket_isfull x = true)) ∧
      (NoTomb s.buckets → s1.tombs = s.tombs) := by
  intro rest
  induction rest with
  | nil =>
    intro moved s s1 m h
    simp only [rehashLoop, Except.ok.injEq, Prod.mk.injEq] at h
    obtain ⟨rfl, _⟩ := h
    exact ⟨rfl, rfl, rfl, rfl, fun x hx => Or.inl hx, fun _ => rfl⟩
  | cons b rest ih =>
    intro moved s s1 m h
    unfold rehashLoop at h
    by_cases hlt : moved < oldlen
    · simp only [hlt, if_true] at h
      by_cases hf : _mapbucket_isfull b = true
      · simp only [hf, if_true] at h
        cases ha : _map_acquirebucket fns fuel s b.key with
        | error e => simp [ha] at h
        | ok r =>
          obtain ⟨s2, dst⟩ := r
          simp only [ha] at h
          obtain ⟨⟨hset, _⟩, hlen, hcap, hkd, hvd, htb, _⟩ :=
            acquire_then_write fns fuel s s2 b.key dst b ha
          obtain ⟨h1, h2, h3, h4, h5, h6⟩ := ih _ _ _ _ h
          have hmem : ∀ x ∈ s2.buckets.set dst b, x ∈ s.buckets ∨ x = b := by
            intro x hx
            rw [hset] at hx
            exact List.mem_or_eq_of_mem_set hx
          refine ⟨by rw [h1]; exact hcap, ?_, by rw [h3]; exact hkd, by rw [h4]; exact hvd,
            ?_, ?_⟩
          · rw [h2]; simp only [List.length_set]; exact hlen
          · intro x hx
            rcases h5 x hx with hx1 | ⟨hx1, hx2⟩
            · rcases hmem x hx1 with hx3 | hx3
              · exact Or.inl hx3
              · exact Or.inr ⟨by rw [hx3]; exact List.mem_cons_self _ _, by rw [hx3]; exact hf⟩
            · exact Or.inr ⟨List.mem_cons_of_mem _ hx1, hx2⟩
          · intro hn
            have hn2 : NoTomb (s2.buckets.set dst b) := by
              intro x hx
              rcases hmem x hx with hx3 | hx3
              · exact hn x hx3
              · rw [hx3]; exact full_not_tomb b hf
            rw [h6 hn2]
            exact htb hn
      · simp only [hf, if_false] at h
        obtain ⟨h1, h2, h3, h4, h5, h6⟩ := ih _ _ _ _ h
        refine ⟨h1, h2, h3, h4, ?_, h6⟩
        intro x hx
        rcases h5 x hx with hx1 | ⟨hx1, hx2⟩
        · exact Or.inl hx1
        · exact Or.inr ⟨List.mem_cons_of_mem _ hx1, hx2⟩
    · simp only [hlt, if_false, Except.ok.injEq, Prod.mk.injEq] at h
      obtain ⟨rfl, _⟩ := h
      exact ⟨rfl, rfl, rfl, rfl, fun x hx => Or.inl hx, fun _ => rfl⟩

/-- What `map_rehash` leaves once it allocates a new array of `ncap` buckets, for any table
and any callbacks: capacity `ncap`, an array of `ncap` buckets each of which is zeroed or a
Full bucket of the old array, and `tombs = 0`. -/
theorem rehashTo_shape (fns : MapFns) (nd : Bool) (fuel : Nat) (t t1 : _Map) (ncap : Nat)
    (h : rehashTo fns nd fuel t ncap = .ok t1) :
    t1.capacity = ncap ∧ t1.buckets.length = ncap ∧ sizeof_MapBucket * ncap < UWORD ∧
    t1.tombs = 0 ∧ t1.keydel = t.keydel ∧ t1.valuedel = t.valuedel ∧
    (∀ x ∈ t1.buckets, x = ⟨0, 0, 0⟩ ∨ (x ∈ t.buckets ∧ _mapbucket_isfull x = true)) := by
  unfold rehashTo at h
  by_cases hs : UWORD ≤ sizeof_MapBucket * ncap
  · simp [hs] at h
  · simp only [hs, if_false] at h
    cases hl : rehashLoop fns fuel t.length (t.buckets.take t.capacity) 0
        { t with tombs := 0, length := 0, capacity := ncap,
                 buckets := List.replicate ncap ⟨0, 0, 0⟩ } with
    | error e => simp [hl] at h
    | ok r =>
      obtain ⟨s, moved⟩ := r
      simp only [hl] at h
      have hst : s = t1 := by
        split at h
        · simp at h
        · exact Except.ok.inj h
      subst hst
      obtain ⟨h1, h2, h3, h4, h5, h6⟩ := rehashLoop_shape fns fuel _ _ _ _ _ _ hl
      refine ⟨h1, by rw [h2]; simp, by omega, ?_, h3, h4, ?_⟩
      · apply h6
        intro x hx
        rw [List.eq_of_mem_replicate hx]; rfl
      · intro x hx
        rcases h5 x hx with hx1 | ⟨hx1, hx2⟩
        · exact Or.inl (List.eq_of_mem_replicate hx1)
        · exact Or.inr ⟨List.mem_of_mem_take hx1, hx2⟩

/-- A `map_rehash` that returns has either changed nothing (the capacity was at least the
one asked for) or built a new array, of the same capacity for the argument 0 and of the
capacity asked for otherwise. -/
theorem map_rehash_shape (fns : MapFns) (nd : Bool) (fuel : Nat) (t t1 : _Map) (ncap : Nat)
    (h : map_rehash fns nd fuel t ncap = .ok t1) :
    (t1 = t ∧ ncap ≠ 0 ∧ ncap ≤ t.capacity) ∨
    ((ncap = 0 ∨ t.capacity < ncap) ∧
      rehashTo fns nd fuel t (if ncap = 0 then t.capacity else ncap) = .ok t1) := by
  unfold map_rehash at h
  by_cases h0 : ncap = 0
  · simp only [h0, if_true] at h ⊢
    exact Or.inr ⟨Or.inl trivial, h⟩
  · simp only [h0, if_false] at h ⊢
    by_cases hle : t.capacity ≥ ncap
    · simp only [hle, if_true, Except.ok.injEq] at h
      exact Or.inl ⟨h.symm, h0, hle⟩
    · simp only [hle, if_false] at h
      exact Or.inr ⟨Or.inr (by omega), h⟩

/-- What `_map_set` has done when it returns, for any table and any callbacks: after the
growth step it has written the bucket `(hash(key), key, value)` over a bucket that matched
the key or was Empty, and has changed no other bucket, nor the capacity. -/
theorem set_shape (fns : MapFns) (nd : Bool) (fuel : Nat) (t t1 : _Map) (key value : Nat)
    (h : _map_set fns nd fuel t key value = .ok t1) :
    ∃ s1 i b, growFor fns nd fuel t = .ok s1 ∧ s1.buckets[i]? = some b ∧
      (bucketMatches fns key (fns.hash key) b = true ∨ _mapbucket_isempty b = true) ∧
      t1.buckets = s1.buckets.set i ⟨fns.hash key, key, value⟩ ∧
      t1.capacity = s1.capacity ∧ t1.keydel = s1.keydel ∧ t1.valuedel = s1.valuedel := by
  rw [map_set_eq] at h
  cases hg : growFor fns nd fuel t with
  | error e => simp [hg] at h
  | ok s1 =>
    simp only [hg] at h
    cases ha : _map_acquirebucket fns fuel s1 key with
    | error e => simp [ha] at h
    | ok r =>
      obtain ⟨s2, i⟩ := r
      simp only [ha] at h
      obtain ⟨⟨hset, _⟩, _, hcap, hkd, hvd, _, b, hb, x, hx, hxh, hcase⟩ :=
        acquire_then_write fns fuel s1 s2 key i ⟨fns.hash key, key, value⟩ ha
      unfold loadBucket at h
      simp only [hx, Except.ok.injEq] at h
      refine ⟨s1, i, b, rfl, hb, hcase, ?_, ?_, ?_, ?_⟩
      · rw [← h, ← hset, ← hxh]
      · rw [← h]; exact hcap
      · rw [← h]; exact hkd
      · rw [← h]; exact hvd

/-- The growth step of `_map_set`, case by case. -/
theorem growFor_cases (fns : MapFns) (nd : Bool) (fuel : Nat) (t s1 : _Map)
    (h : growFor fns nd fuel t = .ok s1) :
    (t.buckets = [] ∧ map_rehash fns nd fuel t map_init_capacity = .ok s1) ∨
    (t.buckets ≠ [] ∧ loadfactor_ge_max t = true ∧
      map_rehash fns nd fuel t ((t.capacity * 2) % UWORD) = .ok s1) ∨
    (t.buckets ≠ [] ∧ loadfactor_ge_max t = false ∧ s1 = t) := by
  unfold growFor at h
  by_cases he : t.buckets.isEmpty = true
  · rw [if_pos he] at h
    exact Or.inl ⟨List.isEmpty_iff.mp he, h⟩
  · have hne : t.buckets ≠ [] := fun hn => he (List.isEmpty_iff.mpr hn)
    rw [if_neg he] at h
    by_cases hl : loadfactor_ge_max t = true
    · rw [if_pos hl] at h
      exact Or.inr (Or.inl ⟨hne, hl, h⟩)
    · rw [if_neg hl] at h
      exact Or.inr (Or.inr ⟨hne, by simpa using hl, (Except.ok.inj h).symm⟩)

/-- What the loop of `_map_del` has done when it returns, for any callbacks: nothing, or it
has deleted a bucket that matched the key. -/
theorem delLoop_result (fns : MapFns) (t : _Map) (k h : Nat) :
    ∀ fuel idx t1, delLoop fns t k h fuel idx = .ok t1 →
      t1 = t ∨ ∃ i b, t.buckets[i]? = some b ∧ bucketMatches fns k h b = true ∧
        t1 = delOf t (true, i) := by
  intro fuel
  induction fuel with
  | zero => intro idx t1 h0; simp [delLoop] at h0
  | succ n ih =>
    intro idx t1 h0
    unfold delLoop loadBucket at h0
    cases hb : t.buckets[idx]? with
    | none => simp [hb] at h0
    | some b =>
      simp only [hb] at h0
      by_cases hm : bucketMatches fns k h b = true
      · simp only [hm, if_true, Except.ok.injEq] at h0
        refine Or.inr ⟨idx, b, hb, hm, ?_⟩
        rw [← h0]
        simp [delOf, hb]
      · have hmf : bucketMatches fns k h b = false := by simpa using hm
        simp only [hmf, Bool.false_eq_true, if_false] at h0
        by_cases he : _mapbucket_isempty b = true
        · simp only [he, if_true, Except.ok.injEq] at h0
          exact Or.inl h0.symm
        · simp only [he, if_false] at h0
          exact ih _ _ h0

/-- A `_map_del` that returns leaves the capacity and the number of buckets unchanged, for
any table and any callbacks. -/
theorem del_shape (fns : MapFns) (fuel : Nat) (t t1 : _Map) (k : Nat)
    (h : _map_del fns fuel t k = .ok t1) :
    t1.capacity = t.capacity ∧ t1.buckets.length = t.buckets.length ∧
    (t1 = t ∨ ∃ i b, t.buckets[i]? = some b ∧
      bucketMatches fns k (fns.hash k) b = true ∧ t1 = delOf t (true, i)) := by
  unfold _map_del at h
  split at h
  · simp at h
  · have hr := delLoop_result fns t k _ _ _ _ h
    rcases hr with rfl | ⟨i, b, hb, hm, rfl⟩
    · exact ⟨rfl, rfl, Or.inl rfl⟩
    · refine ⟨delOf_capacity _ _, ?_, Or.inr ⟨i, b, hb, hm, rfl⟩⟩
      rw [delOf_buckets t i b hb, List.length_set]

/-- The capacity `map_rehash` leaves: the old one for the argument 0 or an argument not above
it, the argument otherwise. -/
theorem map_rehash_capacity (fns : MapFns) (nd : Bool) (fuel : Nat) (t t1 : _Map) (ncap : Nat)
    (h : map_rehash fns nd fuel t ncap = .ok t1) : t1.capacity = max t.capacity ncap := by
  rcases map_rehash_shape fns nd fuel t t1 ncap h with ⟨rfl, _, hle⟩ | ⟨hc, hr⟩
  · omega
  · have := (rehashTo_shape fns nd fuel t t1 _ hr).1
    rw [this]
    split <;> omega

/-- The capacity the growth step of `_map_set` leaves. -/
theorem growFor_capacity (fns : MapFns) (nd : Bool) (fuel : Nat) (t s1 : _Map)
    (h : growFor fns nd fuel t = .ok s1) :
    s1.capacity = (if t.buckets = [] then max t.capacity map_init_capacity
      else if loadfactor_ge_max t = true then max t.capacity ((t.capacity * 2) % UWORD)
      else t.capacity) := by
  rcases growFor_cases fns nd fuel t s1 h with ⟨he, hr⟩ | ⟨hne, hl, hr⟩ | ⟨hne, hl, rfl⟩
  · rw [if_pos he]; exact map_rehash_capacity fns nd fuel t s1 _ hr
  · rw [if_neg hne, if_pos hl]; exact map_rehash_capacity fns nd fuel t s1 _ hr
  · rw [if_neg hne, if_neg (by simp [hl])]

/-- C23 (capacity never shrinks): for every table, all callbacks and every call among
`_map_set`, `_map_del`, `map_rehash` (any argument, 0 included), `map_reserve` and
`map_clear`, the capacity after a call that returns is at least the capacity before it. -/
theorem C23_capacity_never_shrinks (fns : MapFns) (nd : Bool) (fuel : Nat) (t t1 : _Map)
    (op : MapOp) (h : applyOp fns nd fuel t op = .ok t1) : t.capacity ≤ t1.capacity := by
  cases op with
  | set k v =>
    obtain ⟨s1, _, _, hg, _, _, _, hcap, _⟩ := set_shape fns nd fuel t t1 k v h
    rw [hcap, growFor_capacity fns nd fuel t s1 hg]
    split
    · exact Nat.le_max_left _ _
    · split
      · exact Nat.le_max_left _ _
      · exact Nat.le_refl _
  | del k => rw [(del_shape fns fuel t t1 k h).1]
  | rehash ncap =>
    rw [map_rehash_capacity fns nd fuel t t1 ncap h]; exact Nat.le_max_left _ _
  | reserve n =>
    rw [map_rehash_capacity fns nd fuel t t1 _ (map_reserve_ok fns nd fuel t t1 n h)]
    exact Nat.le_max_left _ _
  | clear =>
    rcases map_clear_result nd t t1 h with rfl | ⟨_, _, _, hc⟩
    · exact Nat.le_refl _
    · rw [hc]

theorem C23_capacity_never_shrinks_witness :
    applyOp defaultFns false 8 (tbl [⟨0, 0, 0⟩, ⟨1, 1, 1⟩, ⟨2, 2, 1⟩, ⟨3, 3, 1⟩] 3 0)
        (.set 5 1) =
      .ok (tbl [⟨0, 0, 0⟩, ⟨1, 1, 1⟩, ⟨2, 2, 1⟩, ⟨3, 3, 1⟩, ⟨0, 0, 0⟩, ⟨5, 5, 1⟩, ⟨0, 0, 0⟩,
        ⟨0, 0, 0⟩] 4 0) ∧
    (tbl [⟨0, 0, 0⟩, ⟨1, 1, 1⟩, ⟨2, 2, 1⟩, ⟨3, 3, 1⟩] 3 0).capacity ≤
      (tbl [⟨0, 0, 0⟩, ⟨1, 1, 1⟩, ⟨2, 2, 1⟩, ⟨3, 3, 1⟩, ⟨0, 0, 0⟩, ⟨5, 5, 1⟩, ⟨0, 0, 0⟩,
        ⟨0, 0, 0⟩] 4 0).capacity :=
  have h : applyOp defaultFns false 8 (tbl [⟨0, 0, 0⟩, ⟨1, 1, 1⟩, ⟨2, 2, 1⟩, ⟨3, 3, 1⟩] 3 0)
      (.set 5 1) =
      .ok (tbl [⟨0, 0, 0⟩, ⟨1, 1, 1⟩, ⟨2, 2, 1⟩, ⟨3, 3, 1⟩, ⟨0, 0, 0⟩, ⟨5, 5, 1⟩, ⟨0, 0, 0⟩,
        ⟨0, 0, 0⟩] 4 0) := by decide
  ⟨h, C23_capacity_never_shrinks defaultFns false 8 _ _ _ h⟩

/-- A table is created with the capacity asked for and an array of as many buckets. -/
theorem alloc_sized (nd : Bool) (cap : Nat) (hashfn : Option (Nat → Nat))
    (equalsfn : Option (Nat → Nat → Bool)) (probefn : Option (_Map → Nat → Nat)) (t : _Map)
    (h : _map_alloc_full_n nd cap hashfn equalsfn probefn = .ok t) :
    Sized t ∧ t.capacity = cap := by
  unfold _map_alloc_full_n at h
  split at h
  · simp at h
  · split at h
    · simp at h
    · simp only at h
      by_cases hc : cap = 0
      · rw [if_pos hc] at h
        simp only [Except.ok.injEq] at h
        subst h
        subst hc
        exact ⟨⟨rfl, by decide⟩, rfl⟩
      · rw [if_neg hc] at h
        rcases map_rehash_shape _ nd 0 _ t cap h with ⟨_, _, hle⟩ | ⟨_, hr⟩
        · simp only at hle; omega
        · rw [if_neg hc] at hr
          obtain ⟨h1, h2, h3, _⟩ := rehashTo_shape _ nd 0 _ t cap hr
          exact ⟨⟨by rw [h2, h1], by rw [h1]; exact h3⟩, h1⟩

theorem rehash_sized (fns : MapFns) (nd : Bool) (fuel : Nat) (t t1 : _Map) (ncap : Nat)
    (hs : Sized t) (h : map_rehash fns nd fuel t ncap = .ok t1) : Sized t1 := by
  rcases map_rehash_shape fns nd fuel t t1 ncap h with ⟨rfl, _, _⟩ | ⟨_, hr⟩
  · exact hs
  · obtain ⟨h1, h2, h3, _⟩ := rehashTo_shape fns nd fuel t t1 _ hr
    exact ⟨by rw [h2, h1], by rw [h1]; exact h3⟩

/-- The capacity after `_map_set`: the initial capacity 256 when no bucket array was
allocated, twice the old capacity when the load test succeeds on the table as it is before
the call, the old capacity otherwise. -/
theorem set_sized (fns : MapFns) (nd : Bool) (fuel : Nat) (t t1 : _Map) (k v : Nat)
    (hs : Sized t) (h : _map_set fns nd fuel t k v = .ok t1) :
    Sized t1 ∧
    t1.capacity = (if t.buckets = [] then map_init_capacity
      else if loadfactor_ge_max t = true then 2 * t.capacity else t.capacity) := by
  obtain ⟨s1, i, b, hg, _, _, hbs, hcap, _⟩ := set_shape fns nd fuel t t1 k v h
  have hs1 : Sized s1 := by
    rcases growFor_cases fns nd fuel t s1 hg with ⟨_, hr⟩ | ⟨_, _, hr⟩ | ⟨_, _, rfl⟩
    · exact rehash_sized fns nd fuel t s1 _ hs hr
    · exact rehash_sized fns nd fuel t s1 _ hs hr
    · exact hs
  refine ⟨⟨by rw [hbs, List.length_set, hcap]; exact hs1.1, by rw [hcap]; exact hs1.2⟩, ?_⟩
  rw [hcap, growFor_capacity fns nd fuel t s1 hg]
  have hsm := hs.2
  unfold sizeof_MapBucket at hsm
  by_cases he : t.buckets = []
  · have h0 : t.capacity = 0 := by rw [← hs.1, he]; rfl
    rw [if_pos he, if_pos he, h0]
    exact Nat.max_eq_right (Nat.zero_le _)
  · rw [if_neg he, if_neg he]
    by_cases hl : loadfactor_ge_max t = true
    · rw [if_pos hl, if_pos hl]
      have h2 : (t.capacity * 2) % UWORD = 2 * t.capacity := by
        rw [uword_eq] at hsm ⊢; omega
      rw [h2]
      omega
    · rw [if_neg hl, if_neg hl]

theorem del_sized (fns : MapFns) (fuel : Nat) (t t1 : _Map) (k : Nat)
    (hs : Sized t) (h : _map_del fns fuel t k = .ok t1) :
    Sized t1 ∧ t1.capacity = t.capacity := by
  obtain ⟨h1, h2, _⟩ := del_shape fns fuel t t1 k h
  exact ⟨⟨by rw [h2, h1]; exact hs.1, by rw [h1]; exact hs.2⟩, h1⟩

theorem clear_sized (nd : Bool) (t t1 : _Map) (hs : Sized t)
    (h : map_clear nd t = .ok t1) : Sized t1 ∧ t1.capacity = t.capacity := by
  rcases map_clear_result nd t t1 h with rfl | ⟨hb, _, _, hc⟩
  · exact ⟨hs, rfl⟩
  · exact ⟨⟨by rw [hb, hc, List.length_replicate], by rw [hc]; exact hs.2⟩, hc⟩

/-- C24 (power-of-two capacity): a table created with the initial capacity `cap` and changed
only through `_map_set`, `_map_del` and `map_clear` has capacity `cap * 2^j` for some `j`
when `cap` is not 0, and capacity 0 or `256 * 2^j` when `cap` is 0 (any callbacks, any
keys).  Hence the capacity is 0 or a power of two when `cap` is 0 or a power of two. -/
theorem C24_capacity_power_of_two (fns : MapFns) (nd : Bool) (cap : Nat) (t : _Map)
    (h : SetDelClear fns nd cap t) :
    ((cap = 0 ∧ t.capacity = 0) ∨
      ∃ j, t.capacity = (if cap = 0 then map_init_capacity else cap) * 2 ^ j) ∧
    ((cap = 0 ∨ ∃ i, cap = 2 ^ i) → t.capacity = 0 ∨ ∃ i, t.capacity = 2 ^ i) := by
  have hinv : Sized t ∧ ((cap = 0 ∧ t.capacity = 0) ∨
      ∃ j, t.capacity = (if cap = 0 then map_init_capacity else cap) * 2 ^ j) := by
    induction h with
    | create t h =>
      obtain ⟨hs, hc⟩ := alloc_sized nd cap _ _ _ t h
      refine ⟨hs, ?_⟩
      by_cases h0 : cap = 0
      · exact Or.inl ⟨h0, by rw [hc, h0]⟩
      · exact Or.inr ⟨0, by rw [if_neg h0, hc]; simp⟩
    | set fuel t t1 k v _ h ih =>
      obtain ⟨hs, hform⟩ := ih
      obtain ⟨hs1, hc1⟩ := set_sized fns nd fuel t t1 k v hs h
      refine ⟨hs1, ?_⟩
      by_cases he : t.buckets = []
      · have h0 : t.capacity = 0 := by rw [← hs.1, he]; rfl
        rw [if_pos he] at hc1
        have hcap0 : cap = 0 := by
          rcases hform with ⟨hc, _⟩ | ⟨j, hj⟩
          · exact hc
          · by_contra hne
            rw [if_neg hne, h0] at hj
            have : 0 < cap * 2 ^ j := Nat.mul_pos (by omega) (Nat.two_pow_pos j)
            omega
        exact Or.inr ⟨0, by rw [if_pos hcap0, hc1]; simp⟩
      · rw [if_neg he] at hc1
        have hpos : 0 < t.capacity := by
          rw [← hs.1]; exact List.length_pos.mpr he
        rcases hform with ⟨_, hc⟩ | ⟨j, hj⟩
        · omega
        · by_cases hl : loadfactor_ge_max t = true
          · rw [if_pos hl] at hc1
            exact Or.inr ⟨j + 1, by rw [hc1, hj, pow_succ]; ring⟩
          · rw [if_neg hl] at hc1
            exact Or.inr ⟨j, by rw [hc1, hj]⟩
    | del fuel t t1 k _ h ih =>
      obtain ⟨hs, hform⟩ := ih
      obtain ⟨hs1, hc1⟩ := del_sized fns fuel t t1 k hs h
      exact ⟨hs1, by rw [hc1]; exact hform⟩
    | clear t t1 _ h ih =>
      obtain ⟨hs, hform⟩ := ih
      obtain ⟨hs1, hc1⟩ := clear_sized nd t t1 hs h
      exact ⟨hs1, by rw [hc1]; exact hform⟩
  refine ⟨hinv.2, ?_⟩
  intro hcap
  rcases hinv.2 with ⟨_, h0⟩ | ⟨j, hj⟩
  · exact Or.inl h0
  · right
    rcases hcap with h0 | ⟨i, hi⟩
    · refine ⟨8 + j, ?_⟩
      rw [hj, if_pos h0, pow_add]
      rfl
    · have hne : cap ≠ 0 := by
        rw [hi]; exact Nat.pos_iff_ne_zero.mp (Nat.two_pow_pos i)
      refine ⟨i + j, ?_⟩
      rw [hj, if_neg hne, hi, pow_add]

theorem C24_capacity_power_of_two_witness :
    SetDelClear defaultFns false 4
      (tbl [⟨0, 0, 0⟩, ⟨1, 1, 1⟩, ⟨2, 2, 1⟩, ⟨3, 3, 1⟩, ⟨0, 0, 0⟩, ⟨5, 5, 1⟩, ⟨0, 0, 0⟩,
        ⟨0, 0, 0⟩] 4 0) ∧
    (∃ j, (tbl [⟨0, 0, 0⟩, ⟨1, 1, 1⟩, ⟨2, 2, 1⟩, ⟨3, 3, 1⟩, ⟨0, 0, 0⟩, ⟨5, 5, 1⟩, ⟨0, 0, 0⟩,
        ⟨0, 0, 0⟩] 4 0).capacity = 4 * 2 ^ j) ∧
    ((tbl [⟨0, 0, 0⟩, ⟨1, 1, 1⟩, ⟨2, 2, 1⟩, ⟨3, 3, 1⟩, ⟨0, 0, 0⟩, ⟨5, 5, 1⟩, ⟨0, 0, 0⟩,
        ⟨0, 0, 0⟩] 4 0).capacity = 0 ∨
      ∃ i, (tbl [⟨0, 0, 0⟩, ⟨1, 1, 1⟩, ⟨2, 2, 1⟩, ⟨3, 3, 1⟩, ⟨0, 0, 0⟩, ⟨5, 5, 1⟩, ⟨0, 0, 0⟩,
        ⟨0, 0, 0⟩] 4 0).capacity = 2 ^ i) := by
  have hr : SetDelClear defaultFns false 4
      (tbl [⟨0, 0, 0⟩, ⟨1, 1, 1⟩, ⟨2, 2, 1⟩, ⟨3, 3, 1⟩, ⟨0, 0, 0⟩, ⟨5, 5, 1⟩, ⟨0, 0, 0⟩,
        ⟨0, 0, 0⟩] 4 0) :=
    SetDelClear.set 8 (tbl [⟨0, 0, 0⟩, ⟨1, 1, 1⟩, ⟨2, 2, 1⟩, ⟨3, 3, 1⟩] 3 0) _ 5 1
      (SetDelClear.set 4 (tbl [⟨0, 0, 0⟩, ⟨1, 1, 1⟩, ⟨2, 2, 1⟩, ⟨0, 0, 0⟩] 2 0) _ 3 1
        (SetDelClear.set 4 (tbl [⟨0, 0, 0⟩, ⟨1, 1, 1⟩, ⟨0, 0, 0⟩, ⟨0, 0, 0⟩] 1 0) _ 2 1
          (SetDelClear.set 4 (tbl [⟨0, 0, 0⟩, ⟨0, 0, 0⟩, ⟨0, 0, 0⟩, ⟨0, 0, 0⟩] 0 0) _ 1 1
            (SetDelClear.create _ (by decide)) (by decide))
          (by decide))
        (by decide))
      (by decide)
  have h := C24_capacity_power_of_two defaultFns false 4 _ hr
  refine ⟨hr, ?_, h.2 (Or.inr ⟨2, rfl⟩)⟩
  rcases h.1 with ⟨h0, _⟩ | ⟨j, hj⟩
  · exact absurd h0 (by decide)
  · exact ⟨j, hj⟩

/-- C29 (cached hash invariant): in every table reachable from creation by set, delete,
rehash, reserve and clear, for any hash, equals and probe functions, the cached hash of
every Full bucket is the hash of the key stored in it. -/
theorem C29_cached_hash (fns : MapFns) (nd : Bool) (t : _Map) (hr : Reachable fns nd t) :
    ∀ b ∈ t.buckets, _mapbucket_isfull b = true → b.hash = fns.hash b.key := by
  have hre : ∀ (fuel : Nat) (t t1 : _Map) (ncap : Nat), Cached fns t.buckets →
      map_rehash fns nd fuel t ncap = .ok t1 → Cached fns t1.buckets := by
    intro fuel t t1 ncap hc h
    rcases map_rehash_shape fns nd fuel t t1 ncap h with ⟨rfl, _, _⟩ | ⟨_, hr⟩
    · exact hc
    · obtain ⟨_, _, _, _, _, _, hm⟩ := rehashTo_shape fns nd fuel t t1 _ hr
      intro b hb hf
      rcases hm b hb with rfl | ⟨hb1, _⟩
      · exact absurd hf (by decide)
      · exact hc b hb1 hf
  induction hr with
  | create cap t h =>
    unfold _map_alloc_full_n at h
    simp only [Option.isNone_some, Bool.and_false, Bool.false_eq_true, if_false] at h
    by_cases hc : cap = 0
    · rw [if_pos hc] at h
      simp only [Except.ok.injEq] at h
      rw [← h]
      intro b hb; simp at hb
    · rw [if_neg hc] at h
      have hfn : allocFns (some fns.hash) (some fns.equals) (some fns.probe) = fns := rfl
      rw [hfn] at h
      exact hre 0 _ t cap (by intro b hb; simp at hb) h
  | set fuel t t1 k v _ _ h ih =>
    obtain ⟨s1, i, b, hg, _, _, hbs, _⟩ := set_shape fns nd fuel t t1 k v h
    have hc1 : Cached fns s1.buckets := by
      rcases growFor_cases fns nd fuel t s1 hg with ⟨_, hr⟩ | ⟨_, _, hr⟩ | ⟨_, _, rfl⟩
      · exact hre fuel t s1 _ ih hr
      · exact hre fuel t s1 _ ih hr
      · exact ih
    intro x hx hf
    rw [hbs] at hx
    rcases List.mem_or_eq_of_mem_set hx with hx1 | hx1
    · exact hc1 x hx1 hf
    · rw [hx1]
  | del fuel t t1 k _ h ih =>
    rcases (del_shape fns fuel t t1 k h).2.2 with rfl | ⟨i, b, hb, _, rfl⟩
    · exact ih
    · intro x hx hf
      rw [delOf_buckets t i b hb] at hx
      rcases List.mem_or_eq_of_mem_set hx with hx1 | hx1
      · exact ih x hx1 hf
      · rw [hx1, tomb_not_full _ (astomb_istomb b)] at hf
        exact absurd hf (by simp)
  | rehash fuel t t1 ncap _ h ih => exact hre fuel t t1 ncap ih h
  | reserve fuel t t1 n _ h ih => exact hre fuel t t1 _ ih (map_reserve_ok fns nd fuel t t1 n h)
  | clear t t1 _ h ih =>
    rcases map_clear_result nd t t1 h with rfl | ⟨hb, _⟩
    · exact ih
    · intro x hx hf
      rw [hb] at hx
      rw [List.eq_of_mem_replicate hx] at hf
      exact absurd hf (by decide)

theorem C29_cached_hash_witness :
    Reachable defaultFns false
      (tbl [⟨0, 0, 0⟩, ⟨1, 1, 1⟩, ⟨2, 2, 1⟩, ⟨3, 3, 1⟩, ⟨0, 0, 0⟩, ⟨5, 5, 1⟩, ⟨0, 0, 0⟩,
        ⟨0, 0, 0⟩] 4 0) ∧
    ∀ b ∈ (tbl [⟨0, 0, 0⟩, ⟨1, 1, 1⟩, ⟨2, 2, 1⟩, ⟨3, 3, 1⟩, ⟨0, 0, 0⟩, ⟨5, 5, 1⟩, ⟨0, 0, 0⟩,
        ⟨0, 0, 0⟩] 4 0).buckets, _mapbucket_isfull b = true → b.hash = defaultFns.hash b.key :=
  have hr : Reachable defaultFns false
      (tbl [⟨0, 0, 0⟩, ⟨1, 1, 1⟩, ⟨2, 2, 1⟩, ⟨3, 3, 1⟩, ⟨0, 0, 0⟩, ⟨5, 5, 1⟩, ⟨0, 0, 0⟩,
        ⟨0, 0, 0⟩] 4 0) :=
    reachable_runFrom defaultFns false 8 4 [.set 1 1, .set 2 1, .set 3 1, .set 5 1] _
      (by decide) (by decide)
  ⟨hr, C29_cached_hash defaultFns false _ hr⟩

/-- C30 (same-capacity rehash compacts tombstones): for every table and any callbacks, a
`map_rehash(0)` that returns leaves the capacity unchanged, an array of `capacity` buckets
none of which is a Tombstone (each is Empty or Full) and `tombs = 0`.  On a table reachable
through steps that keep `length` and `tombs` accurate (default probe, `equals` an
equivalence compatible with `hash`) the call returns within `capacity` probe rounds. -/
theorem C30_rehash_zero_compacts (fns : MapFns) (nd : Bool) (fuel : Nat) (t : _Map) :
    (∀ t1, map_rehash fns nd fuel t 0 = .ok t1 →
      t1.capacity = t.capacity ∧ t1.buckets.length = t.capacity ∧ t1.tombs = 0 ∧
      ∀ b ∈ t1.buckets, _mapbucket_istomb b = false ∧
        (_mapbucket_isempty b = true ∨ _mapbucket_isfull b = true)) ∧
    (LinearProbe fns → KeyLaws fns → ReachableCounted fns nd t → t.capacity ≤ fuel →
      ∃ t1, map_rehash fns nd fuel t 0 = .ok t1) := by
  constructor
  · intro t1 h
    rw [map_rehash_zero] at h
    obtain ⟨h1, h2, _, h4, _, _, hm⟩ := rehashTo_shape fns nd fuel t t1 _ h
    refine ⟨h1, h2, h4, ?_⟩
    intro b hb
    rcases hm b hb with rfl | ⟨_, hf⟩
    · exact ⟨by decide, Or.inl (by decide)⟩
    · exact ⟨full_not_tomb b hf, Or.inr hf⟩
  · intro hp hk hr hfuel
    have ht := reachableCounted_tidy fns hp hk nd t hr
    obtain ⟨t1, h, _⟩ := rehash_total fns hp hk nd fuel t 0 ht.sound ht.counted hfuel
      (Nat.zero_le _) (by decide)
    exact ⟨t1, h⟩

theorem C30_rehash_zero_compacts_witness :
    (map_rehash defaultFns false 4
        (tbl [⟨4, MAP_TOMB, 0⟩, ⟨1, 1, 1⟩, ⟨0, 0, 0⟩, ⟨0, 0, 0⟩] 1 1) 0 =
      .ok (tbl [⟨0, 0, 0⟩, ⟨1, 1, 1⟩, ⟨0, 0, 0⟩, ⟨0, 0, 0⟩] 1 0) ∧
      (tbl [⟨0, 0, 0⟩, ⟨1, 1, 1⟩, ⟨0, 0, 0⟩, ⟨0, 0, 0⟩] 1 0).capacity =
        (tbl [⟨4, MAP_TOMB, 0⟩, ⟨1, 1, 1⟩, ⟨0, 0, 0⟩, ⟨0, 0, 0⟩] 1 1).capacity ∧
      (tbl [⟨0, 0, 0⟩, ⟨1, 1, 1⟩, ⟨0, 0, 0⟩, ⟨0, 0, 0⟩] 1 0).tombs = 0) ∧
    (LinearProbe defaultFns ∧ KeyLaws defaultFns ∧
      ReachableCounted defaultFns false
        (tbl [⟨4, MAP_TOMB, 0⟩, ⟨1, 1, 1⟩, ⟨0, 0, 0⟩, ⟨0, 0, 0⟩] 1 1) ∧
      (tbl [⟨4, MAP_TOMB, 0⟩, ⟨1, 1, 1⟩, ⟨0, 0, 0⟩, ⟨0, 0, 0⟩] 1 1).capacity ≤ 4 ∧
      ∃ t1, map_rehash defaultFns false 4
        (tbl [⟨4, MAP_TOMB, 0⟩, ⟨1, 1, 1⟩, ⟨0, 0, 0⟩, ⟨0, 0, 0⟩] 1 1) 0 = .ok t1) := by
  have h : map_rehash defaultFns false 4
      (tbl [⟨4, MAP_TOMB, 0⟩, ⟨1, 1, 1⟩, ⟨0, 0, 0⟩, ⟨0, 0, 0⟩] 1 1) 0 =
      .ok (tbl [⟨0, 0, 0⟩, ⟨1, 1, 1⟩, ⟨0, 0, 0⟩, ⟨0, 0, 0⟩] 1 0) := by decide
  have hr : ReachableCounted defaultFns false
      (tbl [⟨4, MAP_TOMB, 0⟩, ⟨1, 1, 1⟩, ⟨0, 0, 0⟩, ⟨0, 0, 0⟩] 1 1) :=
    ReachableCounted.del 4 (tbl [⟨4, 4, 1⟩, ⟨1, 1, 1⟩, ⟨0, 0, 0⟩, ⟨0, 0, 0⟩] 2 0) _ 4
      (ReachableCounted.set 4 (tbl [⟨4, 4, 1⟩, ⟨0, 0, 0⟩, ⟨0, 0, 0⟩, ⟨0, 0, 0⟩] 1 0) _ 1 1
        (ReachableCounted.set 4 (tbl [⟨0, 0, 0⟩, ⟨0, 0, 0⟩, ⟨0, 0, 0⟩, ⟨0, 0, 0⟩] 0 0) _ 4 1
          (ReachableCounted.create 4 _ (by decide)) (by decide) (by decide) (by decide))
        (by decide) (by decide) (by decide))
      (by decide)
  have h1 := (C30_rehash_zero_compacts defaultFns false 4 _).1 _ h
  exact ⟨⟨h, h1.1, h1.2.2.1⟩, linearProbe_default, keyLaws_default, hr, by decide,
    (C30_rehash_zero_compacts defaultFns false 4 _).2 linearProbe_default keyLaws_default hr
      (by decide)⟩

/-- C25: in the table reached by `set(4, 1); del(4)` from a fresh table of capacity 4 the
probe for the absent key 8 passes the Tombstone at index 0 and reaches the Empty bucket 1.
`_map_acquirebucket` returns bucket 1, the Empty one, and `_map_set` writes key 8 there:
the Tombstone at index 0 is still a Tombstone, the number of Tombstone buckets is 1 before
and after, and only the field `tombs` has gone down, to 0. -/
theorem C25_tombstone_not_reused :
    ∀ nd : Bool, ∃ t s t1, Reachable defaultFns nd t ∧
      t.buckets = [⟨4, MAP_TOMB, 0⟩, ⟨0, 0, 0⟩, ⟨0, 0, 0⟩, ⟨0, 0, 0⟩] ∧ t.tombs = 1 ∧
      _map_get_ex defaultFns 4 t 8 = .ok none ∧
      _map_acquirebucket defaultFns 4 t 8 = .ok (s, 1) ∧
      _map_set defaultFns nd 4 t 8 1 = .ok t1 ∧
      t1.buckets = [⟨4, MAP_TOMB, 0⟩, ⟨8, 8, 1⟩, ⟨0, 0, 0⟩, ⟨0, 0, 0⟩] ∧
      countTomb t.buckets = 1 ∧ countTomb t1.buckets = 1 ∧ t1.tombs = 0 := by
  intro nd
  refine ⟨tbl [⟨4, MAP_TOMB, 0⟩, ⟨0, 0, 0⟩, ⟨0, 0, 0⟩, ⟨0, 0, 0⟩] 0 1,
    tbl [⟨4, MAP_TOMB, 0⟩, ⟨8, 0, 0⟩, ⟨0, 0, 0⟩, ⟨0, 0, 0⟩] 0 0,
    tbl [⟨4, MAP_TOMB, 0⟩, ⟨8, 8, 1⟩, ⟨0, 0, 0⟩, ⟨0, 0, 0⟩] 0 0,
    reachable_runFrom defaultFns nd 4 4 [.set 4 1, .del 4] _ (by decide) ?_, rfl, rfl,
    by decide, by decide, ?_, rfl, by decide, by decide, rfl⟩
  · cases nd <;> decide
  · cases nd <;> decide

/-- C26: the table reached by `set(8); del(8); set(16); set(2); ...; set(6); set(7, 10)`
from a fresh table of capacity 8 holds 7 Full buckets and maps key 7 to 10.  `map_rehash`
to capacity 16, and `map_rehash(0)` as well, copy 6 of them: afterwards `length` is 6, six
buckets are Full and key 7 is not found. -/
theorem C26_rehash_drops_an_entry :
    ∀ nd : Bool, ∃ t t1 t2, Reachable defaultFns nd t ∧ countFull t.buckets = 7 ∧
      _map_get defaultFns 16 t 7 = .ok 10 ∧
      map_rehash defaultFns nd 16 t 16 = .ok t1 ∧ map_length t1 = 6 ∧
      countFull t1.buckets = 6 ∧ _map_get_ex defaultFns 16 t1 7 = .ok none ∧
      map_rehash defaultFns nd 16 t 0 = .ok t2 ∧ map_length t2 = 6 ∧
      countFull t2.buckets = 6 ∧ _map_get_ex defaultFns 16 t2 7 = .ok none := by
  intro nd
  refine ⟨tbl [⟨8, MAP_TOMB, 0⟩, ⟨16, 16, 1⟩, ⟨2, 2, 1⟩, ⟨3, 3, 1⟩, ⟨4, 4, 1⟩, ⟨5, 5, 1⟩,
      ⟨6, 6, 1⟩, ⟨7, 7, 10⟩] 6 0,
    tbl [⟨16, 16, 1⟩, ⟨0, 0, 0⟩, ⟨2, 2, 1⟩, ⟨3, 3, 1⟩, ⟨4, 4, 1⟩, ⟨5, 5, 1⟩, ⟨6, 6, 1⟩,
      ⟨0, 0, 0⟩, ⟨0, 0, 0⟩, ⟨0, 0, 0⟩, ⟨0, 0, 0⟩, ⟨0, 0, 0⟩, ⟨0, 0, 0⟩, ⟨0, 0, 0⟩,
      ⟨0, 0, 0⟩, ⟨0, 0, 0⟩] 6 0,
    tbl [⟨16, 16, 1⟩, ⟨0, 0, 0⟩, ⟨2, 2, 1⟩, ⟨3, 3, 1⟩, ⟨4, 4, 1⟩, ⟨5, 5, 1⟩, ⟨6, 6, 1⟩,
      ⟨0, 0, 0⟩] 6 0,
    reachable_runFrom defaultFns nd 8 8
      [.set 8 1, .del 8, .set 16 1, .set 2 1, .set 3 1, .set 4 1, .set 5 1, .set 6 1,
        .set 7 10] _ (by decide) ?_,
    by decide, by decide, ?_, rfl, by decide, by decide, ?_, rfl, by decide, by decide⟩
  · cases nd <;> decide
  · cases nd <;> decide
  · cases nd <;> decide

/-- C21: with both destructors registered on a fresh table of capacity 8, after
`set(8, 1); del(8); set(16, 1); set(2, 1); ...; set(6, 1); set(7, 10)` key 7 is stored with
value 10.  The call `set(7, 11)` replaces that entry (the lookup of 7 then gives 11) but
calls no destructor: the record of destructor calls, which holds the two calls made by
`del(8)`, is the same before and after. -/
theorem C21_overwrite_without_destructor :
    ∀ nd : Bool, ∃ t0 t t1,
      _map_alloc_full_n nd 8 (some defaultFns.hash) (some defaultFns.equals)
        (some defaultFns.probe) = .ok t0 ∧
      runOps defaultFns nd 8
        [.set 8 1, .del 8, .set 16 1, .set 2 1, .set 3 1, .set 4 1, .set 5 1, .set 6 1,
          .set 7 10] (_map_setvaluedel (_map_setkeydel t0 true) true) = .ok t ∧
      t.keydel = true ∧ t.valuedel = true ∧
      _map_get_ex defaultFns 16 t 7 = .ok (some (7, 10)) ∧
      _map_set defaultFns nd 16 t 7 11 = .ok t1 ∧
      _map_get_ex defaultFns 16 t1 7 = .ok (some (7, 11)) ∧
      t.dtors = [DtorCall.key 8, DtorCall.value 1] ∧ t1.dtors = t.dtors := by
  intro nd
  refine ⟨tbl (List.replicate 8 ⟨0, 0, 0⟩) 0 0,
    { tbl [⟨8, MAP_TOMB, 0⟩, ⟨16, 16, 1⟩, ⟨2, 2, 1⟩, ⟨3, 3, 1⟩, ⟨4, 4, 1⟩, ⟨5, 5, 1⟩,
        ⟨6, 6, 1⟩, ⟨7, 7, 10⟩] 6 0 with
      keydel := true, valuedel := true, dtors := [DtorCall.key 8, DtorCall.value 1] },
    { tbl [⟨16, 16, 1⟩, ⟨0, 0, 0⟩, ⟨2, 2, 1⟩, ⟨3, 3, 1⟩, ⟨4, 4, 1⟩, ⟨5, 5, 1⟩, ⟨6, 6, 1⟩,
        ⟨7, 7, 11⟩, ⟨0, 0, 0⟩, ⟨0, 0, 0⟩, ⟨0, 0, 0⟩, ⟨0, 0, 0⟩, ⟨0, 0, 0⟩, ⟨0, 0, 0⟩,
        ⟨0, 0, 0⟩, ⟨0, 0, 0⟩] 7 0 with
      keydel := true, valuedel := true, dtors := [DtorCall.key 8, DtorCall.value 1] },
    ?_, ?_, rfl, rfl, by decide, ?_, by decide, rfl, rfl⟩
  · cases nd <;> decide
  · cases nd <;> decide
  · cases nd <;> decide

/-- C22: with both destructors registered on a fresh table of capacity 4, after
`set(4, 1); del(4); set(8, 1)` bucket 1 is Full (key 8, value 1) and `length` is 0.
`map_clear` and `map_destroy` then call no destructor: the record of destructor calls holds
the two calls made by `del(4)` and nothing for key 8 or its value. -/
theorem C22_clear_misses_a_full_bucket :
    ∀ nd : Bool, ∃ t0 t t1,
      _map_alloc_full_n nd 4 (some defaultFns.hash) (some defaultFns.equals)
        (some defaultFns.probe) = .ok t0 ∧
      runOps defaultFns nd 4 [.set 4 1, .del 4, .set 8 1]
        (_map_setvaluedel (_map_setkeydel t0 true) true) = .ok t ∧
      t.keydel = true ∧ t.valuedel = true ∧
      t.buckets[1]? = some ⟨8, 8, 1⟩ ∧ _mapbucket_isfull ⟨8, 8, 1⟩ = true ∧
      t.dtors = [DtorCall.key 4, DtorCall.value 1] ∧
      map_clear nd t = .ok t1 ∧ t1.dtors = [DtorCall.key 4, DtorCall.value 1] ∧
      map_destroy nd t = .ok [DtorCall.key 4, DtorCall.value 1] := by
  intro nd
  refine ⟨tbl (List.replicate 4 ⟨0, 0, 0⟩) 0 0,
    { tbl [⟨4, MAP_TOMB, 0⟩, ⟨8, 8, 1⟩, ⟨0, 0, 0⟩, ⟨0, 0, 0⟩] 0 0 with
      keydel := true, valuedel := true, dtors := [DtorCall.key 4, DtorCall.value 1] },
    { tbl [⟨0, 0, 0⟩, ⟨0, 0, 0⟩, ⟨0, 0, 0⟩, ⟨0, 0, 0⟩] 0 0 with
      keydel := true, valuedel := true, dtors := [DtorCall.key 4, DtorCall.value 1] },
    ?_, ?_, rfl, rfl, rfl, by decide, rfl, ?_, rfl, ?_⟩
  · cases nd <;> decide
  · cases nd <;> decide
  · cases nd <;> decide
  · cases nd <;> decide

/-- C28 (as amended): in a table of capacity at least 4 reachable through steps that leave
`length` and `tombs` accurate (default probe, `equals` an equivalence compatible with
`hash`), for every valid key `k`, every value and every key `k2` not equal to `k`, the set
of `k` returns, the lookup of `k2` returns before and after it, and both lookups give the
same result, also when the set grows the table. -/
theorem C28_set_frame (fns : MapFns) (hp : LinearProbe fns) (hk : KeyLaws fns) (nd : Bool)
    (t : _Map) (k v k2 fuel : Nat) (hr : ReachableCounted fns nd t) (hcap : 4 ≤ t.capacity)
    (hv : ValidKey k) (hne : fns.equals k2 k = false)
    (hf1 : map_init_capacity ≤ fuel) (hf2 : 2 * t.capacity ≤ fuel)
    (hsmall : sizeof_MapBucket * (2 * t.capacity) < UWORD) :
    ∃ t1 r, _map_set fns nd fuel t k v = .ok t1 ∧
      _map_get_ex fns fuel t k2 = .ok r ∧ _map_get_ex fns fuel t1 k2 = .ok r ∧
      _map_get fns fuel t1 k2 = _map_get fns fuel t k2 := by
  have ht := reachableCounted_tidy fns hp hk nd t hr
  have hemp := tidy_hasEmpty fns t ht hcap
  obtain ⟨t1, h1, hs1, _, hpers, hchar, _, _, _, _, hused, hcap1⟩ :=
    set_total fns hp hk nd fuel t k v ht.sound ht.counted hv hf1 hf2 hsmall
  have hc1 : 4 ≤ t1.capacity ∧ t1.capacity ≤ fuel := by
    rcases hcap1 with h | ⟨h, _, _⟩ | ⟨h, _⟩ <;> omega
  have hemp1 : HasEmpty t1.buckets :=
    hasEmpty_of_count _ (by rw [hs1.size]; omega)
  have hres : ∃ r, _map_get_ex fns fuel t k2 = .ok r ∧ _map_get_ex fns fuel t1 k2 = .ok r := by
    by_cases hex : ∃ b ∈ t.buckets, _mapbucket_isfull b = true ∧ fns.equals k2 b.key = true
    · obtain ⟨b, hb, hbf, hbe⟩ := hex
      have hkb : fns.equals k b.key = false := by
        cases h : fns.equals k b.key with
        | false => rfl
        | true =>
          have := hk.trans _ _ _ hbe (hk.symm _ _ h)
          rw [hne] at this; exact absurd this (by simp)
      exact ⟨some (b.key, b.value),
        get_of_mem fns hp hk t k2 b fuel ht.sound hb hbf hbe (by omega),
        get_of_mem fns hp hk t1 k2 b fuel hs1 (hpers b hb hbf hkb) hbf hbe hc1.2⟩
    · have hno : ∀ b ∈ t.buckets, _mapbucket_isfull b = true → fns.equals k2 b.key = false := by
        intro b hb hbf
        cases h : fns.equals k2 b.key with
        | false => rfl
        | true => exact absurd ⟨b, hb, hbf, h⟩ hex
      refine ⟨none, get_absent fns hp t k2 fuel ht.sound hemp hno (by omega),
        get_absent fns hp t1 k2 fuel hs1 hemp1 ?_ hc1.2⟩
      intro b hb hbf
      rcases hchar b hb hbf with h | ⟨h, _⟩
      · rw [h]; exact hne
      · exact hno b h hbf
  obtain ⟨r, hr0, hr1⟩ := hres
  exact ⟨t1, r, h1, hr0, hr1, by
    rw [map_get_of_ex fns fuel t1 k2 r hr1, map_get_of_ex fns fuel t k2 r hr0]⟩

theorem C28_set_frame_witness :
    LinearProbe defaultFns ∧ KeyLaws defaultFns ∧
    ReachableCounted defaultFns false
      (tbl [⟨0, 0, 0⟩, ⟨1, 1, 10⟩, ⟨2, 2, 20⟩, ⟨3, 3, 30⟩] 3 0) ∧
    4 ≤ (tbl [⟨0, 0, 0⟩, ⟨1, 1, 10⟩, ⟨2, 2, 20⟩, ⟨3, 3, 30⟩] 3 0).capacity ∧
    ValidKey 5 ∧ defaultFns.equals 3 5 = false ∧ map_init_capacity ≤ 256 ∧
    2 * (tbl [⟨0, 0, 0⟩, ⟨1, 1, 10⟩, ⟨2, 2, 20⟩, ⟨3, 3, 30⟩] 3 0).capacity ≤ 256 ∧
    sizeof_MapBucket *
      (2 * (tbl [⟨0, 0, 0⟩, ⟨1, 1, 10⟩, ⟨2, 2, 20⟩, ⟨3, 3, 30⟩] 3 0).capacity) < UWORD ∧
    ∃ t1 r, _map_set defaultFns false 256
        (tbl [⟨0, 0, 0⟩, ⟨1, 1, 10⟩, ⟨2, 2, 20⟩, ⟨3, 3, 30⟩] 3 0) 5 50 = .ok t1 ∧
      _map_get_ex defaultFns 256
        (tbl [⟨0, 0, 0⟩, ⟨1, 1, 10⟩, ⟨2, 2, 20⟩, ⟨3, 3, 30⟩] 3 0) 3 = .ok r ∧
      _map_get_ex defaultFns 256 t1 3 = .ok r ∧
      _map_get defaultFns 256 t1 3 =
        _map_get defaultFns 256 (tbl [⟨0, 0, 0⟩, ⟨1, 1, 10⟩, ⟨2, 2, 20⟩, ⟨3, 3, 30⟩] 3 0) 3 :=
  have hr : ReachableCounted defaultFns false
      (tbl [⟨0, 0, 0⟩, ⟨1, 1, 10⟩, ⟨2, 2, 20⟩, ⟨3, 3, 30⟩] 3 0) :=
    ReachableCounted.set 4 (tbl [⟨0, 0, 0⟩, ⟨1, 1, 10⟩, ⟨2, 2, 20⟩, ⟨0, 0, 0⟩] 2 0) _ 3 30
      (ReachableCounted.set 4 (tbl [⟨0, 0, 0⟩, ⟨1, 1, 10⟩, ⟨0, 0, 0⟩, ⟨0, 0, 0⟩] 1 0) _ 2 20
        (ReachableCounted.set 4 (tbl [⟨0, 0, 0⟩, ⟨0, 0, 0⟩, ⟨0, 0, 0⟩, ⟨0, 0, 0⟩] 0 0) _ 1 10
          (ReachableCounted.create 4 _ (by decide)) (by decide) (by decide) (by decide))
        (by decide) (by decide) (by decide))
      (by decide) (by decide) (by decide)
  ⟨linearProbe_default, keyLaws_default, hr, by decide, by decide, by decide, by decide,
    by decide, by decide,
    C28_set_frame defaultFns linearProbe_default keyLaws_default false _ 5 50 3 256 hr
      (by decide) (by decide) (by decide) (by decide) (by decide) (by decide)⟩

/-- C28 (counterexample): on a fresh table of capacity 1 the lookup of key 7 returns
not-found; after `set(5, 1)`, which fills the only bucket without growing the table, the
lookup of key 7 never returns. -/
theorem C28_set_makes_lookup_diverge :
    ∃ t t1, Reachable defaultFns false t ∧ defaultFns.equals 7 5 = false ∧
      _map_get_ex defaultFns 1 t 7 = .ok none ∧
      _map_set defaultFns false 1 t 5 1 = .ok t1 ∧ t1.capacity = t.capacity ∧
      ∀ fuel, _map_get_ex defaultFns fuel t1 7 = .error .fuel := by
  refine ⟨tbl [⟨0, 0, 0⟩] 0 0, tbl [⟨5, 5, 1⟩] 1 0,
    reachable_runFrom defaultFns false 1 1 [] _ (by decide) (by decide),
    by decide, by decide, by decide, rfl, ?_⟩
  intro fuel
  have := find_cycles fuel
  unfold _map_get_ex _map_findbucket
  simp only [tbl, defaultFns, _map_defaulthash, List.length_singleton] at this ⊢
  simp [this]

/-- The destructor calls of a match: the registered ones among key and value destructor. -/
theorem call_dtors (s : _Map) (p q : Nat) :
    (callValuedel (callKeydel s p) q).dtors =
      s.dtors ++ (if s.keydel = true then [DtorCall.key p] else []) ++
        (if s.valuedel = true then [DtorCall.value q] else []) := by
  unfold callValuedel callKeydel
  cases hk : s.keydel <;> cases hv : s.valuedel <;> simp [hk, hv]

/-- With both destructors registered and `len` leaving room for every Full bucket, the
destructor loop of `map_clear` calls them on every Full bucket, in index order. -/
theorem clearLoop_all (len : Nat) :
    ∀ (l : List MapBucket) (clean : Nat) (s : _Map), clean + countFull l ≤ len →
      s.keydel = true → s.valuedel = true →
      (clearLoop len l clean s).1.dtors = s.dtors ++ dtorCalls l ∧
      (clearLoop len l clean s).2 = clean + countFull l := by
  intro l
  induction l with
  | nil => intro clean s _ _ _; simp [clearLoop, dtorCalls, countFull]
  | cons b rest ih =>
    intro clean s h hkd hvd
    rw [countFull_cons] at h ⊢
    unfold clearLoop dtorCalls
    cases hb : _mapbucket_isfull b with
    | false =>
      simp only [hb, Bool.false_eq_true, if_false, Nat.add_zero] at h ⊢
      by_cases hlt : clean < len
      · simp only [hlt, if_true]
        exact ih clean s h hkd hvd
      · have hz : countFull rest = 0 := by omega
        have hnil : dtorCalls rest = [] := by
          have hall := countFull_zero rest hz
          clear ih h hz
          induction rest with
          | nil => rfl
          | cons x xs ihx =>
            unfold dtorCalls
            rw [hall x (List.mem_cons_self _ _)]
            simp only [Bool.false_eq_true, if_false]
            exact ihx (fun y hy => hall y (List.mem_cons_of_mem _ hy))
        simp [hlt, hnil, hz]
    | true =>
      simp only [hb, if_true] at h ⊢
      have hlt : clean < len := by omega
      simp only [hlt, if_true]
      have hf1 := callKeydel_flags s b.key
      have hf2 := callValuedel_flags (callKeydel s b.key) b.value
      obtain ⟨h1, h2⟩ := ih (clean + 1) (callValuedel (callKeydel s b.key) b.value) (by omega)
        (by rw [hf2.1, hf1.1]; exact hkd) (by rw [hf2.2, hf1.2]; exact hvd)
      refine ⟨?_, by rw [h2]; omega⟩
      rw [h1, call_dtors, hkd, hvd]
      simp

/-- On a table with allocated buckets, both destructors registered and `length` equal to
the number of Full buckets, `map_clear` returns and has called the key and the value
destructor once on every Full bucket, in index order, and made no other call. -/
theorem clear_destructors (nd : Bool) (t : _Map) (hsz : t.buckets.length = t.capacity)
    (hc : t.length = countFull t.buckets) (hne : t.buckets ≠ [])
    (hkd : t.keydel = true) (hvd : t.valuedel = true) :
    ∃ t1, map_clear nd t = .ok t1 ∧ t1.dtors = t.dtors ++ dtorCalls t.buckets ∧
      map_destroy nd t = .ok (t.dtors ++ dtorCalls t.buckets) := by
  have hemp : t.buckets.isEmpty = false := by
    cases hb : t.buckets with
    | nil => exact absurd hb hne
    | cons x l => rfl
  have htake : t.buckets.take t.capacity = t.buckets := by
    rw [← hsz]; exact List.take_length _
  obtain ⟨h1, h2⟩ := clearLoop_all t.length t.buckets 0 t (by omega) hkd hvd
  have hcl : map_clear nd t = .ok { (clearLoop t.length t.buckets 0 t).1 with
      buckets := List.replicate t.capacity ⟨0, 0, 0⟩, length := 0, tombs := 0 } := by
    unfold map_clear
    simp only [hemp, Bool.false_eq_true, if_false, hkd, hvd, Bool.or_self, if_true, htake, h2]
    rw [if_neg (by simp [hc])]
  refine ⟨_, hcl, h1, ?_⟩
  unfold map_destroy
  rw [hcl]
  simp only
  rw [h1]

theorem putOf_dtors_match (s : _Map) (h tf : Nat) (nb b : MapBucket) (i : Nat)
    (hb : s.buckets[i]? = some b) :
    (putOf s h tf nb (true, i)).dtors = (callValuedel (callKeydel s b.key) b.value).dtors := by
  simp [putOf, acquireOf, hb]

/-- Destructor calls of `_map_set` on a well-formed, accurately counted table: the set
returns; when no Full bucket holds a key equal to `k` it calls no destructor, and when the
Full bucket `b` does, it calls the registered destructors on the key and the value stored
in `b` and makes no other call, also when it grows the table first. -/
theorem set_destructors (fns : MapFns) (hp : LinearProbe fns) (hk : KeyLaws fns) (nd : Bool)
    (fuel : Nat) (t : _Map) (k v : Nat) (hs : Sound fns t) (hc : Counted t) (hv : ValidKey k)
    (hf1 : map_init_capacity ≤ fuel) (hf2 : 2 * t.capacity ≤ fuel)
    (hsmall : sizeof_MapBucket * (2 * t.capacity) < UWORD) :
    ∃ t1, _map_set fns nd fuel t k v = .ok t1 ∧
      ((∀ x ∈ t.buckets, _mapbucket_isfull x = true → fns.equals k x.key = false) →
        t1.dtors = t.dtors) ∧
      (∀ b ∈ t.buckets, _mapbucket_isfull b = true → fns.equals k b.key = true →
        t1.dtors = t.dtors ++ (if t.keydel = true then [DtorCall.key b.key] else []) ++
          (if t.valuedel = true then [DtorCall.value b.value] else [])) := by
  obtain ⟨s1, hg, hin, hout, _, _, hd, hkd, hvd⟩ :=
    grow_total fns hp hk nd fuel t hs hc hf1 hf2 hsmall
  obtain ⟨hs1, _, hemp1, hpos1, _, hcase⟩ := grow_cond fns hp hk nd fuel t s1 hs hc hg
  have hcap1 : s1.capacity ≤ fuel := by
    unfold map_init_capacity at hf1
    rcases hcase with rfl | ⟨_, _, h | ⟨_, h⟩⟩
    · omega
    · omega
    · rw [h]; exact hf1
  obtain ⟨fl, i, hst, _, _, _, _, _, _, _, hfl⟩ := put_total fns hk s1 k v hs1 hemp1 hv fuel hcap1
  refine ⟨_, by rw [map_set_put fns hp nd fuel t s1 k v hg (by omega), hst]; rfl, ?_, ?_⟩
  · intro hno
    have hflf : fl = false := by
      cases h : fl with
      | false => rfl
      | true =>
        obtain ⟨x, hx, hxf, hxe⟩ := hfl.mp h
        rw [hno x (hout x hx hxf) hxf] at hxe
        exact absurd hxe (by simp)
    subst hflf
    rw [putOf_dtors, hd]
  · intro b hb hbf hbe
    have hflt : fl = true := hfl.mpr ⟨b, hin b hb hbf, hbf, hbe⟩
    subst hflt
    obtain ⟨bi, hbi, hmi, _⟩ := stopL_spec fns s1.buckets s1.capacity k (fns.hash k) _ _ _ _ hst
    rw [matches_iff] at hmi
    obtain ⟨j, hj⟩ := List.mem_iff_getElem?.mp (hin b hb hbf)
    have hij : i = j := found_unique fns hk s1.buckets s1.capacity hs1.found i j bi b hbi hj
      hmi.1 hbf (hk.trans _ _ _ (hk.symm _ _ hmi.2.2) hbe)
    subst hij
    rw [hbi] at hj
    have hbb : bi = b := Option.some.inj hj
    subst hbb
    rw [putOf_dtors_match _ _ _ _ bi i hbi, call_dtors, hd, hkd, hvd]

/-- With assertions enabled `map_rehash(0)` fails the assertion `moved == oldlen` on the
reachable table whose `length` has wrapped around (the table of C10); with assertions
compiled out it returns. -/
theorem rehash_zero_asserts :
    ∃ t, Reachable defaultFns false t ∧ Reachable defaultFns true t ∧
      map_rehash defaultFns false 4 t 0 = .error .assertion ∧
      ∃ t1, map_rehash defaultFns true 4 t 0 = .ok t1 := by
  refine ⟨tbl [⟨4, MAP_TOMB, 0⟩, ⟨8, MAP_TOMB, 0⟩, ⟨0, 0, 0⟩, ⟨0, 0, 0⟩] (UWORD - 1) 1,
    reachable_runFrom defaultFns false 4 4 [.set 4 1, .del 4, .set 8 1, .del 8] _ (by decide)
      (by decide),
    reachable_runFrom defaultFns true 4 4 [.set 4 1, .del 4, .set 8 1, .del 8] _ (by decide)
      (by decide),
    by decide, tbl [⟨0, 0, 0⟩, ⟨0, 0, 0⟩, ⟨0, 0, 0⟩, ⟨0, 0, 0⟩] 0 0, by decide⟩

/-- C31: for every table and every `ncap` with `0 < ncap ≤ capacity`, `map_rehash` with
`ncap` returns the table as it was: the bucket array, `length`, `tombs` and `capacity` are
unchanged, so the Tombstones stay where they are. -/
theorem C31_rehash_not_larger_is_noop (fns : MapFns) (nd : Bool) (fuel : Nat) (t : _Map)
    (ncap : Nat) (h0 : 0 < ncap) (hle : ncap ≤ t.capacity) :
    ∃ t1, map_rehash fns nd fuel t ncap = .ok t1 ∧ t1 = t ∧ t1.buckets = t.buckets ∧
      t1.length = t.length ∧ t1.tombs = t.tombs ∧ t1.capacity = t.capacity ∧
      countTomb t1.buckets = countTomb t.buckets :=
  ⟨t, map_rehash_noop fns nd fuel t ncap (by omega) hle, rfl, rfl, rfl, rfl, rfl, rfl⟩

theorem C31_rehash_not_larger_is_noop_witness :
    0 < 3 ∧ 3 ≤ (tbl [⟨4, MAP_TOMB, 0⟩, ⟨8, 8, 1⟩, ⟨0, 0, 0⟩, ⟨0, 0, 0⟩] 1 1).capacity ∧
    ∃ t1, map_rehash defaultFns false 0
        (tbl [⟨4, MAP_TOMB, 0⟩, ⟨8, 8, 1⟩, ⟨0, 0, 0⟩, ⟨0, 0, 0⟩] 1 1) 3 = .ok t1 ∧
      t1 = tbl [⟨4, MAP_TOMB, 0⟩, ⟨8, 8, 1⟩, ⟨0, 0, 0⟩, ⟨0, 0, 0⟩] 1 1 ∧
      t1.buckets = (tbl [⟨4, MAP_TOMB, 0⟩, ⟨8, 8, 1⟩, ⟨0, 0, 0⟩, ⟨0, 0, 0⟩] 1 1).buckets ∧
      t1.length = (tbl [⟨4, MAP_TOMB, 0⟩, ⟨8, 8, 1⟩, ⟨0, 0, 0⟩, ⟨0, 0, 0⟩] 1 1).length ∧
      t1.tombs = (tbl [⟨4, MAP_TOMB, 0⟩, ⟨8, 8, 1⟩, ⟨0, 0, 0⟩, ⟨0, 0, 0⟩] 1 1).tombs ∧
      t1.capacity = (tbl [⟨4, MAP_TOMB, 0⟩, ⟨8, 8, 1⟩, ⟨0, 0, 0⟩, ⟨0, 0, 0⟩] 1 1).capacity ∧
      countTomb t1.buckets =
        countTomb (tbl [⟨4, MAP_TOMB, 0⟩, ⟨8, 8, 1⟩, ⟨0, 0, 0⟩, ⟨0, 0, 0⟩] 1 1).buckets :=
  ⟨by decide, by decide,
    C31_rehash_not_larger_is_noop defaultFns false 0
      (tbl [⟨4, MAP_TOMB, 0⟩, ⟨8, 8, 1⟩, ⟨0, 0, 0⟩, ⟨0, 0, 0⟩] 1 1) 3 (by decide) (by decide)⟩

/-- C34: for every bucket, whatever its key and value fields hold, at most one of
`_mapbucket_isempty`, `_mapbucket_isfull` and `_mapbucket_istomb` holds, and
`_mapbucket_astomb` leaves a bucket for which `_mapbucket_istomb` holds. -/
theorem C34_bucket_states_exclusive (b : MapBucket) :
    ¬ (_mapbucket_isempty b = true ∧ _mapbucket_isfull b = true) ∧
    ¬ (_mapbucket_isempty b = true ∧ _mapbucket_istomb b = true) ∧
    ¬ (_mapbucket_isfull b = true ∧ _mapbucket_istomb b = true) ∧
    _mapbucket_istomb (_mapbucket_astomb b) = true ∧
    _mapbucket_isempty (_mapbucket_astomb b) = false ∧
    _mapbucket_isfull (_mapbucket_astomb b) = false := by
  refine ⟨?_, ?_, ?_, astomb_istomb b, tomb_not_empty _ (astomb_istomb b),
    tomb_not_full _ (astomb_istomb b)⟩
  · rintro ⟨h1, h2⟩
    rw [empty_not_full b h1] at h2
    exact absurd h2 (by simp)
  · rintro ⟨h1, h2⟩
    rw [empty_not_tomb b h1] at h2
    exact absurd h2 (by simp)
  · rintro ⟨h1, h2⟩
    rw [full_not_tomb b h1] at h2
    exact absurd h2 (by simp)

/-- Whenever a snapshot is taken, the size handed to the allocator on release differs from
the size requested for it. -/
theorem release_size_differs (field : MapBucket → Nat) (t : _Map) (a : List Nat)
    (h : kvSnapshot field t = .ok (some a)) : _mapkv_destroy t ≠ kvRequestSize t := by
  unfold kvSnapshot at h
  have hu := uword_eq
  have hlt : (t.length + 1) % UWORD < UWORD := Nat.mod_lt _ (by omega)
  unfold _mapkv_destroy kvRequestSize
  unfold sizeof_MapKVList sizeof_voidp at *
  generalize (t.length + 1) % UWORD = s at *
  by_cases he : t.buckets.isEmpty = true
  · simp [he] at h
  · by_cases hsz : UWORD ≤ 8 + 8 * s
    · simp [he, hsz] at h
    · by_cases hs : s ≤ (kvLoop field t.length (List.take t.capacity t.buckets) []).length
      · simp [he, hsz, hs] at h
      · have : 1 ≤ s := by omega
        rw [Nat.mod_eq_of_lt (a := 8 * s) (by omega),
          Nat.mod_eq_of_lt (a := 8 + 8 * s) (by omega),
          Nat.mod_eq_of_lt (a := 8 + s) (by omega),
          Nat.mod_eq_of_lt (a := 8 + (8 + s)) (by omega)]
        omega

/-- C37: a table created with capacity 4 holds one entry; the snapshot of its keys is
requested with 24 bytes, and with `length` unchanged `_mapkv_destroy` hands 18 to the
allocator as the old size. -/
theorem C37_release_size_is_not_request_size :
    ∀ nd : Bool, ∃ t, runFrom defaultFns nd 4 4 [.set 1 1] = .ok t ∧ map_length t = 1 ∧
      _map_getkeys t = .ok (some [1, 0]) ∧ _map_getvalues t = .ok (some [1, 0]) ∧
      kvRequestSize t = 24 ∧ _mapkv_destroy t = 18 := by
  intro nd
  refine ⟨tbl [⟨0, 0, 0⟩, ⟨1, 1, 1⟩, ⟨0, 0, 0⟩, ⟨0, 0, 0⟩] 1 0, ?_, rfl, by decide, by decide,
    by decide, by decide⟩
  cases nd <;> decide

/-- The number of destructor rounds the loop of `map_clear` ends with: it stops at `len`. -/
theorem clearLoop_count (len : Nat) :
    ∀ (l : List MapBucket) (clean : Nat) (s : _Map), clean ≤ len →
      (clearLoop len l clean s).2 = min len (clean + countFull l) := by
  intro l
  induction l with
  | nil => intro clean s h; simp [clearLoop, countFull]; omega
  | cons b rest ih =>
    intro clean s h
    rw [countFull_cons]
    unfold clearLoop
    by_cases hlt : clean < len
    · cases hb : _mapbucket_isfull b with
      | true =>
        simp only [hlt, if_true]
        rw [ih (clean + 1) _ (by omega)]
        omega
      | false =>
        simp only [hlt, if_true, Bool.false_eq_true, if_false]
        rw [ih clean _ h]
        omega
    · simp only [hlt, if_false]
      omega

/-- The function `map_clear` returns unless assertions are enabled, a destructor is registered
and `length` exceeds the number of Full buckets. -/
theorem map_clear_returns (nd : Bool) (t : _Map)
    (h : nd = true ∨ (t.keydel = false ∧ t.valuedel = false) ∨
      t.length ≤ countFull (t.buckets.take t.capacity)) :
    ∃ t1, map_clear nd t = .ok t1 := by
  unfold map_clear
  by_cases he : t.buckets.isEmpty = true
  · exact ⟨t, by simp [he]⟩
  · simp only [he, if_false, Bool.false_eq_true]
    rcases h with h | h | h
    · subst h
      simp
    · simp [h.1, h.2]
    · by_cases hd : (t.keydel || t.valuedel) = true
      · simp only [hd, if_true]
        rw [clearLoop_count t.length _ 0 t (Nat.zero_le _)]
        have : min t.length (0 + countFull (List.take t.capacity t.buckets)) = t.length := by
          omega
        rw [this]
        simp
      · simp [hd]

/-- The lookup of any key in an array of Empty buckets returns not-found at the first
bucket, whatever the callbacks. -/
theorem get_in_empty (fns : MapFns) (t : _Map) (cap k fuel : Nat)
    (hb : t.buckets = List.replicate cap ⟨0, 0, 0⟩) (hc : t.capacity = cap) (hpos : 0 < cap)
    (hf : 0 < fuel) :
    _map_findbucket fns fuel t k = .ok none ∧ _map_get_ex fns fuel t k = .ok none ∧
      _map_get fns fuel t k = .ok 0 := by
  obtain ⟨f, rfl⟩ : ∃ f, fuel = f + 1 := ⟨fuel - 1, by omega⟩
  have hidx : fns.hash k % cap < cap := Nat.mod_lt _ hpos
  have hl : loadBucket t (fns.hash k % cap) = .ok ⟨0, 0, 0⟩ := by
    unfold loadBucket
    rw [hb, List.getElem?_replicate]
    simp [hidx]
  have h1 : _map_findbucket fns (f + 1) t k = .ok none := by
    unfold _map_findbucket
    rw [hc, if_neg (by omega)]
    unfold findLoop
    rw [hl]
    simp [bucketMatches, _mapbucket_isfull, _mapbucket_isempty]
  have h2 : _map_get_ex fns (f + 1) t k = .ok none := by
    unfold _map_get_ex
    rw [h1]
  refine ⟨h1, h2, ?_⟩
  unfold _map_get
  rw [h2]

/-- In an array of Empty buckets with both counters at zero, `_map_set` of a valid key
writes the bucket at the starting index without growing the table, and the key is then
found with its value. -/
theorem set_in_empty (fns : MapFns) (nd : Bool) (t : _Map) (cap k v fuel : Nat)
    (hb : t.buckets = List.replicate cap ⟨0, 0, 0⟩) (hc : t.capacity = cap)
    (hl : t.length = 0) (ht : t.tombs = 0) (hpos : 0 < cap)
    (hv : ValidKey k) (he : fns.equals k k = true) (hf : 0 < fuel) :
    ∃ t2, _map_set fns nd fuel t k v = .ok t2 ∧ growFor fns nd fuel t = .ok t ∧
      t2.buckets = (List.replicate cap ⟨0, 0, 0⟩).set (fns.hash k % cap) ⟨fns.hash k, k, v⟩ ∧
      t2.capacity = cap ∧ t2.length = 1 ∧ t2.tombs = 0 ∧ t2.dtors = t.dtors ∧
      _map_get_ex fns fuel t2 k = .ok (some (k, v)) ∧ _map_get fns fuel t2 k = .ok v := by
  obtain ⟨f, rfl⟩ : ∃ f, fuel = f + 1 := ⟨fuel - 1, by omega⟩
  have hidx : fns.hash k % cap < cap := Nat.mod_lt _ hpos
  have hne : t.buckets.isEmpty = false := by
    rw [hb]
    cases cap with
    | zero => omega
    | succ n => rfl
  have hlf : loadfactor_ge_max t = false := loadfactor_zero t (by rw [hl, ht]; rfl)
  have hg : growFor fns nd (f + 1) t = .ok t := by
    unfold growFor
    simp [hne, hlf]
  have hlb : loadBucket t (fns.hash k % cap) = .ok ⟨0, 0, 0⟩ := by
    unfold loadBucket
    rw [hb, List.getElem?_replicate]
    simp [hidx]
  have hu : (0 + 1) % UWORD = 1 := by decide
  have h0 : ¬ (0 = MAP_TOMB) := fun h => tomb_ne_zero h.symm
  have ha : _map_acquirebucket fns (f + 1) t k =
      .ok ({ t with length := 1,
                    buckets := t.buckets.set (fns.hash k % cap) ⟨fns.hash k, 0, 0⟩ },
        fns.hash k % cap) := by
    unfold _map_acquirebucket
    rw [hc, if_neg (by omega)]
    unfold acquireLoop
    rw [hlb]
    simp [bucketMatches, _mapbucket_isfull, _mapbucket_isempty, _mapbucket_istomb, hl, hu, h0]
    exact hc
  have hfull : _mapbucket_isfull ⟨fns.hash k, k, v⟩ = true := valid_full _ _ _ hv
  have hlen : fns.hash k % cap < t.buckets.length := by rw [hb]; simpa using hidx
  refine ⟨{ t with length := 1,
                   buckets := t.buckets.set (fns.hash k % cap) ⟨fns.hash k, k, v⟩ }, ?_, hg,
    by simp only [hb], hc, rfl, ht, rfl, ?_⟩
  · rw [map_set_eq, hg]
    simp only [ha]
    unfold loadBucket
    simp only [List.getElem?_set_self hlen, List.set_set]
  · have h1 : _map_findbucket fns (f + 1)
        { t with length := 1,
                 buckets := t.buckets.set (fns.hash k % cap) ⟨fns.hash k, k, v⟩ } k
        = .ok (some (fns.hash k % cap)) := by
      unfold _map_findbucket
      simp only [hc]
      rw [if_neg (by omega)]
      unfold findLoop loadBucket
      simp only [List.getElem?_set_self hlen]
      simp [bucketMatches, hfull, he]
    have h2 : _map_get_ex fns (f + 1)
        { t with length := 1,
                 buckets := t.buckets.set (fns.hash k % cap) ⟨fns.hash k, k, v⟩ } k
        = .ok (some (k, v)) := by
      unfold _map_get_ex
      rw [h1]
      unfold loadBucket
      simp only [List.getElem?_set_self hlen]
    refine ⟨h2, ?_⟩
    unfold _map_get
    rw [h2]
/-- A table reached with both destructors registered on which `map_clear` fails its
assertion `clean == length`: after `set(4, 1); del(4); set(8, 1); del(8)` in a table of
capacity 4 no bucket is Full and `length` has wrapped to `2^64 - 1`.  With assertions
disabled the call returns. -/
theorem clear_asserts :
    ∃ t, ReachableWithDtors defaultFns false t ∧ t.buckets ≠ [] ∧ t.keydel = true ∧
      t.valuedel = true ∧ t.length = UWORD - 1 ∧ countFull t.buckets = 0 ∧
      map_clear false t = .error .assertion ∧ ∃ t1, map_clear true t = .ok t1 := by
  refine ⟨{ tbl [⟨4, MAP_TOMB, 0⟩, ⟨8, MAP_TOMB, 0⟩, ⟨0, 0, 0⟩, ⟨0, 0, 0⟩] (UWORD - 1) 1 with
      keydel := true, valuedel := true,
      dtors := [DtorCall.key 4, DtorCall.value 1, DtorCall.key 8, DtorCall.value 1] },
    ?_, by decide, rfl, rfl, rfl, by decide, by decide,
    { tbl [⟨0, 0, 0⟩, ⟨0, 0, 0⟩, ⟨0, 0, 0⟩, ⟨0, 0, 0⟩] 0 0 with
      keydel := true, valuedel := true,
      dtors := [DtorCall.key 4, DtorCall.value 1, DtorCall.key 8, DtorCall.value 1] },
    by decide⟩
  refine ReachableWithDtors.del 4 _ _ 8 (ReachableWithDtors.set 4 _ _ 8 1
    (ReachableWithDtors.del 4 _ _ 4 (ReachableWithDtors.set 4 _ _ 4 1
      (ReachableWithDtors.setvaluedel _ true (ReachableWithDtors.setkeydel _ true
        (ReachableWithDtors.create 4 (tbl (List.replicate 4 ⟨0, 0, 0⟩) 0 0) (by decide))))
      (by decide)
      (show _map_set defaultFns false 4 _ 4 1 = .ok
        { tbl [⟨4, 4, 1⟩, ⟨0, 0, 0⟩, ⟨0, 0, 0⟩, ⟨0, 0, 0⟩] 1 0 with
          keydel := true, valuedel := true } by decide))
      (show _map_del defaultFns 4 _ 4 = .ok
        { tbl [⟨4, MAP_TOMB, 0⟩, ⟨0, 0, 0⟩, ⟨0, 0, 0⟩, ⟨0, 0, 0⟩] 0 1 with
          keydel := true, valuedel := true,
          dtors := [DtorCall.key 4, DtorCall.value 1] } by decide))
    (by decide)
    (show _map_set defaultFns false 4 _ 8 1 = .ok
        { tbl [⟨4, MAP_TOMB, 0⟩, ⟨8, 8, 1⟩, ⟨0, 0, 0⟩, ⟨0, 0, 0⟩] 0 0 with
          keydel := true, valuedel := true,
          dtors := [DtorCall.key 4, DtorCall.value 1] } by decide))
    (by decide)

/-- What `map_clear` leaves of a table with allocated buckets. -/
theorem map_clear_effect (nd : Bool) (t t1 : _Map) (hne : t.buckets ≠ [])
    (h : map_clear nd t = .ok t1) :
    t1.buckets = List.replicate t.capacity ⟨0, 0, 0⟩ ∧ t1.length = 0 ∧ t1.tombs = 0 ∧
      t1.capacity = t.capacity := by
  unfold map_clear at h
  have he : ¬ t.buckets.isEmpty = true := by
    cases hb : t.buckets with
    | nil => exact absurd hb hne
    | cons x l => simp
  rw [if_neg he] at h
  simp only at h
  generalize hsw : (if (t.keydel || t.valuedel) = true then
      clearLoop t.length (List.take t.capacity t.buckets) 0 t else (t, t.length)) = sw at h
  have hcap : sw.1.capacity = t.capacity := by
    rw [← hsw]
    split
    · rw [clearLoop_fields]
    · rfl
  by_cases hass : (!nd && sw.2 != t.length) = true
  · rw [if_pos hass] at h; simp at h
  · rw [if_neg hass] at h
    simp only [Except.ok.injEq] at h
    rw [← h]
    exact ⟨rfl, rfl, rfl, hcap⟩

/-- C35: for every table with allocated buckets, a `map_clear` that returns leaves
`capacity` buckets, all Empty, `length = 0`, `tombs = 0` and the capacity unchanged; every
lookup in that table then returns not-found, and a later `_map_set` of a valid key
followed by a lookup of that key returns the value set, the table not being rehashed.  The
call returns unless assertions are enabled, a destructor is registered and `length`
exceeds the number of Full buckets. -/
theorem C35_clear_empties (fns : MapFns) (nd : Bool) (t : _Map)
    (hne : t.buckets ≠ []) (hsz : t.buckets.length = t.capacity) :
    (∀ t1, map_clear nd t = .ok t1 →
      t1.buckets.length = t.capacity ∧ (∀ b ∈ t1.buckets, _mapbucket_isempty b = true) ∧
      t1.length = 0 ∧ t1.tombs = 0 ∧ t1.capacity = t.capacity ∧
      (∀ k fuel, 0 < fuel →
        _map_get_ex fns fuel t1 k = .ok none ∧ _map_get fns fuel t1 k = .ok 0) ∧
      (∀ k v fuel, ValidKey k → fns.equals k k = true → 0 < fuel →
        ∃ t2, _map_set fns nd fuel t1 k v = .ok t2 ∧ growFor fns nd fuel t1 = .ok t1 ∧
          t2.capacity = t.capacity ∧ t2.length = 1 ∧
          _map_get_ex fns fuel t2 k = .ok (some (k, v)) ∧ _map_get fns fuel t2 k = .ok v)) ∧
    (nd = true ∨ (t.keydel = false ∧ t.valuedel = false) ∨ t.length ≤ countFull t.buckets →
      ∃ t1, map_clear nd t = .ok t1) := by
  have hpos : 0 < t.capacity := by
    rw [← hsz]
    cases hb : t.buckets with
    | nil => exact absurd hb hne
    | cons x l => simp
  constructor
  · intro t1 h
    have hbs := map_clear_effect nd t t1 hne h
    obtain ⟨hb1, hl1, ht1, hc1⟩ := hbs
    refine ⟨by rw [hb1, List.length_replicate], ?_, hl1, ht1, hc1, ?_, ?_⟩
    · intro b hb
      rw [hb1] at hb
      rw [List.eq_of_mem_replicate hb]
      rfl
    · intro k fuel hf
      exact (get_in_empty fns t1 t.capacity k fuel hb1 hc1 hpos hf).2
    · intro k v fuel hv he hf
      obtain ⟨t2, h1, h2, _, h4, h5, _, _, h8, h9⟩ :=
        set_in_empty fns nd t1 t.capacity k v fuel hb1 hc1 hl1 ht1 hpos hv he hf
      exact ⟨t2, h1, h2, h4, h5, h8, h9⟩
  · intro h
    apply map_clear_returns
    rw [List.take_of_length_le (by omega)]
    exact h

theorem C35_clear_empties_witness :
    (tbl [⟨4, MAP_TOMB, 0⟩, ⟨8, 8, 1⟩, ⟨0, 0, 0⟩, ⟨0, 0, 0⟩] 1 1).buckets ≠ [] ∧
    (tbl [⟨4, MAP_TOMB, 0⟩, ⟨8, 8, 1⟩, ⟨0, 0, 0⟩, ⟨0, 0, 0⟩] 1 1).buckets.length =
      (tbl [⟨4, MAP_TOMB, 0⟩, ⟨8, 8, 1⟩, ⟨0, 0, 0⟩, ⟨0, 0, 0⟩] 1 1).capacity ∧
    map_clear false (tbl [⟨4, MAP_TOMB, 0⟩, ⟨8, 8, 1⟩, ⟨0, 0, 0⟩, ⟨0, 0, 0⟩] 1 1) =
      .ok (tbl [⟨0, 0, 0⟩, ⟨0, 0, 0⟩, ⟨0, 0, 0⟩, ⟨0, 0, 0⟩] 0 0) ∧
    ValidKey 8 ∧ defaultFns.equals 8 8 = true ∧
    ∃ t2, _map_set defaultFns false 1 (tbl [⟨0, 0, 0⟩, ⟨0, 0, 0⟩, ⟨0, 0, 0⟩, ⟨0, 0, 0⟩] 0 0) 8 2
        = .ok t2 ∧
      growFor defaultFns false 1 (tbl [⟨0, 0, 0⟩, ⟨0, 0, 0⟩, ⟨0, 0, 0⟩, ⟨0, 0, 0⟩] 0 0) =
        .ok (tbl [⟨0, 0, 0⟩, ⟨0, 0, 0⟩, ⟨0, 0, 0⟩, ⟨0, 0, 0⟩] 0 0) ∧
      t2.capacity = (tbl [⟨4, MAP_TOMB, 0⟩, ⟨8, 8, 1⟩, ⟨0, 0, 0⟩, ⟨0, 0, 0⟩] 1 1).capacity ∧
      t2.length = 1 ∧
      _map_get_ex defaultFns 1 t2 8 = .ok (some (8, 2)) ∧ _map_get defaultFns 1 t2 8 = .ok 2 :=
  ⟨by decide, by decide, by decide, by decide, by decide,
    ((C35_clear_empties defaultFns false
      (tbl [⟨4, MAP_TOMB, 0⟩, ⟨8, 8, 1⟩, ⟨0, 0, 0⟩, ⟨0, 0, 0⟩] 1 1) (by decide) (by decide)).1
      (tbl [⟨0, 0, 0⟩, ⟨0, 0, 0⟩, ⟨0, 0, 0⟩, ⟨0, 0, 0⟩] 0 0) (by decide)).2.2.2.2.2.2
      8 2 1 (by decide) (by decide) (by decide)⟩

/-- A bucket `_map_findbucket` returns matches the key looked up. -/
theorem findLoop_found (fns : MapFns) (s : _Map) (key h : Nat) :
    ∀ fuel idx i, findLoop fns s key h fuel idx = .ok (some i) →
      ∃ b, s.buckets[i]? = some b ∧ bucketMatches fns key h b = true := by
  intro fuel
  induction fuel with
  | zero => intro idx i hf; simp [findLoop] at hf
  | succ n ih =>
    intro idx i hf
    unfold findLoop loadBucket at hf
    cases hb : s.buckets[idx]? with
    | none => simp [hb] at hf
    | some b =>
      simp only [hb] at hf
      by_cases hm : bucketMatches fns key h b = true
      · simp only [hm, if_true, Except.ok.injEq, Option.some.injEq] at hf
        subst hf
        exact ⟨b, hb, hm⟩
      · simp only [hm, if_false, Bool.false_eq_true] at hf
        by_cases he : _mapbucket_isempty b = true
        · simp [he] at hf
        · simp only [he, if_false, Bool.false_eq_true] at hf
          exact ih _ _ hf

/-- A lookup that returns found returns the key and the value of a bucket that matches the
key looked up. -/
theorem get_ex_found (fns : MapFns) (fuel : Nat) (t : _Map) (k : Nat) (kv : Nat × Nat)
    (h : _map_get_ex fns fuel t k = .ok (some kv)) :
    ∃ b ∈ t.buckets, bucketMatches fns k (fns.hash k) b = true ∧ kv = (b.key, b.value) := by
  unfold _map_get_ex _map_findbucket at h
  by_cases hc : t.capacity = 0
  · simp [hc] at h
  · rw [if_neg hc] at h
    cases hf : findLoop fns t k (fns.hash k) fuel (fns.hash k % t.capacity) with
    | error e => simp [hf] at h
    | ok r =>
      cases r with
      | none => simp [hf] at h
      | some i =>
        obtain ⟨b, hb, hm⟩ := findLoop_found fns t k (fns.hash k) fuel _ i hf
        simp only [hf, loadBucket, hb, Except.ok.injEq, Option.some.injEq] at h
        exact ⟨b, List.getElem?_mem hb, hm, h.symm⟩

/-- Where `equals` holds between the null key and no other key, no lookup of the null key
returns found, in any table. -/
theorem null_key_never_found (fns : MapFns) (hz : ∀ k, fns.equals 0 k = true → k = 0)
    (fuel : Nat) (t : _Map) (r : Option (Nat × Nat)) (h : _map_get_ex fns fuel t 0 = .ok r) :
    r = none := by
  cases r with
  | none => rfl
  | some kv =>
    obtain ⟨b, _, hm, _⟩ := get_ex_found fns fuel t 0 kv h
    rw [matches_iff] at hm
    have hkey := hz _ hm.2.2
    have hfull := hm.1
    unfold _mapbucket_isfull at hfull
    rw [hkey] at hfull
    simp at hfull

/-- C36 (as amended): the null key is not storable.  With an `equals` that holds between
the null key and no other key, for every table and every non-null value `v`, a
`_map_set(0, v)` that returns has written a bucket with key 0 and value `v`, which is
neither Full nor Empty nor a Tombstone, and no later `_map_get_ex(0)` returns found.  In a
table of capacity 0 or at least 4 reached through steps that keep `length` and `tombs`
accurate (default probe, `equals` an equivalence compatible with `hash`), both calls
return, the lookup returns not-found, and where the table has no Tombstone `length` is
incremented. -/
theorem C36_null_key_not_storable (fns : MapFns) (hz : ∀ k, fns.equals 0 k = true → k = 0)
    (nd : Bool) (fuel : Nat) (t : _Map) (v : Nat) (hv : v ≠ 0) :
    (∀ t1, _map_set fns nd fuel t 0 v = .ok t1 →
      (∃ i : Nat, t1.buckets[i]? = some (⟨fns.hash 0, 0, v⟩ : MapBucket)) ∧
      _mapbucket_isfull ⟨fns.hash 0, 0, v⟩ = false ∧
      _mapbucket_isempty ⟨fns.hash 0, 0, v⟩ = false ∧
      _mapbucket_istomb ⟨fns.hash 0, 0, v⟩ = false ∧
      ∀ fuel2 r, _map_get_ex fns fuel2 t1 0 = .ok r → r = none) ∧
    (LinearProbe fns → KeyLaws fns → ReachableCounted fns nd t →
      t.capacity = 0 ∨ 4 ≤ t.capacity → map_init_capacity ≤ fuel → 2 * t.capacity ≤ fuel →
      sizeof_MapBucket * (2 * t.capacity) < UWORD →
      ∃ t1, _map_set fns nd fuel t 0 v = .ok t1 ∧ _map_get_ex fns fuel t1 0 = .ok none ∧
        _map_get fns fuel t1 0 = .ok 0 ∧
        (NoTomb t.buckets → t1.length = t.length + 1)) := by
  have hnf : _mapbucket_isfull ⟨fns.hash 0, 0, v⟩ = false := by simp [_mapbucket_isfull]
  have hne : _mapbucket_isempty ⟨fns.hash 0, 0, v⟩ = false := by simp [_mapbucket_isempty, hv]
  have hnt : _mapbucket_istomb ⟨fns.hash 0, 0, v⟩ = false := by
    have := tomb_ne_zero
    simp [_mapbucket_istomb, hv]
  constructor
  · intro t1 h
    obtain ⟨s1, i, b, _, hb, _, hbs, _⟩ := set_shape fns nd fuel t t1 0 v h
    refine ⟨⟨i, ?_⟩, hnf, hne, hnt, fun fuel2 r hr => null_key_never_found fns hz fuel2 t1 r hr⟩
    rw [hbs, List.getElem?_set_self (getElem?_lt _ _ _ hb)]
  · intro hp hk hr hcap hf1 hf2 hsmall
    have ht := reachableCounted_tidy fns hp hk nd t hr
    obtain ⟨s1, hg, _, _, hcf, hnt1, _⟩ :=
      grow_total fns hp hk nd fuel t ht.sound ht.counted hf1 hf2 hsmall
    obtain ⟨hs1, hc1, hemp1, hpos1, hload1, hcases⟩ :=
      grow_cond fns hp hk nd fuel t s1 ht.sound ht.counted hg
    have hsz := ht.sound.size
    have hcap1 : 4 ≤ s1.capacity ∧ s1.capacity ≤ fuel := by
      rcases hcases with h | ⟨_, _, h | ⟨h0, h⟩⟩
      · subst h
        omega
      · omega
      · unfold map_init_capacity at h hf1; omega
    obtain ⟨_, ⟨⟨s2, i⟩, ha⟩, _⟩ := probes_return fns hp s1 hs1.size hemp1 0 fuel hcap1.2
    obtain ⟨⟨hset, hi⟩, hlen2, hcap2, _, _, hnt2, b, hb, x, hx, hxh, hbm⟩ :=
      acquire_then_write fns fuel s1 s2 0 i ⟨fns.hash 0, 0, v⟩ ha
    have hnomatch : bucketMatches fns 0 (fns.hash 0) b = false := by
      cases hm : bucketMatches fns 0 (fns.hash 0) b with
      | false => rfl
      | true =>
        rw [matches_iff] at hm
        have hkey := hz _ hm.2.2
        have hfull := hm.1
        unfold _mapbucket_isfull at hfull
        rw [hkey] at hfull
        simp at hfull
    have hbe : _mapbucket_isempty b = true := by
      rcases hbm with h | h
      · rw [hnomatch] at h; exact absurd h (by simp)
      · exact h
    have hxe : ({ x with key := 0, value := v } : MapBucket) = ⟨fns.hash 0, 0, v⟩ := by
      rw [← hxh]
    have h1 : _map_set fns nd fuel t 0 v =
        .ok { s2 with buckets := s1.buckets.set i ⟨fns.hash 0, 0, v⟩ } := by
      rw [map_set_eq, hg]
      simp only [ha, loadBucket, hx, hxe, hset]
    have hsz1 : (s1.buckets.set i ⟨fns.hash 0, 0, v⟩).length = s2.capacity := by
      rw [List.length_set, hcap2]; exact hs1.size
    have hused : countUsed (s1.buckets.set i ⟨fns.hash 0, 0, v⟩) ≤ countUsed s1.buckets + 1 := by
      have := countP_set_of (fun b => !_mapbucket_isempty b) s1.buckets i
        ⟨fns.hash 0, 0, v⟩ b hb
      unfold countUsed
      split at this <;> split at this <;> omega
    have hcu := counted_used fns s1 hs1 hc1
    have hemp2 : HasEmpty (s1.buckets.set i ⟨fns.hash 0, 0, v⟩) := by
      apply hasEmpty_of_count
      rw [hsz1, hcap2]
      omega
    obtain ⟨⟨r, hfind⟩, _, _⟩ := probes_return fns hp
      { s2 with buckets := s1.buckets.set i ⟨fns.hash 0, 0, v⟩ } hsz1 hemp2 0 fuel
      (by simp only; omega)
    have hget : _map_get_ex fns fuel { s2 with buckets := s1.buckets.set i ⟨fns.hash 0, 0, v⟩ } 0
        = .ok none := by
      cases r with
      | none =>
        unfold _map_get_ex
        rw [hfind]
      | some j =>
        unfold _map_findbucket at hfind
        simp only at hfind
        rw [if_neg (by omega)] at hfind
        obtain ⟨bj, hbj, hm⟩ := findLoop_found fns _ 0 (fns.hash 0) fuel _ j hfind
        rw [matches_iff] at hm
        have hkey := hz _ hm.2.2
        have hfull := hm.1
        unfold _mapbucket_isfull at hfull
        rw [hkey] at hfull
        simp at hfull
    refine ⟨_, h1, hget, ?_, ?_⟩
    · unfold _map_get
      rw [hget]
    · intro hnotomb
      have hnts1 := hnt1 hnotomb
      have ha2 := ha
      unfold _map_acquirebucket at ha2
      rw [if_neg (by omega)] at ha2
      obtain ⟨_, hl⟩ := acquireLoop_noTomb fns s1 0 (fns.hash 0) hnts1 fuel _ s2 i ha2
      have hl2 := hl b hb hnomatch
      simp only
      rw [hl2, hc1.1, hcf, ← ht.counted.1]
      apply Nat.mod_eq_of_lt
      have hle : countFull t.buckets ≤ t.buckets.length := List.countP_le_length _
      have hsm := ht.sound.small
      rw [← ht.counted.1] at hle
      unfold sizeof_MapBucket at hsm
      have := uword_eq
      omega
theorem C36_null_key_not_storable_witness :
    (∀ k, defaultFns.equals 0 k = true → k = 0) ∧ 7 ≠ 0 ∧
    _map_set defaultFns false 4 (tbl [⟨0, 0, 0⟩, ⟨0, 0, 0⟩, ⟨0, 0, 0⟩, ⟨0, 0, 0⟩] 0 0) 0 7 =
      .ok (tbl [⟨0, 0, 7⟩, ⟨0, 0, 0⟩, ⟨0, 0, 0⟩, ⟨0, 0, 0⟩] 1 0) ∧
    ((∃ i : Nat, (tbl [⟨0, 0, 7⟩, ⟨0, 0, 0⟩, ⟨0, 0, 0⟩, ⟨0, 0, 0⟩] 1 0).buckets[i]? =
        some (⟨defaultFns.hash 0, 0, 7⟩ : MapBucket)) ∧
      _mapbucket_isfull ⟨defaultFns.hash 0, 0, 7⟩ = false ∧
      _mapbucket_isempty ⟨defaultFns.hash 0, 0, 7⟩ = false ∧
      _mapbucket_istomb ⟨defaultFns.hash 0, 0, 7⟩ = false ∧
      ∀ fuel2 r, _map_get_ex defaultFns fuel2
        (tbl [⟨0, 0, 7⟩, ⟨0, 0, 0⟩, ⟨0, 0, 0⟩, ⟨0, 0, 0⟩] 1 0) 0 = .ok r → r = none) :=
  have hz : ∀ k, defaultFns.equals 0 k = true → k = 0 := fun k h =>
    have h2 : (0 == k) = true := h
    (eq_of_beq h2).symm
  ⟨hz, by decide, by decide,
    (C36_null_key_not_storable defaultFns hz false 4
      (tbl [⟨0, 0, 0⟩, ⟨0, 0, 0⟩, ⟨0, 0, 0⟩, ⟨0, 0, 0⟩] 0 0) 7 (by decide)).1 _ (by decide)⟩

/-- C36 (counterexample): in a table created with capacity 4, `_map_set(0, 7)` writes the
bucket (key 0, value 7), which is not Full; `_map_get_ex(0)` then returns false; a second
`_map_set(0, 7)` writes a second such bucket and `length` is 2. -/
theorem C36_null_key_lookup_fails :
    ∃ t0 t1 t2,
      _map_alloc_full_n false 4 (some defaultFns.hash) (some defaultFns.equals)
        (some defaultFns.probe) = .ok t0 ∧
      _map_set defaultFns false 4 t0 0 7 = .ok t1 ∧
      t1.buckets = [⟨0, 0, 7⟩, ⟨0, 0, 0⟩, ⟨0, 0, 0⟩, ⟨0, 0, 0⟩] ∧
      _mapbucket_isfull ⟨0, 0, 7⟩ = false ∧ map_length t1 = 1 ∧
      _map_get_ex defaultFns 4 t1 0 = .ok none ∧ _map_get defaultFns 4 t1 0 = .ok 0 ∧
      _map_set defaultFns false 4 t1 0 7 = .ok t2 ∧
      t2.buckets = [⟨0, 0, 7⟩, ⟨0, 0, 7⟩, ⟨0, 0, 0⟩, ⟨0, 0, 0⟩] ∧ map_length t2 = 2 ∧
      _map_get_ex defaultFns 4 t2 0 = .ok none :=
  ⟨tbl [⟨0, 0, 0⟩, ⟨0, 0, 0⟩, ⟨0, 0, 0⟩, ⟨0, 0, 0⟩] 0 0,
    tbl [⟨0, 0, 7⟩, ⟨0, 0, 0⟩, ⟨0, 0, 0⟩, ⟨0, 0, 0⟩] 1 0,
    tbl [⟨0, 0, 7⟩, ⟨0, 0, 7⟩, ⟨0, 0, 0⟩, ⟨0, 0, 0⟩] 2 0,
    by decide, by decide, rfl, by decide, rfl, by decide, by decide, by decide, rfl, rfl,
    by decide⟩

theorem sound_setkeydel (fns : MapFns) (t : _Map) (registered : Bool) (hs : Sound fns t) :
    Sound fns (_map_setkeydel t registered) :=
  ⟨hs.size, hs.small, hs.shaped, hs.cached, hs.found⟩

theorem sound_setvaluedel (fns : MapFns) (t : _Map) (registered : Bool) (hs : Sound fns t) :
    Sound fns (_map_setvaluedel t registered) :=
  ⟨hs.size, hs.small, hs.shaped, hs.cached, hs.found⟩

/-- Every table reachable through the public interface, destructor registration included,
is well formed. -/
theorem reachableWithDtors_sound (fns : MapFns) (hp : LinearProbe fns) (hk : KeyLaws fns)
    (nd : Bool) (t : _Map) (h : ReachableWithDtors fns nd t) : Sound fns t := by
  induction h with
  | create cap t h => exact (alloc_tidy fns hp hk nd cap t h).1.sound
  | setkeydel t registered _ ih => exact sound_setkeydel fns t registered ih
  | setvaluedel t registered _ ih => exact sound_setvaluedel fns t registered ih
  | set fuel t t1 k v _ hv h ih => exact (set_sound_any fns hp hk nd fuel t t1 k v ih hv h).1
  | del fuel t t1 k _ h ih => exact del_sound fns hp fuel t t1 k ih h
  | rehash fuel t t1 ncap _ h ih => exact rehash_sound fns hp hk nd fuel t t1 ncap ih h
  | reserve fuel t t1 n _ h ih =>
    exact rehash_sound fns hp hk nd fuel t t1 _ ih (map_reserve_ok fns nd fuel t t1 n h)
  | clear t t1 _ h ih => exact clear_sound fns nd t t1 ih h

/-- The copy loop of `map_rehash` calls no destructor when the buckets it copies hold
pairwise different keys, none of them in the new array yet. -/
theorem rehashLoop_quiet (fns : MapFns) (hp : LinearProbe fns) (hk : KeyLaws fns)
    (fuel oldlen ncap : Nat) :
    ∀ (rest : List MapBucket) (moved : Nat) (s : _Map) (r : _Map × Nat),
      Fresh fns ncap s → Cached fns rest → countFull s.buckets + countFull rest ≤ ncap →
      rest.Pairwise (DistinctKeys fns) →
      (∀ x ∈ s.buckets, ∀ y ∈ rest, DistinctKeys fns y x) →
      rehashLoop fns fuel oldlen rest moved s = .ok r →
      r.1.dtors = s.dtors := by
  intro rest
  induction rest with
  | nil =>
    intro moved s r _ _ _ _ _ h
    simp only [rehashLoop, Except.ok.injEq] at h
    subst h; rfl
  | cons b rest ih =>
    intro moved s r hf hc hroom hpw hdis h
    have hcr : Cached fns rest := fun x hx => hc x (List.mem_cons_of_mem _ hx)
    rw [List.pairwise_cons] at hpw
    have hdisr : ∀ x ∈ s.buckets, ∀ y ∈ rest, DistinctKeys fns y x :=
      fun x hx y hy => hdis x hx y (List.mem_cons_of_mem _ hy)
    by_cases hlt : moved < oldlen
    · cases hfull : _mapbucket_isfull b with
      | false =>
        rw [rehashLoop_cons_skip fns fuel oldlen b rest moved s hfull hlt] at h
        have : countFull (b :: rest) = countFull rest := by
          unfold countFull; simp [List.countP_cons, hfull]
        exact ih moved s r hf hcr (by omega) hpw.2 hdisr h
      | true =>
        have hcnt : countFull (b :: rest) = countFull rest + 1 := by
          unfold countFull; simp [List.countP_cons, hfull]
        have hcap : s.capacity ≠ 0 := by rw [hf.cap]; omega
        rw [rehashLoop_cons_full fns hp fuel oldlen b rest moved s hfull hlt hcap] at h
        cases hs : stopL fns s.buckets s.capacity b.key (fns.hash b.key) fuel
            (fns.hash b.key % s.capacity) with
        | error e => simp [hs] at h
        | ok r1 =>
          simp only [hs] at h
          obtain ⟨hf1, hc1⟩ := put_fresh fns hk ncap s b hf hfull
            (hc b (List.mem_cons_self _ _) hfull) (by omega) fuel r1 hs
          obtain ⟨fl, i⟩ := r1
          obtain ⟨bi, hbi, hmi, hei⟩ := stopL_spec fns _ _ _ _ _ _ _ _ hs
          have hfl : fl = false := by
            cases fl with
            | false => rfl
            | true =>
              rw [matches_iff] at hmi
              have := hdis bi (List.getElem?_mem hbi) b (List.mem_cons_self _ _) hfull hmi.1
              rw [hmi.2.2] at this; exact absurd this (by simp)
          subst hfl
          have hdis1 : ∀ x ∈ (putOf s (fns.hash b.key)
              (tombFinal fns s.buckets s.capacity b.key (fns.hash b.key) fuel
                (fns.hash b.key % s.capacity) UINTPTR_MAX) b (false, i)).buckets,
              ∀ y ∈ rest, DistinctKeys fns y x := by
            intro x hx y hy
            rw [putOf_buckets] at hx
            rcases List.mem_or_eq_of_mem_set hx with hx1 | hx1
            · exact hdis x hx1 y (List.mem_cons_of_mem _ hy)
            · subst hx1
              intro hyf hxf
              have := hpw.1 y hy hxf hyf
              cases he : fns.equals y.key x.key with
              | false => rfl
              | true => rw [hk.symm _ _ he] at this; exact absurd this (by simp)
          simp only [Bool.false_eq_true, if_false] at hc1
          have := ih _ _ r hf1 hcr (by rw [hc1]; omega) hpw.2 hdis1 h
          rw [this, putOf_dtors]
    · rw [rehashLoop_cons_stop fns fuel oldlen b rest moved s hlt] at h
      simp only [Except.ok.injEq] at h
      subst h; rfl

/-- Building the new array, `map_rehash` calls no destructor on a well-formed table. -/
theorem rehashTo_quiet (fns : MapFns) (hp : LinearProbe fns) (hk : KeyLaws fns) (nd : Bool)
    (fuel : Nat) (t t1 : _Map) (ncap : Nat) (hs : Sound fns t) (hle : t.capacity ≤ ncap)
    (h : rehashTo fns nd fuel t ncap = .ok t1) : t1.dtors = t.dtors := by
  by_cases hsmall : UWORD ≤ sizeof_MapBucket * ncap
  · unfold rehashTo at h; simp [hsmall] at h
  · rw [rehashTo_eq fns nd fuel t ncap hsmall hs.size] at h
    cases hl : rehashLoop fns fuel t.length t.buckets 0
          { t with tombs := 0, length := 0, capacity := ncap,
                   buckets := List.replicate ncap ⟨0, 0, 0⟩ } with
    | error e => simp [hl] at h
    | ok r =>
      obtain ⟨s, moved⟩ := r
      simp only [hl] at h
      have hfr := fresh_replicate fns t ncap hsmall
      have hcl : countFull t.buckets ≤ t.buckets.length := List.countP_le_length _
      have hsz := hs.size
      have h0 : countFull (List.replicate ncap (⟨0, 0, 0⟩ : MapBucket)) = 0 := by
        have := hfr.length; simp only at this; exact this.symm
      have hmem : ∀ b ∈ List.replicate ncap (⟨0, 0, 0⟩ : MapBucket), b = ⟨0, 0, 0⟩ :=
        fun b hb => List.eq_of_mem_replicate hb
      have hq := rehashLoop_quiet fns hp hk fuel t.length ncap t.buckets 0 _ _ hfr
        hs.cached (by simp only; omega)
        (pairwise_distinct fns hk t.buckets t.capacity hs.found)
        (by
          intro x hx y _ _ hxf
          simp only at hx
          rw [hmem x hx] at hxf; exact absurd hxf (by decide))
        hl
      simp only at hq
      split at h
      · simp at h
      · simp only [Except.ok.injEq] at h; subst h; exact hq

/-- No call of `map_rehash` on a well-formed table calls a destructor. -/
theorem map_rehash_quiet (fns : MapFns) (hp : LinearProbe fns) (hk : KeyLaws fns) (nd : Bool)
    (fuel : Nat) (t t1 : _Map) (ncap : Nat) (hs : Sound fns t)
    (h : map_rehash fns nd fuel t ncap = .ok t1) : t1.dtors = t.dtors := by
  rcases map_rehash_shape fns nd fuel t t1 ncap h with ⟨rfl, _, _⟩ | ⟨hc, h2⟩
  · rfl
  · apply rehashTo_quiet fns hp hk nd fuel t t1 _ hs _ h2
    split <;> omega

/-- The growth step of `_map_set` calls no destructor on a well-formed table. -/
theorem growFor_quiet (fns : MapFns) (hp : LinearProbe fns) (hk : KeyLaws fns) (nd : Bool)
    (fuel : Nat) (t s1 : _Map) (hs : Sound fns t)
    (h : growFor fns nd fuel t = .ok s1) :
    s1.dtors = t.dtors ∧ s1.keydel = t.keydel ∧ s1.valuedel = t.valuedel ∧
      ∀ b ∈ s1.buckets, _mapbucket_isfull b = true → b ∈ t.buckets := by
  have key : ∀ ncap, map_rehash fns nd fuel t ncap = .ok s1 →
      s1.dtors = t.dtors ∧ s1.keydel = t.keydel ∧ s1.valuedel = t.valuedel ∧
        ∀ b ∈ s1.buckets, _mapbucket_isfull b = true → b ∈ t.buckets := by
    intro ncap h2
    refine ⟨map_rehash_quiet fns hp hk nd fuel t s1 ncap hs h2, ?_⟩
    rcases map_rehash_shape fns nd fuel t s1 ncap h2 with ⟨rfl, _, _⟩ | ⟨_, h3⟩
    · exact ⟨rfl, rfl, fun b hb _ => hb⟩
    · obtain ⟨_, _, _, _, hkd, hvd, hb⟩ := rehashTo_shape fns nd fuel t s1 _ h3
      refine ⟨hkd, hvd, ?_⟩
      intro b hbm hfull
      rcases hb b hbm with h4 | h4
      · rw [h4] at hfull; exact absurd hfull (by decide)
      · exact h4.1
  rcases growFor_cases fns nd fuel t s1 h with ⟨_, h2⟩ | ⟨_, _, h2⟩ | ⟨_, _, rfl⟩
  · exact key _ h2
  · exact key _ h2
  · exact ⟨rfl, rfl, rfl, fun b hb _ => hb⟩

/-- The only destructor calls of a `_map_set` on a well-formed table are those on the key
and the value of the entry it overwrites. -/
theorem set_dtors_cases (fns : MapFns) (hp : LinearProbe fns) (hk : KeyLaws fns) (nd : Bool)
    (fuel : Nat) (t t1 : _Map) (k v : Nat) (hs : Sound fns t)
    (h : _map_set fns nd fuel t k v = .ok t1) :
    t1.dtors = t.dtors ∨
    ∃ b ∈ t.buckets, _mapbucket_isfull b = true ∧ fns.equals k b.key = true ∧
      t1.dtors = t.dtors ++ (if t.keydel = true then [DtorCall.key b.key] else []) ++
        (if t.valuedel = true then [DtorCall.value b.value] else []) := by
  cases hg : growFor fns nd fuel t with
  | error e => rw [map_set_eq, hg] at h; simp at h
  | ok s1 =>
    obtain ⟨hd, hkd, hvd, hmem⟩ := growFor_quiet fns hp hk nd fuel t s1 hs hg
    obtain ⟨_, hpos, _⟩ := grow_sound fns hp hk nd fuel t s1 hs hg
    rw [map_set_put fns hp nd fuel t s1 k v hg (by omega)] at h
    cases hst : stopL fns s1.buckets s1.capacity k (fns.hash k) fuel
        (fns.hash k % s1.capacity) with
    | error e => rw [hst] at h; simp [Except.map] at h
    | ok r =>
      rw [hst] at h
      simp only [Except.map, Except.ok.injEq] at h
      obtain ⟨fl, i⟩ := r
      obtain ⟨bi, hbi, hmi, _⟩ := stopL_spec fns _ _ _ _ _ _ _ _ hst
      cases fl with
      | false =>
        left
        rw [← h, putOf_dtors, hd]
      | true =>
        right
        rw [matches_iff] at hmi
        refine ⟨bi, hmem bi (List.getElem?_mem hbi) hmi.1, hmi.1, hmi.2.2, ?_⟩
        rw [← h, putOf_dtors_match _ _ _ _ bi i hbi, call_dtors, hd, hkd, hvd]
/-- C32: in every table reachable from creation through the public interface, destructor
registration included (default probe, `equals` an equivalence compatible with `hash`),
`map_rehash` with any argument and `map_reserve` call no destructor: the record of
destructor calls is the same after the call.  The growth step of `_map_set` calls none
either, and the only destructor calls of a `_map_set` are those on the key and the value
of the entry it overwrites. -/
theorem C32_rehash_calls_no_destructor (fns : MapFns) (hp : LinearProbe fns)
    (hk : KeyLaws fns) (nd : Bool) (fuel : Nat) (t : _Map)
    (hr : ReachableWithDtors fns nd t) :
    (∀ ncap t1, map_rehash fns nd fuel t ncap = .ok t1 → t1.dtors = t.dtors) ∧
    (∀ n t1, map_reserve fns nd fuel t n = .ok t1 → t1.dtors = t.dtors) ∧
    (∀ s1, growFor fns nd fuel t = .ok s1 → s1.dtors = t.dtors) ∧
    (∀ k v t1, _map_set fns nd fuel t k v = .ok t1 →
      t1.dtors = t.dtors ∨
      ∃ b ∈ t.buckets, _mapbucket_isfull b = true ∧ fns.equals k b.key = true ∧
        t1.dtors = t.dtors ++ (if t.keydel = true then [DtorCall.key b.key] else []) ++
          (if t.valuedel = true then [DtorCall.value b.value] else [])) := by
  have hs := reachableWithDtors_sound fns hp hk nd t hr
  refine ⟨?_, ?_, ?_, ?_⟩
  · intro ncap t1 h
    exact map_rehash_quiet fns hp hk nd fuel t t1 ncap hs h
  · intro n t1 h
    exact map_rehash_quiet fns hp hk nd fuel t t1 _ hs (map_reserve_ok fns nd fuel t t1 n h)
  · intro s1 h
    exact (growFor_quiet fns hp hk nd fuel t s1 hs h).1
  · intro k v t1 h
    exact set_dtors_cases fns hp hk nd fuel t t1 k v hs h

theorem C32_rehash_calls_no_destructor_witness :
    LinearProbe defaultFns ∧ KeyLaws defaultFns ∧
    ReachableWithDtors defaultFns false
      { tbl [⟨4, MAP_TOMB, 0⟩, ⟨0, 0, 0⟩, ⟨0, 0, 0⟩, ⟨3, 3, 1⟩] 1 1 with
        keydel := true, valuedel := true, dtors := [DtorCall.key 4, DtorCall.value 1] } ∧
    map_rehash defaultFns false 4
      { tbl [⟨4, MAP_TOMB, 0⟩, ⟨0, 0, 0⟩, ⟨0, 0, 0⟩, ⟨3, 3, 1⟩] 1 1 with
        keydel := true, valuedel := true, dtors := [DtorCall.key 4, DtorCall.value 1] } 0 =
      .ok { tbl [⟨0, 0, 0⟩, ⟨0, 0, 0⟩, ⟨0, 0, 0⟩, ⟨3, 3, 1⟩] 1 0 with
        keydel := true, valuedel := true, dtors := [DtorCall.key 4, DtorCall.value 1] } ∧
    ({ tbl [⟨0, 0, 0⟩, ⟨0, 0, 0⟩, ⟨0, 0, 0⟩, ⟨3, 3, 1⟩] 1 0 with
        keydel := true, valuedel := true,
        dtors := [DtorCall.key 4, DtorCall.value 1] } : _Map).dtors =
      ({ tbl [⟨4, MAP_TOMB, 0⟩, ⟨0, 0, 0⟩, ⟨0, 0, 0⟩, ⟨3, 3, 1⟩] 1 1 with
        keydel := true, valuedel := true,
        dtors := [DtorCall.key 4, DtorCall.value 1] } : _Map).dtors :=
  have hr : ReachableWithDtors defaultFns false
      { tbl [⟨4, MAP_TOMB, 0⟩, ⟨0, 0, 0⟩, ⟨0, 0, 0⟩, ⟨3, 3, 1⟩] 1 1 with
        keydel := true, valuedel := true, dtors := [DtorCall.key 4, DtorCall.value 1] } :=
    ReachableWithDtors.set 4 _ _ 3 1
      (ReachableWithDtors.del 4 _ _ 4 (ReachableWithDtors.set 4 _ _ 4 1
        (ReachableWithDtors.setvaluedel _ true (ReachableWithDtors.setkeydel _ true
          (ReachableWithDtors.create 4 (tbl (List.replicate 4 ⟨0, 0, 0⟩) 0 0) (by decide))))
        (by decide)
        (show _map_set defaultFns false 4 _ 4 1 = .ok
          { tbl [⟨4, 4, 1⟩, ⟨0, 0, 0⟩, ⟨0, 0, 0⟩, ⟨0, 0, 0⟩] 1 0 with
            keydel := true, valuedel := true } by decide))
        (show _map_del defaultFns 4 _ 4 = .ok
          { tbl [⟨4, MAP_TOMB, 0⟩, ⟨0, 0, 0⟩, ⟨0, 0, 0⟩, ⟨0, 0, 0⟩] 0 1 with
            keydel := true, valuedel := true,
            dtors := [DtorCall.key 4, DtorCall.value 1] } by decide))
      (by decide) (by decide)
  ⟨linearProbe_default, keyLaws_default, hr, by decide,
    (C32_rehash_calls_no_destructor defaultFns linearProbe_default keyLaws_default false 4 _
      hr).1 0 _ (by decide)⟩

/-- Every bucket a probe passes before it stops is one that does not stop it. -/
theorem stopL_path (fns : MapFns) (bs : List MapBucket) (cap key h : Nat)
    (hsz : bs.length = cap) :
    ∀ fuel idx fl i, idx < cap → stopL fns bs cap key h fuel idx = .ok (fl, i) →
      ∀ d, d < probeDist cap idx i →
        ∃ x, bs[(idx + d) % cap]? = some x ∧ stopsAt fns key h x = false := by
  intro fuel
  induction fuel with
  | zero => intro idx fl i _ hs; simp [stopL] at hs
  | succ n ih =>
    intro idx fl i hidx hs d hd
    have hs0 := hs
    unfold stopL at hs
    cases hb : bs[idx]? with
    | none => simp [hb] at hs
    | some b =>
      simp only [hb] at hs
      by_cases hm : bucketMatches fns key h b = true
      · simp only [hm, if_true, Except.ok.injEq, Prod.mk.injEq] at hs
        rw [← hs.2] at hd
        unfold probeDist at hd
        simp at hd
      · simp only [hm, if_false, Bool.false_eq_true] at hs
        by_cases he : _mapbucket_isempty b = true
        · simp only [he, if_true, Except.ok.injEq, Prod.mk.injEq] at hs
          rw [← hs.2] at hd
          unfold probeDist at hd
          simp at hd
        · simp only [he, if_false, Bool.false_eq_true] at hs
          have hnst : stopsAt fns key h b = false := by
            unfold stopsAt
            simp [hm, he]
          obtain ⟨bi, hbi, hst⟩ := stopL_stops fns bs cap key h _ _ fl i hs0
          have hi : i < cap := by have := getElem?_lt bs i bi hbi; omega
          have hne : i ≠ idx := by
            rintro rfl
            rw [hb] at hbi
            rw [Option.some.inj hbi, hst] at hnst
            exact absurd hnst (by simp)
          have hnext : (idx + 1) % cap < cap := Nat.mod_lt _ (by omega)
          cases d with
          | zero =>
            refine ⟨b, ?_, hnst⟩
            rw [Nat.add_zero, Nat.mod_eq_of_lt hidx]
            exact hb
          | succ d1 =>
            have hdist : d1 < probeDist cap ((idx + 1) % cap) i := by
              rw [next_index cap idx hidx]
              unfold probeDist at hd ⊢
              split at hd <;> split <;> split <;> omega
            obtain ⟨x, hx, hxs⟩ := ih _ fl i hnext hs d1 hdist
            refine ⟨x, ?_, hxs⟩
            rw [← hx]
            congr 1
            rw [show idx + (d1 + 1) = (idx + 1) + d1 by omega, Nat.add_mod,
              Nat.add_mod ((idx + 1) % cap) d1 cap, Nat.mod_mod]

/-- Writing a bucket that is not Empty keeps a probe path free of Empty buckets. -/
theorem path_set (bs : List MapBucket) (cap start j i : Nat) (nb : MapBucket)
    (hnb : _mapbucket_isempty nb = false) (hp : OnProbePath bs cap start j) :
    OnProbePath (bs.set i nb) cap start j := by
  intro d hd
  obtain ⟨x, hx, hxe⟩ := hp d hd
  by_cases hpi : i = (start + d) % cap
  · refine ⟨nb, ?_, hnb⟩
    rw [← hpi, List.getElem?_set_self]
    rw [hpi]
    exact getElem?_lt _ _ _ hx
  · exact ⟨x, by rw [List.getElem?_set_ne hpi]; exact hx, hxe⟩

/-- Writing a Full bucket where the probe for its key stopped keeps every Full bucket on
the probe path of its own key. -/
theorem placed_put (fns : MapFns) (bs : List MapBucket) (cap : Nat) (b : MapBucket)
    (hsz : bs.length = cap) (hcap : 0 < cap) (hpl : Placed fns bs cap)
    (hfull : _mapbucket_isfull b = true) (fuel : Nat) (fl : Bool) (i : Nat)
    (hs : stopL fns bs cap b.key (fns.hash b.key) fuel (fns.hash b.key % cap) = .ok (fl, i)) :
    Placed fns (bs.set i b) cap := by
  have hbe := full_not_empty b hfull
  intro j x hx hxf
  by_cases hji : j = i
  · subst hji
    have hlt := getElem?_lt _ _ _ hx
    rw [List.length_set] at hlt
    rw [List.getElem?_set_self hlt] at hx
    have hxb : b = x := Option.some.inj hx
    subst hxb
    intro d hd
    obtain ⟨y, hy, hys⟩ := stopL_path fns bs cap b.key (fns.hash b.key) hsz fuel _ fl j
      (Nat.mod_lt _ hcap) hs d hd
    have hye : _mapbucket_isempty y = false := by
      cases h : _mapbucket_isempty y with
      | false => rfl
      | true => rw [empty_stops fns _ _ y h] at hys; exact absurd hys (by simp)
    by_cases hpi : j = (fns.hash b.key % cap + d) % cap
    · refine ⟨b, ?_, hbe⟩
      rw [← hpi, List.getElem?_set_self hlt]
    · exact ⟨y, by rw [List.getElem?_set_ne hpi]; exact hy, hye⟩
  · rw [List.getElem?_set_ne (fun h => hji h.symm)] at hx
    exact path_set bs cap _ j i b hbe (hpl j x hx hxf)

/-- The copy loop of `map_rehash` keeps every Full bucket of the new array on the probe
path that starts at `hash(key) % capacity`. -/
theorem rehashLoop_placed (fns : MapFns) (hp : LinearProbe fns) (fuel oldlen : Nat) :
    ∀ (rest : List MapBucket) (moved : Nat) (s : _Map) (r : _Map × Nat),
      s.buckets.length = s.capacity → Placed fns s.buckets s.capacity →
      rehashLoop fns fuel oldlen rest moved s = .ok r →
      Placed fns r.1.buckets r.1.capacity := by
  intro rest
  induction rest with
  | nil =>
    intro moved s r _ hpl h
    simp only [rehashLoop, Except.ok.injEq] at h
    subst h; exact hpl
  | cons b rest ih =>
    intro moved s r hsz hpl h
    by_cases hlt : moved < oldlen
    · cases hfull : _mapbucket_isfull b with
      | false =>
        rw [rehashLoop_cons_skip fns fuel oldlen b rest moved s hfull hlt] at h
        exact ih moved s r hsz hpl h
      | true =>
        by_cases hcap : s.capacity = 0
        · unfold rehashLoop _map_acquirebucket at h
          simp [hlt, hfull, hcap] at h
        · rw [rehashLoop_cons_full fns hp fuel oldlen b rest moved s hfull hlt hcap] at h
          cases hs : stopL fns s.buckets s.capacity b.key (fns.hash b.key) fuel
              (fns.hash b.key % s.capacity) with
          | error e => simp [hs] at h
          | ok r1 =>
            simp only [hs] at h
            obtain ⟨fl, i⟩ := r1
            apply ih _ _ r _ _ h
            · rw [putOf_buckets, putOf_capacity, List.length_set]; exact hsz
            · rw [putOf_buckets, putOf_capacity]
              exact placed_put fns s.buckets s.capacity b hsz (by omega) hpl hfull fuel fl i hs
    · rw [rehashLoop_cons_stop fns fuel oldlen b rest moved s hlt] at h
      simp only [Except.ok.injEq] at h
      subst h; exact hpl

/-- In the array `map_rehash` builds, every Full bucket lies on the probe path that starts
at `hash(key) % capacity`, whatever the old array held. -/
theorem rehashTo_placed (fns : MapFns) (hp : LinearProbe fns) (nd : Bool) (fuel : Nat)
    (t t1 : _Map) (ncap : Nat) (h : rehashTo fns nd fuel t ncap = .ok t1) :
    Placed fns t1.buckets t1.capacity := by
  unfold rehashTo at h
  by_cases hsmall : UWORD ≤ sizeof_MapBucket * ncap
  · simp [hsmall] at h
  · rw [if_neg hsmall] at h
    simp only at h
    cases hl : rehashLoop fns fuel t.length (t.buckets.take t.capacity) 0
          { t with tombs := 0, length := 0, capacity := ncap,
                   buckets := List.replicate ncap ⟨0, 0, 0⟩ } with
    | error e => simp [hl] at h
    | ok r =>
      obtain ⟨s, moved⟩ := r
      simp only [hl] at h
      have hpl := rehashLoop_placed fns hp fuel t.length _ 0 _ _ (by simp) (by
        intro i b hb hfull
        have := List.eq_of_mem_replicate (List.getElem?_mem hb)
        rw [this] at hfull
        exact absurd hfull (by decide)) hl
      split at h
      · simp at h
      · simp only [Except.ok.injEq] at h; subst h; exact hpl
/-- C33 (as amended): `map_rehash` places entries by a fresh call of the hash callback on
the key.  For every table, whatever its buckets cache, after a `map_rehash` that builds a
new array (argument 0 or above the capacity, default probe) every Full bucket of the new
array is a Full bucket of the old one and is reached by linear probing from the index
`hash(key) % capacity`, with no Empty bucket before it; where the old bucket caches the
hash of its key, as in every reachable table, that index is also the cached hash modulo
the new capacity. -/
theorem C33_rehash_probes_from_fresh_hash (fns : MapFns) (hp : LinearProbe fns) (nd : Bool)
    (fuel : Nat) (t t1 : _Map) (ncap : Nat) (hc : ncap = 0 ∨ t.capacity < ncap)
    (h : map_rehash fns nd fuel t ncap = .ok t1) :
    ∀ (i : Nat) (b : MapBucket), t1.buckets[i]? = some b → _mapbucket_isfull b = true →
      b ∈ t.buckets ∧
      OnProbePath t1.buckets t1.capacity (fns.hash b.key % t1.capacity) i ∧
      (b.hash = fns.hash b.key → fns.hash b.key % t1.capacity = b.hash % t1.capacity) := by
  intro i b hb hfull
  rcases map_rehash_shape fns nd fuel t t1 ncap h with ⟨_, h0, hle⟩ | ⟨_, h2⟩
  · omega
  · obtain ⟨_, _, _, _, _, _, hmem⟩ := rehashTo_shape fns nd fuel t t1 _ h2
    refine ⟨?_, rehashTo_placed fns hp nd fuel t t1 _ h2 i b hb hfull, fun he => by rw [he]⟩
    rcases hmem b (List.getElem?_mem hb) with h3 | h3
    · rw [h3] at hfull; exact absurd hfull (by decide)
    · exact h3.1

theorem C33_rehash_probes_from_fresh_hash_witness :
    LinearProbe defaultFns ∧
    (8 = 0 ∨ (tbl [⟨0, 0, 0⟩, ⟨0, 0, 0⟩, ⟨2, 2, 1⟩, ⟨10, 10, 1⟩] 2 0).capacity < 8) ∧
    map_rehash defaultFns false 8 (tbl [⟨0, 0, 0⟩, ⟨0, 0, 0⟩, ⟨2, 2, 1⟩, ⟨10, 10, 1⟩] 2 0) 8 =
      .ok (tbl [⟨0, 0, 0⟩, ⟨0, 0, 0⟩, ⟨2, 2, 1⟩, ⟨10, 10, 1⟩,
        ⟨0, 0, 0⟩, ⟨0, 0, 0⟩, ⟨0, 0, 0⟩, ⟨0, 0, 0⟩] 2 0) ∧
    (⟨10, 10, 1⟩ ∈ (tbl [⟨0, 0, 0⟩, ⟨0, 0, 0⟩, ⟨2, 2, 1⟩, ⟨10, 10, 1⟩] 2 0).buckets ∧
      OnProbePath (tbl [⟨0, 0, 0⟩, ⟨0, 0, 0⟩, ⟨2, 2, 1⟩, ⟨10, 10, 1⟩,
          ⟨0, 0, 0⟩, ⟨0, 0, 0⟩, ⟨0, 0, 0⟩, ⟨0, 0, 0⟩] 2 0).buckets
        (tbl [⟨0, 0, 0⟩, ⟨0, 0, 0⟩, ⟨2, 2, 1⟩, ⟨10, 10, 1⟩,
          ⟨0, 0, 0⟩, ⟨0, 0, 0⟩, ⟨0, 0, 0⟩, ⟨0, 0, 0⟩] 2 0).capacity
        (defaultFns.hash (⟨10, 10, 1⟩ : MapBucket).key %
          (tbl [⟨0, 0, 0⟩, ⟨0, 0, 0⟩, ⟨2, 2, 1⟩, ⟨10, 10, 1⟩,
            ⟨0, 0, 0⟩, ⟨0, 0, 0⟩, ⟨0, 0, 0⟩, ⟨0, 0, 0⟩] 2 0).capacity) 3 ∧
      ((⟨10, 10, 1⟩ : MapBucket).hash = defaultFns.hash (⟨10, 10, 1⟩ : MapBucket).key →
        defaultFns.hash (⟨10, 10, 1⟩ : MapBucket).key %
            (tbl [⟨0, 0, 0⟩, ⟨0, 0, 0⟩, ⟨2, 2, 1⟩, ⟨10, 10, 1⟩,
              ⟨0, 0, 0⟩, ⟨0, 0, 0⟩, ⟨0, 0, 0⟩, ⟨0, 0, 0⟩] 2 0).capacity =
          (⟨10, 10, 1⟩ : MapBucket).hash %
            (tbl [⟨0, 0, 0⟩, ⟨0, 0, 0⟩, ⟨2, 2, 1⟩, ⟨10, 10, 1⟩,
              ⟨0, 0, 0⟩, ⟨0, 0, 0⟩, ⟨0, 0, 0⟩, ⟨0, 0, 0⟩] 2 0).capacity)) :=
  ⟨linearProbe_default, by decide, by decide,
    C33_rehash_probes_from_fresh_hash defaultFns linearProbe_default false 8
      (tbl [⟨0, 0, 0⟩, ⟨0, 0, 0⟩, ⟨2, 2, 1⟩, ⟨10, 10, 1⟩] 2 0)
      (tbl [⟨0, 0, 0⟩, ⟨0, 0, 0⟩, ⟨2, 2, 1⟩, ⟨10, 10, 1⟩,
        ⟨0, 0, 0⟩, ⟨0, 0, 0⟩, ⟨0, 0, 0⟩, ⟨0, 0, 0⟩] 2 0) 8 (by decide) (by decide)
      3 ⟨10, 10, 1⟩ (by decide) (by decide)⟩

/-- C33 (counterexample): a table of capacity 4 whose only entry, key 2, sits in a bucket
that caches the hash 1.  `map_rehash` to capacity 8 with the identity hash puts the entry
at index 2, which is `hash(key) % 8`, and leaves index 1, the cached hash modulo 8, Empty;
run with the hash callback `k + 1` instead, the same call puts it at index 3. -/
theorem C33_rehash_ignores_cached_hash :
    map_rehash defaultFns false 8 (tbl [⟨0, 0, 0⟩, ⟨1, 2, 5⟩, ⟨0, 0, 0⟩, ⟨0, 0, 0⟩] 1 0) 8 =
      .ok (tbl [⟨0, 0, 0⟩, ⟨0, 0, 0⟩, ⟨1, 2, 5⟩, ⟨0, 0, 0⟩,
        ⟨0, 0, 0⟩, ⟨0, 0, 0⟩, ⟨0, 0, 0⟩, ⟨0, 0, 0⟩] 1 0) ∧
    (⟨1, 2, 5⟩ : MapBucket).hash % 8 = 1 ∧ defaultFns.hash (⟨1, 2, 5⟩ : MapBucket).key % 8 = 2 ∧
    map_rehash { defaultFns with hash := fun k => k + 1 } false 8
        (tbl [⟨0, 0, 0⟩, ⟨1, 2, 5⟩, ⟨0, 0, 0⟩, ⟨0, 0, 0⟩] 1 0) 8 =
      .ok (tbl [⟨0, 0, 0⟩, ⟨0, 0, 0⟩, ⟨0, 0, 0⟩, ⟨1, 2, 5⟩,
        ⟨0, 0, 0⟩, ⟨0, 0, 0⟩, ⟨0, 0, 0⟩, ⟨0, 0, 0⟩] 1 0) := by
  refine ⟨by decide, by decide, by decide, by decide⟩

/-- The inner comparison loop returns whether the bytes compared are the same, when they
all lie inside the two buffers. -/
theorem cstrMatchLoop_eq (s1 s2 : List Nat) (i : Nat) :
    ∀ k j, i + j + k ≤ s1.length → j + k ≤ s2.length →
      cstrMatchLoop s1 s2 i k j = .ok ((s1.drop (i + j)).take k == (s2.drop j).take k) := by
  intro k
  induction k with
  | zero => intro j _ _; simp [cstrMatchLoop]
  | succ n ih =>
    intro j h1 h2
    have ha : i + j < s1.length := by omega
    have hb : j < s2.length := by omega
    unfold cstrMatchLoop
    rw [List.getElem?_eq_getElem ha, List.getElem?_eq_getElem hb]
    simp only
    rw [List.drop_eq_getElem_cons ha, List.drop_eq_getElem_cons hb, List.take_succ_cons,
      List.take_succ_cons]
    by_cases he : s1[i + j] = s2[j]
    · rw [he]
      simp only [beq_self_eq_true, if_true]
      rw [ih (j + 1) (by omega) (by omega)]
      simp [Nat.add_assoc]
    · have hne : (s1[i + j] == s2[j]) = false := by simpa using he
      rw [hne]
      simp [he]

theorem cstrMatchLoop_occurs (s1 s2 : List Nat) (n2 i : Nat) (h1 : i + n2 ≤ s1.length)
    (h2 : n2 ≤ s2.length) : cstrMatchLoop s1 s2 i n2 0 = .ok (occursAt s1 s2 n2 i) := by
  rw [cstrMatchLoop_eq s1 s2 i n2 0 (by omega) (by omega)]
  simp [occursAt]

/-- What the loop of `_cstr_lastindex_n` computes: started at `i`, it returns the greatest
index between `n2` and `i` at which `s2` occurs, and `str_npos` when there is none; the
indices below `n2` are not examined. -/
theorem lastindexLoop_spec (s1 s2 : List Nat) (n2 : Nat) (hn2 : 1 ≤ n2)
    (h2 : n2 ≤ s2.length) :
    ∀ fuel i, i < fuel → i + n2 ≤ s1.length → i < UWORD →
      ∃ r, lastindexLoop s1 s2 n2 fuel i = .ok r ∧
        ((r = str_npos ∧ ∀ p, n2 ≤ p → p ≤ i → occursAt s1 s2 n2 p = false) ∨
         (n2 ≤ r ∧ r ≤ i ∧ occursAt s1 s2 n2 r = true ∧
           ∀ p, r < p → p ≤ i → occursAt s1 s2 n2 p = false)) := by
  intro fuel
  induction fuel with
  | zero => intro i h; omega
  | succ n ih =>
    intro i hf h1 hu
    unfold lastindexLoop
    by_cases hge : i ≥ n2
    · rw [if_pos hge, cstrMatchLoop_occurs s1 s2 n2 i h1 h2]
      cases ho : occursAt s1 s2 n2 i with
      | true =>
        exact ⟨i, rfl, Or.inr ⟨hge, Nat.le_refl _, ho, fun p hp1 hp2 => by omega⟩⟩
      | false =>
        simp only
        have hdec : (i + UWORD - 1) % UWORD = i - 1 := by
          rw [show i + UWORD - 1 = (i - 1) + UWORD by omega, Nat.add_mod_right]
          exact Nat.mod_eq_of_lt (by omega)
        rw [hdec]
        obtain ⟨r, hr, hcase⟩ := ih (i - 1) (by omega) (by omega) (by omega)
        refine ⟨r, hr, ?_⟩
        rcases hcase with ⟨hnp, hall⟩ | ⟨hr1, hr2, hr3, hall⟩
        · left
          refine ⟨hnp, fun p hp1 hp2 => ?_⟩
          by_cases hpi : p = i
          · rw [hpi]; exact ho
          · exact hall p hp1 (by omega)
        · right
          refine ⟨hr1, by omega, hr3, fun p hp1 hp2 => ?_⟩
          by_cases hpi : p = i
          · rw [hpi]; exact ho
          · exact hall p hp1 (by omega)
    · rw [if_neg hge]
      exact ⟨str_npos, rfl, Or.inl ⟨rfl, fun p hp1 hp2 => by omega⟩⟩

/-- What `_cstr_lastindex_n` computes for `1 ≤ n2 ≤ n1`: it returns, and the result is the
greatest index between `n2` and `n1 - n2` at which `s2` occurs in `s1`, or `str_npos` when
`s2` occurs at none of these; occurrences at the indices below `n2` are not reported. -/
theorem lastindex_spec (s1 s2 : List Nat) (n1 n2 fuel : Nat) (hn2 : 1 ≤ n2) (hle : n2 ≤ n1)
    (h1 : n1 ≤ s1.length) (h2 : n2 ≤ s2.length) (hu : n1 < UWORD) (hf : n1 - n2 < fuel) :
    ∃ r, _cstr_lastindex_n fuel (some s1) n1 (some s2) n2 = .ok r ∧
      ((r = str_npos ∧ ∀ p, n2 ≤ p → p ≤ n1 - n2 → occursAt s1 s2 n2 p = false) ∨
       (n2 ≤ r ∧ r ≤ n1 - n2 ∧ occursAt s1 s2 n2 r = true ∧
         ∀ p, r < p → p ≤ n1 - n2 → occursAt s1 s2 n2 p = false)) := by
  unfold _cstr_lastindex_n
  simp only
  rw [if_neg (by omega)]
  exact lastindexLoop_spec s1 s2 n2 hn2 h2 fuel (n1 - n2) hf (by omega) (by omega)

/-- C38: with `s1 = "ab"` and `s2 = "a"`, `s2` occurs in `s1` at index 0 and
`_cstr_index_n` returns 0, but `_cstr_lastindex_n` returns `str_npos`; the same for
`s1 = s2 = "a"` and for `s1 = "abc"`, `s2 = "ab"`, where the loop does not run once. -/
theorem C38_lastindex_misses_occurrence :
    occursAt [97, 98] [97] 1 0 = true ∧
    _cstr_index_n 4 (some [97, 98]) 2 (some [97]) 1 = .ok 0 ∧
    (∀ fuel, 2 ≤ fuel → _cstr_lastindex_n fuel (some [97, 98]) 2 (some [97]) 1 = .ok str_npos) ∧
    (∀ fuel, 1 ≤ fuel → _cstr_lastindex_n fuel (some [97]) 1 (some [97]) 1 = .ok str_npos) ∧
    occursAt [97, 98, 99] [97, 98] 2 0 = true ∧
    (∀ fuel, 1 ≤ fuel →
      _cstr_lastindex_n fuel (some [97, 98, 99]) 3 (some [97, 98]) 2 = .ok str_npos) := by
  refine ⟨by decide, by decide, ?_, ?_, by decide, ?_⟩
  · intro fuel hf
    obtain ⟨f, rfl⟩ : ∃ f, fuel = f + 2 := ⟨fuel - 2, by omega⟩
    have e : (1 + UWORD - 1) % UWORD = 0 := by decide
    simp [_cstr_lastindex_n, lastindexLoop, cstrMatchLoop, e]
  · intro fuel hf
    obtain ⟨f, rfl⟩ : ∃ f, fuel = f + 1 := ⟨fuel - 1, by omega⟩
    simp [_cstr_lastindex_n, lastindexLoop]
  · intro fuel hf
    obtain ⟨f, rfl⟩ : ∃ f, fuel = f + 1 := ⟨fuel - 1, by omega⟩
    simp [_cstr_lastindex_n, lastindexLoop]

/-- C39: a string with content "ab" (length 2) in a buffer of 8 bytes; inserting the 3
bytes "xyz" at index 1 leaves the content "axyb" of length 4, where the claim has "axyzb"
of length 5.  Inserting "x" into the empty string leaves it empty. -/
theorem C39_insert_copies_length_bytes :
    _str_insert_n 8 ⟨[97, 98, 0, 0, 0, 0, 0, 0], 2, 8, true⟩ 1 (some [120, 121, 122]) 3 =
      .ok ⟨[97, 120, 121, 98, 0, 0, 0, 0], 4, 8, true⟩ ∧
    str_content ⟨[97, 120, 121, 98, 0, 0, 0, 0], 4, 8, true⟩ = [97, 120, 121, 98] ∧
    [97, 98].take 1 ++ [120, 121, 122].take 3 ++ [97, 98].drop 1 = [97, 120, 121, 122, 98] ∧
    _str_insert_n 8 ⟨[0, 0, 0, 0], 0, 4, true⟩ 0 (some [120]) 1 = .ok ⟨[0, 0, 0, 0], 0, 4, true⟩ ∧
    str_content ⟨[0, 0, 0, 0], 0, 4, true⟩ = [] := by
  refine ⟨by decide, by decide, by decide, by decide, by decide⟩
/-- The loop `while(cap <= req) cap <<= 1` ends, with a capacity above `req`, when it starts
from a positive capacity. -/
theorem growCap_total (req : Int) :
    ∀ (fuel : Nat) (cap : Int), 1 ≤ cap → (req + 1 - cap).toNat < fuel →
      ∃ c, growCap req fuel cap = .ok c ∧ req < c ∧ cap ≤ c := by
  intro fuel
  induction fuel with
  | zero => intro cap _ h; omega
  | succ n ih =>
    intro cap h1 hf
    unfold growCap
    by_cases hle : cap ≤ req
    · rw [if_pos hle]
      obtain ⟨c, hc, h2, h3⟩ := ih (cap * 2) (by omega) (by omega)
      exact ⟨c, hc, h2, by omega⟩
    · rw [if_neg hle]
      exact ⟨cap, rfl, by omega, Int.le_refl _⟩

/-- The bytes left by the `memmove`, the `memcpy` and the terminator write of
`_str_insert_n` in a buffer `D` that holds a content of `L` bytes, `i` being the index and
`L` the number of bytes moved and copied. -/
theorem insert_bytes (D src : List Nat) (L i : Nat) (hi : i ≤ L) (hD : 2 * L + 1 ≤ D.length)
    (hs : L ≤ src.length) :
    ((((D.take (i + L) ++ (D.drop i).take (L - i) ++ D.drop (i + L + (L - i))).take i ++
          src.take L ++
          (D.take (i + L) ++ (D.drop i).take (L - i) ++ D.drop (i + L + (L - i))).drop
            (i + L)).take (2 * L) ++ [0] ++
        (((D.take (i + L) ++ (D.drop i).take (L - i) ++ D.drop (i + L + (L - i))).take i ++
          src.take L ++
          (D.take (i + L) ++ (D.drop i).take (L - i) ++ D.drop (i + L + (L - i))).drop
            (i + L)).drop (2 * L + 1))).take (2 * L)) =
      (D.take L).take i ++ src.take L ++ (D.take L).drop i := by
  have hX : (D.take (i + L)).length = i + L := by rw [List.length_take]; omega
  have hB : ((D.drop i).take (L - i)).length = L - i := by
    rw [List.length_take, List.length_drop]; omega
  have hS : (src.take L).length = L := by rw [List.length_take]; omega
  have hA : (D.take i).length = i := by rw [List.length_take]; omega
  have e1 : (D.take (i + L) ++ (D.drop i).take (L - i) ++ D.drop (i + L + (L - i))).take i
      = D.take i := by
    rw [List.append_assoc, List.take_append_of_le_length (by omega), List.take_take]
    congr 1
    omega
  have e2 : (D.take (i + L) ++ (D.drop i).take (L - i) ++ D.drop (i + L + (L - i))).drop (i + L)
      = (D.drop i).take (L - i) ++ D.drop (i + L + (L - i)) := by
    rw [List.append_assoc, List.drop_left' hX]
  rw [e1, e2]
  have e3 : (D.take i ++ src.take L ++ ((D.drop i).take (L - i) ++ D.drop (i + L + (L - i)))).take
      (2 * L) = D.take i ++ src.take L ++ (D.drop i).take (L - i) := by
    rw [← List.append_assoc]
    apply List.take_left'
    rw [List.length_append, List.length_append, hA, hS, hB]
    omega
  rw [e3, List.append_assoc (D.take i ++ src.take L ++ (D.drop i).take (L - i))]
  rw [List.take_left' (by rw [List.length_append, List.length_append, hA, hS, hB]; omega)]
  rw [List.take_take, List.drop_take]
  congr 2
  congr 1
  omega
/-- What `_str_insert_n` does for an index inside the content: whatever the byte count `n`
passed (other than 0), it inserts the first `L` bytes of the source, `L` being the length
of the string before the call, and the new length is `2 * L`. -/
theorem insert_spec (fuel : Nat) (self : Str) (src : List Nat) (n : Int) (L i : Nat)
    (ha : self.alloc = true) (hn : n ≠ 0) (hL : self.length = L)
    (hcap : (self.data.length : Int) = self.capacity) (hfit : (L : Int) ≤ self.capacity)
    (hi : i ≤ L) (hsrc : L ≤ src.length) (hfuel : 2 * L < fuel) :
    ∃ s1, _str_insert_n fuel self i (some src) n = .ok s1 ∧ s1.length = 2 * L ∧
      str_content s1 =
        (str_content self).take i ++ src.take L ++ (str_content self).drop i := by
  have hview : str_isview self = false := by simp [str_isview, ha]
  have hres : ∃ s0 : Str,
      (if self.length + self.length + 1 > self.capacity then
          match growCap (self.length + self.length) fuel
              (if self.capacity ≠ 0 then self.capacity else slice_defaultcapacity) with
          | .error e => Except.error e
          | .ok cap => str_reserve self (cap + 1)
        else Except.ok self) = Except.ok s0 ∧
      s0.length = L ∧ 2 * L + 1 ≤ s0.data.length ∧ s0.data.take L = self.data.take L := by
    by_cases hgt : self.length + self.length + 1 > self.capacity
    · rw [if_pos hgt]
      have hc0 : 1 ≤ (if self.capacity ≠ 0 then self.capacity else slice_defaultcapacity) := by
        unfold slice_defaultcapacity
        split <;> omega
      obtain ⟨c, hc, hc1, hc2⟩ := growCap_total (self.length + self.length) fuel _ hc0
        (by omega)
      rw [hc]
      simp only [str_reserve, hview, Bool.false_eq_true, if_false]
      refine ⟨_, rfl, ?_, ?_, ?_⟩
      · unfold _slice_reserve
        rw [if_neg (by omega)]
        exact hL
      · unfold _slice_reserve
        rw [if_neg (by omega)]
        simp only [List.length_append, List.length_replicate]
        omega
      · unfold _slice_reserve
        rw [if_neg (by omega)]
        simp only
        rw [List.take_append_of_le_length (by omega)]
    · rw [if_neg hgt]
      exact ⟨self, rfl, hL, by omega, rfl⟩
  obtain ⟨s0, hs0, hl0, hd0, ht0⟩ := hres
  have hidx : (if (if (if (i : Int) < 0 then (i : Int) + self.length else i) < 0 then 0
      else (if (i : Int) < 0 then (i : Int) + self.length else i)) > self.length then self.length
      else (if (if (i : Int) < 0 then (i : Int) + self.length else i) < 0 then 0
      else (if (i : Int) < 0 then (i : Int) + self.length else i))) = (i : Int) := by
    rw [if_neg (by omega), if_neg (by omega), if_neg (by omega)]
  have hr1 : readBytes s0.data i (s0.length - i) = .ok ((s0.data.drop i).take (L - i)) := by
    unfold readBytes
    rw [if_neg (by omega)]
    congr 3
    omega
  obtain ⟨d1, hd1⟩ : ∃ d1 : List Nat, d1 = s0.data.take (i + L) ++
      (s0.data.drop i).take (L - i) ++ s0.data.drop (i + L + (L - i)) := ⟨_, rfl⟩
  obtain ⟨d2, hd2⟩ : ∃ d2 : List Nat, d2 = d1.take i ++ src.take L ++ d1.drop (i + L) :=
    ⟨_, rfl⟩
  have hw1 : writeBytes s0.data ((i : Int) + self.length) ((s0.data.drop i).take (L - i)) =
      .ok d1 := by
    have hlen : ((s0.data.drop i).take (L - i)).length = L - i := by
      rw [List.length_take, List.length_drop]; omega
    unfold writeBytes
    rw [if_neg (by rw [hlen]; omega), hlen, hd1]
    congr 4 <;> omega
  have hr2 : readBytes src 0 self.length = .ok (src.take L) := by
    unfold readBytes
    rw [if_neg (by omega)]
    simp only [Int.toNat_zero, List.drop_zero]
    congr 2
    omega
  have hlenS : (src.take L).length = L := by rw [List.length_take]; omega
  have hlen1 : d1.length = s0.data.length := by
    rw [hd1]
    simp only [List.length_append, List.length_take, List.length_drop]
    omega
  have hlen2 : d2.length = s0.data.length := by
    rw [hd2, List.length_append, List.length_append, List.length_take, List.length_drop, hlen1,
      hlenS]
    omega
  have hw2 : writeBytes d1 i (src.take L) = .ok d2 := by
    unfold writeBytes
    rw [if_neg (by rw [hlenS]; omega), hlenS, hd2]
    congr 4
  have hw3 : writeBytes d2 (s0.length + self.length) [0] =
      .ok (d2.take (2 * L) ++ [0] ++ d2.drop (2 * L + 1)) := by
    unfold writeBytes
    rw [if_neg (by simp only [List.length_singleton]; omega)]
    simp only [List.length_singleton]
    congr 4 <;> omega
  refine ⟨{ s0 with data := d2.take (2 * L) ++ [0] ++ d2.drop (2 * L + 1),
                    length := s0.length + self.length }, ?_, ?_, ?_⟩
  · unfold _str_insert_n
    simp only [hview, hn, Bool.false_eq_true, if_false, hs0, hidx, hr1, hw1, hr2, hw2, hw3]
  · simp only
    omega
  · unfold str_content
    simp only
    rw [show (s0.length + self.length).toNat = 2 * L by omega,
      show self.length.toNat = L by omega, hd2, hd1,
      insert_bytes s0.data src L i hi hd0 hsrc, ht0]

/-- In a list sorted by a comparison that is negatively transitive, the items that
compare below `v` come before those that do not. -/
theorem sorted_partition {α : Type} (cmp : α → α → Bool)
    (hlaw : ∀ a b c, cmp a c = true → cmp a b = true ∨ cmp b c = true)
    (items : List α) (hsorted : items.Pairwise (fun a b => cmp b a = false)) (v : α)
    (j1 j2 : Nat) (x1 x2 : α) (hlt : j1 < j2) (h1 : items[j1]? = some x1)
    (h2 : items[j2]? = some x2) (hc : cmp x2 v = true) : cmp x1 v = true := by
  have hl1 : j1 < items.length := getElem?_lt _ _ _ h1
  have hl2 : j2 < items.length := getElem?_lt _ _ _ h2
  have hp := (List.pairwise_iff_getElem.mp hsorted) j1 j2 hl1 hl2 hlt
  rw [List.getElem?_eq_getElem hl1] at h1
  rw [List.getElem?_eq_getElem hl2] at h2
  rw [Option.some.inj h1, Option.some.inj h2] at hp
  rcases hlaw x2 x1 v hc with h | h
  · rw [hp] at h; exact absurd h (by simp)
  · exact h

/-- The binary search returns the boundary between the items that compare below `v` and
those that do not, reading items inside the vector only. -/
theorem lowerboundLoop_spec {α : Type} (self : _Vect α) (cmp : α → α → Bool) (v : α)
    (hcmp : self.itemcmp = some cmp) (hlen : self.items.length = self.length)
    (hsmall : self.length < UWORD)
    (hpart : ∀ (j1 j2 : Nat) (x1 x2 : α), j1 < j2 → self.items[j1]? = some x1 →
      self.items[j2]? = some x2 → cmp x2 v = true → cmp x1 v = true) :
    ∀ fuel left right, left ≤ right → right ≤ self.length → right - left < fuel →
      (∀ (j : Nat) (x : α), self.items[j]? = some x → j < left → cmp x v = true) →
      (∀ (j : Nat) (x : α), self.items[j]? = some x → right ≤ j → cmp x v = false) →
      ∃ i, lowerboundLoop self v fuel left right = .ok i ∧ i ≤ self.length ∧
        ∀ (j : Nat) (x : α), self.items[j]? = some x → (cmp x v = true ↔ j < i) := by
  intro fuel
  induction fuel with
  | zero => intro left right _ _ h; omega
  | succ n ih =>
    intro left right hlr hr hf hlo hhi
    unfold lowerboundLoop
    by_cases hlt : left < right
    · rw [if_pos hlt]
      have hmid : left + (right - left) / 2 < right := by omega
      have hm1 : (left + (right - left) / 2) % UWORD = left + (right - left) / 2 :=
        Nat.mod_eq_of_lt (by omega)
      have hm2 : (left + (right - left) / 2 + 1) % UWORD = left + (right - left) / 2 + 1 :=
        Nat.mod_eq_of_lt (by omega)
      have hin : left + (right - left) / 2 < self.items.length := by omega
      simp only [hm1, hm2, hcmp, List.getElem?_eq_getElem hin]
      cases hc : cmp self.items[left + (right - left) / 2] v with
      | true =>
        simp only [if_true]
        apply ih _ _ (by omega) hr (by omega) _ hhi
        intro j x hx hj
        by_cases hjm : j = left + (right - left) / 2
        · subst hjm
          rw [List.getElem?_eq_getElem hin] at hx
          rw [← Option.some.inj hx]; exact hc
        · exact hpart j _ x _ (by omega) hx (List.getElem?_eq_getElem hin) hc
      | false =>
        simp only [Bool.false_eq_true, if_false]
        apply ih _ _ (by omega) (by omega) (by omega) hlo
        intro j x hx hj
        by_cases hjm : j = left + (right - left) / 2
        · subst hjm
          rw [List.getElem?_eq_getElem hin] at hx
          rw [← Option.some.inj hx]; exact hc
        · cases hcx : cmp x v with
          | false => rfl
          | true =>
            have := hpart _ j _ x (by omega) (List.getElem?_eq_getElem hin) hx hcx
            rw [hc] at this; exact absurd this (by simp)
    · rw [if_neg hlt]
      refine ⟨left, rfl, by omega, ?_⟩
      intro j x hx
      constructor
      · intro hc
        by_cases hj : j < left
        · exact hj
        · have := hhi j x hx (by omega)
          rw [hc] at this; exact absurd this (by simp)
      · exact hlo j x hx

/-- C40: for every vector whose items are sorted with respect to its `itemcmp`, a
comparison that is negatively transitive as every strict weak order is, and for every
probe value `v`, `_vect_lowerbound` returns an index `i` in `[0, length]` such that
`itemcmp(items[j], v)` holds exactly for the indices `j < i`; `i` is the only index with
that property, hence the least.  The search returns within `length + 1` rounds and reads
no item outside the vector. -/
theorem C40_lowerbound {α : Type} (cmp : α → α → Bool)
    (hlaw : ∀ a b c, cmp a c = true → cmp a b = true ∨ cmp b c = true)
    (nd : Bool) (fuel : Nat) (self : _Vect α) (v : α)
    (hcmp : self.itemcmp = some cmp) (hlen : self.items.length = self.length)
    (hsmall : self.length < UWORD)
    (hsorted : self.items.Pairwise (fun a b => cmp b a = false))
    (hfuel : self.length < fuel) :
    ∃ i, _vect_lowerbound nd fuel self v self.itemsize = .ok i ∧ i ≤ self.length ∧
      (∀ (j : Nat) (x : α), self.items[j]? = some x → (cmp x v = true ↔ j < i)) ∧
      (∀ i2, i2 ≤ self.length →
        (∀ (j : Nat) (x : α), self.items[j]? = some x → j < i2 → cmp x v = true) →
        (∀ x : α, self.items[i2]? = some x → cmp x v = false) → i2 = i) := by
  have hpart := sorted_partition cmp hlaw self.items hsorted v
  have huniq : ∀ i, i ≤ self.length →
      (∀ (j : Nat) (x : α), self.items[j]? = some x → (cmp x v = true ↔ j < i)) →
      ∀ i2, i2 ≤ self.length →
        (∀ (j : Nat) (x : α), self.items[j]? = some x → j < i2 → cmp x v = true) →
        (∀ x : α, self.items[i2]? = some x → cmp x v = false) → i2 = i := by
    intro i hi hiff i2 hi2 hall hat
    rcases Nat.lt_trichotomy i2 i with h | h | h
    · have hin : i2 < self.items.length := by omega
      have h1 := hat _ (List.getElem?_eq_getElem hin)
      have h2 := (hiff i2 _ (List.getElem?_eq_getElem hin)).mpr h
      rw [h1] at h2; exact absurd h2 (by simp)
    · exact h
    · have hin : i < self.items.length := by omega
      have h1 := hall i _ (List.getElem?_eq_getElem hin) h
      have h2 := (hiff i _ (List.getElem?_eq_getElem hin)).mp h1
      omega
  unfold _vect_lowerbound vect_length
  have h1 : (!nd && self.itemcmp.isNone) = false := by rw [hcmp]; simp
  have h2 : (!nd && self.itemsize != self.itemsize) = false := by simp
  rw [h1, h2]
  simp only [Bool.false_eq_true, if_false]
  by_cases h0 : self.length = 0
  · rw [if_pos h0]
    have hnone : ∀ (j : Nat) (x : α), self.items[j]? = some x → False := by
      intro j x hx
      have := getElem?_lt _ _ _ hx
      omega
    have hiff : ∀ (j : Nat) (x : α), self.items[j]? = some x →
        (cmp x v = true ↔ j < self.length) := fun j x hx => (hnone j x hx).elim
    exact ⟨self.length, rfl, Nat.le_refl _, hiff, huniq _ (Nat.le_refl _) hiff⟩
  · rw [if_neg h0]
    obtain ⟨i, hi, hile, hiff⟩ := lowerboundLoop_spec self cmp v hcmp hlen hsmall hpart fuel 0
      self.length (Nat.zero_le _) (Nat.le_refl _) (by omega)
      (fun j x _ hj => absurd hj (Nat.not_lt_zero _))
      (fun j x hx hj => by
        have := getElem?_lt _ _ _ hx
        omega)
    exact ⟨i, hi, hile, hiff, huniq i hile hiff⟩

theorem C40_lowerbound_witness :
    (∀ a b c : Nat, decide (a < c) = true → decide (a < b) = true ∨ decide (b < c) = true) ∧
    (⟨[1, 3, 3, 7, 9], 5, 8, some (fun a b => decide (a < b))⟩ : _Vect Nat).itemcmp =
      some (fun a b => decide (a < b)) ∧
    (⟨[1, 3, 3, 7, 9], 5, 8, some (fun a b => decide (a < b))⟩ : _Vect Nat).items.length =
      (⟨[1, 3, 3, 7, 9], 5, 8, some (fun a b => decide (a < b))⟩ : _Vect Nat).length ∧
    (⟨[1, 3, 3, 7, 9], 5, 8, some (fun a b => decide (a < b))⟩ : _Vect Nat).length < UWORD ∧
    (⟨[1, 3, 3, 7, 9], 5, 8, some (fun a b => decide (a < b))⟩ : _Vect Nat).items.Pairwise
      (fun a b => decide (b < a) = false) ∧
    (⟨[1, 3, 3, 7, 9], 5, 8, some (fun a b => decide (a < b))⟩ : _Vect Nat).length < 6 ∧
    _vect_lowerbound false 6
      (⟨[1, 3, 3, 7, 9], 5, 8, some (fun a b => decide (a < b))⟩ : _Vect Nat) 3 8 = .ok 1 ∧
    ∃ i, _vect_lowerbound false 6
        (⟨[1, 3, 3, 7, 9], 5, 8, some (fun a b => decide (a < b))⟩ : _Vect Nat) 3
        (⟨[1, 3, 3, 7, 9], 5, 8, some (fun a b => decide (a < b))⟩ : _Vect Nat).itemsize
        = .ok i ∧
      i ≤ (⟨[1, 3, 3, 7, 9], 5, 8, some (fun a b => decide (a < b))⟩ : _Vect Nat).length ∧
      (∀ (j : Nat) (x : Nat),
        (⟨[1, 3, 3, 7, 9], 5, 8, some (fun a b => decide (a < b))⟩ : _Vect Nat).items[j]?
          = some x → (decide (x < 3) = true ↔ j < i)) ∧
      (∀ i2, i2 ≤ (⟨[1, 3, 3, 7, 9], 5, 8, some (fun a b => decide (a < b))⟩ : _Vect Nat).length →
        (∀ (j : Nat) (x : Nat),
          (⟨[1, 3, 3, 7, 9], 5, 8, some (fun a b => decide (a < b))⟩ : _Vect Nat).items[j]?
            = some x → j < i2 → decide (x < 3) = true) →
        (∀ x : Nat,
          (⟨[1, 3, 3, 7, 9], 5, 8, some (fun a b => decide (a < b))⟩ : _Vect Nat).items[i2]?
            = some x → decide (x < 3) = false) → i2 = i) :=
  have hlaw : ∀ a b c : Nat,
      decide (a < c) = true → decide (a < b) = true ∨ decide (b < c) = true := by
    intro a b c h
    simp only [decide_eq_true_eq] at h ⊢
    omega
  ⟨hlaw, rfl, rfl, by decide, by decide, by decide, by decide,
    C40_lowerbound (fun a b => decide (a < b)) hlaw false 6
      ⟨[1, 3, 3, 7, 9], 5, 8, some (fun a b => decide (a < b))⟩ 3 rfl rfl (by decide)
      (by decide) (by decide)⟩

end Junkyard
